import Mathlib

/-!
minfft: a shallow embedding of `minfft.c`

The C program is embedded as functions on an explicit memory.

* Scalars are taken from an arbitrary field `R` ("exact arithmetic"); a
  `minfft_cmpl` is a pair of reals `Cx R`, laid out as two consecutive real
  cells (real part first), as C99 prescribes.
* The constants `pi`, `sqrt2`, the literal `0.7071...` of the length-8 kernel
  and the library function `exp` are the fields of a numeric environment
  `Num R`; the exactness theorems assume that they are the real numbers
  they approximate.
* Memory is a family of blocks of real cells.  A pointer is a block and an
  offset counted in reals; block `0` is the null block.  Loads and stores
  outside the allocated size of a block, or through the null pointer, give
  no result (`none`).
* `int` values (lengths, strides, indices) are natural numbers; the C code
  evaluates no negative intermediate value on the paths that are embedded,
  and machine overflow of `int` is not modelled.
* Twiddle tables are read-only after construction and are embedded as
  lists holding exactly the entries the builder wrote; a pointer into a
  table is the suffix of the list that starts there.
* The recursion of `rs_dft_1d` / `rs_invdft_1d` is driven by an explicit
  fuel argument: `none` is also the answer of a run that needs a deeper
  recursion than the fuel allows.
-/

namespace Minfft

/-- A complex value `minfft_cmpl`: real part and imaginary part. -/
structure Cx (R : Type) where
  re : R
  im : R
deriving DecidableEq

namespace Cx

variable {R : Type} [Field R]

/-- Conversion of a real to a complex value (imaginary part zero). -/
@[noinline]
def ofReal (r : R) : Cx R := ⟨r, 0⟩

/-- The imaginary unit `I` of `<complex.h>`. -/
@[noinline]
def I : Cx R := ⟨0, 1⟩

/-- Complex addition. -/
@[noinline]
def add (a b : Cx R) : Cx R := ⟨a.re + b.re, a.im + b.im⟩

/-- Complex subtraction. -/
@[noinline]
def sub (a b : Cx R) : Cx R := ⟨a.re - b.re, a.im - b.im⟩

/-- Complex negation. -/
@[noinline]
def neg (a : Cx R) : Cx R := ⟨-a.re, -a.im⟩

/-- Complex multiplication. -/
@[noinline]
def mul (a b : Cx R) : Cx R := ⟨a.re * b.re - a.im * b.im, a.re * b.im + a.im * b.re⟩

/-- Complex division. -/
@[noinline]
def div (a b : Cx R) : Cx R :=
  ⟨(a.re * b.re + a.im * b.im) / (b.re * b.re + b.im * b.im),
   (a.im * b.re - a.re * b.im) / (b.re * b.re + b.im * b.im)⟩

instance : Add (Cx R) := ⟨add⟩

instance : Sub (Cx R) := ⟨sub⟩

instance : Neg (Cx R) := ⟨neg⟩

instance : Mul (Cx R) := ⟨mul⟩

instance : Div (Cx R) := ⟨div⟩

/-- Complex conjugate `conj`. -/
@[noinline]
def conj (a : Cx R) : Cx R := ⟨a.re, -a.im⟩

end Cx

/-- Numeric environment: the constants `pi` and `sqrt2` of `minfft.c`, the
literal `0.707106781186547524400844362104849039L` of the length-8 kernels,
and the complex exponential `exp` of the C library. -/
structure Num (R : Type) where
  pi : R
  sqrt2 : R
  sqrt1_2 : R
  cexp : Cx R → Cx R

/-- A pointer: a block and an offset in that block, counted in reals. -/
structure Ptr where
  blk : ℕ
  off : ℕ
deriving DecidableEq

namespace Ptr

/-- The null pointer. -/
def null : Ptr := ⟨0, 0⟩

/-- Pointer arithmetic `p + n` on a `minfft_real*`. -/
def addR (p : Ptr) (n : ℕ) : Ptr := ⟨p.blk, p.off + n⟩

/-- Pointer arithmetic `p + n` on a `minfft_cmpl*`. -/
def addC (p : Ptr) (n : ℕ) : Ptr := ⟨p.blk, p.off + 2 * n⟩

end Ptr

/-- Memory: `next` is the number of blocks handed out by `malloc` so far
(blocks `1 .. next` are allocated), `size b` the size of block `b` in reals,
`cell b o` the content of the real cell at offset `o` of block `b`. -/
structure Mem (R : Type) where
  next : ℕ
  size : ℕ → ℕ
  cell : ℕ → ℕ → R

namespace Mem

variable {R : Type}

/-- The allocator `malloc`, for a request of `n` reals: a fresh block. -/
def malloc (m : Mem R) (n : ℕ) : Ptr × Mem R :=
  (⟨m.next + 1, 0⟩,
   { next := m.next + 1
     size := fun b => if b = m.next + 1 then n else m.size b
     cell := m.cell })

/-- Content of the real cell `p` points to (no bounds check). -/
def getR (m : Mem R) (p : Ptr) : R := m.cell p.blk p.off

/-- Content of the complex cell `p` points to (no bounds check). -/
def getC (m : Mem R) (p : Ptr) : Cx R := ⟨m.cell p.blk p.off, m.cell p.blk (p.off + 1)⟩

/-- Memory with the real cell at `p` replaced (no bounds check). -/
def setR (m : Mem R) (p : Ptr) (v : R) : Mem R :=
  { m with cell := fun b o => if b = p.blk ∧ o = p.off then v else m.cell b o }

/-- Memory with the complex cell at `p` replaced (no bounds check). -/
def setC (m : Mem R) (p : Ptr) (v : Cx R) : Mem R :=
  { m with cell := fun b o =>
      if b = p.blk ∧ o = p.off then v.re
      else if b = p.blk ∧ o = p.off + 1 then v.im
      else m.cell b o }

/-- The real cell at `p` lies inside an allocated block. -/
def okR (m : Mem R) (p : Ptr) : Prop := p.blk ≠ 0 ∧ p.off < m.size p.blk

/-- The complex cell at `p` lies inside an allocated block. -/
def okC (m : Mem R) (p : Ptr) : Prop := p.blk ≠ 0 ∧ p.off + 1 < m.size p.blk

instance (m : Mem R) (p : Ptr) : Decidable (m.okR p) := by
  unfold okR; infer_instance

instance (m : Mem R) (p : Ptr) : Decidable (m.okC p) := by
  unfold okC; infer_instance

/-- Read of a `minfft_real` lvalue `*p`. -/
def loadR (m : Mem R) (p : Ptr) : Option R :=
  if m.okR p then some (m.getR p) else none

/-- Read of a `minfft_cmpl` lvalue `*p`. -/
@[noinline]
def loadC (m : Mem R) (p : Ptr) : Option (Cx R) :=
  if m.okC p then some (m.getC p) else none

/-- Assignment `*p = v` to a `minfft_real` lvalue. -/
def storeR (m : Mem R) (p : Ptr) (v : R) : Option (Mem R) :=
  if m.okR p then some (m.setR p v) else none

/-- Assignment `*p = v` to a `minfft_cmpl` lvalue. -/
@[noinline]
def storeC (m : Mem R) (p : Ptr) (v : Cx R) : Option (Mem R) :=
  if m.okC p then some (m.setC p v) else none

end Mem

/-- The plan `minfft_aux*`: either `NULL` or a node with the fields `N`,
`t` (scratch), `e` (twiddle table, `none` for `NULL`), `sub1`, `sub2`. -/
inductive Aux (R : Type) where
  | null : Aux R
  | node (N : ℕ) (t : Ptr) (e : Option (List (Cx R))) (sub1 sub2 : Aux R) : Aux R

namespace Aux

variable {R : Type}

/-- Field access `a->N`; no result through a null plan. -/
def N? : Aux R → Option ℕ
  | null => none
  | node N _ _ _ _ => some N

/-- Field access `a->t`. -/
def t? : Aux R → Option Ptr
  | null => none
  | node _ t _ _ _ => some t

/-- Field access `a->e`, as a pointer into the table: a null table is a
table without entries, every read through it gives no result. -/
def e? : Aux R → Option (List (Cx R))
  | null => none
  | node _ _ e _ _ => some (e.getD [])

/-- Field access `a->sub1`. -/
def sub1? : Aux R → Option (Aux R)
  | null => none
  | node _ _ _ s _ => some s

/-- Field access `a->sub2`. -/
def sub2? : Aux R → Option (Aux R)
  | null => none
  | node _ _ _ _ s => some s

/-- The test `a == NULL`. -/
def isNull : Aux R → Bool
  | null => true
  | node _ _ _ _ _ => false

end Aux

variable {R : Type} [Field R]

open Cx

/-- The loop `for (n = lo; n < lo + cnt; ++n) body(n)`. -/
def forLoop (body : ℕ → Mem R → Option (Mem R)) : ℕ → ℕ → Mem R → Option (Mem R)
  | _, 0, m => some m
  | n, cnt + 1, m => (body n m).bind (forLoop body (n + 1) cnt)

/-! ### Complex transforms -/

/-- Body of the loop "prepare sub-transform inputs" of `rs_dft_1d`. -/
def rs_dft_1d_prep (N : ℕ) (x t : Ptr) (e : List (Cx R)) (n : ℕ) (m : Mem R) :
    Option (Mem R) := do
  let xn ← m.loadC (x.addC n)
  let xn2 ← m.loadC (x.addC (n + N / 2))
  let xn1 ← m.loadC (x.addC (n + N / 4))
  let xn3 ← m.loadC (x.addC (n + 3 * N / 4))
  let t0 := xn + xn2
  let t1 := xn1 + xn3
  let t2 := xn - xn2
  let t3 := I * (xn1 - xn3)
  let m ← m.storeC (t.addC n) t0
  let m ← m.storeC (t.addC (n + N / 4)) t1
  let e0 ← e.get? (2 * n)
  let m ← m.storeC (t.addC (n + N / 2)) ((t2 - t3) * e0)
  let e1 ← e.get? (2 * n + 1)
  m.storeC (t.addC (n + 3 * N / 4)) ((t2 + t3) * e1)


/-- The eight stores `y[0] = v0; y[sy] = v1; ...; y[7*sy] = v7`. -/
def store8 (y : Ptr) (sy : ℕ) (v0 v1 v2 v3 v4 v5 v6 v7 : Cx R) (m : Mem R) :
    Option (Mem R) := do
  let m ← m.storeC y v0
  let m ← m.storeC (y.addC sy) v1
  let m ← m.storeC (y.addC (2 * sy)) v2
  let m ← m.storeC (y.addC (3 * sy)) v3
  let m ← m.storeC (y.addC (4 * sy)) v4
  let m ← m.storeC (y.addC (5 * sy)) v5
  let m ← m.storeC (y.addC (6 * sy)) v6
  m.storeC (y.addC (7 * sy)) v7

/-- Terminal case `N==8` of `rs_dft_1d`. -/
def rs_dft_1d_8 (E : Num R) (x y : Ptr) (sy : ℕ) (m : Mem R) : Option (Mem R) := do
  let E1 : Cx R := ofReal E.sqrt1_2 * (ofReal 1 - I)
  let E3 : Cx R := ofReal E.sqrt1_2 * (ofReal (-1) - I)
  let x0 ← m.loadC x
  let x4 ← m.loadC (x.addC 4)
  let x2 ← m.loadC (x.addC 2)
  let x6 ← m.loadC (x.addC 6)
  let t0 := x0 + x4
  let t1 := x2 + x6
  let t2 := x0 - x4
  let t3 := I * (x2 - x6)
  let t00 := t0 + t1
  let t01 := t2 - t3
  let t02 := t0 - t1
  let t03 := t2 + t3
  let x1 ← m.loadC (x.addC 1)
  let x5 ← m.loadC (x.addC 5)
  let x3 ← m.loadC (x.addC 3)
  let x7 ← m.loadC (x.addC 7)
  let t0 := x1 + x5
  let t1 := x3 + x7
  let t2 := x1 - x5
  let t3 := I * (x3 - x7)
  let t10 := t0 + t1
  let t11 := (t2 - t3) * E1
  let t12 := (t0 - t1) * (-I)
  let t13 := (t2 + t3) * E3
  store8 y sy (t00 + t10) (t01 + t11) (t02 + t12) (t03 + t13)
    (t00 - t10) (t01 - t11) (t02 - t12) (t03 - t13) m

/-- Terminal case `N==2` of `rs_dft_1d`. -/
def rs_dft_1d_2 (x y : Ptr) (sy : ℕ) (m : Mem R) : Option (Mem R) := do
  let x0 ← m.loadC x
  let x1 ← m.loadC (x.addC 1)
  let t0 := x0 + x1
  let t1 := x0 - x1
  let m ← m.storeC y t0
  m.storeC (y.addC sy) t1

/-- Terminal case `N==4` of `rs_dft_1d`. -/
def rs_dft_1d_4 (x y : Ptr) (sy : ℕ) (m : Mem R) : Option (Mem R) := do
  let x0 ← m.loadC x
  let x2 ← m.loadC (x.addC 2)
  let x1 ← m.loadC (x.addC 1)
  let x3 ← m.loadC (x.addC 3)
  let t0 := x0 + x2
  let t1 := x1 + x3
  let t2 := x0 - x2
  let t3 := I * (x1 - x3)
  let m ← m.storeC y (t0 + t1)
  let m ← m.storeC (y.addC sy) (t2 - t3)
  let m ← m.storeC (y.addC (2 * sy)) (t0 - t1)
  m.storeC (y.addC (3 * sy)) (t2 + t3)

/-- Recursive strided one-dimensional DFT `rs_dft_1d`; the terminal cases
are `rs_dft_1d_2`, `rs_dft_1d_4`, `rs_dft_1d_8`. -/
def rs_dft_1d (E : Num R) :
    ℕ → ℕ → Ptr → Ptr → Ptr → ℕ → List (Cx R) → Mem R → Option (Mem R)
  | 0, _, _, _, _, _, _, _ => none
  | fuel + 1, N, x, t, y, sy, e, m =>
    if N = 1 then do
      let x0 ← m.loadC x
      m.storeC y x0
    else if N = 2 then rs_dft_1d_2 x y sy m
    else if N = 4 then rs_dft_1d_4 x y sy m
    else if N = 8 then rs_dft_1d_8 E x y sy m
    else do
      let m ← forLoop (rs_dft_1d_prep N x t e) 0 (N / 4) m
      let m ← rs_dft_1d E fuel (N / 2) t t y (2 * sy) (e.drop (N / 2)) m
      let m ← rs_dft_1d E fuel (N / 4) (t.addC (N / 2)) (t.addC (N / 2)) (y.addC sy)
                (4 * sy) (e.drop (3 * N / 4)) m
      rs_dft_1d E fuel (N / 4) (t.addC (3 * N / 4)) (t.addC (3 * N / 4)) (y.addC (3 * sy))
        (4 * sy) (e.drop (3 * N / 4)) m

/-- Strided one-dimensional DFT `s_dft_1d`. -/
def s_dft_1d (E : Num R) (fuel : ℕ) (x y : Ptr) (sy : ℕ) (a : Aux R) (m : Mem R) :
    Option (Mem R) := do
  let N ← a.N?
  let t ← a.t?
  let e ← a.e?
  rs_dft_1d E fuel N x t y sy e m

/-- The meta-function `make_complex_transform`: a strided any-dimensional
complex transform by repeated application of the one-dimensional routine. -/
def make_complex_transform (s_1d : Ptr → Ptr → ℕ → Aux R → Mem R → Option (Mem R)) :
    Ptr → Ptr → ℕ → Aux R → Mem R → Option (Mem R)
  | _, _, _, Aux.null, _ => none
  | x, y, sy, Aux.node N t e sub1 sub2, m =>
    if sub2.isNull then s_1d x y sy (Aux.node N t e sub1 sub2) m
    else do
      let N1 ← sub1.N?
      let N2 ← sub2.N?
      let m ← forLoop (fun n m =>
        make_complex_transform s_1d (x.addC (n * N1)) (t.addC n) N2 sub1 m) 0 N2 m
      forLoop (fun n m =>
        s_1d (t.addC (n * N2)) (y.addC (sy * n)) (sy * N1) sub2 m) 0 N1 m

/-- Strided DFT of arbitrary dimension `s_dft`. -/
def s_dft (E : Num R) (fuel : ℕ) (x y : Ptr) (sy : ℕ) (a : Aux R) (m : Mem R) :
    Option (Mem R) :=
  make_complex_transform (s_dft_1d E fuel) x y sy a m

/-- User interface `minfft_dft`. -/
def minfft_dft (E : Num R) (fuel : ℕ) (x y : Ptr) (a : Aux R) (m : Mem R) :
    Option (Mem R) :=
  s_dft E fuel x y 1 a m

/-- Body of the loop "prepare sub-transform inputs" of `rs_invdft_1d`. -/
def rs_invdft_1d_prep (N : ℕ) (x t : Ptr) (e : List (Cx R)) (n : ℕ) (m : Mem R) :
    Option (Mem R) := do
  let xn ← m.loadC (x.addC n)
  let xn2 ← m.loadC (x.addC (n + N / 2))
  let xn1 ← m.loadC (x.addC (n + N / 4))
  let xn3 ← m.loadC (x.addC (n + 3 * N / 4))
  let t0 := xn + xn2
  let t1 := xn1 + xn3
  let t2 := xn - xn2
  let t3 := I * (xn1 - xn3)
  let m ← m.storeC (t.addC n) t0
  let m ← m.storeC (t.addC (n + N / 4)) t1
  let e0 ← e.get? (2 * n)
  let m ← m.storeC (t.addC (n + N / 2)) ((t2 + t3) * conj e0)
  let e1 ← e.get? (2 * n + 1)
  m.storeC (t.addC (n + 3 * N / 4)) ((t2 - t3) * conj e1)

/-- Terminal case `N==2` of `rs_invdft_1d`. -/
def rs_invdft_1d_2 (x y : Ptr) (sy : ℕ) (m : Mem R) : Option (Mem R) := do
  let x0 ← m.loadC x
  let x1 ← m.loadC (x.addC 1)
  let t0 := x0 + x1
  let t1 := x0 - x1
  let m ← m.storeC y t0
  m.storeC (y.addC sy) t1

/-- Terminal case `N==4` of `rs_invdft_1d`. -/
def rs_invdft_1d_4 (x y : Ptr) (sy : ℕ) (m : Mem R) : Option (Mem R) := do
  let x0 ← m.loadC x
  let x2 ← m.loadC (x.addC 2)
  let x1 ← m.loadC (x.addC 1)
  let x3 ← m.loadC (x.addC 3)
  let t0 := x0 + x2
  let t1 := x1 + x3
  let t2 := x0 - x2
  let t3 := I * (x1 - x3)
  let m ← m.storeC y (t0 + t1)
  let m ← m.storeC (y.addC sy) (t2 + t3)
  let m ← m.storeC (y.addC (2 * sy)) (t0 - t1)
  m.storeC (y.addC (3 * sy)) (t2 - t3)

/-- Terminal case `N==8` of `rs_invdft_1d`. -/
def rs_invdft_1d_8 (E : Num R) (x y : Ptr) (sy : ℕ) (m : Mem R) : Option (Mem R) := do
  let E1 : Cx R := ofReal E.sqrt1_2 * (ofReal 1 + I)
  let E3 : Cx R := ofReal E.sqrt1_2 * (ofReal (-1) + I)
  let x0 ← m.loadC x
  let x4 ← m.loadC (x.addC 4)
  let x2 ← m.loadC (x.addC 2)
  let x6 ← m.loadC (x.addC 6)
  let t0 := x0 + x4
  let t1 := x2 + x6
  let t2 := x0 - x4
  let t3 := I * (x2 - x6)
  let t00 := t0 + t1
  let t01 := t2 + t3
  let t02 := t0 - t1
  let t03 := t2 - t3
  let x1 ← m.loadC (x.addC 1)
  let x5 ← m.loadC (x.addC 5)
  let x3 ← m.loadC (x.addC 3)
  let x7 ← m.loadC (x.addC 7)
  let t0 := x1 + x5
  let t1 := x3 + x7
  let t2 := x1 - x5
  let t3 := I * (x3 - x7)
  let t10 := t0 + t1
  let t11 := (t2 + t3) * E1
  let t12 := (t0 - t1) * I
  let t13 := (t2 - t3) * E3
  store8 y sy (t00 + t10) (t01 + t11) (t02 + t12) (t03 + t13)
    (t00 - t10) (t01 - t11) (t02 - t12) (t03 - t13) m

/-- Recursive strided one-dimensional inverse DFT `rs_invdft_1d`; the
terminal cases are `rs_invdft_1d_2`, `rs_invdft_1d_4`, `rs_invdft_1d_8`. -/
def rs_invdft_1d (E : Num R) :
    ℕ → ℕ → Ptr → Ptr → Ptr → ℕ → List (Cx R) → Mem R → Option (Mem R)
  | 0, _, _, _, _, _, _, _ => none
  | fuel + 1, N, x, t, y, sy, e, m =>
    if N = 1 then do
      let x0 ← m.loadC x
      m.storeC y x0
    else if N = 2 then rs_invdft_1d_2 x y sy m
    else if N = 4 then rs_invdft_1d_4 x y sy m
    else if N = 8 then rs_invdft_1d_8 E x y sy m
    else do
      let m ← forLoop (rs_invdft_1d_prep N x t e) 0 (N / 4) m
      let m ← rs_invdft_1d E fuel (N / 2) t t y (2 * sy) (e.drop (N / 2)) m
      let m ← rs_invdft_1d E fuel (N / 4) (t.addC (N / 2)) (t.addC (N / 2)) (y.addC sy)
                (4 * sy) (e.drop (3 * N / 4)) m
      rs_invdft_1d E fuel (N / 4) (t.addC (3 * N / 4)) (t.addC (3 * N / 4))
        (y.addC (3 * sy)) (4 * sy) (e.drop (3 * N / 4)) m

/-- Strided one-dimensional inverse DFT `s_invdft_1d`. -/
def s_invdft_1d (E : Num R) (fuel : ℕ) (x y : Ptr) (sy : ℕ) (a : Aux R) (m : Mem R) :
    Option (Mem R) := do
  let N ← a.N?
  let t ← a.t?
  let e ← a.e?
  rs_invdft_1d E fuel N x t y sy e m

/-- Strided inverse DFT of arbitrary dimension `s_invdft`. -/
def s_invdft (E : Num R) (fuel : ℕ) (x y : Ptr) (sy : ℕ) (a : Aux R) (m : Mem R) :
    Option (Mem R) :=
  make_complex_transform (s_invdft_1d E fuel) x y sy a m

/-- User interface `minfft_invdft`. -/
def minfft_invdft (E : Num R) (fuel : ℕ) (x y : Ptr) (a : Aux R) (m : Mem R) :
    Option (Mem R) :=
  s_invdft E fuel x y 1 a m

/-! ### Real transforms -/

/-- Body of the loop "recover results" of `s_realdft_1d`. -/
def s_realdft_1d_rec (N : ℕ) (t z : Ptr) (sz : ℕ) (e : List (Cx R)) (n : ℕ) (m : Mem R) :
    Option (Mem R) := do
  let tn ← m.loadC (t.addC n)
  let tm ← m.loadC (t.addC (N / 2 - n))
  let u := (tn + conj tm) / ofReal 2
  let en ← e.get? n
  let v := (tn - conj tm) * en / (ofReal 2 * I)
  let m ← m.storeC (z.addC (sz * n)) (u + v)
  m.storeC (z.addC (sz * (N / 2 - n))) (conj (u - v))

/-- Strided one-dimensional real DFT `s_realdft_1d`; the alias
`w = (minfft_cmpl*)x` is the pointer `x` itself. -/
def s_realdft_1d (E : Num R) (fuel : ℕ) (x z : Ptr) (sz : ℕ) (a : Aux R) (m : Mem R) :
    Option (Mem R) := do
  let N ← a.N?
  let e ← a.e?
  let t ← a.t?
  let sub1 ← a.sub1?
  if N = 1 then do
    let x0 ← m.loadR x
    m.storeC z (ofReal x0)
  else if N = 2 then do
    let t0 ← m.loadR x
    let t1 ← m.loadR (x.addR 1)
    let m ← m.storeC z (ofReal (t0 + t1))
    m.storeC (z.addC sz) (ofReal (t0 - t1))
  else do
    let m ← s_dft_1d E fuel x t 1 sub1 m
    let u ← m.loadC t
    let m ← m.storeC z (ofReal (u.re + u.im))
    let m ← m.storeC (z.addC (sz * N / 2)) (ofReal (u.re - u.im))
    let m ← forLoop (s_realdft_1d_rec N t z sz e) 1 (N / 4 - 1) m
    let tq ← m.loadC (t.addC (N / 4))
    m.storeC (z.addC (sz * N / 4)) (conj tq)

/-- Real DFT of arbitrary dimension `minfft_realdft`. -/
def minfft_realdft (E : Num R) (fuel : ℕ) (x z : Ptr) (a : Aux R) (m : Mem R) :
    Option (Mem R) := do
  let sub2 ← a.sub2?
  if sub2.isNull then s_realdft_1d E fuel x z 1 a m
  else do
    let sub1 ← a.sub1?
    let N1 ← sub1.N?
    let N2 ← sub2.N?
    let t ← a.t?
    let m ← forLoop (fun n m =>
      s_realdft_1d E fuel (x.addR (n * N1)) (t.addC n) N2 sub1 m) 0 N2 m
    forLoop (fun n m =>
      s_dft E fuel (t.addC (n * N2)) (z.addC n) (N1 / 2 + 1) sub2 m) 0 (N1 / 2 + 1) m

/-- Body of the loop "prepare complex DFT inputs" of `invrealdft_1d`. -/
def invrealdft_1d_prep (N : ℕ) (z : Ptr) (e : List (Cx R)) (n : ℕ) (m : Mem R) :
    Option (Mem R) := do
  let zn ← m.loadC (z.addC n)
  let zm ← m.loadC (z.addC (N / 2 - n))
  let u := zn + conj zm
  let en ← e.get? n
  let v := I * (zn - conj zm) * conj en
  let m ← m.storeC (z.addC n) (u + v)
  m.storeC (z.addC (N / 2 - n)) (conj (u - v))

/-- One-dimensional inverse real DFT `invrealdft_1d`; the alias
`w = (minfft_cmpl*)y` is the pointer `y` itself. -/
def invrealdft_1d (E : Num R) (fuel : ℕ) (z y : Ptr) (a : Aux R) (m : Mem R) :
    Option (Mem R) := do
  let N ← a.N?
  let e ← a.e?
  let sub1 ← a.sub1?
  if N = 1 then do
    let z0 ← m.loadC z
    m.storeR y z0.re
  else if N = 2 then do
    let z0 ← m.loadC z
    let z1 ← m.loadC (z.addC 1)
    let t0 := z0.re
    let t1 := z1.re
    let m ← m.storeR y (t0 + t1)
    m.storeR (y.addR 1) (t0 - t1)
  else do
    let z0 ← m.loadC z
    let zh ← m.loadC (z.addC (N / 2))
    let m ← m.storeC z ((z0 + zh) + I * (z0 - zh))
    let m ← forLoop (invrealdft_1d_prep N z e) 1 (N / 4 - 1) m
    let zq ← m.loadC (z.addC (N / 4))
    let m ← m.storeC (z.addC (N / 4)) (ofReal 2 * conj zq)
    s_invdft_1d E fuel z y 1 sub1 m

/-- Body of the copy loop `t[n+N2*k] = z[(N1/2+1)*n+k]` of `minfft_invrealdft`. -/
def minfft_invrealdft_copy (N1 N2 : ℕ) (z t : Ptr) (n k : ℕ) (m : Mem R) : Option (Mem R) := do
  let v ← m.loadC (z.addC ((N1 / 2 + 1) * n + k))
  m.storeC (t.addC (n + N2 * k)) v

/-- Inverse real DFT of arbitrary dimension `minfft_invrealdft`. -/
def minfft_invrealdft (E : Num R) (fuel : ℕ) (z y : Ptr) (a : Aux R) (m : Mem R) :
    Option (Mem R) := do
  let sub2 ← a.sub2?
  if sub2.isNull then invrealdft_1d E fuel z y a m
  else do
    let sub1 ← a.sub1?
    let N1 ← sub1.N?
    let N2 ← sub2.N?
    let t ← a.t?
    let m ← forLoop (fun n m =>
      forLoop (fun k m => minfft_invrealdft_copy N1 N2 z t n k m) 0 (N1 / 2 + 1) m) 0 N2 m
    let m ← forLoop (fun n m =>
      s_invdft E fuel (t.addC (n * N2)) (z.addC n) (N1 / 2 + 1) sub2 m) 0 (N1 / 2 + 1) m
    forLoop (fun n m =>
      invrealdft_1d E fuel (z.addC (n * (N1 / 2 + 1))) (y.addR (n * N1)) sub1 m) 0 N2 m

/-! ### Real symmetric transforms -/

/-- The meta-function `make_real_transform`. -/
def make_real_transform (s_1d : Ptr → Ptr → ℕ → Aux R → Mem R → Option (Mem R)) :
    Ptr → Ptr → ℕ → Aux R → Mem R → Option (Mem R)
  | _, _, _, Aux.null, _ => none
  | x, y, sy, Aux.node N t e sub1 sub2, m =>
    if sub2.isNull then s_1d x y sy (Aux.node N t e sub1 sub2) m
    else do
      let N1 ← sub1.N?
      let N2 ← sub2.N?
      let m ← forLoop (fun n m =>
        make_real_transform s_1d (x.addR (n * N1)) (t.addR n) N2 sub1 m) 0 N2 m
      forLoop (fun n m =>
        s_1d (t.addR (n * N2)) (y.addR (sy * n)) (sy * N1) sub2 m) 0 N1 m

/-- Body of the loop "prepare sub-transform inputs" of `s_dct2_1d`. -/
def s_dct2_1d_prep (N : ℕ) (x t : Ptr) (n : ℕ) (m : Mem R) : Option (Mem R) := do
  let a ← m.loadR (x.addR (2 * n))
  let m ← m.storeR (t.addR n) a
  let b ← m.loadR (x.addR (N - 1 - 2 * n))
  m.storeR (t.addR (N / 2 + n)) b

/-- Body of the loop "recover results" of `s_dct2_1d`. -/
def s_dct2_1d_rec (N : ℕ) (z y : Ptr) (sy : ℕ) (e : List (Cx R)) (n : ℕ) (m : Mem R) :
    Option (Mem R) := do
  let zn ← m.loadC (z.addC n)
  let en ← e.get? n
  let u := zn * en
  let m ← m.storeR (y.addR (sy * n)) (2 * u.re)
  m.storeR (y.addR (sy * (N - n))) (-2 * u.im)

/-- Strided one-dimensional DCT-2 `s_dct2_1d`; the alias `z` of the scratch
`t` is the pointer `t` itself. -/
def s_dct2_1d (E : Num R) (fuel : ℕ) (x y : Ptr) (sy : ℕ) (a : Aux R) (m : Mem R) :
    Option (Mem R) := do
  let N ← a.N?
  let t ← a.t?
  let e ← a.e?
  let sub1 ← a.sub1?
  if N = 1 then do
    let x0 ← m.loadR x
    m.storeR y (2 * x0)
  else do
    let m ← forLoop (s_dct2_1d_prep N x t) 0 (N / 2) m
    let m ← s_realdft_1d E fuel t t 1 sub1 m
    let z0 ← m.loadC t
    let m ← m.storeR y (2 * z0.re)
    let m ← forLoop (s_dct2_1d_rec N t y sy e) 1 (N / 2 - 1) m
    let zh ← m.loadC (t.addC (N / 2))
    m.storeR (y.addR (sy * N / 2)) (E.sqrt2 * zh.re)

/-- Strided DCT-2 of arbitrary dimension `s_dct2`. -/
def s_dct2 (E : Num R) (fuel : ℕ) (x y : Ptr) (sy : ℕ) (a : Aux R) (m : Mem R) :
    Option (Mem R) :=
  make_real_transform (s_dct2_1d E fuel) x y sy a m

/-- User interface `minfft_dct2`. -/
def minfft_dct2 (E : Num R) (fuel : ℕ) (x y : Ptr) (a : Aux R) (m : Mem R) : Option (Mem R) :=
  s_dct2 E fuel x y 1 a m

/-- Body of the loop "prepare sub-transform inputs" of `s_dst2_1d`. -/
def s_dst2_1d_prep (N : ℕ) (x t : Ptr) (n : ℕ) (m : Mem R) : Option (Mem R) := do
  let a ← m.loadR (x.addR (2 * n))
  let m ← m.storeR (t.addR n) a
  let b ← m.loadR (x.addR (N - 1 - 2 * n))
  m.storeR (t.addR (N / 2 + n)) (-b)

/-- Body of the loop "recover results" of `s_dst2_1d`. -/
def s_dst2_1d_rec (N : ℕ) (z y : Ptr) (sy : ℕ) (e : List (Cx R)) (n : ℕ) (m : Mem R) :
    Option (Mem R) := do
  let zn ← m.loadC (z.addC n)
  let en ← e.get? n
  let u := zn * en
  let m ← m.storeR (y.addR (sy * (n - 1))) (-2 * u.im)
  m.storeR (y.addR (sy * (N - n - 1))) (2 * u.re)

/-- Strided one-dimensional DST-2 `s_dst2_1d`. -/
def s_dst2_1d (E : Num R) (fuel : ℕ) (x y : Ptr) (sy : ℕ) (a : Aux R) (m : Mem R) :
    Option (Mem R) := do
  let N ← a.N?
  let t ← a.t?
  let e ← a.e?
  let sub1 ← a.sub1?
  if N = 1 then do
    let x0 ← m.loadR x
    m.storeR y (2 * x0)
  else do
    let m ← forLoop (s_dst2_1d_prep N x t) 0 (N / 2) m
    let m ← s_realdft_1d E fuel t t 1 sub1 m
    let z0 ← m.loadC t
    let m ← m.storeR (y.addR (sy * (N - 1))) (2 * z0.re)
    let m ← forLoop (s_dst2_1d_rec N t y sy e) 1 (N / 2 - 1) m
    let zh ← m.loadC (t.addC (N / 2))
    m.storeR (y.addR (sy * (N / 2 - 1))) (E.sqrt2 * zh.re)

/-- Strided DST-2 of arbitrary dimension `s_dst2`. -/
def s_dst2 (E : Num R) (fuel : ℕ) (x y : Ptr) (sy : ℕ) (a : Aux R) (m : Mem R) :
    Option (Mem R) :=
  make_real_transform (s_dst2_1d E fuel) x y sy a m

/-- User interface `minfft_dst2`. -/
def minfft_dst2 (E : Num R) (fuel : ℕ) (x y : Ptr) (a : Aux R) (m : Mem R) : Option (Mem R) :=
  s_dst2 E fuel x y 1 a m

/-- Body of the loop "prepare sub-transform inputs" of `s_dct3_1d`. -/
def s_dct3_1d_prep (N : ℕ) (x z : Ptr) (e : List (Cx R)) (n : ℕ) (m : Mem R) :
    Option (Mem R) := do
  let xn ← m.loadR (x.addR n)
  let xm ← m.loadR (x.addR (N - n))
  let en ← e.get? n
  m.storeC (z.addC n) (conj ((ofReal xn + I * ofReal xm) * en))

/-- Body of the loop "recover results" of `s_dct3_1d`. -/
def s_dct3_1d_rec (N : ℕ) (t y : Ptr) (sy : ℕ) (n : ℕ) (m : Mem R) : Option (Mem R) := do
  let a ← m.loadR (t.addR n)
  let m ← m.storeR (y.addR (sy * 2 * n)) a
  let b ← m.loadR (t.addR (N / 2 + n))
  m.storeR (y.addR (sy * (N - 1 - 2 * n))) b

/-- Strided one-dimensional DCT-3 `s_dct3_1d`; the alias `t` of the scratch
`z` is the pointer `z` itself. -/
def s_dct3_1d (E : Num R) (fuel : ℕ) (x y : Ptr) (sy : ℕ) (a : Aux R) (m : Mem R) :
    Option (Mem R) := do
  let N ← a.N?
  let z ← a.t?
  let e ← a.e?
  let sub1 ← a.sub1?
  if N = 1 then do
    let x0 ← m.loadR x
    m.storeR y x0
  else do
    let x0 ← m.loadR x
    let m ← m.storeC z (ofReal x0)
    let m ← forLoop (s_dct3_1d_prep N x z e) 1 (N / 2 - 1) m
    let xh ← m.loadR (x.addR (N / 2))
    let m ← m.storeC (z.addC (N / 2)) (ofReal (E.sqrt2 * xh))
    let m ← invrealdft_1d E fuel z z sub1 m
    forLoop (s_dct3_1d_rec N z y sy) 0 (N / 2) m

/-- Strided DCT-3 of arbitrary dimension `s_dct3`. -/
def s_dct3 (E : Num R) (fuel : ℕ) (x y : Ptr) (sy : ℕ) (a : Aux R) (m : Mem R) :
    Option (Mem R) :=
  make_real_transform (s_dct3_1d E fuel) x y sy a m

/-- User interface `minfft_dct3`. -/
def minfft_dct3 (E : Num R) (fuel : ℕ) (x y : Ptr) (a : Aux R) (m : Mem R) : Option (Mem R) :=
  s_dct3 E fuel x y 1 a m

/-- Body of the loop "prepare sub-transform inputs" of `s_dst3_1d`. -/
def s_dst3_1d_prep (N : ℕ) (x z : Ptr) (e : List (Cx R)) (n : ℕ) (m : Mem R) :
    Option (Mem R) := do
  let xn ← m.loadR (x.addR (N - n - 1))
  let xm ← m.loadR (x.addR (n - 1))
  let en ← e.get? n
  m.storeC (z.addC n) (conj ((ofReal xn + I * ofReal xm) * en))

/-- Body of the loop "recover results" of `s_dst3_1d`. -/
def s_dst3_1d_rec (N : ℕ) (t y : Ptr) (sy : ℕ) (n : ℕ) (m : Mem R) : Option (Mem R) := do
  let a ← m.loadR (t.addR n)
  let m ← m.storeR (y.addR (sy * 2 * n)) a
  let b ← m.loadR (t.addR (N / 2 + n))
  m.storeR (y.addR (sy * (N - 1 - 2 * n))) (-b)

/-- Strided one-dimensional DST-3 `s_dst3_1d`. -/
def s_dst3_1d (E : Num R) (fuel : ℕ) (x y : Ptr) (sy : ℕ) (a : Aux R) (m : Mem R) :
    Option (Mem R) := do
  let N ← a.N?
  let z ← a.t?
  let e ← a.e?
  let sub1 ← a.sub1?
  if N = 1 then do
    let x0 ← m.loadR x
    m.storeR y x0
  else do
    let xl ← m.loadR (x.addR (N - 1))
    let m ← m.storeC z (ofReal xl)
    let m ← forLoop (s_dst3_1d_prep N x z e) 1 (N / 2 - 1) m
    let xh ← m.loadR (x.addR (N / 2 - 1))
    let m ← m.storeC (z.addC (N / 2)) (ofReal (E.sqrt2 * xh))
    let m ← invrealdft_1d E fuel z z sub1 m
    forLoop (s_dst3_1d_rec N z y sy) 0 (N / 2) m

/-- Strided DST-3 of arbitrary dimension `s_dst3`. -/
def s_dst3 (E : Num R) (fuel : ℕ) (x y : Ptr) (sy : ℕ) (a : Aux R) (m : Mem R) :
    Option (Mem R) :=
  make_real_transform (s_dst3_1d E fuel) x y sy a m

/-- User interface `minfft_dst3`. -/
def minfft_dst3 (E : Num R) (fuel : ℕ) (x y : Ptr) (a : Aux R) (m : Mem R) : Option (Mem R) :=
  s_dst3 E fuel x y 1 a m

/-- Body of the loop "prepare sub-transform inputs" of `s_dct4_1d`; the
running pointer `e++` has advanced by `n`. -/
def s_dct4_1d_prep (N : ℕ) (x t : Ptr) (e : List (Cx R)) (n : ℕ) (m : Mem R) :
    Option (Mem R) := do
  let en ← e.get? n
  let a ← m.loadR (x.addR (2 * n))
  let b ← m.loadR (x.addR (N - 1 - 2 * n))
  m.storeC (t.addC n) (en * (ofReal a + I * ofReal b))

/-- Body of the loop "recover results" of `s_dct4_1d`; the running pointer
`e++` has advanced by `N/2 + 2n`. -/
def s_dct4_1d_rec (N : ℕ) (t y : Ptr) (sy : ℕ) (e : List (Cx R)) (n : ℕ) (m : Mem R) :
    Option (Mem R) := do
  let e0 ← e.get? (N / 2 + 2 * n)
  let tn ← m.loadC (t.addC n)
  let m ← m.storeR (y.addR (sy * 2 * n)) (2 * (e0 * tn).re)
  let e1 ← e.get? (N / 2 + 2 * n + 1)
  let tm ← m.loadC (t.addC (N / 2 - 1 - n))
  m.storeR (y.addR (sy * (2 * n + 1))) (2 * (e1 * conj tm).re)

/-- Strided one-dimensional DCT-4 `s_dct4_1d`. -/
def s_dct4_1d (E : Num R) (fuel : ℕ) (x y : Ptr) (sy : ℕ) (a : Aux R) (m : Mem R) :
    Option (Mem R) := do
  let N ← a.N?
  let t ← a.t?
  let e ← a.e?
  let sub1 ← a.sub1?
  if N = 1 then do
    let x0 ← m.loadR x
    m.storeR y (E.sqrt2 * x0)
  else do
    let m ← forLoop (s_dct4_1d_prep N x t e) 0 (N / 2) m
    let m ← s_dft_1d E fuel t t 1 sub1 m
    forLoop (s_dct4_1d_rec N t y sy e) 0 (N / 2) m

/-- Strided DCT-4 of arbitrary dimension `s_dct4`. -/
def s_dct4 (E : Num R) (fuel : ℕ) (x y : Ptr) (sy : ℕ) (a : Aux R) (m : Mem R) :
    Option (Mem R) :=
  make_real_transform (s_dct4_1d E fuel) x y sy a m

/-- User interface `minfft_dct4`. -/
def minfft_dct4 (E : Num R) (fuel : ℕ) (x y : Ptr) (a : Aux R) (m : Mem R) : Option (Mem R) :=
  s_dct4 E fuel x y 1 a m

/-- Body of the loop "prepare sub-transform inputs" of `s_dst4_1d`. -/
def s_dst4_1d_prep (N : ℕ) (x t : Ptr) (e : List (Cx R)) (n : ℕ) (m : Mem R) :
    Option (Mem R) := do
  let en ← e.get? n
  let a ← m.loadR (x.addR (2 * n))
  let b ← m.loadR (x.addR (N - 1 - 2 * n))
  m.storeC (t.addC n) (-en * (ofReal a - I * ofReal b))

/-- Body of the loop "recover results" of `s_dst4_1d`. -/
def s_dst4_1d_rec (N : ℕ) (t y : Ptr) (sy : ℕ) (e : List (Cx R)) (n : ℕ) (m : Mem R) :
    Option (Mem R) := do
  let e0 ← e.get? (N / 2 + 2 * n)
  let tn ← m.loadC (t.addC n)
  let m ← m.storeR (y.addR (sy * 2 * n)) (2 * (e0 * tn).im)
  let e1 ← e.get? (N / 2 + 2 * n + 1)
  let tm ← m.loadC (t.addC (N / 2 - 1 - n))
  m.storeR (y.addR (sy * (2 * n + 1))) (2 * (e1 * conj tm).im)

/-- Strided one-dimensional DST-4 `s_dst4_1d`. -/
def s_dst4_1d (E : Num R) (fuel : ℕ) (x y : Ptr) (sy : ℕ) (a : Aux R) (m : Mem R) :
    Option (Mem R) := do
  let N ← a.N?
  let t ← a.t?
  let e ← a.e?
  let sub1 ← a.sub1?
  if N = 1 then do
    let x0 ← m.loadR x
    m.storeR y (E.sqrt2 * x0)
  else do
    let m ← forLoop (s_dst4_1d_prep N x t e) 0 (N / 2) m
    let m ← s_dft_1d E fuel t t 1 sub1 m
    forLoop (s_dst4_1d_rec N t y sy e) 0 (N / 2) m

/-- Strided DST-4 of arbitrary dimension `s_dst4`. -/
def s_dst4 (E : Num R) (fuel : ℕ) (x y : Ptr) (sy : ℕ) (a : Aux R) (m : Mem R) :
    Option (Mem R) :=
  make_real_transform (s_dst4_1d E fuel) x y sy a m

/-- User interface `minfft_dst4`. -/
def minfft_dst4 (E : Num R) (fuel : ℕ) (x y : Ptr) (a : Aux R) (m : Mem R) : Option (Mem R) :=
  s_dst4 E fuel x y 1 a m

/-! ### Making of aux data -/

/-- The twiddle factor `exp(-2*pi*I*n/N)`. -/
def tw1 (E : Num R) (n N : ℕ) : Cx R :=
  E.cexp (ofReal (-2 * E.pi) * I * ofReal (n : R) / ofReal (N : R))

/-- The twiddle factor `exp(-2*pi*I*3*n/N)`. -/
def tw3 (E : Num R) (n N : ℕ) : Cx R :=
  E.cexp (ofReal (-2 * E.pi) * I * ofReal 3 * ofReal (n : R) / ofReal (N : R))

/-- The entries written by the loop `while (N>=16) { for (n=0; n<N/4; ++n)
{ *e++ = ...; *e++ = ...; } N /= 2; }` of `minfft_mkaux_dft_1d`, in order. -/
def dft_1d_e (E : Num R) (N : ℕ) : List (Cx R) :=
  if 16 ≤ N then
    (List.range (N / 4)).flatMap (fun n => [tw1 E n N, tw3 E n N]) ++ dft_1d_e E (N / 2)
  else []
termination_by N
decreasing_by omega

/-- Aux data for the one-dimensional complex DFT, `minfft_mkaux_dft_1d`. -/
def minfft_mkaux_dft_1d (E : Num R) (N : ℕ) (m : Mem R) : Aux R × Mem R :=
  if 16 ≤ N then
    let r := m.malloc (2 * N)
    (Aux.node N r.1 (some (dft_1d_e E N)) Aux.null Aux.null, r.2)
  else
    (Aux.node N Ptr.null none Aux.null Aux.null, m)

/-- The function `make_aux`: aux data for a transform of dimension `d` with the
lengths `Ns`, from the one-dimensional builder; `datasz` is the size of an
element in reals.  A dimension `d = 0` gives no result (the C recursion does
not stop), nor does a read past the end of `Ns`. -/
def make_aux (datasz : ℕ) (aux_1d : ℕ → Mem R → Aux R × Mem R) :
    ℕ → List ℕ → Mem R → Option (Aux R × Mem R)
  | 0, _, _ => none
  | 1, Ns, m => do
    let N0 ← Ns.get? 0
    pure (aux_1d N0 m)
  | d + 2, Ns, m => do
    let p := ((List.range (d + 2)).map (fun i => Ns.getD i 0)).prod
    let r := m.malloc (p * datasz)
    let s1 ← make_aux datasz aux_1d (d + 1) Ns r.2
    let Nd ← Ns.get? (d + 1)
    let s2 := aux_1d Nd s1.2
    pure (Aux.node p r.1 none s1.1 s2.1, s2.2)

/-- Aux data for the any-dimensional complex DFT, `minfft_mkaux_dft`. -/
def minfft_mkaux_dft (E : Num R) (d : ℕ) (Ns : List ℕ) (m : Mem R) : Option (Aux R × Mem R) :=
  make_aux 2 (minfft_mkaux_dft_1d E) d Ns m

/-- Convenience routine `minfft_mkaux_dft_2d`. -/
def minfft_mkaux_dft_2d (E : Num R) (N1 N2 : ℕ) (m : Mem R) : Option (Aux R × Mem R) :=
  minfft_mkaux_dft E 2 [N1, N2] m

/-- Convenience routine `minfft_mkaux_dft_3d`. -/
def minfft_mkaux_dft_3d (E : Num R) (N1 N2 N3 : ℕ) (m : Mem R) : Option (Aux R × Mem R) :=
  minfft_mkaux_dft E 3 [N1, N2, N3] m

/-- Aux data for the one-dimensional real DFT, `minfft_mkaux_realdft_1d`. -/
def minfft_mkaux_realdft_1d (E : Num R) (N : ℕ) (m : Mem R) : Aux R × Mem R :=
  if 4 ≤ N then
    let r := m.malloc (2 * (N / 2))
    let e := (List.range (N / 4)).map (fun n => tw1 E n N)
    let s := minfft_mkaux_dft_1d E (N / 2) r.2
    (Aux.node N r.1 (some e) s.1 Aux.null, s.2)
  else
    (Aux.node N Ptr.null none Aux.null Aux.null, m)

/-- Aux data for the any-dimensional real DFT, `minfft_mkaux_realdft`. -/
def minfft_mkaux_realdft (E : Num R) (d : ℕ) (Ns : List ℕ) (m : Mem R) :
    Option (Aux R × Mem R) :=
  if d = 1 then do
    let N0 ← Ns.get? 0
    pure (minfft_mkaux_realdft_1d E N0 m)
  else do
    let p := ((List.range (d - 1)).map (fun i => Ns.getD (i + 1) 0)).prod
    let N0 ← Ns.get? 0
    let r := m.malloc (2 * ((N0 / 2 + 1) * p))
    let s1 := minfft_mkaux_realdft_1d E N0 r.2
    let s2 ← minfft_mkaux_dft E (d - 1) (Ns.drop 1) s1.2
    pure (Aux.node (N0 * p) r.1 none s1.1 s2.1, s2.2)

/-- Convenience routine `minfft_mkaux_realdft_2d`. -/
def minfft_mkaux_realdft_2d (E : Num R) (N1 N2 : ℕ) (m : Mem R) : Option (Aux R × Mem R) :=
  minfft_mkaux_realdft E 2 [N1, N2] m

/-- Aux data for the one-dimensional Type-2 and Type-3 transforms,
`minfft_mkaux_t2t3_1d`. -/
def minfft_mkaux_t2t3_1d (E : Num R) (N : ℕ) (m : Mem R) : Aux R × Mem R :=
  if 2 ≤ N then
    let r := m.malloc (N + 2)
    let e := (List.range (N / 2)).map (fun n => tw1 E n (4 * N))
    let s := minfft_mkaux_realdft_1d E N r.2
    (Aux.node N r.1 (some e) s.1 Aux.null, s.2)
  else
    let s := minfft_mkaux_realdft_1d E N m
    (Aux.node N Ptr.null none s.1 Aux.null, s.2)

/-- Aux data for the any-dimensional Type-2 and Type-3 transforms. -/
def minfft_mkaux_t2t3 (E : Num R) (d : ℕ) (Ns : List ℕ) (m : Mem R) : Option (Aux R × Mem R) :=
  make_aux 1 (minfft_mkaux_t2t3_1d E) d Ns m

/-- Aux data for the one-dimensional Type-4 transforms, `minfft_mkaux_t4_1d`. -/
def minfft_mkaux_t4_1d (E : Num R) (N : ℕ) (m : Mem R) : Aux R × Mem R :=
  if 2 ≤ N then
    let r := m.malloc (2 * (N / 2))
    let e := (List.range (N / 2)).map (fun n => tw1 E n (2 * N)) ++
      (List.range N).map (fun n => tw1 E (2 * n + 1) (8 * N))
    let s := minfft_mkaux_dft_1d E (N / 2) r.2
    (Aux.node N r.1 (some e) s.1 Aux.null, s.2)
  else
    let s := minfft_mkaux_dft_1d E (N / 2) m
    (Aux.node N Ptr.null none s.1 Aux.null, s.2)

/-- Aux data for the any-dimensional Type-4 transforms. -/
def minfft_mkaux_t4 (E : Num R) (d : ℕ) (Ns : List ℕ) (m : Mem R) : Option (Aux R × Mem R) :=
  make_aux 1 (minfft_mkaux_t4_1d E) d Ns m

/-! ### Specification side -/

/-- The complex number a model value stands for. -/
def toC (z : Cx ℝ) : ℂ := ⟨z.re, z.im⟩

/-- The model value of a complex number. -/
def fromC (z : ℂ) : Cx ℝ := ⟨z.re, z.im⟩

/-- The unnormalized discrete Fourier transform of `f` with the root `w`:
`dft w N f k = Σ_{n<N} f n * w ^ (n * k)`. -/
def dft {K : Type} [CommRing K] (w : K) (N : ℕ) (f : ℕ → K) (k : ℕ) : K :=
  ∑ n in Finset.range N, f n * w ^ (n * k)

/-- The cell `(b, o)` belongs to one of the `N` complex cells `y[sy * j]`, `j < N`. -/
def InStr (y : Ptr) (sy N : ℕ) (b o : ℕ) : Prop :=
  b = y.blk ∧ ∃ j, j < N ∧ (o = y.off + 2 * (sy * j) ∨ o = y.off + 2 * (sy * j) + 1)

/-- The cell `(b, o)` belongs to the `n` real cells that start at `t`. -/
def InBuf (t : Ptr) (n : ℕ) (b o : ℕ) : Prop :=
  b = t.blk ∧ t.off ≤ o ∧ o < t.off + n

/-- Memory after the stores `y[sy*j] = v0; y[sy*(j+1)] = v1; ...` (no bounds check). -/
def setStr {R : Type} (m : Mem R) (y : Ptr) (sy : ℕ) : ℕ → List (Cx R) → Mem R
  | _, [] => m
  | j, v :: vs => setStr (m.setC (y.addC (sy * j)) v) y sy (j + 1) vs

/-- The numeric environment is exact: `pi` is π, `sqrt2` is √2, the literal
of the length-8 kernels is √2/2 and `exp` is the complex exponential. -/
def Num.Exact (E : Num ℝ) : Prop :=
  E.pi = Real.pi ∧ E.sqrt2 = Real.sqrt 2 ∧ E.sqrt1_2 = Real.sqrt 2 / 2 ∧
    ∀ z, toC (E.cexp z) = Complex.exp (toC z)

/-- The family `w k` behaves as the roots of unity `exp(-2 pi i / 2^k)`: each
is the square of the next, `w 2 = -i`, and `w 3` is the constant `E1` of the
length-8 kernel. -/
structure Roots (E : Num ℝ) (w : ℕ → ℂ) : Prop where
  sq : ∀ k, w (k + 1) ^ 2 = w k
  two : w 2 = -Complex.I
  three : (E.sqrt1_2 : ℂ) * (1 - Complex.I) = w 3

/-- The twiddle pointer `e` of a transform of length `2^k` points to the
blocks of the levels `2^k, 2^(k-1), ..., 16`: the block of level `2^l` starts
at offset `2^k - 2^l` and holds the pairs `(w l)^n`, `(w l)^(3n)`, `n < 2^l/4`. -/
def TwOK (w : ℕ → ℂ) (e : List (Cx ℝ)) (k : ℕ) : Prop :=
  ∀ l, 4 ≤ l → l ≤ k → ∀ n, n < 2 ^ l / 4 →
    ∃ e0 e1, e.get? (2 ^ k - 2 ^ l + 2 * n) = some e0 ∧
      e.get? (2 ^ k - 2 ^ l + 2 * n + 1) = some e1 ∧
      toC e0 = w l ^ n ∧ toC e1 = w l ^ (3 * n)

/-- Result of a one-dimensional complex transform of length `N` from `x` to
the strided `y`, with scratch `t`: sizes are kept, `y[sy*j]` holds the
transform `F` of the input, and only `y[sy*j]` (and, for `16 ≤ N`, the
scratch) changed. -/
def XformPost (F : (ℕ → ℂ) → ℕ → ℂ) (N : ℕ) (x t y : Ptr) (sy : ℕ) (m m' : Mem ℝ) : Prop :=
  m'.size = m.size ∧ m'.next = m.next ∧
  (∀ j, j < N → toC (m'.getC (y.addC (sy * j))) = F (fun n => toC (m.getC (x.addC n))) j) ∧
  (∀ b o, ¬ InStr y sy N b o → ¬ (16 ≤ N ∧ InBuf t (2 * N) b o) → m'.cell b o = m.cell b o)

/-- The blocks of the scratch buffers of a plan. -/
def Aux.blks {R : Type} : Aux R → List ℕ
  | Aux.null => []
  | Aux.node _ t _ s1 s2 => t.blk :: (s1.blks ++ s2.blks)

/-- A plan for the complex DFT of length `2^k` that is valid in the memory `m`:
for `16 ≤ 2^k` the scratch holds `2^k` complex cells and the table is the one
`rs_dft_1d` expects. -/
def DftOK (w : ℕ → ℂ) (a : Aux ℝ) (k : ℕ) (m : Mem ℝ) : Prop :=
  ∃ t e s1 s2, a = Aux.node (2 ^ k) t e s1 s2 ∧
    (4 ≤ k → (∀ i, i < 2 ^ k → m.okC (t.addC i)) ∧ TwOK w (e.getD []) k)

/-- A plan for the real DFT of length `2^k` that is valid in the memory `m`:
for `4 ≤ 2^k` the scratch holds `2^k/2` complex cells, the table holds the
powers `(w k)^n`, `n < 2^k/4`, and `sub1` is a valid plan for the complex DFT
of half the length, with scratch in other blocks. -/
def RealOK (w : ℕ → ℂ) (a : Aux ℝ) (k : ℕ) (m : Mem ℝ) : Prop :=
  ∃ t e s1 s2, a = Aux.node (2 ^ k) t e s1 s2 ∧
    (2 ≤ k → (∀ i, i < 2 ^ (k - 1) → m.okC (t.addC i)) ∧
      (∀ n, n < 2 ^ k / 4 → ∃ en, (e.getD []).get? n = some en ∧ toC en = w k ^ n) ∧
      DftOK w s1 (k - 1) m ∧ t.blk ∉ s1.blks)

/-- Result of a one-dimensional transform with complex output: sizes are
kept, the `N` cells `y[sy*j]` hold `F j`, and outside these cells and the
blocks `bl` of the plan nothing changed. -/
def CPost (F : ℕ → ℂ) (N : ℕ) (y : Ptr) (sy : ℕ) (bl : List ℕ) (m m' : Mem ℝ) : Prop :=
  m'.size = m.size ∧ m'.next = m.next ∧
  (∀ j, j < N → toC (m'.getC (y.addC (sy * j))) = F j) ∧
  (∀ b o, b ∉ bl → ¬ InStr y sy N b o → m'.cell b o = m.cell b o)

/-- The real cell `(b, o)` is one of the `N` cells `y[sy * j]`, `j < N`. -/
def InStrR (y : Ptr) (sy N : ℕ) (b o : ℕ) : Prop :=
  b = y.blk ∧ ∃ j, j < N ∧ o = y.off + sy * j

/-- Result of a one-dimensional transform with real output: sizes are kept,
the `N` cells `y[sy*j]` hold `F j`, and outside these cells and the blocks
`bl` of the plan nothing changed. -/
def RPost (F : ℕ → ℝ) (N : ℕ) (y : Ptr) (sy : ℕ) (bl : List ℕ) (m m' : Mem ℝ) : Prop :=
  m'.size = m.size ∧ m'.next = m.next ∧
  (∀ j, j < N → m'.getR (y.addR (sy * j)) = F j) ∧
  (∀ b o, b ∉ bl → ¬ InStrR y sy N b o → m'.cell b o = m.cell b o)

end Minfft

namespace Minfft

/-- The transform of any dimension `make_complex_transform` computes, for the
lengths `2^k` of the dimensions listed from the last one to the first: the
element with the indices `(n_1, .., n_d)` is `f (n_1 + N_1 * (n_2 + N_2 * ..))`,
so that the first dimension is the contiguous one. -/
def mdft {K : Type} [CommRing K] (w : ℕ → K) : List ℕ → (ℕ → K) → ℕ → K
  | [], f, _ => f 0
  | k :: rest, f, j =>
    dft (w k) (2 ^ k)
      (fun n2 => mdft w rest (fun i => f (i + 2 ^ rest.sum * n2)) (j % 2 ^ rest.sum))
      (j / 2 ^ rest.sum)

/-- A plan for the complex DFT of the dimensions `2^k`, `k` in `ks` (listed
from the last dimension to the first), that is valid in the memory `m`: a
leaf for one dimension; otherwise `sub2` is a valid leaf for the last
dimension, `sub1` a valid plan for the others, and the scratch holds as many
complex cells as the transform has elements, in a block of its own. -/
def CxOK (w : ℕ → ℂ) : List ℕ → Aux ℝ → Mem ℝ → Prop
  | [], _, _ => False
  | [k], a, m => DftOK w a k m ∧ ∃ N t e s1, a = Aux.node N t e s1 Aux.null
  | k :: k' :: rest, a, m =>
    ∃ t e s1 s2, a = Aux.node (2 ^ (k + (k' :: rest).sum)) t e s1 s2 ∧
      DftOK w s2 k m ∧ CxOK w (k' :: rest) s1 m ∧
      (∀ i, i < 2 ^ (k + (k' :: rest).sum) → m.okC (t.addC i)) ∧
      t.blk ∉ s1.blks ∧ t.blk ∉ s2.blks

/-- A plan for the real DFT of more than one dimension that is valid in the
memory `m`: the first dimension has the length `2^e0`, the others the lengths
`2^k`, `k` in `ks` (listed from the last one to the second); `sub1` is a
valid plan for the real DFT of the first dimension, `sub2` a valid plan for
the complex DFT of the others, and the scratch holds `2^e0/2+1` complex cells
for each of the elements of the other dimensions, in a block of its own. -/
def RealNdOK (w : ℕ → ℂ) (e0 : ℕ) (ks : List ℕ) (a : Aux ℝ) (m : Mem ℝ) : Prop :=
  ∃ t e s1 s2, a = Aux.node (2 ^ e0 * 2 ^ ks.sum) t e s1 s2 ∧
    RealOK w s1 e0 m ∧ CxOK w ks s2 m ∧
    (∀ i, i < (2 ^ e0 / 2 + 1) * 2 ^ ks.sum → m.okC (t.addC i)) ∧
    t.blk ∉ s1.blks ∧ t.blk ∉ s2.blks

/-- A plan for the Type-2 and Type-3 transforms of length `2^k` that is valid
in the memory `m`: a leaf; for `2 ≤ 2^k` the scratch holds `2^k + 2` reals,
the table holds the powers `(w (k+2))^n`, `n < 2^k/2`, of the root
`exp(-2 pi i / (4 * 2^k))`, and `sub1` is a valid plan for the real DFT of the
same length, with scratch in other blocks. -/
def T23OK (w : ℕ → ℂ) (a : Aux ℝ) (k : ℕ) (m : Mem ℝ) : Prop :=
  ∃ t e s1, a = Aux.node (2 ^ k) t e s1 Aux.null ∧
    (1 ≤ k → (∀ i, i < 2 ^ k + 2 → m.okR (t.addR i)) ∧
      (∀ n, n < 2 ^ k / 2 → ∃ en, (e.getD []).get? n = some en ∧ toC en = w (k + 2) ^ n) ∧
      RealOK w s1 k m ∧ t.blk ∉ s1.blks)

/-- A plan for the Type-4 transforms of length `2^k` that is valid in the
memory `m`: a leaf; for `2 ≤ 2^k` the scratch holds `2^k/2` complex cells, the
table holds the powers `(w (k+1))^n`, `n < 2^k/2`, followed by the powers
`(w (k+3))^(2n+1)`, `n < 2^k`, and `sub1` is a valid plan for the complex DFT
of half the length, with scratch in other blocks. -/
def T4OK (w : ℕ → ℂ) (a : Aux ℝ) (k : ℕ) (m : Mem ℝ) : Prop :=
  ∃ t e s1, a = Aux.node (2 ^ k) t e s1 Aux.null ∧
    (1 ≤ k → (∀ i, i < 2 ^ k / 2 → m.okC (t.addC i)) ∧
      (∀ n, n < 2 ^ k / 2 → ∃ en, (e.getD []).get? n = some en ∧ toC en = w (k + 1) ^ n) ∧
      (∀ n, n < 2 ^ k → ∃ en, (e.getD []).get? (2 ^ k / 2 + n) = some en ∧
        toC en = w (k + 3) ^ (2 * n + 1)) ∧
      DftOK w s1 (k - 1) m ∧ t.blk ∉ s1.blks)

end Minfft

namespace Minfft

/-- The recursive calls in the body of `rs_dft_1d` (they are the same in
`rs_invdft_1d`) for the length `N` and the twiddle pointer `e`: none in the
terminal cases `N = 1, 2, 4, 8`; otherwise a call of length `N/2` with the
pointer `e+N/2` and two calls of length `N/4` with the pointer `e+3*N/4`. -/
def rs_calls {R : Type} (N : ℕ) (e : List (Cx R)) : List (ℕ × List (Cx R)) :=
  if N = 1 ∨ N = 2 ∨ N = 4 ∨ N = 8 then []
  else [(N / 2, e.drop (N / 2)), (N / 4, e.drop (3 * N / 4)), (N / 4, e.drop (3 * N / 4))]

/-- The call of length `M` with the twiddle pointer `e'` is made at nesting
depth `d` below a call of length `N` with the twiddle pointer `e`. -/
inductive Reached {R : Type} (N : ℕ) (e : List (Cx R)) : ℕ → ℕ → List (Cx R) → Prop
  | root : Reached N e 0 N e
  | step {d M : ℕ} {e' : List (Cx R)} (c : ℕ × List (Cx R)) :
      Reached N e d M e' → c ∈ rs_calls M e' → Reached N e (d + 1) c.1 c.2

/-- Every node of the plan with a non-null `sub2` has `N = sub1->N * sub2->N`. -/
def Aux.prodOK {R : Type} : Aux R → Prop
  | Aux.null => True
  | Aux.node N _ _ s1 s2 =>
    (s2.isNull = false → ∃ N1 N2, s1.N? = some N1 ∧ s2.N? = some N2 ∧ N = N1 * N2) ∧
      s1.prodOK ∧ s2.prodOK

/-- The memory with every complex cell at an even offset conjugated: the
real cells at odd offsets are negated. -/
def Mem.conj {R : Type} [Field R] (m : Mem R) : Mem R :=
  { m with cell := fun b o => if o % 2 = 1 then -(m.cell b o) else m.cell b o }

end Minfft

namespace Minfft

/-! ### The complex numbers of the model and `ℂ` -/

section toC

open Cx

theorem Cx.ext_iff' {R : Type} (a b : Cx R) : a = b ↔ a.re = b.re ∧ a.im = b.im := by
  cases a; cases b; simp

@[simp] theorem toC_re (z : Cx ℝ) : (toC z).re = z.re := rfl

@[simp] theorem toC_im (z : Cx ℝ) : (toC z).im = z.im := rfl

theorem toC_injective {a b : Cx ℝ} (h : toC a = toC b) : a = b := by
  cases a; cases b
  simp only [toC, Complex.mk.injEq] at h
  simp [h.1, h.2]

@[simp] theorem toC_add (a b : Cx ℝ) : toC (a + b) = toC a + toC b := by
  apply Complex.ext <;> rfl

@[simp] theorem toC_sub (a b : Cx ℝ) : toC (a - b) = toC a - toC b := by
  apply Complex.ext <;> rfl

@[simp] theorem toC_neg (a : Cx ℝ) : toC (-a) = -toC a := by
  apply Complex.ext <;> rfl

@[simp] theorem toC_mul (a b : Cx ℝ) : toC (a * b) = toC a * toC b := by
  apply Complex.ext
  · show a.re * b.re - a.im * b.im = _
    simp
  · show a.re * b.im + a.im * b.re = _
    simp

@[simp] theorem toC_I : toC (Cx.I : Cx ℝ) = Complex.I := by
  apply Complex.ext <;> simp [Cx.I, toC]

@[simp] theorem toC_ofReal (r : ℝ) : toC (Cx.ofReal r) = (r : ℂ) := by
  apply Complex.ext <;> simp [Cx.ofReal, toC]

@[simp] theorem toC_conj (a : Cx ℝ) : toC (Cx.conj a) = (starRingEnd ℂ) (toC a) := by
  apply Complex.ext <;> simp [Cx.conj, toC]

@[simp] theorem toC_div (a b : Cx ℝ) : toC (a / b) = toC a / toC b := by
  apply Complex.ext
  · show (a.re * b.re + a.im * b.im) / (b.re * b.re + b.im * b.im) = _
    simp only [Complex.div_re, toC_re, toC_im, Complex.normSq_apply]
    ring
  · show (a.im * b.re - a.re * b.im) / (b.re * b.re + b.im * b.im) = _
    simp only [Complex.div_im, toC_re, toC_im, Complex.normSq_apply]
    ring

@[simp] theorem toC_mk (a b : ℝ) : toC ⟨a, b⟩ = ⟨a, b⟩ := rfl

@[simp] theorem toC_fromC (z : ℂ) : toC (fromC z) = z := rfl

end toC

/-! ### Memory -/

namespace Mem

variable {R : Type}

@[simp] theorem setC_size (m : Mem R) (p : Ptr) (v : Cx R) : (m.setC p v).size = m.size := rfl

@[simp] theorem setC_next (m : Mem R) (p : Ptr) (v : Cx R) : (m.setC p v).next = m.next := rfl

@[simp] theorem setR_size (m : Mem R) (p : Ptr) (v : R) : (m.setR p v).size = m.size := rfl

@[simp] theorem setR_next (m : Mem R) (p : Ptr) (v : R) : (m.setR p v).next = m.next := rfl

theorem cell_setC (m : Mem R) (p : Ptr) (v : Cx R) (b o : ℕ) :
    (m.setC p v).cell b o =
      if b = p.blk ∧ o = p.off then v.re
      else if b = p.blk ∧ o = p.off + 1 then v.im
      else m.cell b o := rfl

theorem cell_setR (m : Mem R) (p : Ptr) (v : R) (b o : ℕ) :
    (m.setR p v).cell b o = if b = p.blk ∧ o = p.off then v else m.cell b o := rfl

theorem okC_congr {m m' : Mem R} (h : m'.size = m.size) (p : Ptr) : m'.okC p ↔ m.okC p := by
  simp [okC, h]

theorem okR_congr {m m' : Mem R} (h : m'.size = m.size) (p : Ptr) : m'.okR p ↔ m.okR p := by
  simp [okR, h]

@[simp] theorem okC_setC (m : Mem R) (p q : Ptr) (v : Cx R) : (m.setC p v).okC q ↔ m.okC q :=
  Iff.rfl

@[simp] theorem okR_setC (m : Mem R) (p q : Ptr) (v : Cx R) : (m.setC p v).okR q ↔ m.okR q :=
  Iff.rfl

@[simp] theorem okC_setR (m : Mem R) (p q : Ptr) (v : R) : (m.setR p v).okC q ↔ m.okC q :=
  Iff.rfl

@[simp] theorem okR_setR (m : Mem R) (p q : Ptr) (v : R) : (m.setR p v).okR q ↔ m.okR q :=
  Iff.rfl

theorem loadC_of_ok {m : Mem R} {p : Ptr} (h : m.okC p) : m.loadC p = some (m.getC p) := by
  simp [loadC, h]

theorem storeC_of_ok {m : Mem R} {p : Ptr} (h : m.okC p) (v : Cx R) :
    m.storeC p v = some (m.setC p v) := by
  simp [storeC, h]

theorem loadR_of_ok {m : Mem R} {p : Ptr} (h : m.okR p) : m.loadR p = some (m.getR p) := by
  simp [loadR, h]

theorem storeR_of_ok {m : Mem R} {p : Ptr} (h : m.okR p) (v : R) :
    m.storeR p v = some (m.setR p v) := by
  simp [storeR, h]

@[simp] theorem getC_setC_self (m : Mem R) (p : Ptr) (v : Cx R) : (m.setC p v).getC p = v := by
  cases v; simp [getC, cell_setC]

theorem getC_setC_of_disj (m : Mem R) (p q : Ptr) (v : Cx R)
    (h : q.blk ≠ p.blk ∨ q.off + 2 ≤ p.off ∨ p.off + 2 ≤ q.off) :
    (m.setC p v).getC q = m.getC q := by
  simp only [getC, cell_setC]
  have h1 : ¬ (q.blk = p.blk ∧ q.off = p.off) := by omega
  have h2 : ¬ (q.blk = p.blk ∧ q.off = p.off + 1) := by omega
  have h3 : ¬ (q.blk = p.blk ∧ q.off + 1 = p.off) := by omega
  have h4 : ¬ (q.blk = p.blk ∧ q.off + 1 = p.off + 1) := by omega
  simp [h1, h2, h3, h4]

theorem getC_congr {m m' : Mem R} {p : Ptr}
    (h0 : m'.cell p.blk p.off = m.cell p.blk p.off)
    (h1 : m'.cell p.blk (p.off + 1) = m.cell p.blk (p.off + 1)) : m'.getC p = m.getC p := by
  simp [getC, h0, h1]

end Mem

@[simp] theorem Ptr.addC_blk (p : Ptr) (n : ℕ) : (p.addC n).blk = p.blk := rfl

@[simp] theorem Ptr.addC_off (p : Ptr) (n : ℕ) : (p.addC n).off = p.off + 2 * n := rfl

@[simp] theorem Ptr.addR_blk (p : Ptr) (n : ℕ) : (p.addR n).blk = p.blk := rfl

@[simp] theorem Ptr.addR_off (p : Ptr) (n : ℕ) : (p.addR n).off = p.off + n := rfl

@[simp] theorem Ptr.addC_zero (p : Ptr) : p.addC 0 = p := by
  cases p; simp [Ptr.addC]

theorem Ptr.addC_addC (p : Ptr) (a b : ℕ) : (p.addC a).addC b = p.addC (a + b) := by
  cases p; simp [Ptr.addC]; ring

/-! ### Loops -/

section loops

variable {R : Type}

theorem forLoop_succ (body : ℕ → Mem R → Option (Mem R)) (lo cnt : ℕ) (m : Mem R) :
    forLoop body lo (cnt + 1) m = (body lo m).bind (forLoop body (lo + 1) cnt) := rfl

/-- Invariant rule for `forLoop`. -/
theorem forLoop_inv (body : ℕ → Mem R → Option (Mem R)) (Inv : ℕ → Mem R → Prop) :
    ∀ (cnt lo : ℕ) (m : Mem R), Inv lo m →
      (∀ n m, lo ≤ n → n < lo + cnt → Inv n m → ∃ m', body n m = some m' ∧ Inv (n + 1) m') →
      ∃ m', forLoop body lo cnt m = some m' ∧ Inv (lo + cnt) m' := by
  intro cnt
  induction cnt with
  | zero => intro lo m h _; exact ⟨m, rfl, by simpa using h⟩
  | succ c ih =>
    intro lo m h step
    obtain ⟨m1, hb, h1⟩ := step lo m (le_refl _) (by omega) h
    obtain ⟨m2, hl, h2⟩ := ih (lo + 1) m1 h1 (fun n m hn hn' hi => step n m (by omega) (by omega) hi)
    refine ⟨m2, ?_, ?_⟩
    · rw [forLoop_succ, hb]; exact hl
    · have : lo + (c + 1) = lo + 1 + c := by omega
      rw [this]; exact h2

end loops

end Minfft

namespace Minfft

/-! ### Split-radix identities for the discrete Fourier transform -/

section splitradix

variable {K : Type} [CommRing K]

theorem dft_zero_len (w : K) (f : ℕ → K) (k : ℕ) : dft w 0 f k = 0 := by
  simp [dft]

theorem dft_one_len (w : K) (f : ℕ → K) (k : ℕ) : dft w 1 f k = f 0 := by
  simp [dft]

theorem dft_congr (w : K) (N : ℕ) (f g : ℕ → K) (k : ℕ) (h : ∀ n, n < N → f n = g n) :
    dft w N f k = dft w N g k := by
  unfold dft
  apply Finset.sum_congr rfl
  intro n hn
  rw [h n (Finset.mem_range.mp hn)]

/-- Even outputs of a transform of length `2H`: a transform of length `H`. -/
theorem dft_even (w : K) (H : ℕ) (hw : w ^ (2 * H) = 1) (f : ℕ → K) (j : ℕ) :
    dft w (2 * H) f (2 * j) = dft (w ^ 2) H (fun n => f n + f (n + H)) j := by
  unfold dft
  rw [two_mul H, Finset.sum_range_add, ← Finset.sum_add_distrib]
  apply Finset.sum_congr rfl
  intro n _
  have e1 : (H + n) * (2 * j) = (2 * H) * j + 2 * (n * j) := by ring
  have e2 : n * (2 * j) = 2 * (n * j) := by ring
  rw [e1, e2, pow_add, pow_mul w (2 * H) j, hw, one_pow, one_mul, ← pow_mul]
  beta_reduce
  rw [add_comm n H]
  ring

theorem pow_quarter (w i : K) (M : ℕ) (hi : i * i = -1) (hw : w ^ M = -i) (j : ℕ) :
    w ^ (M * (4 * j + 1)) = -i ∧ w ^ (M * (4 * j + 3)) = i := by
  have h4 : (-i) ^ 4 = 1 := by
    have : (-i) ^ 4 = (i * i) * (i * i) := by ring
    rw [this, hi]; ring
  constructor
  · rw [pow_mul, hw, pow_add, pow_mul, h4, one_pow, one_mul, pow_one]
  · rw [pow_mul, hw, pow_add, pow_mul, h4, one_pow, one_mul]
    have : (-i) ^ 3 = -(i * i) * i := by ring
    rw [this, hi]; ring

/-- Outputs `4j+1` of a transform of length `4M`: a transform of length `M`. -/
theorem dft_odd1 (w i : K) (M : ℕ) (hi : i * i = -1) (hw : w ^ M = -i) (f : ℕ → K) (j : ℕ) :
    dft w (4 * M) f (4 * j + 1) =
      dft (w ^ 4) M
        (fun n => ((f n - f (n + 2 * M)) - i * (f (n + M) - f (n + 3 * M))) * w ^ n) j := by
  unfold dft
  have hN : 4 * M = M + M + M + M := by ring
  rw [hN, Finset.sum_range_add, Finset.sum_range_add, Finset.sum_range_add,
    ← Finset.sum_add_distrib, ← Finset.sum_add_distrib, ← Finset.sum_add_distrib]
  apply Finset.sum_congr rfl
  intro n _
  obtain ⟨h1, -⟩ := pow_quarter w i M hi hw j
  have e1 : (M + n) * (4 * j + 1) = M * (4 * j + 1) + (4 * (n * j) + n) := by ring
  have e2 : (M + M + n) * (4 * j + 1) = M * (4 * j + 1) + M * (4 * j + 1) + (4 * (n * j) + n) := by
    ring
  have e3 : (M + M + M + n) * (4 * j + 1) =
      M * (4 * j + 1) + M * (4 * j + 1) + M * (4 * j + 1) + (4 * (n * j) + n) := by ring
  have e0 : n * (4 * j + 1) = 4 * (n * j) + n := by ring
  have a1 : n + 2 * M = M + M + n := by ring
  have a2 : n + M = M + n := by ring
  have a3 : n + 3 * M = M + M + M + n := by ring
  rw [e1, e2, e3, e0]
  beta_reduce
  rw [a1, a2, a3]
  simp only [pow_add, h1, ← pow_mul]
  have hii : i * i = -1 := hi
  linear_combination (f (M + M + n) * w ^ (4 * (n * j)) * w ^ n
    - f (M + M + M + n) * i * w ^ (4 * (n * j)) * w ^ n) * hii

/-- Outputs `4j+3` of a transform of length `4M`: a transform of length `M`. -/
theorem dft_odd3 (w i : K) (M : ℕ) (hi : i * i = -1) (hw : w ^ M = -i) (f : ℕ → K) (j : ℕ) :
    dft w (4 * M) f (4 * j + 3) =
      dft (w ^ 4) M
        (fun n => ((f n - f (n + 2 * M)) + i * (f (n + M) - f (n + 3 * M))) * w ^ (3 * n)) j := by
  unfold dft
  have hN : 4 * M = M + M + M + M := by ring
  rw [hN, Finset.sum_range_add, Finset.sum_range_add, Finset.sum_range_add,
    ← Finset.sum_add_distrib, ← Finset.sum_add_distrib, ← Finset.sum_add_distrib]
  apply Finset.sum_congr rfl
  intro n _
  obtain ⟨-, h3⟩ := pow_quarter w i M hi hw j
  have e1 : (M + n) * (4 * j + 3) = M * (4 * j + 3) + (4 * (n * j) + 3 * n) := by ring
  have e2 : (M + M + n) * (4 * j + 3) =
      M * (4 * j + 3) + M * (4 * j + 3) + (4 * (n * j) + 3 * n) := by ring
  have e3 : (M + M + M + n) * (4 * j + 3) =
      M * (4 * j + 3) + M * (4 * j + 3) + M * (4 * j + 3) + (4 * (n * j) + 3 * n) := by ring
  have e0 : n * (4 * j + 3) = 4 * (n * j) + 3 * n := by ring
  have a1 : n + 2 * M = M + M + n := by ring
  have a2 : n + M = M + n := by ring
  have a3 : n + 3 * M = M + M + M + n := by ring
  rw [e1, e2, e3, e0]
  beta_reduce
  rw [a1, a2, a3]
  simp only [pow_add, h3, ← pow_mul]
  have hii : i * i = -1 := hi
  linear_combination (f (M + M + n) * w ^ (4 * (n * j)) * w ^ (3 * n)
    + f (M + M + M + n) * i * w ^ (4 * (n * j)) * w ^ (3 * n)) * hii

end splitradix

end Minfft

namespace Minfft

section small

variable {K : Type} [CommRing K]

theorem dft_two (w : K) (f : ℕ → K) (j : ℕ) : dft w 2 f j = f 0 + f 1 * w ^ j := by
  simp [dft, Finset.sum_range_succ]

/-- The length-4 transform, for a root `w` with `w = -i`. -/
theorem dft_four (w i : K) (hi : i * i = -1) (hw : w = -i) (f : ℕ → K) :
    dft w 4 f 0 = (f 0 + f 2) + (f 1 + f 3) ∧
    dft w 4 f 1 = (f 0 - f 2) - i * (f 1 - f 3) ∧
    dft w 4 f 2 = (f 0 + f 2) - (f 1 + f 3) ∧
    dft w 4 f 3 = (f 0 - f 2) + i * (f 1 - f 3) := by
  have hw1 : w ^ 1 = -i := by rw [pow_one, hw]
  have hw4 : w ^ (2 * 2) = 1 := by
    rw [hw]
    have : (-i) ^ (2 * 2) = (i * i) * (i * i) := by ring
    rw [this, hi]; ring
  have hw2 : w ^ 2 = -1 := by
    rw [hw]
    have : (-i) ^ 2 = i * i := by ring
    rw [this, hi]
  have e0 := dft_even w 2 hw4 f 0
  have e2 := dft_even w 2 hw4 f 1
  have e1 := dft_odd1 w i 1 hi hw1 f 0
  have e3 := dft_odd3 w i 1 hi hw1 f 0
  simp only [dft_two, dft_one_len, hw2, mul_zero, mul_one, zero_add, pow_zero, pow_one] at e0 e1 e2 e3
  refine ⟨?_, ?_, ?_, ?_⟩
  · rw [e0]
  · rw [e1]
  · rw [e2]; ring
  · rw [e3]

/-- The length-8 transform, for a root `w` with `w ^ 2 = -i`. -/
theorem dft_eight (w i : K) (hi : i * i = -1) (hw : w ^ 2 = -i) (f : ℕ → K) :
    dft w 8 f 0 = ((f 0 + f 4) + (f 2 + f 6)) + ((f 1 + f 5) + (f 3 + f 7)) ∧
    dft w 8 f 1 = ((f 0 - f 4) - i * (f 2 - f 6)) + ((f 1 - f 5) - i * (f 3 - f 7)) * w ∧
    dft w 8 f 2 = ((f 0 + f 4) - (f 2 + f 6)) + ((f 1 + f 5) - (f 3 + f 7)) * (-i) ∧
    dft w 8 f 3 = ((f 0 - f 4) + i * (f 2 - f 6)) + ((f 1 - f 5) + i * (f 3 - f 7)) * w ^ 3 ∧
    dft w 8 f 4 = ((f 0 + f 4) + (f 2 + f 6)) - ((f 1 + f 5) + (f 3 + f 7)) ∧
    dft w 8 f 5 = ((f 0 - f 4) - i * (f 2 - f 6)) - ((f 1 - f 5) - i * (f 3 - f 7)) * w ∧
    dft w 8 f 6 = ((f 0 + f 4) - (f 2 + f 6)) - ((f 1 + f 5) - (f 3 + f 7)) * (-i) ∧
    dft w 8 f 7 = ((f 0 - f 4) + i * (f 2 - f 6)) - ((f 1 - f 5) + i * (f 3 - f 7)) * w ^ 3 := by
  have hw4 : w ^ 4 = -1 := by
    have : w ^ 4 = w ^ 2 * w ^ 2 := by ring
    rw [this, hw]
    have : -i * -i = i * i := by ring
    rw [this, hi]
  have hw8 : w ^ (2 * 4) = 1 := by
    have : w ^ (2 * 4) = w ^ 4 * w ^ 4 := by ring
    rw [this, hw4]; ring
  obtain ⟨g0, g1, g2, g3⟩ := dft_four (w ^ 2) i hi hw (fun n => f n + f (n + 4))
  have e0 := dft_even w 4 hw8 f 0
  have e2 := dft_even w 4 hw8 f 1
  have e4 := dft_even w 4 hw8 f 2
  have e6 := dft_even w 4 hw8 f 3
  have e1 := dft_odd1 w i 2 hi hw f 0
  have e5 := dft_odd1 w i 2 hi hw f 1
  have e3 := dft_odd3 w i 2 hi hw f 0
  have e7 := dft_odd3 w i 2 hi hw f 1
  simp only [dft_two, hw4, mul_zero, mul_one, zero_add, pow_zero, pow_one] at e1 e3 e5 e7
  refine ⟨?_, ?_, ?_, ?_, ?_, ?_, ?_, ?_⟩
  · rw [show (0 : ℕ) = 2 * 0 from rfl, e0, g0]
  · rw [show (1 : ℕ) = 4 * 0 + 1 from rfl, e1]
  · rw [show (2 : ℕ) = 2 * 1 from rfl, e2, g1]; ring
  · rw [show (3 : ℕ) = 4 * 0 + 3 from rfl, e3]
  · rw [show (4 : ℕ) = 2 * 2 from rfl, e4, g2]
  · rw [show (5 : ℕ) = 4 * 1 + 1 from rfl, e5]; ring
  · rw [show (6 : ℕ) = 2 * 3 from rfl, e6, g3]; ring
  · rw [show (7 : ℕ) = 4 * 1 + 3 from rfl, e7]; ring

end small

end Minfft

namespace Minfft

/-! ### The real DFT from a packed complex DFT of half the length -/

theorem sum_range_even_odd (g : ℕ → ℂ) (H : ℕ) :
    ∑ n in Finset.range (2 * H), g n =
      ∑ j in Finset.range H, g (2 * j) + ∑ j in Finset.range H, g (2 * j + 1) := by
  induction H with
  | zero => simp
  | succ H ih =>
    have e : 2 * (H + 1) = 2 * H + 1 + 1 := by ring
    rw [e, Finset.sum_range_succ, Finset.sum_range_succ, ih, Finset.sum_range_succ,
      Finset.sum_range_succ]
    ring

section realdft

variable (w : ℂ) (H : ℕ) (xr : ℕ → ℝ)

/-- The transform of the even samples, `E k`, and of the odd samples, `O k`. -/
theorem dft_real_split (k : ℕ) :
    dft w (2 * H) (fun n => (xr n : ℂ)) k =
      dft (w ^ 2) H (fun j => (xr (2 * j) : ℂ)) k +
        w ^ k * dft (w ^ 2) H (fun j => (xr (2 * j + 1) : ℂ)) k := by
  unfold dft
  rw [sum_range_even_odd, Finset.mul_sum]
  congr 1
  · apply Finset.sum_congr rfl
    intro j _
    rw [← pow_mul]
    congr 2
    ring
  · apply Finset.sum_congr rfl
    intro j _
    rw [← pow_mul]
    have : (2 * j + 1) * k = k + 2 * (j * k) := by ring
    rw [this, pow_add]
    ring

theorem dft_packed (k : ℕ) :
    dft (w ^ 2) H (fun j => (xr (2 * j) : ℂ) + Complex.I * (xr (2 * j + 1) : ℂ)) k =
      dft (w ^ 2) H (fun j => (xr (2 * j) : ℂ)) k +
        Complex.I * dft (w ^ 2) H (fun j => (xr (2 * j + 1) : ℂ)) k := by
  unfold dft
  rw [Finset.mul_sum, ← Finset.sum_add_distrib]
  apply Finset.sum_congr rfl
  intro j _
  ring

/-- Conjugate symmetry of the transform of a real sequence. -/
theorem dft_real_conj (v : ℂ) (hv : v ^ H = 1) (hu : v * (starRingEnd ℂ) v = 1) (f : ℕ → ℝ)
    (k : ℕ) (hk : k ≤ H) :
    (starRingEnd ℂ) (dft v H (fun j => (f j : ℂ)) (H - k)) = dft v H (fun j => (f j : ℂ)) k := by
  unfold dft
  rw [map_sum]
  apply Finset.sum_congr rfl
  intro j _
  rw [map_mul, Complex.conj_ofReal, map_pow]
  congr 1
  have h1 : v ^ (j * (H - k)) * v ^ (j * k) = 1 := by
    rw [← pow_add, ← Nat.mul_add, Nat.sub_add_cancel hk, Nat.mul_comm, pow_mul, hv, one_pow]
  have h2 : v ^ (j * (H - k)) * (starRingEnd ℂ) v ^ (j * (H - k)) = 1 := by
    rw [← mul_pow, hu, one_pow]
  have hne : v ^ (j * (H - k)) ≠ 0 := by
    intro h0
    rw [h0, zero_mul] at h1
    exact zero_ne_one h1
  exact mul_left_cancel₀ hne (h2.trans h1.symm)

end realdft

/-- The unpacking identities of `s_realdft_1d`: from the packed transform
`T` of length `H` to the bins `0 .. H` of the real transform of length `2H`. -/
theorem realdft_unpack (w : ℂ) (H : ℕ) (xr : ℕ → ℝ) (hw : w ^ H = -1)
    (hu : w * (starRingEnd ℂ) w = 1) (T Z : ℕ → ℂ)
    (hT : ∀ k, T k = dft (w ^ 2) H
      (fun j => (xr (2 * j) : ℂ) + Complex.I * (xr (2 * j + 1) : ℂ)) k)
    (hZ : ∀ k, Z k = dft w (2 * H) (fun n => (xr n : ℂ)) k) :
    Z 0 = (((T 0).re + (T 0).im : ℝ) : ℂ) ∧
    Z H = (((T 0).re - (T 0).im : ℝ) : ℂ) ∧
    (∀ k, k ≤ H →
      Z k = (T k + (starRingEnd ℂ) (T (H - k))) / 2 +
        (T k - (starRingEnd ℂ) (T (H - k))) * w ^ k / (2 * Complex.I) ∧
      Z (H - k) = (starRingEnd ℂ) ((T k + (starRingEnd ℂ) (T (H - k))) / 2 -
        (T k - (starRingEnd ℂ) (T (H - k))) * w ^ k / (2 * Complex.I))) := by
  have hv : (w ^ 2) ^ H = 1 := by
    rw [← pow_mul, Nat.mul_comm, pow_mul, hw]; ring
  have hvu : w ^ 2 * (starRingEnd ℂ) (w ^ 2) = 1 := by
    rw [map_pow, ← mul_pow, hu, one_pow]
  -- even and odd parts
  obtain ⟨Ev, hEv⟩ : ∃ Ev : ℕ → ℂ, ∀ k, Ev k = dft (w ^ 2) H (fun j => (xr (2 * j) : ℂ)) k :=
    ⟨_, fun _ => rfl⟩
  obtain ⟨Od, hOd⟩ : ∃ Od : ℕ → ℂ, ∀ k, Od k = dft (w ^ 2) H (fun j => (xr (2 * j + 1) : ℂ)) k :=
    ⟨_, fun _ => rfl⟩
  have hTk : ∀ k, T k = Ev k + Complex.I * Od k := by
    intro k; rw [hT, dft_packed, hEv, hOd]
  have hZk : ∀ k, Z k = Ev k + w ^ k * Od k := by
    intro k; rw [hZ, dft_real_split, hEv, hOd]
  have hEc : ∀ k, k ≤ H → (starRingEnd ℂ) (Ev (H - k)) = Ev k := by
    intro k hk
    rw [hEv, hEv]
    exact dft_real_conj H (w ^ 2) hv hvu (fun j => xr (2 * j)) k hk
  have hOc : ∀ k, k ≤ H → (starRingEnd ℂ) (Od (H - k)) = Od k := by
    intro k hk
    rw [hOd, hOd]
    exact dft_real_conj H (w ^ 2) hv hvu (fun j => xr (2 * j + 1)) k hk
  have hTc : ∀ k, k ≤ H → (starRingEnd ℂ) (T (H - k)) = Ev k - Complex.I * Od k := by
    intro k hk
    rw [hTk, map_add, map_mul, Complex.conj_I, hEc k hk, hOc k hk]
    ring
  have hI : Complex.I ≠ 0 := Complex.I_ne_zero
  have hgen : ∀ k, k ≤ H →
      Z k = (T k + (starRingEnd ℂ) (T (H - k))) / 2 +
        (T k - (starRingEnd ℂ) (T (H - k))) * w ^ k / (2 * Complex.I) ∧
      Z (H - k) = (starRingEnd ℂ) ((T k + (starRingEnd ℂ) (T (H - k))) / 2 -
        (T k - (starRingEnd ℂ) (T (H - k))) * w ^ k / (2 * Complex.I)) := by
    intro k hk
    have hu1 : (T k + (starRingEnd ℂ) (T (H - k))) / 2 = Ev k := by
      rw [hTc k hk, hTk]; ring
    have hv1 : (T k - (starRingEnd ℂ) (T (H - k))) * w ^ k / (2 * Complex.I) = w ^ k * Od k := by
      rw [hTc k hk, hTk]
      field_simp
      ring
    rw [hu1, hv1]
    refine ⟨hZk k, ?_⟩
    rw [hZk, map_sub, map_mul, ← hEc k hk, ← hOc k hk, Complex.conj_conj, Complex.conj_conj]
    have hwk : w ^ (H - k) = -(starRingEnd ℂ) (w ^ k) := by
      have h1 : w ^ (H - k) * w ^ k = -1 := by
        rw [← pow_add, Nat.sub_add_cancel hk, hw]
      have h2 : w ^ k * (starRingEnd ℂ) (w ^ k) = 1 := by
        rw [map_pow, ← mul_pow, hu, one_pow]
      have hne : w ^ k ≠ 0 := by
        intro h0
        rw [h0, zero_mul] at h2
        exact zero_ne_one h2
      apply mul_right_cancel₀ hne
      rw [h1, neg_mul, mul_comm ((starRingEnd ℂ) (w ^ k)), h2]
    rw [hwk]
    ring
  have hper : ∀ f : ℕ → ℂ, dft (w ^ 2) H f H = dft (w ^ 2) H f 0 := by
    intro f
    unfold dft
    apply Finset.sum_congr rfl
    intro j _
    rw [Nat.mul_comm j H, pow_mul, hv, one_pow, mul_zero, pow_zero]
  have hEH : Ev H = Ev 0 := by rw [hEv, hEv, hper]
  have hOH : Od H = Od 0 := by rw [hOd, hOd, hper]
  have hE0 : (starRingEnd ℂ) (Ev 0) = Ev 0 := by
    have := hEc 0 (Nat.zero_le _)
    rw [Nat.sub_zero, hEH] at this
    exact this
  have hO0 : (starRingEnd ℂ) (Od 0) = Od 0 := by
    have := hOc 0 (Nat.zero_le _)
    rw [Nat.sub_zero, hOH] at this
    exact this
  obtain ⟨a, ha⟩ := Complex.conj_eq_iff_real.mp hE0
  obtain ⟨b, hb⟩ := Complex.conj_eq_iff_real.mp hO0
  refine ⟨?_, ?_, hgen⟩
  · rw [hZk, hTk, ha, hb, pow_zero, one_mul]
    simp
  · rw [hZk, hTk, hEH, hOH, ha, hb, hw]
    simp
    ring

end Minfft

namespace Minfft

open Cx

section strided

variable {R : Type}

theorem Mem.cell_setC_of_not (m : Mem R) (p : Ptr) (v : Cx R) (b o : ℕ)
    (h0 : ¬ (b = p.blk ∧ o = p.off)) (h1 : ¬ (b = p.blk ∧ o = p.off + 1)) :
    (m.setC p v).cell b o = m.cell b o := by
  simp [Mem.cell_setC, h0, h1]

theorem not_InStr {y : Ptr} {sy N b o : ℕ} (h : ¬ InStr y sy N b o) (j : ℕ) (hj : j < N) :
    ¬ (b = (y.addC (sy * j)).blk ∧ o = (y.addC (sy * j)).off) ∧
    ¬ (b = (y.addC (sy * j)).blk ∧ o = (y.addC (sy * j)).off + 1) := by
  constructor
  · rintro ⟨hb, ho⟩
    exact h ⟨hb, j, hj, Or.inl ho⟩
  · rintro ⟨hb, ho⟩
    exact h ⟨hb, j, hj, Or.inr ho⟩

@[simp] theorem setStr_nil (m : Mem R) (y : Ptr) (sy j : ℕ) : setStr m y sy j [] = m := rfl

theorem setStr_cons (m : Mem R) (y : Ptr) (sy j : ℕ) (v : Cx R) (vs : List (Cx R)) :
    setStr m y sy j (v :: vs) = setStr (m.setC (y.addC (sy * j)) v) y sy (j + 1) vs := rfl

@[simp] theorem setStr_size (m : Mem R) (y : Ptr) (sy j : ℕ) (vs : List (Cx R)) :
    (setStr m y sy j vs).size = m.size := by
  induction vs generalizing m j with
  | nil => rfl
  | cons v vs ih => rw [setStr_cons, ih]; rfl

@[simp] theorem setStr_next (m : Mem R) (y : Ptr) (sy j : ℕ) (vs : List (Cx R)) :
    (setStr m y sy j vs).next = m.next := by
  induction vs generalizing m j with
  | nil => rfl
  | cons v vs ih => rw [setStr_cons, ih]; rfl

theorem setStr_cell_of_not (y : Ptr) (sy : ℕ) (b o : ℕ) (vs : List (Cx R)) :
    ∀ (m : Mem R) (j : ℕ),
      (∀ i, j ≤ i → i < j + vs.length →
        ¬ (b = y.blk ∧ (o = y.off + 2 * (sy * i) ∨ o = y.off + 2 * (sy * i) + 1))) →
      (setStr m y sy j vs).cell b o = m.cell b o := by
  induction vs with
  | nil => intro m j _; rfl
  | cons v vs ih =>
    intro m j h
    rw [setStr_cons, ih]
    · have hj := h j (le_refl _) (by simp)
      apply Mem.cell_setC_of_not
      · simp only [Ptr.addC_blk, Ptr.addC_off]; tauto
      · simp only [Ptr.addC_blk, Ptr.addC_off]; tauto
    · intro i hi hi'
      exact h i (by omega) (by simp only [List.length_cons]; omega)

theorem setStr_frame (m : Mem R) (y : Ptr) (sy N : ℕ) (vs : List (Cx R)) (hN : vs.length = N)
    (b o : ℕ) (h : ¬ InStr y sy N b o) : (setStr m y sy 0 vs).cell b o = m.cell b o := by
  apply setStr_cell_of_not
  intro i _ hi hc
  exact h ⟨hc.1, i, by omega, hc.2⟩

theorem setStr_getC (y : Ptr) (sy : ℕ) (hsy : 0 < sy) (vs : List (Cx R)) :
    ∀ (m : Mem R) (j i : ℕ) (v : Cx R), j ≤ i → vs.get? (i - j) = some v →
      (setStr m y sy j vs).getC (y.addC (sy * i)) = v := by
  induction vs with
  | nil => intro m j i v _ h; simp at h
  | cons u vs ih =>
    intro m j i v hji h
    rw [setStr_cons]
    rcases Nat.eq_or_lt_of_le hji with heq | hlt
    · subst heq
      simp only [Nat.sub_self, List.get?_cons_zero, Option.some.injEq] at h
      subst h
      have key : ∀ o, (o = y.off + 2 * (sy * j) ∨ o = y.off + 2 * (sy * j) + 1) →
          (setStr (m.setC (y.addC (sy * j)) u) y sy (j + 1) vs).cell y.blk o =
            (m.setC (y.addC (sy * j)) u).cell y.blk o := by
        intro o ho
        apply setStr_cell_of_not
        intro i hi _ hc
        have : sy * (j + 1) ≤ sy * i := Nat.mul_le_mul_left sy hi
        rw [Nat.mul_add, Nat.mul_one] at this
        omega
      exact (Mem.getC_congr (p := y.addC (sy * j)) (key (y.off + 2 * (sy * j)) (Or.inl rfl))
        (key (y.off + 2 * (sy * j) + 1) (Or.inr rfl))).trans
        (Mem.getC_setC_self m (y.addC (sy * j)) u)
    · have hij : i - j = (i - (j + 1)) + 1 := by omega
      rw [hij, List.get?_cons_succ] at h
      exact ih _ (j + 1) i v (by omega) h

end strided

end Minfft

namespace Minfft

open Cx

section kernels

variable {R : Type}

theorem okC_zero {m : Mem R} {x : Ptr} {N : ℕ} (hN : 0 < N)
    (hx : ∀ i, i < N → m.okC (x.addC i)) : m.okC x := by
  simpa using hx 0 hN

theorem okC_str {m : Mem R} {y : Ptr} {sy N : ℕ} (hy : ∀ j, j < N → m.okC (y.addC (sy * j)))
    (c : ℕ) (hc : c < N) : m.okC (y.addC (c * sy)) := by
  simpa [mul_comm] using hy c hc

variable [Field R]

theorem rs_dft_1d_1_eq (x y : Ptr) (m : Mem R) (hx : m.okC x) (hy : m.okC y) :
    (do let x0 ← m.loadC x; m.storeC y x0) = some (setStr m y 1 0 [m.getC x]) := by
  simp only [Mem.loadC_of_ok hx, Mem.storeC_of_ok hy, Option.bind_eq_bind, Option.some_bind, bind,
    setStr_cons, setStr_nil, mul_zero, Ptr.addC_zero]

theorem rs_dft_1d_2_eq (x y : Ptr) (sy : ℕ) (m : Mem R)
    (hx : ∀ i, i < 2 → m.okC (x.addC i)) (hy : ∀ j, j < 2 → m.okC (y.addC (sy * j))) :
    rs_dft_1d_2 x y sy m = some (setStr m y sy 0
      [m.getC x + m.getC (x.addC 1), m.getC x - m.getC (x.addC 1)]) := by
  have hx0 := okC_zero (by norm_num) hx
  have hx1 := hx 1 (by norm_num)
  have hy0 : m.okC y := by simpa using hy 0 (by norm_num)
  have hy1 : m.okC (y.addC sy) := by simpa using okC_str hy 1 (by norm_num)
  simp only [rs_dft_1d_2, Mem.loadC_of_ok hx0, Mem.loadC_of_ok hx1, Mem.storeC_of_ok,
    Mem.okC_setC, hy0, hy1,
    Option.bind_eq_bind, Option.some_bind, bind, setStr_cons, setStr_nil, mul_zero,
    Ptr.addC_zero, zero_add, mul_one]

theorem rs_dft_1d_4_eq (x y : Ptr) (sy : ℕ) (m : Mem R)
    (hx : ∀ i, i < 4 → m.okC (x.addC i)) (hy : ∀ j, j < 4 → m.okC (y.addC (sy * j))) :
    rs_dft_1d_4 x y sy m = some (setStr m y sy 0
      [(m.getC x + m.getC (x.addC 2)) + (m.getC (x.addC 1) + m.getC (x.addC 3)),
       (m.getC x - m.getC (x.addC 2)) - I * (m.getC (x.addC 1) - m.getC (x.addC 3)),
       (m.getC x + m.getC (x.addC 2)) - (m.getC (x.addC 1) + m.getC (x.addC 3)),
       (m.getC x - m.getC (x.addC 2)) + I * (m.getC (x.addC 1) - m.getC (x.addC 3))]) := by
  have hx0 := okC_zero (by norm_num) hx
  have hx1 := hx 1 (by norm_num)
  have hx2 := hx 2 (by norm_num)
  have hx3 := hx 3 (by norm_num)
  have hy0 : m.okC y := by simpa using hy 0 (by norm_num)
  have hy1 : m.okC (y.addC sy) := by simpa using okC_str hy 1 (by norm_num)
  have hy2 := okC_str hy 2 (by norm_num)
  have hy3 := okC_str hy 3 (by norm_num)
  simp only [rs_dft_1d_4, Mem.loadC_of_ok hx0, Mem.loadC_of_ok hx1, Mem.loadC_of_ok hx2,
    Mem.loadC_of_ok hx3, Mem.storeC_of_ok, Mem.okC_setC, hy0, hy1, hy2, hy3,
    Option.bind_eq_bind, Option.some_bind, bind]
  simp only [setStr_cons, setStr_nil, mul_zero, Ptr.addC_zero, zero_add, mul_one, Nat.reduceAdd,
    zero_mul, one_mul,
    mul_comm sy]

theorem store8_eq (y : Ptr) (sy : ℕ) (v0 v1 v2 v3 v4 v5 v6 v7 : Cx R) (m : Mem R)
    (hy : ∀ j, j < 8 → m.okC (y.addC (sy * j))) :
    store8 y sy v0 v1 v2 v3 v4 v5 v6 v7 m =
      some (setStr m y sy 0 [v0, v1, v2, v3, v4, v5, v6, v7]) := by
  have hy0 : m.okC y := by simpa using hy 0 (by norm_num)
  have hy1 : m.okC (y.addC sy) := by simpa using okC_str hy 1 (by norm_num)
  have hy2 := okC_str hy 2 (by norm_num)
  have hy3 := okC_str hy 3 (by norm_num)
  have hy4 := okC_str hy 4 (by norm_num)
  have hy5 := okC_str hy 5 (by norm_num)
  have hy6 := okC_str hy 6 (by norm_num)
  have hy7 := okC_str hy 7 (by norm_num)
  simp only [store8, Mem.storeC_of_ok, Mem.okC_setC, hy0, hy1, hy2, hy3, hy4, hy5, hy6, hy7,
    Option.bind_eq_bind, Option.some_bind, bind]
  simp only [setStr_cons, setStr_nil, mul_zero, Ptr.addC_zero, zero_add, mul_one, Nat.reduceAdd,
    zero_mul, one_mul,
    mul_comm sy]

end kernels

end Minfft

namespace Minfft

open Cx

section terminal

theorem rs_dft_1d_8_eq {R : Type} [Field R] (E : Num R) (x y : Ptr) (sy : ℕ) (m : Mem R)
    (a : ℕ → Cx R) (ha : ∀ i, i < 8 → m.getC (x.addC i) = a i)
    (hx : ∀ i, i < 8 → m.okC (x.addC i)) (hy : ∀ j, j < 8 → m.okC (y.addC (sy * j))) :
    rs_dft_1d_8 E x y sy m = some (setStr m y sy 0
      [((a 0 + a 4) + (a 2 + a 6)) + ((a 1 + a 5) + (a 3 + a 7)),
       ((a 0 - a 4) - I * (a 2 - a 6)) +
          ((a 1 - a 5) - I * (a 3 - a 7)) * (ofReal E.sqrt1_2 * (ofReal 1 - I)),
       ((a 0 + a 4) - (a 2 + a 6)) + ((a 1 + a 5) - (a 3 + a 7)) * (-I),
       ((a 0 - a 4) + I * (a 2 - a 6)) +
          ((a 1 - a 5) + I * (a 3 - a 7)) * (ofReal E.sqrt1_2 * (ofReal (-1) - I)),
       ((a 0 + a 4) + (a 2 + a 6)) - ((a 1 + a 5) + (a 3 + a 7)),
       ((a 0 - a 4) - I * (a 2 - a 6)) -
          ((a 1 - a 5) - I * (a 3 - a 7)) * (ofReal E.sqrt1_2 * (ofReal 1 - I)),
       ((a 0 + a 4) - (a 2 + a 6)) - ((a 1 + a 5) - (a 3 + a 7)) * (-I),
       ((a 0 - a 4) + I * (a 2 - a 6)) -
          ((a 1 - a 5) + I * (a 3 - a 7)) * (ofReal E.sqrt1_2 * (ofReal (-1) - I))]) := by
  have hx0 : m.okC x := by simpa using hx 0 (by norm_num)
  have hx1 := hx 1 (by norm_num)
  have hx2 := hx 2 (by norm_num)
  have hx3 := hx 3 (by norm_num)
  have hx4 := hx 4 (by norm_num)
  have hx5 := hx 5 (by norm_num)
  have hx6 := hx 6 (by norm_num)
  have hx7 := hx 7 (by norm_num)
  have a0 : m.getC x = a 0 := by simpa using ha 0 (by norm_num)
  simp only [rs_dft_1d_8, Mem.loadC_of_ok hx0, Mem.loadC_of_ok hx1, Mem.loadC_of_ok hx2,
    Mem.loadC_of_ok hx3, Mem.loadC_of_ok hx4, Mem.loadC_of_ok hx5, Mem.loadC_of_ok hx6,
    Mem.loadC_of_ok hx7, Option.bind_eq_bind, Option.some_bind, bind, a0,
    ha 1 (by norm_num), ha 2 (by norm_num), ha 3 (by norm_num), ha 4 (by norm_num),
    ha 5 (by norm_num), ha 6 (by norm_num), ha 7 (by norm_num)]
  exact store8_eq y sy _ _ _ _ _ _ _ _ m hy

theorem rs_dft_1d_8_spec (E : Num ℝ) (w : ℂ) (hw2 : w ^ 2 = -Complex.I)
    (hE : (E.sqrt1_2 : ℂ) * (1 - Complex.I) = w)
    (x y : Ptr) (sy : ℕ) (m : Mem ℝ) (hsy : 0 < sy)
    (hx : ∀ i, i < 8 → m.okC (x.addC i)) (hy : ∀ j, j < 8 → m.okC (y.addC (sy * j))) :
    ∃ m', rs_dft_1d_8 E x y sy m = some m' ∧ m'.size = m.size ∧ m'.next = m.next ∧
      (∀ j, j < 8 → toC (m'.getC (y.addC (sy * j))) =
        dft w 8 (fun n => toC (m.getC (x.addC n))) j) ∧
      (∀ b o, ¬ InStr y sy 8 b o → m'.cell b o = m.cell b o) := by
  have hw3 : w ^ 3 = (E.sqrt1_2 : ℂ) * (-1 - Complex.I) := by
    have : w ^ 3 = w ^ 2 * w := by ring
    rw [this, hw2, ← hE]
    linear_combination (E.sqrt1_2 : ℂ) * Complex.I_sq
  have heq := rs_dft_1d_8_eq E x y sy m (fun i => m.getC (x.addC i)) (fun _ _ => rfl) hx hy
  refine ⟨_, heq, setStr_size _ _ _ _ _, setStr_next _ _ _ _ _, ?h4, ?h5⟩
  case h5 =>
    intro b o h
    exact setStr_frame m y sy 8 _ (by rfl) b o h
  case h4 =>
    obtain ⟨d0, d1, d2, d3, d4, d5, d6, d7⟩ :=
      dft_eight w Complex.I Complex.I_mul_I hw2 (fun n => toC (m.getC (x.addC n)))
    intro j hj
    interval_cases j
    · rw [setStr_getC y sy hsy _ m 0 0 _ (le_refl _) (by rfl), d0]
      simp
    · rw [setStr_getC y sy hsy _ m 0 1 _ (by norm_num) (by rfl), d1]
      simp [hE]
    · rw [setStr_getC y sy hsy _ m 0 2 _ (by norm_num) (by rfl), d2]
      simp
    · rw [setStr_getC y sy hsy _ m 0 3 _ (by norm_num) (by rfl), d3, hw3]
      simp
    · rw [setStr_getC y sy hsy _ m 0 4 _ (by norm_num) (by rfl), d4]
      simp
    · rw [setStr_getC y sy hsy _ m 0 5 _ (by norm_num) (by rfl), d5]
      simp [hE]
    · rw [setStr_getC y sy hsy _ m 0 6 _ (by norm_num) (by rfl), d6]
      simp
    · rw [setStr_getC y sy hsy _ m 0 7 _ (by norm_num) (by rfl), d7, hw3]
      simp

end terminal

end Minfft

namespace Minfft

open Cx

section prep

variable {R : Type}

theorem Mem.getC_setC_sep (m : Mem R) (x t : Ptr) (a b : ℕ) (v : Cx R)
    (hs : x = t ∨ x.blk ≠ t.blk) (hab : a ≠ b) :
    (m.setC (t.addC a) v).getC (x.addC b) = m.getC (x.addC b) := by
  apply Mem.getC_setC_of_disj
  rcases hs with h | h
  · subst h
    simp only [Ptr.addC_blk, Ptr.addC_off]
    omega
  · left; simpa using h

theorem Mem.getC_setC_addC (m : Mem R) (t : Ptr) (a b : ℕ) (v : Cx R) (hab : a ≠ b) :
    (m.setC (t.addC a) v).getC (t.addC b) = m.getC (t.addC b) :=
  Mem.getC_setC_sep m t t a b v (Or.inl rfl) hab

theorem Mem.cell_setC_addC_of_not_InBuf (m : Mem R) (t : Ptr) (a n : ℕ) (v : Cx R) (b o : ℕ)
    (ha : 2 * a + 2 ≤ n) (h : ¬ InBuf t n b o) :
    (m.setC (t.addC a) v).cell b o = m.cell b o := by
  apply Mem.cell_setC_of_not
  · rintro ⟨hb, ho⟩
    apply h
    refine ⟨hb, ?_, ?_⟩ <;> simp only [Ptr.addC_off] at ho <;> omega
  · rintro ⟨hb, ho⟩
    apply h
    refine ⟨hb, ?_, ?_⟩ <;> simp only [Ptr.addC_off] at ho <;> omega

end prep

section prepspec

theorem quarter_simps (M : ℕ) : 4 * M / 2 = 2 * M ∧ 4 * M / 4 = M ∧ 3 * (4 * M) / 4 = 3 * M := by
  refine ⟨?_, ?_, ?_⟩ <;> omega

/-- One pass of the loop body of `rs_dft_1d`, on a memory whose inputs at
index `n`, `n + M`, `n + 2M`, `n + 3M` are `a0 .. a3`. -/
theorem rs_dft_1d_prep_eq {R : Type} [Field R] (M : ℕ) (x t : Ptr) (e : List (Cx R))
    (n : ℕ) (m : Mem R) (e0 e1 : Cx R)
    (hx0 : m.okC (x.addC n)) (hx1 : m.okC (x.addC (n + M)))
    (hx2 : m.okC (x.addC (n + 2 * M))) (hx3 : m.okC (x.addC (n + 3 * M)))
    (ht0 : m.okC (t.addC n)) (ht1 : m.okC (t.addC (n + M)))
    (ht2 : m.okC (t.addC (n + 2 * M))) (ht3 : m.okC (t.addC (n + 3 * M)))
    (he0 : e.get? (2 * n) = some e0) (he1 : e.get? (2 * n + 1) = some e1) :
    rs_dft_1d_prep (4 * M) x t e n m = some
      ((((m.setC (t.addC n) (m.getC (x.addC n) + m.getC (x.addC (n + 2 * M)))).setC
        (t.addC (n + M)) (m.getC (x.addC (n + M)) + m.getC (x.addC (n + 3 * M)))).setC
        (t.addC (n + 2 * M))
          (((m.getC (x.addC n) - m.getC (x.addC (n + 2 * M))) -
            I * (m.getC (x.addC (n + M)) - m.getC (x.addC (n + 3 * M)))) * e0)).setC
        (t.addC (n + 3 * M))
          (((m.getC (x.addC n) - m.getC (x.addC (n + 2 * M))) +
            I * (m.getC (x.addC (n + M)) - m.getC (x.addC (n + 3 * M)))) * e1)) := by
  obtain ⟨q2, q4, q3⟩ := quarter_simps M
  simp only [rs_dft_1d_prep, q2, q4, q3, Mem.loadC_of_ok hx0, Mem.loadC_of_ok hx1,
    Mem.loadC_of_ok hx2, Mem.loadC_of_ok hx3, Mem.storeC_of_ok, Mem.okC_setC, ht0, ht1, ht2, ht3,
    he0, he1, Option.bind_eq_bind, Option.some_bind, bind]

end prepspec

end Minfft

namespace Minfft

open Cx

/-! ### Strided index sets -/

theorem stride_inj (sy a b c d : ℕ) (hsy : 0 < sy) (hc : c < 2) (hd : d < 2)
    (h : 2 * (sy * a) + c = 2 * (sy * b) + d) : a = b ∧ c = d := by
  have h1 : sy * a = sy * b := by omega
  exact ⟨Nat.eq_of_mul_eq_mul_left hsy h1, by omega⟩

/-- Cells of a sub-sequence `y'[s' * j]`, `j < M`, with `y' = y + sy * c` and
`s' = a * sy`, described by their index `a * j + c` in `y[sy * ·]`. -/
theorem InStr_index (y y' : Ptr) (sy s' c a M b o : ℕ) (hblk : y'.blk = y.blk)
    (hoff : y'.off = y.off + 2 * (sy * c)) (hs : s' = a * sy) :
    InStr y' s' M b o ↔ b = y.blk ∧ ∃ j, j < M ∧
      (o = y.off + 2 * (sy * (a * j + c)) ∨ o = y.off + 2 * (sy * (a * j + c)) + 1) := by
  unfold InStr
  rw [hblk, hoff, hs]
  have e : ∀ j, y.off + 2 * (sy * c) + 2 * (a * sy * j) = y.off + 2 * (sy * (a * j + c)) := by
    intro j; ring
  simp only [e]

theorem InStr_sub (y y' : Ptr) (sy s' c a M N b o : ℕ) (hblk : y'.blk = y.blk)
    (hoff : y'.off = y.off + 2 * (sy * c)) (hs : s' = a * sy)
    (hN : ∀ j, j < M → a * j + c < N) (h : InStr y' s' M b o) : InStr y sy N b o := by
  rw [InStr_index y y' sy s' c a M b o hblk hoff hs] at h
  obtain ⟨hb, j, hj, ho⟩ := h
  exact ⟨hb, a * j + c, hN j hj, ho⟩

/-- The complex cell `y[sy * i]` does not meet the sub-sequence `y'[s' * j]`
when `i` is none of its indices `a * j + c`. -/
theorem not_InStr_cell (y y' : Ptr) (sy s' c a M i d : ℕ) (hsy : 0 < sy) (hblk : y'.blk = y.blk)
    (hoff : y'.off = y.off + 2 * (sy * c)) (hs : s' = a * sy)
    (hi : ∀ j, j < M → i ≠ a * j + c) (hd : d < 2) :
    ¬ InStr y' s' M y.blk (y.off + 2 * (sy * i) + d) := by
  rw [InStr_index y y' sy s' c a M _ _ hblk hoff hs]
  rintro ⟨-, j, hj, ho⟩
  rcases ho with ho | ho
  · have := stride_inj sy i (a * j + c) d 0 hsy hd (by norm_num) (by omega)
    exact hi j hj this.1
  · have := stride_inj sy i (a * j + c) d 1 hsy hd (by norm_num) (by omega)
    exact hi j hj this.1

/-- A frame condition keeps the complex cell `y[sy * i]`. -/
theorem getC_of_frame {m m' : Mem ℝ} (y y' t : Ptr) (sy s' c a M i n : ℕ) (P : Prop)
    (hf : ∀ b o, ¬ InStr y' s' M b o → ¬ (P ∧ InBuf t n b o) → m'.cell b o = m.cell b o)
    (hsy : 0 < sy) (hblk : y'.blk = y.blk)
    (hoff : y'.off = y.off + 2 * (sy * c)) (hs : s' = a * sy)
    (hi : ∀ j, j < M → i ≠ a * j + c) (hty : t.blk ≠ y.blk) :
    m'.getC (y.addC (sy * i)) = m.getC (y.addC (sy * i)) := by
  apply Mem.getC_congr
  · apply hf
    · exact not_InStr_cell y y' sy s' c a M i 0 hsy hblk hoff hs hi (by norm_num)
    · rintro ⟨-, hb, -⟩
      exact hty hb.symm
  · apply hf
    · exact not_InStr_cell y y' sy s' c a M i 1 hsy hblk hoff hs hi (by norm_num)
    · rintro ⟨-, hb, -⟩
      exact hty hb.symm

/-- A frame condition keeps the scratch cell `t[i]` outside the first `n` reals. -/
theorem getC_of_frame_buf {m m' : Mem ℝ} (y' t t' : Ptr) (s' M i n : ℕ) (P : Prop)
    (hf : ∀ b o, ¬ InStr y' s' M b o → ¬ (P ∧ InBuf t' n b o) → m'.cell b o = m.cell b o)
    (hty : t.blk ≠ y'.blk) (hout : t.off + 2 * i + 2 ≤ t'.off ∨ t'.off + n ≤ t.off + 2 * i) :
    m'.getC (t.addC i) = m.getC (t.addC i) := by
  apply Mem.getC_congr
  · apply hf
    · rintro ⟨hb, -⟩
      exact hty hb
    · rintro ⟨-, -, h1, h2⟩
      simp only [Ptr.addC_off] at h1 h2
      omega
  · apply hf
    · rintro ⟨hb, -⟩
      exact hty hb
    · rintro ⟨-, -, h1, h2⟩
      simp only [Ptr.addC_off] at h1 h2
      omega

/-! ### Roots of unity -/

theorem Roots.pow_two_pow {E : Num ℝ} {w : ℕ → ℂ} (hw : Roots E w) (k j : ℕ) :
    w (k + j) ^ (2 ^ j) = w k := by
  induction j with
  | zero => simp
  | succ j ih =>
    rw [← Nat.add_assoc, pow_succ, mul_comm, pow_mul, hw.sq, ih]

theorem Roots.one {E : Num ℝ} {w : ℕ → ℂ} (hw : Roots E w) : w 1 = -1 := by
  have := hw.sq 1
  rw [hw.two] at this
  rw [← this]
  simp

theorem Roots.zero {E : Num ℝ} {w : ℕ → ℂ} (hw : Roots E w) : w 0 = 1 := by
  have := hw.sq 0
  rw [hw.one] at this
  rw [← this]
  simp

theorem Roots.quarter {E : Num ℝ} {w : ℕ → ℂ} (hw : Roots E w) (k : ℕ) :
    w (k + 2) ^ (2 ^ k) = -Complex.I := by
  have := hw.pow_two_pow 2 k
  rw [Nat.add_comm] at this
  rw [this, hw.two]

theorem Roots.full {E : Num ℝ} {w : ℕ → ℂ} (hw : Roots E w) (k : ℕ) :
    w k ^ (2 ^ k) = 1 := by
  have := hw.pow_two_pow 0 k
  rw [Nat.zero_add] at this
  rw [this, hw.zero]

/-! ### Twiddle pointers -/

theorem TwOK.drop_half {w : ℕ → ℂ} {e : List (Cx ℝ)} {k : ℕ} (h : TwOK w e (k + 1)) :
    TwOK w (e.drop (2 ^ k)) k := by
  intro l hl hlk n hn
  obtain ⟨e0, e1, h0, h1, hw0, hw1⟩ := h l hl (by omega) n hn
  refine ⟨e0, e1, ?_, ?_, hw0, hw1⟩
  · rw [List.get?_drop, ← h0]
    congr 1
    have : 2 ^ l ≤ 2 ^ k := Nat.pow_le_pow_right (by norm_num) hlk
    rw [pow_succ]; omega
  · rw [List.get?_drop, ← h1]
    congr 1
    have : 2 ^ l ≤ 2 ^ k := Nat.pow_le_pow_right (by norm_num) hlk
    rw [pow_succ]; omega

theorem TwOK.drop_three_quarters {w : ℕ → ℂ} {e : List (Cx ℝ)} {k : ℕ} (h : TwOK w e (k + 2)) :
    TwOK w (e.drop (3 * 2 ^ k)) k := by
  have h1 := h.drop_half.drop_half
  rw [List.drop_drop] at h1
  have e3 : 2 ^ (k + 1) + 2 ^ k = 3 * 2 ^ k := by rw [pow_succ]; ring
  rw [e3] at h1
  exact h1

theorem TwOK.top {w : ℕ → ℂ} {e : List (Cx ℝ)} {k : ℕ} (h : TwOK w e (k + 2)) (hk : 2 ≤ k) :
    ∀ n, n < 2 ^ k → ∃ e0 e1, e.get? (2 * n) = some e0 ∧ e.get? (2 * n + 1) = some e1 ∧
      toC e0 = w (k + 2) ^ n ∧ toC e1 = w (k + 2) ^ (3 * n) := by
  intro n hn
  have h4 : 2 ^ (k + 2) / 4 = 2 ^ k := by
    rw [pow_succ, pow_succ]; omega
  obtain ⟨e0, e1, h0, h1, hw0, hw1⟩ := h (k + 2) (by omega) (le_refl _) n (by rw [h4]; exact hn)
  simp only [Nat.sub_self, zero_add] at h0 h1
  exact ⟨e0, e1, h0, h1, hw0, hw1⟩

end Minfft

namespace Minfft

open Cx

/-! ### Terminal cases -/

theorem rs_dft_1d_1_spec (w : ℂ) (x y : Ptr) (sy : ℕ) (m : Mem ℝ)
    (hx : ∀ i, i < 1 → m.okC (x.addC i)) (hy : ∀ j, j < 1 → m.okC (y.addC (sy * j))) :
    ∃ m', (do let x0 ← m.loadC x; m.storeC y x0) = some m' ∧
      m'.size = m.size ∧ m'.next = m.next ∧
      (∀ j, j < 1 → toC (m'.getC (y.addC (sy * j))) =
        dft w 1 (fun n => toC (m.getC (x.addC n))) j) ∧
      (∀ b o, ¬ InStr y sy 1 b o → m'.cell b o = m.cell b o) := by
  have hx0 : m.okC x := by simpa using hx 0 (by norm_num)
  have hy0 : m.okC y := by simpa using hy 0 (by norm_num)
  have heq := rs_dft_1d_1_eq x y m hx0 hy0
  refine ⟨_, heq, setStr_size _ _ _ _ _, setStr_next _ _ _ _ _, ?_, ?_⟩
  · intro j hj
    interval_cases j
    simp [setStr_cons, dft_one_len]
  · intro b o h
    simp only [setStr_cons, setStr_nil, mul_zero, Ptr.addC_zero]
    have h0 := not_InStr h 0 (by norm_num)
    simp only [mul_zero, Ptr.addC_zero] at h0
    exact Mem.cell_setC_of_not _ _ _ _ _ h0.1 h0.2

theorem rs_dft_1d_2_spec (w : ℂ) (hw : w = -1) (x y : Ptr) (sy : ℕ) (m : Mem ℝ) (hsy : 0 < sy)
    (hx : ∀ i, i < 2 → m.okC (x.addC i)) (hy : ∀ j, j < 2 → m.okC (y.addC (sy * j))) :
    ∃ m', rs_dft_1d_2 x y sy m = some m' ∧ m'.size = m.size ∧ m'.next = m.next ∧
      (∀ j, j < 2 → toC (m'.getC (y.addC (sy * j))) =
        dft w 2 (fun n => toC (m.getC (x.addC n))) j) ∧
      (∀ b o, ¬ InStr y sy 2 b o → m'.cell b o = m.cell b o) := by
  have heq := rs_dft_1d_2_eq x y sy m hx hy
  refine ⟨_, heq, setStr_size _ _ _ _ _, setStr_next _ _ _ _ _, ?h4, ?h5⟩
  case h5 =>
    intro b o h
    exact setStr_frame m y sy 2 _ (by rfl) b o h
  case h4 =>
    intro j hj
    interval_cases j
    · rw [setStr_getC y sy hsy _ m 0 0 _ (le_refl _) (by rfl), dft_two]
      simp
    · rw [setStr_getC y sy hsy _ m 0 1 _ (by norm_num) (by rfl), dft_two, hw]
      simp
      ring

theorem rs_dft_1d_4_spec (w : ℂ) (hw : w = -Complex.I) (x y : Ptr) (sy : ℕ) (m : Mem ℝ)
    (hsy : 0 < sy)
    (hx : ∀ i, i < 4 → m.okC (x.addC i)) (hy : ∀ j, j < 4 → m.okC (y.addC (sy * j))) :
    ∃ m', rs_dft_1d_4 x y sy m = some m' ∧ m'.size = m.size ∧ m'.next = m.next ∧
      (∀ j, j < 4 → toC (m'.getC (y.addC (sy * j))) =
        dft w 4 (fun n => toC (m.getC (x.addC n))) j) ∧
      (∀ b o, ¬ InStr y sy 4 b o → m'.cell b o = m.cell b o) := by
  have heq := rs_dft_1d_4_eq x y sy m hx hy
  refine ⟨_, heq, setStr_size _ _ _ _ _, setStr_next _ _ _ _ _, ?h4, ?h5⟩
  case h5 =>
    intro b o h
    exact setStr_frame m y sy 4 _ (by rfl) b o h
  case h4 =>
    obtain ⟨d0, d1, d2, d3⟩ :=
      dft_four w Complex.I Complex.I_mul_I hw (fun n => toC (m.getC (x.addC n)))
    intro j hj
    interval_cases j
    · rw [setStr_getC y sy hsy _ m 0 0 _ (le_refl _) (by rfl), d0]
      simp
    · rw [setStr_getC y sy hsy _ m 0 1 _ (by norm_num) (by rfl), d1]
      simp
    · rw [setStr_getC y sy hsy _ m 0 2 _ (by norm_num) (by rfl), d2]
      simp
    · rw [setStr_getC y sy hsy _ m 0 3 _ (by norm_num) (by rfl), d3]
      simp

/-! ### Unfolding the recursion -/

theorem rs_dft_1d_unfold {R : Type} [Field R] (E : Num R) (fuel M : ℕ) (x t y : Ptr) (sy : ℕ)
    (e : List (Cx R)) (m : Mem R) (hM : 3 ≤ M) :
    rs_dft_1d E (fuel + 1) (4 * M) x t y sy e m =
      (forLoop (rs_dft_1d_prep (4 * M) x t e) 0 M m).bind (fun m1 =>
        (rs_dft_1d E fuel (2 * M) t t y (2 * sy) (e.drop (2 * M)) m1).bind (fun m2 =>
          (rs_dft_1d E fuel M (t.addC (2 * M)) (t.addC (2 * M)) (y.addC sy) (4 * sy)
            (e.drop (3 * M)) m2).bind (fun m3 =>
              rs_dft_1d E fuel M (t.addC (3 * M)) (t.addC (3 * M)) (y.addC (3 * sy)) (4 * sy)
                (e.drop (3 * M)) m3))) := by
  obtain ⟨q2, q4, q3⟩ := quarter_simps M
  rw [rs_dft_1d]
  rw [if_neg (by omega), if_neg (by omega), if_neg (by omega), if_neg (by omega)]
  simp only [q2, q4, q3]
  rfl

theorem rs_dft_1d_small {R : Type} [Field R] (E : Num R) (fuel : ℕ) (x t y : Ptr) (sy : ℕ)
    (e : List (Cx R)) (m : Mem R) :
    rs_dft_1d E (fuel + 1) 1 x t y sy e m = (do let x0 ← m.loadC x; m.storeC y x0) ∧
    rs_dft_1d E (fuel + 1) 2 x t y sy e m = rs_dft_1d_2 x y sy m ∧
    rs_dft_1d E (fuel + 1) 4 x t y sy e m = rs_dft_1d_4 x y sy m ∧
    rs_dft_1d E (fuel + 1) 8 x t y sy e m = rs_dft_1d_8 E x y sy m := by
  refine ⟨?_, ?_, ?_, ?_⟩ <;> rw [rs_dft_1d] <;> simp

theorem XformPost.of_kernel {F : (ℕ → ℂ) → ℕ → ℂ} {N : ℕ} {x t y : Ptr} {sy : ℕ}
    {m m' : Mem ℝ}
    (h : m'.size = m.size ∧ m'.next = m.next ∧
      (∀ j, j < N → toC (m'.getC (y.addC (sy * j))) = F (fun n => toC (m.getC (x.addC n))) j) ∧
      (∀ b o, ¬ InStr y sy N b o → m'.cell b o = m.cell b o)) :
    XformPost F N x t y sy m m' :=
  ⟨h.1, h.2.1, h.2.2.1, fun b o hb _ => h.2.2.2 b o hb⟩

end Minfft

namespace Minfft

open Cx

/-- Effect of a loop "prepare sub-transform inputs" for `N = 4M`, for any loop
body that stores the four butterfly values of index `n` with the rotation
`ι` (`I` for the forward, `-I` for the inverse transform) and the root `w`. -/
theorem prep_loop_spec (body : ℕ → Mem ℝ → Option (Mem ℝ)) (ι w : ℂ) (M : ℕ) (x t : Ptr)
    (m : Mem ℝ) (hsep : x = t ∨ x.blk ≠ t.blk)
    (hx : ∀ i, i < 4 * M → m.okC (x.addC i)) (ht : ∀ i, i < 4 * M → m.okC (t.addC i))
    (hbody : ∀ (n : ℕ) (m1 : Mem ℝ), n < M → (∀ i, i < 4 * M → m1.okC (x.addC i)) →
      (∀ i, i < 4 * M → m1.okC (t.addC i)) →
      ∃ v0 v1 v2 v3, body n m1 = some ((((m1.setC (t.addC n) v0).setC (t.addC (n + M)) v1).setC
          (t.addC (n + 2 * M)) v2).setC (t.addC (n + 3 * M)) v3) ∧
        toC v0 = toC (m1.getC (x.addC n)) + toC (m1.getC (x.addC (n + 2 * M))) ∧
        toC v1 = toC (m1.getC (x.addC (n + M))) + toC (m1.getC (x.addC (n + 3 * M))) ∧
        toC v2 = ((toC (m1.getC (x.addC n)) - toC (m1.getC (x.addC (n + 2 * M)))) -
            ι * (toC (m1.getC (x.addC (n + M))) - toC (m1.getC (x.addC (n + 3 * M))))) * w ^ n ∧
        toC v3 = ((toC (m1.getC (x.addC n)) - toC (m1.getC (x.addC (n + 2 * M)))) +
            ι * (toC (m1.getC (x.addC (n + M))) - toC (m1.getC (x.addC (n + 3 * M))))) *
              w ^ (3 * n)) :
    ∃ m', forLoop body 0 M m = some m' ∧
      m'.size = m.size ∧ m'.next = m.next ∧
      (∀ n, n < M →
        toC (m'.getC (t.addC n)) = toC (m.getC (x.addC n)) + toC (m.getC (x.addC (n + 2 * M))) ∧
        toC (m'.getC (t.addC (n + M))) =
          toC (m.getC (x.addC (n + M))) + toC (m.getC (x.addC (n + 3 * M))) ∧
        toC (m'.getC (t.addC (n + 2 * M))) =
          ((toC (m.getC (x.addC n)) - toC (m.getC (x.addC (n + 2 * M)))) -
            ι * (toC (m.getC (x.addC (n + M))) - toC (m.getC (x.addC (n + 3 * M))))) *
              w ^ n ∧
        toC (m'.getC (t.addC (n + 3 * M))) =
          ((toC (m.getC (x.addC n)) - toC (m.getC (x.addC (n + 2 * M)))) +
            ι * (toC (m.getC (x.addC (n + M))) - toC (m.getC (x.addC (n + 3 * M))))) *
              w ^ (3 * n)) ∧
      (∀ b o, ¬ InBuf t (2 * (4 * M)) b o → m'.cell b o = m.cell b o) := by
  have key := forLoop_inv body
    (fun i m' => m'.size = m.size ∧ m'.next = m.next ∧
      (∀ n, i ≤ n → n < M →
        m'.getC (x.addC n) = m.getC (x.addC n) ∧
        m'.getC (x.addC (n + M)) = m.getC (x.addC (n + M)) ∧
        m'.getC (x.addC (n + 2 * M)) = m.getC (x.addC (n + 2 * M)) ∧
        m'.getC (x.addC (n + 3 * M)) = m.getC (x.addC (n + 3 * M))) ∧
      (∀ n, n < i →
        toC (m'.getC (t.addC n)) = toC (m.getC (x.addC n)) + toC (m.getC (x.addC (n + 2 * M))) ∧
        toC (m'.getC (t.addC (n + M))) =
          toC (m.getC (x.addC (n + M))) + toC (m.getC (x.addC (n + 3 * M))) ∧
        toC (m'.getC (t.addC (n + 2 * M))) =
          ((toC (m.getC (x.addC n)) - toC (m.getC (x.addC (n + 2 * M)))) -
            ι * (toC (m.getC (x.addC (n + M))) - toC (m.getC (x.addC (n + 3 * M))))) *
              w ^ n ∧
        toC (m'.getC (t.addC (n + 3 * M))) =
          ((toC (m.getC (x.addC n)) - toC (m.getC (x.addC (n + 2 * M)))) +
            ι * (toC (m.getC (x.addC (n + M))) - toC (m.getC (x.addC (n + 3 * M))))) *
              w ^ (3 * n)) ∧
      (∀ b o, ¬ InBuf t (2 * (4 * M)) b o → m'.cell b o = m.cell b o))
    M 0 m
    ⟨rfl, rfl, fun _ _ _ => ⟨rfl, rfl, rfl, rfl⟩, fun n hn => absurd hn (Nat.not_lt_zero n),
      fun _ _ _ => rfl⟩
    (by
      rintro n m1 - hn ⟨hsz, hnx, hA, hB, hC⟩
      rw [zero_add] at hn
      have okx : ∀ i, i < 4 * M → m1.okC (x.addC i) := fun i hi =>
        (Mem.okC_congr hsz _).mpr (hx i hi)
      have okt : ∀ i, i < 4 * M → m1.okC (t.addC i) := fun i hi =>
        (Mem.okC_congr hsz _).mpr (ht i hi)
      obtain ⟨v0, v1, v2, v3, heq, hv0, hv1, hv2, hv3⟩ := hbody n m1 hn okx okt
      obtain ⟨a0, a1, a2, a3⟩ := hA n (le_refl _) hn
      simp only [a0, a1, a2, a3] at hv0 hv1 hv2 hv3
      refine ⟨_, heq, hsz, hnx, ?_, ?_, ?_⟩
      · intro n' h1 h2
        have := hA n' (by omega) h2
        refine ⟨?_, ?_, ?_, ?_⟩
        · rw [Mem.getC_setC_sep _ _ _ _ _ _ hsep (by omega),
            Mem.getC_setC_sep _ _ _ _ _ _ hsep (by omega),
            Mem.getC_setC_sep _ _ _ _ _ _ hsep (by omega),
            Mem.getC_setC_sep _ _ _ _ _ _ hsep (by omega), this.1]
        · rw [Mem.getC_setC_sep _ _ _ _ _ _ hsep (by omega),
            Mem.getC_setC_sep _ _ _ _ _ _ hsep (by omega),
            Mem.getC_setC_sep _ _ _ _ _ _ hsep (by omega),
            Mem.getC_setC_sep _ _ _ _ _ _ hsep (by omega), this.2.1]
        · rw [Mem.getC_setC_sep _ _ _ _ _ _ hsep (by omega),
            Mem.getC_setC_sep _ _ _ _ _ _ hsep (by omega),
            Mem.getC_setC_sep _ _ _ _ _ _ hsep (by omega),
            Mem.getC_setC_sep _ _ _ _ _ _ hsep (by omega), this.2.2.1]
        · rw [Mem.getC_setC_sep _ _ _ _ _ _ hsep (by omega),
            Mem.getC_setC_sep _ _ _ _ _ _ hsep (by omega),
            Mem.getC_setC_sep _ _ _ _ _ _ hsep (by omega),
            Mem.getC_setC_sep _ _ _ _ _ _ hsep (by omega), this.2.2.2]
      · intro n' h1
        rcases Nat.lt_or_ge n' n with hlt | hge
        · have := hB n' hlt
          refine ⟨?_, ?_, ?_, ?_⟩
          · rw [Mem.getC_setC_addC _ _ _ _ _ (by omega), Mem.getC_setC_addC _ _ _ _ _ (by omega),
              Mem.getC_setC_addC _ _ _ _ _ (by omega), Mem.getC_setC_addC _ _ _ _ _ (by omega),
              this.1]
          · rw [Mem.getC_setC_addC _ _ _ _ _ (by omega), Mem.getC_setC_addC _ _ _ _ _ (by omega),
              Mem.getC_setC_addC _ _ _ _ _ (by omega), Mem.getC_setC_addC _ _ _ _ _ (by omega),
              this.2.1]
          · rw [Mem.getC_setC_addC _ _ _ _ _ (by omega), Mem.getC_setC_addC _ _ _ _ _ (by omega),
              Mem.getC_setC_addC _ _ _ _ _ (by omega), Mem.getC_setC_addC _ _ _ _ _ (by omega),
              this.2.2.1]
          · rw [Mem.getC_setC_addC _ _ _ _ _ (by omega), Mem.getC_setC_addC _ _ _ _ _ (by omega),
              Mem.getC_setC_addC _ _ _ _ _ (by omega), Mem.getC_setC_addC _ _ _ _ _ (by omega),
              this.2.2.2]
        · have hn' : n' = n := by omega
          subst hn'
          refine ⟨?_, ?_, ?_, ?_⟩
          · rw [Mem.getC_setC_addC _ _ _ _ _ (by omega), Mem.getC_setC_addC _ _ _ _ _ (by omega),
              Mem.getC_setC_addC _ _ _ _ _ (by omega), Mem.getC_setC_self, hv0]
          · rw [Mem.getC_setC_addC _ _ _ _ _ (by omega), Mem.getC_setC_addC _ _ _ _ _ (by omega),
              Mem.getC_setC_self, hv1]
          · rw [Mem.getC_setC_addC _ _ _ _ _ (by omega), Mem.getC_setC_self, hv2]
          · rw [Mem.getC_setC_self, hv3]
      · intro b o hb
        rw [Mem.cell_setC_addC_of_not_InBuf _ _ _ _ _ _ _ (by omega) hb,
          Mem.cell_setC_addC_of_not_InBuf _ _ _ _ _ _ _ (by omega) hb,
          Mem.cell_setC_addC_of_not_InBuf _ _ _ _ _ _ _ (by omega) hb,
          Mem.cell_setC_addC_of_not_InBuf _ _ _ _ _ _ _ (by omega) hb, hC b o hb])
  obtain ⟨m', hl, hsz, hnx, -, hB, hC⟩ := key
  rw [zero_add] at hB
  exact ⟨m', hl, hsz, hnx, hB, hC⟩

end Minfft

namespace Minfft

open Cx

/-- The recursive step of a split-radix engine `rs` (`rs_dft_1d` or
`rs_invdft_1d`): correctness for the length `4M = 2^(k+2)` from correctness
for the lengths `2M` and `M`. -/
theorem rs_gen_step
    (rs : ℕ → ℕ → Ptr → Ptr → Ptr → ℕ → List (Cx ℝ) → Mem ℝ → Option (Mem ℝ))
    (body : ℕ → Ptr → Ptr → List (Cx ℝ) → ℕ → Mem ℝ → Option (Mem ℝ))
    (T : List (Cx ℝ) → ℕ → Prop) (ι : ℂ) (w : ℕ → ℂ)
    (hι : ι * ι = -1) (hsq : ∀ k, w (k + 1) ^ 2 = w k) (h2 : w 2 = -ι)
    (hunf : ∀ (fuel M : ℕ) (x t y : Ptr) (sy : ℕ) (e : List (Cx ℝ)) (m : Mem ℝ), 3 ≤ M →
      rs (fuel + 1) (4 * M) x t y sy e m =
        (forLoop (body (4 * M) x t e) 0 M m).bind (fun m1 =>
          (rs fuel (2 * M) t t y (2 * sy) (e.drop (2 * M)) m1).bind (fun m2 =>
            (rs fuel M (t.addC (2 * M)) (t.addC (2 * M)) (y.addC sy) (4 * sy)
              (e.drop (3 * M)) m2).bind (fun m3 =>
                rs fuel M (t.addC (3 * M)) (t.addC (3 * M)) (y.addC (3 * sy)) (4 * sy)
                  (e.drop (3 * M)) m3))))
    (hT : ∀ e k, T e (k + 1) → T (e.drop (2 ^ k)) k)
    (hbody : ∀ (k M : ℕ) (x t : Ptr) (e : List (Cx ℝ)), 2 ≤ k → M = 2 ^ k → T e (k + 2) →
      ∀ (n : ℕ) (m1 : Mem ℝ), n < M → (∀ i, i < 4 * M → m1.okC (x.addC i)) →
      (∀ i, i < 4 * M → m1.okC (t.addC i)) →
      ∃ v0 v1 v2 v3, body (4 * M) x t e n m1 =
          some ((((m1.setC (t.addC n) v0).setC (t.addC (n + M)) v1).setC
            (t.addC (n + 2 * M)) v2).setC (t.addC (n + 3 * M)) v3) ∧
        toC v0 = toC (m1.getC (x.addC n)) + toC (m1.getC (x.addC (n + 2 * M))) ∧
        toC v1 = toC (m1.getC (x.addC (n + M))) + toC (m1.getC (x.addC (n + 3 * M))) ∧
        toC v2 = ((toC (m1.getC (x.addC n)) - toC (m1.getC (x.addC (n + 2 * M)))) -
            ι * (toC (m1.getC (x.addC (n + M))) - toC (m1.getC (x.addC (n + 3 * M))))) *
              w (k + 2) ^ n ∧
        toC v3 = ((toC (m1.getC (x.addC n)) - toC (m1.getC (x.addC (n + 2 * M)))) +
            ι * (toC (m1.getC (x.addC (n + M))) - toC (m1.getC (x.addC (n + 3 * M))))) *
              w (k + 2) ^ (3 * n))
    (k fuel : ℕ) (hk : 2 ≤ k)
    (ih1 : ∀ (x t y : Ptr) (sy : ℕ) (e : List (Cx ℝ)) (m : Mem ℝ), 0 < sy →
      (∀ i, i < 2 ^ (k + 1) → m.okC (x.addC i)) →
      (∀ j, j < 2 ^ (k + 1) → m.okC (y.addC (sy * j))) →
      (4 ≤ k + 1 → (∀ i, i < 2 ^ (k + 1) → m.okC (t.addC i)) ∧ t.blk ≠ y.blk ∧
        (x = t ∨ x.blk ≠ t.blk) ∧ T e (k + 1)) →
      ∃ m', rs fuel (2 ^ (k + 1)) x t y sy e m = some m' ∧
        XformPost (dft (w (k + 1)) (2 ^ (k + 1))) (2 ^ (k + 1)) x t y sy m m')
    (ih2 : ∀ (x t y : Ptr) (sy : ℕ) (e : List (Cx ℝ)) (m : Mem ℝ), 0 < sy →
      (∀ i, i < 2 ^ k → m.okC (x.addC i)) →
      (∀ j, j < 2 ^ k → m.okC (y.addC (sy * j))) →
      (4 ≤ k → (∀ i, i < 2 ^ k → m.okC (t.addC i)) ∧ t.blk ≠ y.blk ∧
        (x = t ∨ x.blk ≠ t.blk) ∧ T e k) →
      ∃ m', rs fuel (2 ^ k) x t y sy e m = some m' ∧
        XformPost (dft (w k) (2 ^ k)) (2 ^ k) x t y sy m m')
    (x t y : Ptr) (sy : ℕ) (e : List (Cx ℝ)) (m : Mem ℝ) (hsy : 0 < sy)
    (hx : ∀ i, i < 2 ^ (k + 2) → m.okC (x.addC i))
    (hy : ∀ j, j < 2 ^ (k + 2) → m.okC (y.addC (sy * j)))
    (ht : ∀ i, i < 2 ^ (k + 2) → m.okC (t.addC i)) (hty : t.blk ≠ y.blk)
    (hsep : x = t ∨ x.blk ≠ t.blk) (he : T e (k + 2)) :
    ∃ m', rs (fuel + 1) (2 ^ (k + 2)) x t y sy e m = some m' ∧
      XformPost (dft (w (k + 2)) (2 ^ (k + 2))) (2 ^ (k + 2)) x t y sy m m' := by
  -- lengths
  obtain ⟨M, hM⟩ : ∃ M, M = 2 ^ k := ⟨_, rfl⟩
  have hM4 : 4 ≤ M := by
    rw [hM]
    calc 4 = 2 ^ 2 := by norm_num
      _ ≤ 2 ^ k := Nat.pow_le_pow_right (by norm_num) hk
  have h4M : 2 ^ (k + 2) = 4 * M := by rw [hM, pow_succ, pow_succ]; ring
  have h2M : 2 ^ (k + 1) = 2 * M := by rw [hM, pow_succ]; ring
  rw [h4M] at hx hy ht ⊢
  rw [h2M] at ih1
  rw [← hM] at ih2
  -- roots
  have hpp : ∀ a j, w (a + j) ^ (2 ^ j) = w a := by
    intro a j
    induction j with
    | zero => simp
    | succ j ih => rw [← Nat.add_assoc, pow_succ, mul_comm, pow_mul, hsq, ih]
  have hw1 : w 1 = -1 := by
    rw [← hsq 1, h2]
    linear_combination hι
  have hw0 : w 0 = 1 := by
    rw [← hsq 0, hw1]; ring
  have hwq : w (k + 2) ^ M = -ι := by
    have := hpp 2 k
    rw [Nat.add_comm] at this
    rw [hM, this, h2]
  have hwf : w (k + 2) ^ (2 * (2 * M)) = 1 := by
    have := hpp 0 (k + 2)
    rw [Nat.zero_add, h4M, hw0] at this
    rw [← this]; congr 1; ring
  have hw2 : w (k + 2) ^ 2 = w (k + 1) := hsq (k + 1)
  have hw4 : w (k + 2) ^ 4 = w k := by
    have : w (k + 2) ^ 4 = (w (k + 2) ^ 2) ^ 2 := by ring
    rw [this, hw2, hsq k]
  have hT3 : T (e.drop (3 * M)) k := by
    have h1 := hT _ _ (hT _ _ he)
    rw [List.drop_drop] at h1
    have e3 : 2 ^ (k + 1) + 2 ^ k = 3 * M := by rw [hM, pow_succ]; ring
    rw [e3] at h1
    exact h1
  -- the loop
  obtain ⟨m1, hl1, hsz1, hnx1, hv1, hf1⟩ :=
    prep_loop_spec (body (4 * M) x t e) ι (w (k + 2)) M x t m hsep hx ht
      (hbody k M x t e hk hM he)
  -- first sub-transform
  have ok1 : ∀ p, m1.okC p ↔ m.okC p := Mem.okC_congr hsz1
  obtain ⟨m2, hl2, hsz2, hnx2, hv2, hf2⟩ := ih1 t t y (2 * sy) (e.drop (2 * M)) m1 (by omega)
    (fun i hi => (ok1 _).mpr (ht i (by omega)))
    (fun j hj => by
      have := hy (2 * j) (by omega)
      rw [ok1]
      have e1 : 2 * sy * j = sy * (2 * j) := by ring
      rw [e1]; exact this)
    (fun _ => ⟨fun i hi => (ok1 _).mpr (ht i (by omega)), hty, Or.inl rfl, by
      have := hT _ _ he
      rw [h2M] at this
      exact this⟩)
  -- second sub-transform
  have ok2 : ∀ p, m2.okC p ↔ m.okC p := fun p =>
    (Mem.okC_congr hsz2 p).trans (ok1 p)
  obtain ⟨m3, hl3, hsz3, hnx3, hv3, hf3⟩ := ih2 (t.addC (2 * M)) (t.addC (2 * M)) (y.addC sy)
    (4 * sy) (e.drop (3 * M)) m2 (by omega)
    (fun i hi => by
      rw [ok2, Ptr.addC_addC]; exact ht _ (by omega))
    (fun j hj => by
      have := hy (4 * j + 1) (by omega)
      rw [ok2, Ptr.addC_addC]
      have e1 : sy + 4 * sy * j = sy * (4 * j + 1) := by ring
      rw [e1]; exact this)
    (fun _ => ⟨fun i hi => by rw [ok2, Ptr.addC_addC]; exact ht _ (by omega),
      by simpa using hty, Or.inl rfl, by
        exact hT3⟩)
  -- third sub-transform
  have ok3 : ∀ p, m3.okC p ↔ m.okC p := fun p =>
    (Mem.okC_congr hsz3 p).trans (ok2 p)
  obtain ⟨m4, hl4, hsz4, hnx4, hv4, hf4⟩ := ih2 (t.addC (3 * M)) (t.addC (3 * M))
    (y.addC (3 * sy)) (4 * sy) (e.drop (3 * M)) m3 (by omega)
    (fun i hi => by
      rw [ok3, Ptr.addC_addC]; exact ht _ (by omega))
    (fun j hj => by
      have := hy (4 * j + 3) (by omega)
      rw [ok3, Ptr.addC_addC]
      have e1 : 3 * sy + 4 * sy * j = sy * (4 * j + 3) := by ring
      rw [e1]; exact this)
    (fun _ => ⟨fun i hi => by rw [ok3, Ptr.addC_addC]; exact ht _ (by omega),
      by simpa using hty, Or.inl rfl, by
        exact hT3⟩)
  refine ⟨m4, ?_, ?_, ?_, ?_, ?_⟩
  · rw [hunf fuel M x t y sy e m (by omega), hl1, Option.some_bind, hl2,
      Option.some_bind, hl3, Option.some_bind, hl4]
  · rw [hsz4, hsz3, hsz2, hsz1]
  · rw [hnx4, hnx3, hnx2, hnx1]
  · -- values
    intro j hj
    have hoff1 : (y.addC sy).off = y.off + 2 * (sy * 1) := by simp
    have hoff3 : (y.addC (3 * sy)).off = y.off + 2 * (sy * 3) := by
      simp only [Ptr.addC_off]; ring
    -- scratch contents seen by the sub-transforms
    have t2 : ∀ n, n < M → m2.getC ((t.addC (2 * M)).addC n) = m1.getC (t.addC (n + 2 * M)) := by
      intro n hn
      rw [Ptr.addC_addC, Nat.add_comm (2 * M) n]
      exact getC_of_frame_buf y t t (2 * sy) (2 * M) (n + 2 * M) (2 * (2 * M)) _ hf2 hty
        (Or.inr (by omega))
    have t3 : ∀ n, n < M → m3.getC ((t.addC (3 * M)).addC n) = m1.getC (t.addC (n + 3 * M)) := by
      intro n hn
      rw [Ptr.addC_addC, Nat.add_comm (3 * M) n]
      have a1 : m3.getC (t.addC (n + 3 * M)) = m2.getC (t.addC (n + 3 * M)) :=
        getC_of_frame_buf (y.addC sy) t (t.addC (2 * M)) (4 * sy) M (n + 3 * M) (2 * M) _ hf3
          (by simpa using hty) (Or.inr (by simp only [Ptr.addC_off]; omega))
      have a2 : m2.getC (t.addC (n + 3 * M)) = m1.getC (t.addC (n + 3 * M)) :=
        getC_of_frame_buf y t t (2 * sy) (2 * M) (n + 3 * M) (2 * (2 * M)) _ hf2 hty
          (Or.inr (by omega))
      rw [a1, a2]
    rcases Nat.even_or_odd' j with ⟨j', hj' | hj'⟩
    · -- even output
      subst hj'
      have p4 : m4.getC (y.addC (sy * (2 * j'))) = m3.getC (y.addC (sy * (2 * j'))) :=
        getC_of_frame y (y.addC (3 * sy)) (t.addC (3 * M)) sy (4 * sy) 3 4 M (2 * j') (2 * M) _
          hf4 hsy rfl hoff3 rfl (fun _ _ => by omega) (by simpa using hty)
      have p3 : m3.getC (y.addC (sy * (2 * j'))) = m2.getC (y.addC (sy * (2 * j'))) :=
        getC_of_frame y (y.addC sy) (t.addC (2 * M)) sy (4 * sy) 1 4 M (2 * j') (2 * M) _
          hf3 hsy rfl hoff1 rfl (fun _ _ => by omega) (by simpa using hty)
      have e1 : sy * (2 * j') = 2 * sy * j' := by ring
      rw [p4, p3, e1, hv2 j' (by omega), ← hw2]
      have e4 : 4 * M = 2 * (2 * M) := by ring
      rw [e4, dft_even (w (k + 2)) (2 * M) hwf]
      apply dft_congr
      intro n hn
      rcases Nat.lt_or_ge n M with h | h
      · exact (hv1 n h).1
      · have := (hv1 (n - M) (by omega)).2.1
        have a : n - M + M = n := by omega
        have b : n - M + 3 * M = n + 2 * M := by omega
        rw [a, b] at this
        exact this
    · rcases Nat.even_or_odd' j' with ⟨i, hi | hi⟩
      · -- output 4i+1
        have hj4 : j = 4 * i + 1 := by omega
        subst hj4
        have p4 : m4.getC (y.addC (sy * (4 * i + 1))) = m3.getC (y.addC (sy * (4 * i + 1))) :=
          getC_of_frame y (y.addC (3 * sy)) (t.addC (3 * M)) sy (4 * sy) 3 4 M (4 * i + 1)
            (2 * M) _ hf4 hsy rfl hoff3 rfl (fun _ _ => by omega) (by simpa using hty)
        have e1 : y.addC (sy * (4 * i + 1)) = (y.addC sy).addC (4 * sy * i) := by
          rw [Ptr.addC_addC]; congr 1; ring
        rw [p4, e1, hv3 i (by omega), ← hw4,
          dft_odd1 (w (k + 2)) ι M hι hwq]
        apply dft_congr
        intro n hn
        rw [t2 n hn]
        exact (hv1 n hn).2.2.1
      · -- output 4i+3
        have hj4 : j = 4 * i + 3 := by omega
        subst hj4
        have e1 : y.addC (sy * (4 * i + 3)) = (y.addC (3 * sy)).addC (4 * sy * i) := by
          rw [Ptr.addC_addC]; congr 1; ring
        rw [e1, hv4 i (by omega), ← hw4,
          dft_odd3 (w (k + 2)) ι M hι hwq]
        apply dft_congr
        intro n hn
        rw [t3 n hn]
        exact (hv1 n hn).2.2.2
  · -- frame
    intro b o hy' ht'
    have hb : ¬ InBuf t (2 * (4 * M)) b o := fun h => ht' ⟨by omega, h⟩
    have s4 : m4.cell b o = m3.cell b o := by
      apply hf4
      · intro h
        exact hy' (InStr_sub y (y.addC (3 * sy)) sy (4 * sy) 3 4 M (4 * M) b o rfl
          (by simp only [Ptr.addC_off]; ring) rfl (fun _ _ => by omega) h)
      · rintro ⟨-, h1, h2, h3⟩
        simp only [Ptr.addC_off, Ptr.addC_blk] at h1 h2 h3
        exact hb ⟨h1, by omega, by omega⟩
    have s3 : m3.cell b o = m2.cell b o := by
      apply hf3
      · intro h
        exact hy' (InStr_sub y (y.addC sy) sy (4 * sy) 1 4 M (4 * M) b o rfl
          (by simp) rfl (fun _ _ => by omega) h)
      · rintro ⟨-, h1, h2, h3⟩
        simp only [Ptr.addC_off, Ptr.addC_blk] at h1 h2 h3
        exact hb ⟨h1, by omega, by omega⟩
    have s2 : m2.cell b o = m1.cell b o := by
      apply hf2
      · intro h
        exact hy' (InStr_sub y y sy (2 * sy) 0 2 (2 * M) (4 * M) b o rfl
          (by simp) rfl (fun _ _ => by omega) h)
      · rintro ⟨-, h1, h2, h3⟩
        exact hb ⟨h1, by omega, by omega⟩
    rw [s4, s3, s2, hf1 b o hb]

end Minfft

namespace Minfft

open Cx

/-- Correctness of a split-radix engine `rs` for every length `2^k`, from its
terminal cases, its unfolding and the effect of its loop body. -/
theorem rs_gen_spec
    (rs : ℕ → ℕ → Ptr → Ptr → Ptr → ℕ → List (Cx ℝ) → Mem ℝ → Option (Mem ℝ))
    (body : ℕ → Ptr → Ptr → List (Cx ℝ) → ℕ → Mem ℝ → Option (Mem ℝ))
    (T : List (Cx ℝ) → ℕ → Prop) (ι : ℂ) (w : ℕ → ℂ)
    (hι : ι * ι = -1) (hsq : ∀ k, w (k + 1) ^ 2 = w k) (h2 : w 2 = -ι)
    (hunf : ∀ (fuel M : ℕ) (x t y : Ptr) (sy : ℕ) (e : List (Cx ℝ)) (m : Mem ℝ), 3 ≤ M →
      rs (fuel + 1) (4 * M) x t y sy e m =
        (forLoop (body (4 * M) x t e) 0 M m).bind (fun m1 =>
          (rs fuel (2 * M) t t y (2 * sy) (e.drop (2 * M)) m1).bind (fun m2 =>
            (rs fuel M (t.addC (2 * M)) (t.addC (2 * M)) (y.addC sy) (4 * sy)
              (e.drop (3 * M)) m2).bind (fun m3 =>
                rs fuel M (t.addC (3 * M)) (t.addC (3 * M)) (y.addC (3 * sy)) (4 * sy)
                  (e.drop (3 * M)) m3))))
    (hT : ∀ e k, T e (k + 1) → T (e.drop (2 ^ k)) k)
    (hbody : ∀ (k M : ℕ) (x t : Ptr) (e : List (Cx ℝ)), 2 ≤ k → M = 2 ^ k → T e (k + 2) →
      ∀ (n : ℕ) (m1 : Mem ℝ), n < M → (∀ i, i < 4 * M → m1.okC (x.addC i)) →
      (∀ i, i < 4 * M → m1.okC (t.addC i)) →
      ∃ v0 v1 v2 v3, body (4 * M) x t e n m1 =
          some ((((m1.setC (t.addC n) v0).setC (t.addC (n + M)) v1).setC
            (t.addC (n + 2 * M)) v2).setC (t.addC (n + 3 * M)) v3) ∧
        toC v0 = toC (m1.getC (x.addC n)) + toC (m1.getC (x.addC (n + 2 * M))) ∧
        toC v1 = toC (m1.getC (x.addC (n + M))) + toC (m1.getC (x.addC (n + 3 * M))) ∧
        toC v2 = ((toC (m1.getC (x.addC n)) - toC (m1.getC (x.addC (n + 2 * M)))) -
            ι * (toC (m1.getC (x.addC (n + M))) - toC (m1.getC (x.addC (n + 3 * M))))) *
              w (k + 2) ^ n ∧
        toC v3 = ((toC (m1.getC (x.addC n)) - toC (m1.getC (x.addC (n + 2 * M)))) +
            ι * (toC (m1.getC (x.addC (n + M))) - toC (m1.getC (x.addC (n + 3 * M))))) *
              w (k + 2) ^ (3 * n))
    (hterm : ∀ (k : ℕ), k < 4 → ∀ (fuel : ℕ) (x t y : Ptr) (sy : ℕ) (e : List (Cx ℝ))
      (m : Mem ℝ), 0 < sy →
      (∀ i, i < 2 ^ k → m.okC (x.addC i)) →
      (∀ j, j < 2 ^ k → m.okC (y.addC (sy * j))) →
      ∃ m', rs (fuel + 1) (2 ^ k) x t y sy e m = some m' ∧
        XformPost (dft (w k) (2 ^ k)) (2 ^ k) x t y sy m m') :
    ∀ (k fuel : ℕ) (x t y : Ptr) (sy : ℕ) (e : List (Cx ℝ)) (m : Mem ℝ),
      k < fuel → 0 < sy →
      (∀ i, i < 2 ^ k → m.okC (x.addC i)) →
      (∀ j, j < 2 ^ k → m.okC (y.addC (sy * j))) →
      (4 ≤ k → (∀ i, i < 2 ^ k → m.okC (t.addC i)) ∧ t.blk ≠ y.blk ∧
        (x = t ∨ x.blk ≠ t.blk) ∧ T e k) →
      ∃ m', rs fuel (2 ^ k) x t y sy e m = some m' ∧
        XformPost (dft (w k) (2 ^ k)) (2 ^ k) x t y sy m m' := by
  intro k
  induction k using Nat.strong_induction_on with
  | _ k ih =>
    intro fuel x t y sy e m hfuel hsy hx hy hsc
    obtain ⟨fuel, rfl⟩ : ∃ f, fuel = f + 1 := ⟨fuel - 1, by omega⟩
    rcases Nat.lt_or_ge k 4 with hk | hk
    · exact hterm k hk fuel x t y sy e m hsy hx hy
    · obtain ⟨k, rfl⟩ : ∃ j, k = j + 2 := ⟨k - 2, by omega⟩
      obtain ⟨ht, hty, hsep, he⟩ := hsc hk
      exact rs_gen_step rs body T ι w hι hsq h2 hunf hT hbody k fuel (by omega)
        (fun x t y sy e m => ih (k + 1) (by omega) fuel x t y sy e m (by omega))
        (fun x t y sy e m => ih k (by omega) fuel x t y sy e m (by omega))
        x t y sy e m hsy hx hy ht hty hsep he

/-- Correctness of `rs_dft_1d` for every length `2^k`: with fuel above `k`,
valid input and output cells and, for `16 ≤ 2^k`, a valid scratch buffer
disjoint from the output and a valid twiddle pointer, the call returns and
leaves the transform of the input in `y[sy*j]`. -/
theorem rs_dft_1d_correct (E : Num ℝ) (w : ℕ → ℂ) (hw : Roots E w) :
    ∀ (k fuel : ℕ) (x t y : Ptr) (sy : ℕ) (e : List (Cx ℝ)) (m : Mem ℝ),
      k < fuel → 0 < sy →
      (∀ i, i < 2 ^ k → m.okC (x.addC i)) →
      (∀ j, j < 2 ^ k → m.okC (y.addC (sy * j))) →
      (4 ≤ k → (∀ i, i < 2 ^ k → m.okC (t.addC i)) ∧ t.blk ≠ y.blk ∧
        (x = t ∨ x.blk ≠ t.blk) ∧ TwOK w e k) →
      ∃ m', rs_dft_1d E fuel (2 ^ k) x t y sy e m = some m' ∧
        XformPost (dft (w k) (2 ^ k)) (2 ^ k) x t y sy m m' := by
  apply rs_gen_spec (rs_dft_1d E) (fun N x t e => rs_dft_1d_prep N x t e) (TwOK w) Complex.I w
    Complex.I_mul_I hw.sq hw.two
  · intro fuel M x t y sy e m hM
    exact rs_dft_1d_unfold E fuel M x t y sy e m hM
  · intro e k h
    exact h.drop_half
  · intro k M x t e hk hM he n m1 hn okx okt
    subst hM
    obtain ⟨e0, e1, he0, he1, hw0, hw1⟩ := he.top hk n hn
    refine ⟨_, _, _, _, rs_dft_1d_prep_eq (2 ^ k) x t e n m1 e0 e1 (okx _ (by omega))
      (okx _ (by omega)) (okx _ (by omega)) (okx _ (by omega)) (okt _ (by omega))
      (okt _ (by omega)) (okt _ (by omega)) (okt _ (by omega)) he0 he1, ?_, ?_, ?_, ?_⟩
    · rw [toC_add]
    · rw [toC_add]
    · simp only [toC_mul, toC_sub, toC_I, hw0]
    · simp only [toC_mul, toC_sub, toC_add, toC_I, hw1]
  · intro k hk fuel x t y sy e m hsy hx hy
    obtain ⟨s1, s2, s4, s8⟩ := rs_dft_1d_small E fuel x t y sy e m
    interval_cases k
    · obtain ⟨m', h1, h2⟩ := rs_dft_1d_1_spec (w 0) x y sy m hx hy
      exact ⟨m', by rw [pow_zero, s1]; exact h1, XformPost.of_kernel h2⟩
    · obtain ⟨m', h1, h2⟩ := rs_dft_1d_2_spec (w 1) hw.one x y sy m hsy hx hy
      exact ⟨m', by rw [pow_one, s2]; exact h1, XformPost.of_kernel h2⟩
    · obtain ⟨m', h1, h2⟩ := rs_dft_1d_4_spec (w 2) hw.two x y sy m hsy hx hy
      exact ⟨m', by rw [show (2 : ℕ) ^ 2 = 4 from rfl, s4]; exact h1, XformPost.of_kernel h2⟩
    · have hw2 : w 3 ^ 2 = -Complex.I := by rw [hw.sq 2, hw.two]
      obtain ⟨m', h1, h2⟩ := rs_dft_1d_8_spec E (w 3) hw2 hw.three x y sy m hsy hx hy
      exact ⟨m', by rw [show (2 : ℕ) ^ 3 = 8 from rfl, s8]; exact h1, XformPost.of_kernel h2⟩

end Minfft

namespace Minfft

open Cx

/-! ### The exact numeric environment -/

theorem exp_root_sq (k : ℕ) :
    Complex.exp (-2 * Real.pi * Complex.I / 2 ^ (k + 1)) ^ 2 =
      Complex.exp (-2 * Real.pi * Complex.I / 2 ^ k) := by
  rw [← Complex.exp_nat_mul]
  congr 1
  rw [pow_succ]
  field_simp
  ring

theorem exp_root_two : Complex.exp (-2 * Real.pi * Complex.I / 2 ^ 2) = -Complex.I := by
  have h : (-2 * (Real.pi : ℂ) * Complex.I / 2 ^ 2) = ((-(Real.pi / 2) : ℝ) : ℂ) * Complex.I := by
    push_cast; ring
  rw [h, Complex.exp_mul_I, ← Complex.ofReal_cos, ← Complex.ofReal_sin, Real.cos_neg,
    Real.sin_neg, Real.cos_pi_div_two, Real.sin_pi_div_two]
  push_cast; ring

theorem exp_root_three :
    ((Real.sqrt 2 / 2 : ℝ) : ℂ) * (1 - Complex.I) =
      Complex.exp (-2 * Real.pi * Complex.I / 2 ^ 3) := by
  have h : (-2 * (Real.pi : ℂ) * Complex.I / 2 ^ 3) = ((-(Real.pi / 4) : ℝ) : ℂ) * Complex.I := by
    push_cast; ring
  rw [h, Complex.exp_mul_I, ← Complex.ofReal_cos, ← Complex.ofReal_sin, Real.cos_neg,
    Real.sin_neg, Real.cos_pi_div_four, Real.sin_pi_div_four]
  push_cast; ring

theorem Roots.of_exact {E : Num ℝ} (hE : E.Exact) (w : ℕ → ℂ)
    (hw : ∀ k, w k = Complex.exp (-2 * Real.pi * Complex.I / 2 ^ k)) : Roots E w where
  sq := fun k => by rw [hw, hw, exp_root_sq]
  two := by rw [hw, exp_root_two]
  three := by rw [hw, hE.2.2.1, exp_root_three]

theorem exp_root_pow (N n : ℕ) :
    Complex.exp (-2 * Real.pi * Complex.I / N) ^ n =
      Complex.exp (-2 * Real.pi * Complex.I * n / N) := by
  rw [← Complex.exp_nat_mul]
  congr 1
  ring

theorem toC_tw1 {E : Num ℝ} (hE : E.Exact) (n N : ℕ) :
    toC (tw1 E n N) = Complex.exp (-2 * Real.pi * Complex.I / N) ^ n := by
  rw [exp_root_pow, tw1, hE.2.2.2, hE.1]
  simp

theorem toC_tw3 {E : Num ℝ} (hE : E.Exact) (n N : ℕ) :
    toC (tw3 E n N) = Complex.exp (-2 * Real.pi * Complex.I / N) ^ (3 * n) := by
  rw [exp_root_pow, tw3, hE.2.2.2, hE.1]
  simp
  congr 1
  ring

end Minfft

namespace Minfft

open Cx

/-! ### The twiddle table of `minfft_mkaux_dft_1d` -/

section table

variable {α : Type}

theorem pairs_length (f g : ℕ → α) (M : ℕ) :
    ((List.range M).flatMap (fun n => [f n, g n])).length = 2 * M := by
  induction M with
  | zero => simp
  | succ M ih =>
    rw [List.range_succ, List.flatMap_append, List.length_append, ih]
    simp
    ring

theorem pairs_get (f g : ℕ → α) (M n : ℕ) (hn : n < M) :
    ((List.range M).flatMap (fun n => [f n, g n])).get? (2 * n) = some (f n) ∧
    ((List.range M).flatMap (fun n => [f n, g n])).get? (2 * n + 1) = some (g n) := by
  induction M with
  | zero => omega
  | succ M ih =>
    rw [List.range_succ, List.flatMap_append]
    rcases Nat.lt_or_ge n M with h | h
    · obtain ⟨h0, h1⟩ := ih h
      constructor
      · rw [List.get?_append (by rw [pairs_length]; omega), h0]
      · rw [List.get?_append (by rw [pairs_length]; omega), h1]
    · have hnM : n = M := by omega
      subst hnM
      constructor
      · rw [List.get?_append_right (by rw [pairs_length]), pairs_length]
        simp
      · rw [List.get?_append_right (by rw [pairs_length]; omega), pairs_length]
        have : 2 * n + 1 - 2 * n = 1 := by omega
        rw [this]
        simp

end table

theorem dft_1d_e_succ {R : Type} [Field R] (E : Num R) (k : ℕ) (hk : 3 ≤ k) :
    dft_1d_e E (2 ^ (k + 1)) =
      (List.range (2 ^ (k + 1) / 4)).flatMap (fun n => [tw1 E n (2 ^ (k + 1)), tw3 E n (2 ^ (k + 1))])
        ++ dft_1d_e E (2 ^ k) := by
  have h16 : 16 ≤ 2 ^ (k + 1) := by
    calc 16 = 2 ^ 4 := by norm_num
      _ ≤ 2 ^ (k + 1) := Nat.pow_le_pow_right (by norm_num) (by omega)
  have h2 : 2 ^ (k + 1) / 2 = 2 ^ k := by rw [pow_succ]; omega
  rw [dft_1d_e, if_pos h16, h2]

theorem TwOK_table {E : Num ℝ} (hE : E.Exact) (w : ℕ → ℂ)
    (hw : ∀ k, w k = Complex.exp (-2 * Real.pi * Complex.I / 2 ^ k)) (k : ℕ) :
    TwOK w (dft_1d_e E (2 ^ k)) k := by
  induction k with
  | zero => intro l h4 hl; omega
  | succ k ih =>
    intro l h4 hl n hn
    have hk : 3 ≤ k := by omega
    rw [dft_1d_e_succ E k hk]
    have hq : 2 ^ (k + 1) / 4 * 2 = 2 ^ k := by
      obtain ⟨j, rfl⟩ : ∃ j, k = j + 1 := ⟨k - 1, by omega⟩
      rw [pow_succ, pow_succ]; omega
    have hlen := pairs_length (fun n => tw1 E n (2 ^ (k + 1))) (fun n => tw3 E n (2 ^ (k + 1)))
      (2 ^ (k + 1) / 4)
    rcases Nat.lt_or_ge l (k + 1) with hlt | hge
    · obtain ⟨e0, e1, h0, h1, hw0, hw1⟩ := ih l h4 (by omega) n hn
      have hle : 2 ^ l ≤ 2 ^ k := Nat.pow_le_pow_right (by norm_num) (by omega)
      have hp : 2 ^ (k + 1) = 2 ^ k + 2 ^ k := by rw [pow_succ]; ring
      refine ⟨e0, e1, ?_, ?_, hw0, hw1⟩
      · rw [List.get?_append_right (by rw [hlen]; omega), hlen, ← h0]
        congr 1; omega
      · rw [List.get?_append_right (by rw [hlen]; omega), hlen, ← h1]
        congr 1; omega
    · have hl' : l = k + 1 := by omega
      subst hl'
      obtain ⟨g0, g1⟩ := pairs_get (fun n => tw1 E n (2 ^ (k + 1)))
        (fun n => tw3 E n (2 ^ (k + 1))) (2 ^ (k + 1) / 4) n hn
      refine ⟨tw1 E n (2 ^ (k + 1)), tw3 E n (2 ^ (k + 1)), ?_, ?_, ?_, ?_⟩
      · rw [Nat.sub_self, zero_add, List.get?_append (by rw [hlen]; omega), g0]
      · rw [Nat.sub_self, zero_add, List.get?_append (by rw [hlen]; omega), g1]
      · rw [toC_tw1 hE, hw]; push_cast; rfl
      · rw [toC_tw3 hE, hw]; push_cast; rfl

end Minfft

namespace Minfft

open Cx

/-! ### The one-dimensional complex DFT through a plan -/

theorem s_dft_1d_spec (E : Num ℝ) (w : ℕ → ℂ) (hw : Roots E w) (k fuel : ℕ) (x y t : Ptr)
    (sy : ℕ) (e : Option (List (Cx ℝ))) (s1 s2 : Aux ℝ) (m : Mem ℝ)
    (hfuel : k < fuel) (hsy : 0 < sy)
    (hx : ∀ i, i < 2 ^ k → m.okC (x.addC i))
    (hy : ∀ j, j < 2 ^ k → m.okC (y.addC (sy * j)))
    (hsc : 4 ≤ k → (∀ i, i < 2 ^ k → m.okC (t.addC i)) ∧ t.blk ≠ y.blk ∧
      (x = t ∨ x.blk ≠ t.blk) ∧ TwOK w (e.getD []) k) :
    ∃ m', s_dft_1d E fuel x y sy (Aux.node (2 ^ k) t e s1 s2) m = some m' ∧
      XformPost (dft (w k) (2 ^ k)) (2 ^ k) x t y sy m m' := by
  have := rs_dft_1d_correct E w hw k fuel x t y sy (e.getD []) m hfuel hsy hx hy hsc
  simpa [s_dft_1d, Aux.N?, Aux.t?, Aux.e?] using this

theorem pow_two_lt_16 {k : ℕ} (hk : k < 4) : ¬ 16 ≤ 2 ^ k := by
  have : 2 ^ k < 2 ^ 4 := Nat.pow_lt_pow_right (by norm_num) hk
  omega

theorem pow_two_ge_16 {k : ℕ} (hk : 4 ≤ k) : 16 ≤ 2 ^ k := by
  calc 16 = 2 ^ 4 := by norm_num
    _ ≤ 2 ^ k := Nat.pow_le_pow_right (by norm_num) hk

theorem mkaux_dft_1d_small {R : Type} [Field R] (E : Num R) (k : ℕ) (hk : k < 4) (m0 : Mem R) :
    minfft_mkaux_dft_1d E (2 ^ k) m0 =
      (Aux.node (2 ^ k) Ptr.null none Aux.null Aux.null, m0) := by
  rw [minfft_mkaux_dft_1d, if_neg (pow_two_lt_16 hk)]

theorem mkaux_dft_1d_big {R : Type} [Field R] (E : Num R) (k : ℕ) (hk : 4 ≤ k) (m0 : Mem R) :
    minfft_mkaux_dft_1d E (2 ^ k) m0 =
      (Aux.node (2 ^ k) ⟨m0.next + 1, 0⟩ (some (dft_1d_e E (2 ^ k))) Aux.null Aux.null,
        (m0.malloc (2 * 2 ^ k)).2) := by
  rw [minfft_mkaux_dft_1d, if_pos (pow_two_ge_16 hk)]
  rfl

/-- A pointer to `n` reals inside a block allocated in `m0`. -/
theorem okC_of_region {m0 m : Mem ℝ} {x : Ptr} {N i : ℕ}
    (hx : x.blk ≠ 0 ∧ x.blk ≤ m0.next ∧ x.off + 2 * N ≤ m0.size x.blk)
    (hm : ∀ b, b ≤ m0.next → m.size b = m0.size b) (hi : i < N) : m.okC (x.addC i) := by
  refine ⟨hx.1, ?_⟩
  simp only [Ptr.addC_blk, Ptr.addC_off]
  rw [hm _ hx.2.1]
  omega

/-- The plan of `minfft_mkaux_dft_1d` is valid in every memory that has the
block sizes of the memory returned by the builder: the scratch block lies
above the blocks of the caller, and the table is the one `rs_dft_1d` expects. -/
theorem mkaux_dft_1d_ok (E : Num ℝ) (hE : E.Exact) (w : ℕ → ℂ)
    (hw : ∀ k, w k = Complex.exp (-2 * Real.pi * Complex.I / 2 ^ k)) (k : ℕ) (m0 m : Mem ℝ)
    (hm : m.size = (minfft_mkaux_dft_1d E (2 ^ k) m0).2.size) :
    ∃ t e, (minfft_mkaux_dft_1d E (2 ^ k) m0).1 = Aux.node (2 ^ k) t e Aux.null Aux.null ∧
      (∀ b, b ≤ m0.next → m.size b = m0.size b) ∧
      (4 ≤ k → m0.next < t.blk ∧ t.blk ≤ (minfft_mkaux_dft_1d E (2 ^ k) m0).2.next ∧
        (∀ i, i < 2 ^ k → m.okC (t.addC i)) ∧ TwOK w (e.getD []) k) := by
  rcases Nat.lt_or_ge k 4 with hk | hk
  · rw [mkaux_dft_1d_small E k hk] at hm ⊢
    exact ⟨_, _, rfl, fun b _ => by rw [hm], fun h => by omega⟩
  · rw [mkaux_dft_1d_big E k hk] at hm ⊢
    refine ⟨_, _, rfl, ?_, fun _ => ⟨?_, ?_, ?_, ?_⟩⟩
    · intro b hb
      rw [hm]
      simp only [Mem.malloc]
      rw [if_neg (by omega)]
    · simp
    · simp [Mem.malloc]
    · intro i hi
      refine ⟨by simp, ?_⟩
      rw [hm]
      simp only [Mem.malloc, Ptr.addC_blk, Ptr.addC_off, if_true]
      omega
    · exact TwOK_table hE w hw k

end Minfft

namespace Minfft

open Cx

theorem minfft_dft_leaf {R : Type} [Field R] (E : Num R) (fuel : ℕ) (x y : Ptr) (N : ℕ) (t : Ptr)
    (e : Option (List (Cx R))) (s1 : Aux R) (m : Mem R) :
    minfft_dft E fuel x y (Aux.node N t e s1 Aux.null) m =
      s_dft_1d E fuel x y 1 (Aux.node N t e s1 Aux.null) m := by
  simp [minfft_dft, s_dft, make_complex_transform, Aux.isNull]

theorem dft_exp (N : ℕ) (f : ℕ → ℂ) (j : ℕ) :
    dft (Complex.exp (-2 * Real.pi * Complex.I / N)) N f j =
      ∑ n in Finset.range N, f n * Complex.exp (-2 * Real.pi * Complex.I * n * j / N) := by
  unfold dft
  apply Finset.sum_congr rfl
  intro n _
  rw [exp_root_pow]
  push_cast
  ring_nf

/-- Effect of `minfft_dft` with the plan of `minfft_mkaux_dft_1d (2^k)`, in any
memory with the block sizes the builder left. -/
theorem minfft_dft_1d_post (E : Num ℝ) (hE : E.Exact) (k fuel : ℕ) (hfuel : k < fuel)
    (m0 m : Mem ℝ) (x y : Ptr)
    (hm : m.size = (minfft_mkaux_dft_1d E (2 ^ k) m0).2.size)
    (hx : x.blk ≠ 0 ∧ x.blk ≤ m0.next ∧ x.off + 2 * 2 ^ k ≤ m0.size x.blk)
    (hy : y.blk ≠ 0 ∧ y.blk ≤ m0.next ∧ y.off + 2 * 2 ^ k ≤ m0.size y.blk) :
    ∃ m', minfft_dft E fuel x y (minfft_mkaux_dft_1d E (2 ^ k) m0).1 m = some m' ∧
      m'.size = m.size ∧
      (∀ j, j < 2 ^ k → toC (m'.getC (y.addC j)) =
        ∑ n in Finset.range (2 ^ k),
          toC (m.getC (x.addC n)) * Complex.exp (-2 * Real.pi * Complex.I * n * j / 2 ^ k)) ∧
      (∀ b o, b ≤ m0.next → ¬ InBuf y (2 * 2 ^ k) b o → m'.cell b o = m.cell b o) := by
  obtain ⟨w, hw⟩ : ∃ w : ℕ → ℂ, ∀ k, w k = Complex.exp (-2 * Real.pi * Complex.I / 2 ^ k) :=
    ⟨_, fun _ => rfl⟩
  obtain ⟨t, e, ha, hsz, hbig⟩ := mkaux_dft_1d_ok E hE w hw k m0 m hm
  rw [ha, minfft_dft_leaf]
  obtain ⟨m', h1, h2, -, h4, h5⟩ := s_dft_1d_spec E w (Roots.of_exact hE w hw) k fuel x y t 1 e
    Aux.null Aux.null m hfuel (by norm_num)
    (fun i hi => okC_of_region hx hsz hi)
    (fun j hj => by rw [one_mul]; exact okC_of_region hy hsz hj)
    (fun h4 => by
      obtain ⟨b1, -, b3, b4⟩ := hbig h4
      exact ⟨b3, by omega, Or.inr (by omega), b4⟩)
  refine ⟨m', h1, h2, ?_, ?_⟩
  · intro j hj
    have := h4 j hj
    rw [one_mul, hw] at this
    rw [this]
    have := dft_exp (2 ^ k) (fun n => toC (m.getC (x.addC n))) j
    push_cast at this
    exact this
  · intro b o hb hy'
    apply h5
    · rintro ⟨hb', j, hj, ho⟩
      apply hy'
      refine ⟨hb', ?_, ?_⟩ <;> omega
    · rintro ⟨h16, hb', -⟩
      have h4 : 4 ≤ k := by
        by_contra hc
        exact pow_two_lt_16 (by omega) h16
      have := (hbig h4).1
      omega

end Minfft

namespace Minfft

open Cx

/-! ### The inverse engine `rs_invdft_1d` -/

section invkernels

variable {R : Type} [Field R]

theorem rs_invdft_1d_2_eq (x y : Ptr) (sy : ℕ) (m : Mem R)
    (hx : ∀ i, i < 2 → m.okC (x.addC i)) (hy : ∀ j, j < 2 → m.okC (y.addC (sy * j))) :
    rs_invdft_1d_2 x y sy m = some (setStr m y sy 0
      [m.getC x + m.getC (x.addC 1), m.getC x - m.getC (x.addC 1)]) := by
  rw [← rs_dft_1d_2_eq x y sy m hx hy]
  rfl

theorem rs_invdft_1d_4_eq (x y : Ptr) (sy : ℕ) (m : Mem R)
    (hx : ∀ i, i < 4 → m.okC (x.addC i)) (hy : ∀ j, j < 4 → m.okC (y.addC (sy * j))) :
    rs_invdft_1d_4 x y sy m = some (setStr m y sy 0
      [(m.getC x + m.getC (x.addC 2)) + (m.getC (x.addC 1) + m.getC (x.addC 3)),
       (m.getC x - m.getC (x.addC 2)) + I * (m.getC (x.addC 1) - m.getC (x.addC 3)),
       (m.getC x + m.getC (x.addC 2)) - (m.getC (x.addC 1) + m.getC (x.addC 3)),
       (m.getC x - m.getC (x.addC 2)) - I * (m.getC (x.addC 1) - m.getC (x.addC 3))]) := by
  have hx0 : m.okC x := by simpa using hx 0 (by norm_num)
  have hx1 := hx 1 (by norm_num)
  have hx2 := hx 2 (by norm_num)
  have hx3 := hx 3 (by norm_num)
  have hy0 : m.okC y := by simpa using hy 0 (by norm_num)
  have hy1 : m.okC (y.addC sy) := by simpa using okC_str hy 1 (by norm_num)
  have hy2 := okC_str hy 2 (by norm_num)
  have hy3 := okC_str hy 3 (by norm_num)
  simp only [rs_invdft_1d_4, Mem.loadC_of_ok hx0, Mem.loadC_of_ok hx1, Mem.loadC_of_ok hx2,
    Mem.loadC_of_ok hx3, Mem.storeC_of_ok, Mem.okC_setC, hy0, hy1, hy2, hy3,
    Option.bind_eq_bind, Option.some_bind, bind]
  simp only [setStr_cons, setStr_nil, mul_zero, Ptr.addC_zero, zero_add, mul_one, Nat.reduceAdd,
    zero_mul, one_mul,
    mul_comm sy]

theorem rs_invdft_1d_8_eq (E : Num R) (x y : Ptr) (sy : ℕ) (m : Mem R)
    (a : ℕ → Cx R) (ha : ∀ i, i < 8 → m.getC (x.addC i) = a i)
    (hx : ∀ i, i < 8 → m.okC (x.addC i)) (hy : ∀ j, j < 8 → m.okC (y.addC (sy * j))) :
    rs_invdft_1d_8 E x y sy m = some (setStr m y sy 0
      [((a 0 + a 4) + (a 2 + a 6)) + ((a 1 + a 5) + (a 3 + a 7)),
       ((a 0 - a 4) + I * (a 2 - a 6)) +
          ((a 1 - a 5) + I * (a 3 - a 7)) * (ofReal E.sqrt1_2 * (ofReal 1 + I)),
       ((a 0 + a 4) - (a 2 + a 6)) + ((a 1 + a 5) - (a 3 + a 7)) * I,
       ((a 0 - a 4) - I * (a 2 - a 6)) +
          ((a 1 - a 5) - I * (a 3 - a 7)) * (ofReal E.sqrt1_2 * (ofReal (-1) + I)),
       ((a 0 + a 4) + (a 2 + a 6)) - ((a 1 + a 5) + (a 3 + a 7)),
       ((a 0 - a 4) + I * (a 2 - a 6)) -
          ((a 1 - a 5) + I * (a 3 - a 7)) * (ofReal E.sqrt1_2 * (ofReal 1 + I)),
       ((a 0 + a 4) - (a 2 + a 6)) - ((a 1 + a 5) - (a 3 + a 7)) * I,
       ((a 0 - a 4) - I * (a 2 - a 6)) -
          ((a 1 - a 5) - I * (a 3 - a 7)) * (ofReal E.sqrt1_2 * (ofReal (-1) + I))]) := by
  have hx0 : m.okC x := by simpa using hx 0 (by norm_num)
  have hx1 := hx 1 (by norm_num)
  have hx2 := hx 2 (by norm_num)
  have hx3 := hx 3 (by norm_num)
  have hx4 := hx 4 (by norm_num)
  have hx5 := hx 5 (by norm_num)
  have hx6 := hx 6 (by norm_num)
  have hx7 := hx 7 (by norm_num)
  have a0 : m.getC x = a 0 := by simpa using ha 0 (by norm_num)
  simp only [rs_invdft_1d_8, Mem.loadC_of_ok hx0, Mem.loadC_of_ok hx1, Mem.loadC_of_ok hx2,
    Mem.loadC_of_ok hx3, Mem.loadC_of_ok hx4, Mem.loadC_of_ok hx5, Mem.loadC_of_ok hx6,
    Mem.loadC_of_ok hx7, Option.bind_eq_bind, Option.some_bind, bind, a0,
    ha 1 (by norm_num), ha 2 (by norm_num), ha 3 (by norm_num), ha 4 (by norm_num),
    ha 5 (by norm_num), ha 6 (by norm_num), ha 7 (by norm_num)]
  exact store8_eq y sy _ _ _ _ _ _ _ _ m hy

theorem rs_invdft_1d_prep_eq (M : ℕ) (x t : Ptr) (e : List (Cx R))
    (n : ℕ) (m : Mem R) (e0 e1 : Cx R)
    (hx0 : m.okC (x.addC n)) (hx1 : m.okC (x.addC (n + M)))
    (hx2 : m.okC (x.addC (n + 2 * M))) (hx3 : m.okC (x.addC (n + 3 * M)))
    (ht0 : m.okC (t.addC n)) (ht1 : m.okC (t.addC (n + M)))
    (ht2 : m.okC (t.addC (n + 2 * M))) (ht3 : m.okC (t.addC (n + 3 * M)))
    (he0 : e.get? (2 * n) = some e0) (he1 : e.get? (2 * n + 1) = some e1) :
    rs_invdft_1d_prep (4 * M) x t e n m = some
      ((((m.setC (t.addC n) (m.getC (x.addC n) + m.getC (x.addC (n + 2 * M)))).setC
        (t.addC (n + M)) (m.getC (x.addC (n + M)) + m.getC (x.addC (n + 3 * M)))).setC
        (t.addC (n + 2 * M))
          (((m.getC (x.addC n) - m.getC (x.addC (n + 2 * M))) +
            I * (m.getC (x.addC (n + M)) - m.getC (x.addC (n + 3 * M)))) * conj e0)).setC
        (t.addC (n + 3 * M))
          (((m.getC (x.addC n) - m.getC (x.addC (n + 2 * M))) -
            I * (m.getC (x.addC (n + M)) - m.getC (x.addC (n + 3 * M)))) * conj e1)) := by
  obtain ⟨q2, q4, q3⟩ := quarter_simps M
  simp only [rs_invdft_1d_prep, q2, q4, q3, Mem.loadC_of_ok hx0, Mem.loadC_of_ok hx1,
    Mem.loadC_of_ok hx2, Mem.loadC_of_ok hx3, Mem.storeC_of_ok, Mem.okC_setC, ht0, ht1, ht2, ht3,
    he0, he1, Option.bind_eq_bind, Option.some_bind, bind]

theorem rs_invdft_1d_unfold (E : Num R) (fuel M : ℕ) (x t y : Ptr) (sy : ℕ)
    (e : List (Cx R)) (m : Mem R) (hM : 3 ≤ M) :
    rs_invdft_1d E (fuel + 1) (4 * M) x t y sy e m =
      (forLoop (rs_invdft_1d_prep (4 * M) x t e) 0 M m).bind (fun m1 =>
        (rs_invdft_1d E fuel (2 * M) t t y (2 * sy) (e.drop (2 * M)) m1).bind (fun m2 =>
          (rs_invdft_1d E fuel M (t.addC (2 * M)) (t.addC (2 * M)) (y.addC sy) (4 * sy)
            (e.drop (3 * M)) m2).bind (fun m3 =>
              rs_invdft_1d E fuel M (t.addC (3 * M)) (t.addC (3 * M)) (y.addC (3 * sy)) (4 * sy)
                (e.drop (3 * M)) m3))) := by
  obtain ⟨q2, q4, q3⟩ := quarter_simps M
  rw [rs_invdft_1d]
  rw [if_neg (by omega), if_neg (by omega), if_neg (by omega), if_neg (by omega)]
  simp only [q2, q4, q3]
  rfl

theorem rs_invdft_1d_small (E : Num R) (fuel : ℕ) (x t y : Ptr) (sy : ℕ)
    (e : List (Cx R)) (m : Mem R) :
    rs_invdft_1d E (fuel + 1) 1 x t y sy e m = (do let x0 ← m.loadC x; m.storeC y x0) ∧
    rs_invdft_1d E (fuel + 1) 2 x t y sy e m = rs_invdft_1d_2 x y sy m ∧
    rs_invdft_1d E (fuel + 1) 4 x t y sy e m = rs_invdft_1d_4 x y sy m ∧
    rs_invdft_1d E (fuel + 1) 8 x t y sy e m = rs_invdft_1d_8 E x y sy m := by
  refine ⟨?_, ?_, ?_, ?_⟩ <;> rw [rs_invdft_1d] <;> simp

end invkernels

section invspecs

theorem neg_I_mul_neg_I : (-Complex.I) * (-Complex.I) = -1 := by
  rw [neg_mul_neg, Complex.I_mul_I]

theorem rs_invdft_1d_2_spec (w : ℂ) (hw : w = -1) (x y : Ptr) (sy : ℕ) (m : Mem ℝ) (hsy : 0 < sy)
    (hx : ∀ i, i < 2 → m.okC (x.addC i)) (hy : ∀ j, j < 2 → m.okC (y.addC (sy * j))) :
    ∃ m', rs_invdft_1d_2 x y sy m = some m' ∧ m'.size = m.size ∧ m'.next = m.next ∧
      (∀ j, j < 2 → toC (m'.getC (y.addC (sy * j))) =
        dft w 2 (fun n => toC (m.getC (x.addC n))) j) ∧
      (∀ b o, ¬ InStr y sy 2 b o → m'.cell b o = m.cell b o) :=
  rs_dft_1d_2_spec w hw x y sy m hsy hx hy

theorem rs_invdft_1d_4_spec (w : ℂ) (hw : w = Complex.I) (x y : Ptr) (sy : ℕ) (m : Mem ℝ)
    (hsy : 0 < sy)
    (hx : ∀ i, i < 4 → m.okC (x.addC i)) (hy : ∀ j, j < 4 → m.okC (y.addC (sy * j))) :
    ∃ m', rs_invdft_1d_4 x y sy m = some m' ∧ m'.size = m.size ∧ m'.next = m.next ∧
      (∀ j, j < 4 → toC (m'.getC (y.addC (sy * j))) =
        dft w 4 (fun n => toC (m.getC (x.addC n))) j) ∧
      (∀ b o, ¬ InStr y sy 4 b o → m'.cell b o = m.cell b o) := by
  have heq := rs_invdft_1d_4_eq x y sy m hx hy
  refine ⟨_, heq, setStr_size _ _ _ _ _, setStr_next _ _ _ _ _, ?h4, ?h5⟩
  case h5 =>
    intro b o h
    exact setStr_frame m y sy 4 _ (by rfl) b o h
  case h4 =>
    obtain ⟨d0, d1, d2, d3⟩ :=
      dft_four w (-Complex.I) neg_I_mul_neg_I (by rw [hw, neg_neg])
        (fun n => toC (m.getC (x.addC n)))
    intro j hj
    interval_cases j
    · rw [setStr_getC y sy hsy _ m 0 0 _ (le_refl _) (by rfl), d0]
      simp <;> ring
    · rw [setStr_getC y sy hsy _ m 0 1 _ (by norm_num) (by rfl), d1]
      simp <;> ring
    · rw [setStr_getC y sy hsy _ m 0 2 _ (by norm_num) (by rfl), d2]
      simp <;> ring
    · rw [setStr_getC y sy hsy _ m 0 3 _ (by norm_num) (by rfl), d3]
      simp <;> ring

theorem rs_invdft_1d_8_spec (E : Num ℝ) (w : ℂ) (hw2 : w ^ 2 = Complex.I)
    (hE : (E.sqrt1_2 : ℂ) * (1 + Complex.I) = w)
    (x y : Ptr) (sy : ℕ) (m : Mem ℝ) (hsy : 0 < sy)
    (hx : ∀ i, i < 8 → m.okC (x.addC i)) (hy : ∀ j, j < 8 → m.okC (y.addC (sy * j))) :
    ∃ m', rs_invdft_1d_8 E x y sy m = some m' ∧ m'.size = m.size ∧ m'.next = m.next ∧
      (∀ j, j < 8 → toC (m'.getC (y.addC (sy * j))) =
        dft w 8 (fun n => toC (m.getC (x.addC n))) j) ∧
      (∀ b o, ¬ InStr y sy 8 b o → m'.cell b o = m.cell b o) := by
  have hw3 : w ^ 3 = (E.sqrt1_2 : ℂ) * (-1 + Complex.I) := by
    have : w ^ 3 = w ^ 2 * w := by ring
    rw [this, hw2, ← hE]
    linear_combination (E.sqrt1_2 : ℂ) * Complex.I_sq
  have heq := rs_invdft_1d_8_eq E x y sy m (fun i => m.getC (x.addC i)) (fun _ _ => rfl) hx hy
  refine ⟨_, heq, setStr_size _ _ _ _ _, setStr_next _ _ _ _ _, ?h4, ?h5⟩
  case h5 =>
    intro b o h
    exact setStr_frame m y sy 8 _ (by rfl) b o h
  case h4 =>
    obtain ⟨d0, d1, d2, d3, d4, d5, d6, d7⟩ :=
      dft_eight w (-Complex.I) neg_I_mul_neg_I (by rw [hw2, neg_neg])
        (fun n => toC (m.getC (x.addC n)))
    intro j hj
    interval_cases j
    · rw [setStr_getC y sy hsy _ m 0 0 _ (le_refl _) (by rfl), d0]
      simp <;> ring
    · rw [setStr_getC y sy hsy _ m 0 1 _ (by norm_num) (by rfl), d1]
      simp [hE] <;> ring
    · rw [setStr_getC y sy hsy _ m 0 2 _ (by norm_num) (by rfl), d2]
      simp <;> ring
    · rw [setStr_getC y sy hsy _ m 0 3 _ (by norm_num) (by rfl), d3, hw3]
      simp <;> ring
    · rw [setStr_getC y sy hsy _ m 0 4 _ (by norm_num) (by rfl), d4]
      simp <;> ring
    · rw [setStr_getC y sy hsy _ m 0 5 _ (by norm_num) (by rfl), d5]
      simp [hE] <;> ring
    · rw [setStr_getC y sy hsy _ m 0 6 _ (by norm_num) (by rfl), d6]
      simp <;> ring
    · rw [setStr_getC y sy hsy _ m 0 7 _ (by norm_num) (by rfl), d7, hw3]
      simp <;> ring

end invspecs

end Minfft

namespace Minfft

open Cx

/-- Correctness of `rs_invdft_1d` for every length `2^k`: the same statement
as for `rs_dft_1d`, with the conjugate roots (the table is the same). -/
theorem rs_invdft_1d_correct (E : Num ℝ) (w : ℕ → ℂ) (hw : Roots E w) :
    ∀ (k fuel : ℕ) (x t y : Ptr) (sy : ℕ) (e : List (Cx ℝ)) (m : Mem ℝ),
      k < fuel → 0 < sy →
      (∀ i, i < 2 ^ k → m.okC (x.addC i)) →
      (∀ j, j < 2 ^ k → m.okC (y.addC (sy * j))) →
      (4 ≤ k → (∀ i, i < 2 ^ k → m.okC (t.addC i)) ∧ t.blk ≠ y.blk ∧
        (x = t ∨ x.blk ≠ t.blk) ∧ TwOK w e k) →
      ∃ m', rs_invdft_1d E fuel (2 ^ k) x t y sy e m = some m' ∧
        XformPost (dft ((starRingEnd ℂ) (w k)) (2 ^ k)) (2 ^ k) x t y sy m m' := by
  have h2 : (starRingEnd ℂ) (w 2) = Complex.I := by
    rw [hw.two, map_neg, Complex.conj_I, neg_neg]
  apply rs_gen_spec (rs_invdft_1d E) (fun N x t e => rs_invdft_1d_prep N x t e) (TwOK w)
    (-Complex.I) (fun k => (starRingEnd ℂ) (w k)) neg_I_mul_neg_I
  · intro k
    show (starRingEnd ℂ) (w (k + 1)) ^ 2 = (starRingEnd ℂ) (w k)
    rw [← map_pow, hw.sq]
  · show (starRingEnd ℂ) (w 2) = - -Complex.I
    rw [h2, neg_neg]
  · intro fuel M x t y sy e m hM
    exact rs_invdft_1d_unfold E fuel M x t y sy e m hM
  · intro e k h
    exact h.drop_half
  · intro k M x t e hk hM he n m1 hn okx okt
    subst hM
    obtain ⟨e0, e1, he0, he1, hw0, hw1⟩ := he.top hk n hn
    refine ⟨_, _, _, _, rs_invdft_1d_prep_eq (2 ^ k) x t e n m1 e0 e1 (okx _ (by omega))
      (okx _ (by omega)) (okx _ (by omega)) (okx _ (by omega)) (okt _ (by omega))
      (okt _ (by omega)) (okt _ (by omega)) (okt _ (by omega)) he0 he1, ?_, ?_, ?_, ?_⟩
    · rw [toC_add]
    · rw [toC_add]
    · simp only [toC_mul, toC_sub, toC_add, toC_I, toC_conj, hw0, map_pow]
      ring
    · simp only [toC_mul, toC_sub, toC_add, toC_I, toC_conj, hw1, map_pow]
      ring
  · intro k hk fuel x t y sy e m hsy hx hy
    obtain ⟨s1, s2, s4, s8⟩ := rs_invdft_1d_small E fuel x t y sy e m
    interval_cases k
    · obtain ⟨m', h1, h2⟩ := rs_dft_1d_1_spec ((starRingEnd ℂ) (w 0)) x y sy m hx hy
      exact ⟨m', by rw [pow_zero, s1]; exact h1, XformPost.of_kernel h2⟩
    · obtain ⟨m', h1, h2⟩ := rs_invdft_1d_2_spec ((starRingEnd ℂ) (w 1))
        (by rw [hw.one]; simp) x y sy m hsy hx hy
      exact ⟨m', by rw [pow_one, s2]; exact h1, XformPost.of_kernel h2⟩
    · obtain ⟨m', h1, h2'⟩ := rs_invdft_1d_4_spec ((starRingEnd ℂ) (w 2)) h2 x y sy m hsy hx hy
      exact ⟨m', by rw [show (2 : ℕ) ^ 2 = 4 from rfl, s4]; exact h1, XformPost.of_kernel h2'⟩
    · have hw2 : (starRingEnd ℂ) (w 3) ^ 2 = Complex.I := by
        rw [← map_pow, hw.sq 2, h2]
      have hE : (E.sqrt1_2 : ℂ) * (1 + Complex.I) = (starRingEnd ℂ) (w 3) := by
        rw [← hw.three]
        simp
      obtain ⟨m', h1, h2'⟩ := rs_invdft_1d_8_spec E _ hw2 hE x y sy m hsy hx hy
      exact ⟨m', by rw [show (2 : ℕ) ^ 3 = 8 from rfl, s8]; exact h1, XformPost.of_kernel h2'⟩

theorem s_invdft_1d_spec (E : Num ℝ) (w : ℕ → ℂ) (hw : Roots E w) (k fuel : ℕ) (x y t : Ptr)
    (sy : ℕ) (e : Option (List (Cx ℝ))) (s1 s2 : Aux ℝ) (m : Mem ℝ)
    (hfuel : k < fuel) (hsy : 0 < sy)
    (hx : ∀ i, i < 2 ^ k → m.okC (x.addC i))
    (hy : ∀ j, j < 2 ^ k → m.okC (y.addC (sy * j)))
    (hsc : 4 ≤ k → (∀ i, i < 2 ^ k → m.okC (t.addC i)) ∧ t.blk ≠ y.blk ∧
      (x = t ∨ x.blk ≠ t.blk) ∧ TwOK w (e.getD []) k) :
    ∃ m', s_invdft_1d E fuel x y sy (Aux.node (2 ^ k) t e s1 s2) m = some m' ∧
      XformPost (dft ((starRingEnd ℂ) (w k)) (2 ^ k)) (2 ^ k) x t y sy m m' := by
  have := rs_invdft_1d_correct E w hw k fuel x t y sy (e.getD []) m hfuel hsy hx hy hsc
  simpa [s_invdft_1d, Aux.N?, Aux.t?, Aux.e?] using this

end Minfft

namespace Minfft

open Cx

/-! ### Inversion of the discrete Fourier transform -/

theorem geom_root_sum (r : ℂ) (N : ℕ) (hr : r ^ N = 1) (h1 : r ≠ 1) :
    ∑ k in Finset.range N, r ^ k = 0 := by
  have h := geom_sum_mul r N
  rw [hr, sub_self] at h
  rcases mul_eq_zero.mp h with h | h
  · exact h
  · exact absurd (sub_eq_zero.mp h) h1

/-- The transform with the inverse root undoes the transform, up to the factor `N`. -/
theorem dft_dft_inv (z z' : ℂ) (N : ℕ) (hz : IsPrimitiveRoot z N) (hzz : z * z' = 1)
    (f : ℕ → ℂ) (j : ℕ) (hj : j < N) : dft z' N (dft z N f) j = N * f j := by
  have hz'N : z' ^ N = 1 := by
    have : (z * z') ^ N = 1 := by rw [hzz, one_pow]
    rw [mul_pow, hz.pow_eq_one, one_mul] at this
    exact this
  have hsum : ∀ n, n < N → ∑ k in Finset.range N, z ^ (n * k) * z' ^ (k * j) =
      if n = j then (N : ℂ) else 0 := by
    intro n hn
    have e : ∀ k, z ^ (n * k) * z' ^ (k * j) = (z ^ n * z' ^ j) ^ k := by
      intro k
      rw [mul_pow, ← pow_mul, ← pow_mul, Nat.mul_comm j k]
    simp only [e]
    split_ifs with h
    · subst h
      rw [← mul_pow, hzz, one_pow]
      simp
    · apply geom_root_sum
      · rw [mul_pow, ← pow_mul, ← pow_mul, Nat.mul_comm n N, Nat.mul_comm j N, pow_mul, pow_mul,
          hz.pow_eq_one, hz'N, one_pow, one_pow, one_mul]
      · intro h1
        apply h
        apply hz.pow_inj hn hj
        have : z ^ n * z' ^ j * z ^ j = z ^ j := by rw [h1, one_mul]
        rw [mul_assoc, ← mul_pow, mul_comm z' z, hzz, one_pow, mul_one] at this
        exact this
  unfold dft
  have e1 : ∀ k, (∑ n in Finset.range N, f n * z ^ (n * k)) * z' ^ (k * j) =
      ∑ n in Finset.range N, f n * (z ^ (n * k) * z' ^ (k * j)) := by
    intro k
    rw [Finset.sum_mul]
    apply Finset.sum_congr rfl
    intro n _
    ring
  simp only [e1]
  rw [Finset.sum_comm]
  simp only [← Finset.mul_sum]
  rw [Finset.sum_congr rfl (fun n hn => by rw [hsum n (Finset.mem_range.mp hn)])]
  rw [Finset.sum_eq_single j]
  · simp [mul_comm]
  · intro n _ hne
    simp [hne]
  · intro h
    exact absurd (Finset.mem_range.mpr hj) h

theorem exp_root_primitive (N : ℕ) (hN : N ≠ 0) :
    IsPrimitiveRoot (Complex.exp (-2 * Real.pi * Complex.I / N)) N := by
  have h := (Complex.isPrimitiveRoot_exp N hN).inv
  have e : (Complex.exp (2 * Real.pi * Complex.I / N))⁻¹ =
      Complex.exp (-2 * Real.pi * Complex.I / N) := by
    rw [← Complex.exp_neg]
    congr 1
    ring
  rw [e] at h
  exact h

theorem exp_root_conj (N : ℕ) :
    (starRingEnd ℂ) (Complex.exp (-2 * Real.pi * Complex.I / N)) =
      Complex.exp (2 * Real.pi * Complex.I / N) := by
  rw [← Complex.exp_conj]
  congr 1
  simp [Complex.conj_ofReal, map_ofNat]

theorem exp_root_mul_conj (N : ℕ) :
    Complex.exp (-2 * Real.pi * Complex.I / N) *
      (starRingEnd ℂ) (Complex.exp (-2 * Real.pi * Complex.I / N)) = 1 := by
  rw [exp_root_conj, ← Complex.exp_add]
  have : -2 * (Real.pi : ℂ) * Complex.I / N + 2 * Real.pi * Complex.I / N = 0 := by ring
  rw [this, Complex.exp_zero]

theorem minfft_invdft_leaf {R : Type} [Field R] (E : Num R) (fuel : ℕ) (x y : Ptr) (N : ℕ)
    (t : Ptr) (e : Option (List (Cx R))) (s1 : Aux R) (m : Mem R) :
    minfft_invdft E fuel x y (Aux.node N t e s1 Aux.null) m =
      s_invdft_1d E fuel x y 1 (Aux.node N t e s1 Aux.null) m := by
  simp [minfft_invdft, s_invdft, make_complex_transform, Aux.isNull]

/-- Effect of `minfft_invdft` with the plan of `minfft_mkaux_dft_1d (2^k)`, in
any memory with the block sizes the builder left. -/
theorem minfft_invdft_1d_post (E : Num ℝ) (hE : E.Exact) (k fuel : ℕ) (hfuel : k < fuel)
    (m0 m : Mem ℝ) (x y : Ptr)
    (hm : m.size = (minfft_mkaux_dft_1d E (2 ^ k) m0).2.size)
    (hx : x.blk ≠ 0 ∧ x.blk ≤ m0.next ∧ x.off + 2 * 2 ^ k ≤ m0.size x.blk)
    (hy : y.blk ≠ 0 ∧ y.blk ≤ m0.next ∧ y.off + 2 * 2 ^ k ≤ m0.size y.blk) :
    ∃ m', minfft_invdft E fuel x y (minfft_mkaux_dft_1d E (2 ^ k) m0).1 m = some m' ∧
      m'.size = m.size ∧
      (∀ j, j < 2 ^ k → toC (m'.getC (y.addC j)) =
        dft ((starRingEnd ℂ) (Complex.exp (-2 * Real.pi * Complex.I / (2 ^ k : ℕ)))) (2 ^ k)
          (fun n => toC (m.getC (x.addC n))) j) ∧
      (∀ b o, b ≤ m0.next → ¬ InBuf y (2 * 2 ^ k) b o → m'.cell b o = m.cell b o) := by
  obtain ⟨w, hw⟩ : ∃ w : ℕ → ℂ, ∀ k, w k = Complex.exp (-2 * Real.pi * Complex.I / 2 ^ k) :=
    ⟨_, fun _ => rfl⟩
  obtain ⟨t, e, ha, hsz, hbig⟩ := mkaux_dft_1d_ok E hE w hw k m0 m hm
  rw [ha, minfft_invdft_leaf]
  obtain ⟨m', h1, h2, -, h4, h5⟩ := s_invdft_1d_spec E w (Roots.of_exact hE w hw) k fuel x y t 1 e
    Aux.null Aux.null m hfuel (by norm_num)
    (fun i hi => okC_of_region hx hsz hi)
    (fun j hj => by rw [one_mul]; exact okC_of_region hy hsz hj)
    (fun h4 => by
      obtain ⟨b1, -, b3, b4⟩ := hbig h4
      exact ⟨b3, by omega, Or.inr (by omega), b4⟩)
  refine ⟨m', h1, h2, ?_, ?_⟩
  · intro j hj
    have := h4 j hj
    rw [one_mul, hw] at this
    rw [this]
    push_cast
    rfl
  · intro b o hb hy'
    apply h5
    · rintro ⟨hb', j, hj, ho⟩
      apply hy'
      refine ⟨hb', ?_, ?_⟩ <;> omega
    · rintro ⟨h16, hb', -⟩
      have h4 : 4 ≤ k := by
        by_contra hc
        exact pow_two_lt_16 (by omega) h16
      have := (hbig h4).1
      omega

/-- Round trip: `minfft_dft` from `x` to `y`, then `minfft_invdft` from `y` to
`z`, with the same plan, leaves `N * x[j]` in `z[j]`. -/
theorem minfft_dft_invdft_1d (E : Num ℝ) (hE : E.Exact) (k fuel : ℕ) (hfuel : k < fuel)
    (m0 m : Mem ℝ) (x y z : Ptr)
    (hm : m.size = (minfft_mkaux_dft_1d E (2 ^ k) m0).2.size)
    (hx : x.blk ≠ 0 ∧ x.blk ≤ m0.next ∧ x.off + 2 * 2 ^ k ≤ m0.size x.blk)
    (hy : y.blk ≠ 0 ∧ y.blk ≤ m0.next ∧ y.off + 2 * 2 ^ k ≤ m0.size y.blk)
    (hz : z.blk ≠ 0 ∧ z.blk ≤ m0.next ∧ z.off + 2 * 2 ^ k ≤ m0.size z.blk) :
    ∃ m1 m2, minfft_dft E fuel x y (minfft_mkaux_dft_1d E (2 ^ k) m0).1 m = some m1 ∧
      minfft_invdft E fuel y z (minfft_mkaux_dft_1d E (2 ^ k) m0).1 m1 = some m2 ∧
      ∀ j, j < 2 ^ k → toC (m2.getC (z.addC j)) = (2 ^ k : ℕ) * toC (m.getC (x.addC j)) := by
  obtain ⟨m1, h1, hs1, hv1, -⟩ := minfft_dft_1d_post E hE k fuel hfuel m0 m x y hm hx hy
  obtain ⟨m2, h2, -, hv2, -⟩ := minfft_invdft_1d_post E hE k fuel hfuel m0 m1 y z
    (by rw [hs1, hm]) hy hz
  refine ⟨m1, m2, h1, h2, ?_⟩
  intro j hj
  rw [hv2 j hj]
  have hN : (2 ^ k : ℕ) ≠ 0 := by positivity
  have hd := dft_dft_inv _ _ (2 ^ k) (exp_root_primitive (2 ^ k) hN) (exp_root_mul_conj (2 ^ k))
    (fun n => toC (m.getC (x.addC n))) j hj
  rw [← hd]
  apply dft_congr
  intro n hn
  rw [hv1 n hn, dft_exp]
  push_cast
  rfl

end Minfft

namespace Minfft

open Cx

/-! ### More on memory: strided cells, real cells, plans -/

section cells

variable {R : Type}

theorem Mem.getC_setC_blk (m : Mem R) (p q : Ptr) (v : Cx R) (h : q.blk ≠ p.blk) :
    (m.setC p v).getC q = m.getC q :=
  Mem.getC_setC_of_disj m p q v (Or.inl h)

theorem Mem.getC_setC_str (m : Mem R) (z : Ptr) (sz a b : ℕ) (v : Cx R) (hsz : 0 < sz)
    (hab : a ≠ b) : (m.setC (z.addC (sz * a)) v).getC (z.addC (sz * b)) = m.getC (z.addC (sz * b)) := by
  apply Mem.getC_setC_of_disj
  right
  simp only [Ptr.addC_off]
  rcases Nat.lt_or_gt_of_ne hab with h | h
  · right
    have : sz * (a + 1) ≤ sz * b := Nat.mul_le_mul_left sz h
    rw [Nat.mul_add, Nat.mul_one] at this
    omega
  · left
    have : sz * (b + 1) ≤ sz * a := Nat.mul_le_mul_left sz h
    rw [Nat.mul_add, Nat.mul_one] at this
    omega

theorem Mem.cell_setC_str_of_not (m : Mem R) (z : Ptr) (sz N a : ℕ) (v : Cx R) (b o : ℕ)
    (ha : a < N) (h : ¬ InStr z sz N b o) :
    (m.setC (z.addC (sz * a)) v).cell b o = m.cell b o := by
  have := not_InStr h a ha
  exact Mem.cell_setC_of_not _ _ _ _ _ this.1 this.2

@[simp] theorem Mem.getR_setR_self (m : Mem R) (p : Ptr) (v : R) : (m.setR p v).getR p = v := by
  simp [Mem.getR, Mem.cell_setR]

theorem Mem.getR_setR_of_ne (m : Mem R) (p q : Ptr) (v : R)
    (h : q.blk ≠ p.blk ∨ q.off ≠ p.off) : (m.setR p v).getR q = m.getR q := by
  simp only [Mem.getR, Mem.cell_setR]
  rw [if_neg]
  rintro ⟨h1, h2⟩
  rcases h with h | h
  · exact h h1
  · exact h h2

theorem Mem.getC_setR_of_ne (m : Mem R) (p q : Ptr) (v : R)
    (h : q.blk ≠ p.blk ∨ p.off < q.off ∨ q.off + 1 < p.off) :
    (m.setR p v).getC q = m.getC q := by
  simp only [Mem.getC, Mem.cell_setR]
  rw [if_neg, if_neg]
  · rintro ⟨h1, h2⟩; omega
  · rintro ⟨h1, h2⟩; omega

theorem Mem.getR_setC_of_ne (m : Mem R) (p q : Ptr) (v : Cx R)
    (h : q.blk ≠ p.blk ∨ q.off < p.off ∨ p.off + 1 < q.off) :
    (m.setC p v).getR q = m.getR q := by
  simp only [Mem.getR, Mem.cell_setC]
  rw [if_neg, if_neg]
  · rintro ⟨h1, h2⟩; omega
  · rintro ⟨h1, h2⟩; omega

theorem Mem.getC_eq_getR (m : Mem R) (p : Ptr) :
    m.getC p = ⟨m.getR p, m.getR (p.addR 1)⟩ := rfl

theorem Mem.getR_setC_re (m : Mem R) (p : Ptr) (v : Cx R) : (m.setC p v).getR p = v.re := by
  simp [Mem.getR, Mem.cell_setC]

theorem Mem.getR_setC_im (m : Mem R) (p : Ptr) (v : Cx R) :
    (m.setC p v).getR (p.addR 1) = v.im := by
  simp [Mem.getR, Mem.cell_setC]

theorem Mem.getC_of_cells {m m' : Mem R} (p : Ptr)
    (h : ∀ o, m'.cell p.blk o = m.cell p.blk o) : m'.getC p = m.getC p :=
  Mem.getC_congr (h _) (h _)

theorem Ptr.addR_addR (p : Ptr) (a b : ℕ) : (p.addR a).addR b = p.addR (a + b) := by
  cases p; simp [Ptr.addR]; ring

@[simp] theorem Ptr.addR_zero (p : Ptr) : p.addR 0 = p := by
  cases p; simp [Ptr.addR]

theorem Ptr.addC_eq_addR (p : Ptr) (n : ℕ) : p.addC n = p.addR (2 * n) := rfl

theorem okC_of_okR {m : Mem R} {p : Ptr} (h : m.okR (p.addR 1)) : m.okC p :=
  ⟨h.1, h.2⟩

theorem okR_of_okC {m : Mem R} {p : Ptr} (h : m.okC p) : m.okR p ∧ m.okR (p.addR 1) :=
  ⟨⟨h.1, by have := h.2; omega⟩, ⟨h.1, h.2⟩⟩

end cells

@[simp] theorem Aux.blks_null {R : Type} : (Aux.null : Aux R).blks = [] := rfl

@[simp] theorem Aux.blks_node {R : Type} (N : ℕ) (t : Ptr) (e : Option (List (Cx R)))
    (s1 s2 : Aux R) : (Aux.node N t e s1 s2).blks = t.blk :: (s1.blks ++ s2.blks) := rfl

theorem DftOK.congrD {w : ℕ → ℂ} {a : Aux ℝ} {k : ℕ} {m m' : Mem ℝ} (h : DftOK w a k m)
    (hs : m'.size = m.size) : DftOK w a k m' := by
  obtain ⟨t, e, s1, s2, ha, hb⟩ := h
  exact ⟨t, e, s1, s2, ha, fun h4 => ⟨fun i hi => (Mem.okC_congr hs _).mpr ((hb h4).1 i hi),
    (hb h4).2⟩⟩

theorem RealOK.congrR {w : ℕ → ℂ} {a : Aux ℝ} {k : ℕ} {m m' : Mem ℝ} (h : RealOK w a k m)
    (hs : m'.size = m.size) : RealOK w a k m' := by
  obtain ⟨t, e, s1, s2, ha, hb⟩ := h
  exact ⟨t, e, s1, s2, ha, fun h2 => ⟨fun i hi => (Mem.okC_congr hs _).mpr ((hb h2).1 i hi),
    (hb h2).2.1, (hb h2).2.2.1.congrD hs, (hb h2).2.2.2⟩⟩

/-- The complex DFT through a valid plan: `s_dft_1d` returns and leaves the
transform in `y[sy*j]`; only these cells and the scratch of the plan change. -/
theorem s_dft_1d_ok (E : Num ℝ) (w : ℕ → ℂ) (hw : Roots E w) (k fuel : ℕ) (x y : Ptr)
    (sy : ℕ) (a : Aux ℝ) (m : Mem ℝ) (ha : DftOK w a k m)
    (hfuel : k < fuel) (hsy : 0 < sy)
    (hx : ∀ i, i < 2 ^ k → m.okC (x.addC i))
    (hy : ∀ j, j < 2 ^ k → m.okC (y.addC (sy * j)))
    (hxa : x.blk ∉ a.blks) (hya : y.blk ∉ a.blks) :
    ∃ m', s_dft_1d E fuel x y sy a m = some m' ∧
      CPost (dft (w k) (2 ^ k) (fun n => toC (m.getC (x.addC n)))) (2 ^ k) y sy a.blks m m' := by
  obtain ⟨t, e, s1, s2, rfl, hb⟩ := ha
  simp only [Aux.blks_node, List.mem_cons, not_or] at hxa hya
  obtain ⟨m', h1, h2, h3, h4, h5⟩ := s_dft_1d_spec E w hw k fuel x y t sy e s1 s2 m hfuel hsy hx hy
    (fun h4 => ⟨(hb h4).1, fun h => hya.1 h.symm, Or.inr hxa.1, (hb h4).2⟩)
  refine ⟨m', h1, h2, h3, h4, ?_⟩
  intro b o hbl hstr
  apply h5 b o hstr
  rintro ⟨-, hb', -⟩
  apply hbl
  simp [hb']

theorem s_invdft_1d_ok (E : Num ℝ) (w : ℕ → ℂ) (hw : Roots E w) (k fuel : ℕ) (x y : Ptr)
    (sy : ℕ) (a : Aux ℝ) (m : Mem ℝ) (ha : DftOK w a k m)
    (hfuel : k < fuel) (hsy : 0 < sy)
    (hx : ∀ i, i < 2 ^ k → m.okC (x.addC i))
    (hy : ∀ j, j < 2 ^ k → m.okC (y.addC (sy * j)))
    (hxa : x.blk ∉ a.blks) (hya : y.blk ∉ a.blks) :
    ∃ m', s_invdft_1d E fuel x y sy a m = some m' ∧
      CPost (dft ((starRingEnd ℂ) (w k)) (2 ^ k) (fun n => toC (m.getC (x.addC n)))) (2 ^ k)
        y sy a.blks m m' := by
  obtain ⟨t, e, s1, s2, rfl, hb⟩ := ha
  simp only [Aux.blks_node, List.mem_cons, not_or] at hxa hya
  obtain ⟨m', h1, h2, h3, h4, h5⟩ := s_invdft_1d_spec E w hw k fuel x y t sy e s1 s2 m hfuel hsy
    hx hy (fun h4 => ⟨(hb h4).1, fun h => hya.1 h.symm, Or.inr hxa.1, (hb h4).2⟩)
  refine ⟨m', h1, h2, h3, h4, ?_⟩
  intro b o hbl hstr
  apply h5 b o hstr
  rintro ⟨-, hb', -⟩
  apply hbl
  simp [hb']

end Minfft

namespace Minfft

open Cx

/-! ### The real DFT `s_realdft_1d` -/

theorem s_realdft_1d_rec_eq {R : Type} [Field R] (H : ℕ) (t z : Ptr) (sz : ℕ) (e : List (Cx R))
    (n : ℕ) (m : Mem R) (en : Cx R)
    (ht0 : m.okC (t.addC n)) (ht1 : m.okC (t.addC (H - n)))
    (hz0 : m.okC (z.addC (sz * n))) (hz1 : m.okC (z.addC (sz * (H - n))))
    (he : e.get? n = some en) :
    s_realdft_1d_rec (2 * H) t z sz e n m = some
      ((m.setC (z.addC (sz * n))
        ((m.getC (t.addC n) + conj (m.getC (t.addC (H - n)))) / ofReal 2 +
          (m.getC (t.addC n) - conj (m.getC (t.addC (H - n)))) * en / (ofReal 2 * I))).setC
        (z.addC (sz * (H - n)))
        (conj ((m.getC (t.addC n) + conj (m.getC (t.addC (H - n)))) / ofReal 2 -
          (m.getC (t.addC n) - conj (m.getC (t.addC (H - n)))) * en / (ofReal 2 * I)))) := by
  have hH : 2 * H / 2 = H := by omega
  simp only [s_realdft_1d_rec, hH, Mem.loadC_of_ok ht0, Mem.loadC_of_ok ht1, Mem.storeC_of_ok,
    Mem.okC_setC, hz0, hz1, he, Option.bind_eq_bind, Option.some_bind, bind]

/-- Effect of the loop "recover results" of `s_realdft_1d`, for `N = 2H = 4Q`. -/
theorem s_realdft_1d_loop (w : ℂ) (H Q : ℕ) (hH : H = 2 * Q) (t z : Ptr) (sz : ℕ)
    (e : List (Cx ℝ)) (m : Mem ℝ) (hsz : 0 < sz) (htz : t.blk ≠ z.blk)
    (ht : ∀ i, i < H → m.okC (t.addC i)) (hz : ∀ j, j < H + 1 → m.okC (z.addC (sz * j)))
    (he : ∀ n, n < Q → ∃ en, e.get? n = some en ∧ toC en = w ^ n) :
    ∃ m', forLoop (s_realdft_1d_rec (2 * H) t z sz e) 1 (Q - 1) m = some m' ∧
      m'.size = m.size ∧ m'.next = m.next ∧
      (∀ n, 1 ≤ n → n < Q →
        toC (m'.getC (z.addC (sz * n))) =
          (toC (m.getC (t.addC n)) + (starRingEnd ℂ) (toC (m.getC (t.addC (H - n))))) / 2 +
          (toC (m.getC (t.addC n)) - (starRingEnd ℂ) (toC (m.getC (t.addC (H - n))))) * w ^ n /
            (2 * Complex.I) ∧
        toC (m'.getC (z.addC (sz * (H - n)))) = (starRingEnd ℂ)
          ((toC (m.getC (t.addC n)) + (starRingEnd ℂ) (toC (m.getC (t.addC (H - n))))) / 2 -
          (toC (m.getC (t.addC n)) - (starRingEnd ℂ) (toC (m.getC (t.addC (H - n))))) * w ^ n /
            (2 * Complex.I))) ∧
      (∀ j, (∀ n, 1 ≤ n → n < Q → j ≠ n ∧ j ≠ H - n) →
        m'.getC (z.addC (sz * j)) = m.getC (z.addC (sz * j))) ∧
      (∀ b o, ¬ InStr z sz (H + 1) b o → m'.cell b o = m.cell b o) := by
  have key := forLoop_inv (s_realdft_1d_rec (2 * H) t z sz e)
    (fun i m' => m'.size = m.size ∧ m'.next = m.next ∧
      (∀ n, 1 ≤ n → n < i →
        toC (m'.getC (z.addC (sz * n))) =
          (toC (m.getC (t.addC n)) + (starRingEnd ℂ) (toC (m.getC (t.addC (H - n))))) / 2 +
          (toC (m.getC (t.addC n)) - (starRingEnd ℂ) (toC (m.getC (t.addC (H - n))))) * w ^ n /
            (2 * Complex.I) ∧
        toC (m'.getC (z.addC (sz * (H - n)))) = (starRingEnd ℂ)
          ((toC (m.getC (t.addC n)) + (starRingEnd ℂ) (toC (m.getC (t.addC (H - n))))) / 2 -
          (toC (m.getC (t.addC n)) - (starRingEnd ℂ) (toC (m.getC (t.addC (H - n))))) * w ^ n /
            (2 * Complex.I))) ∧
      (∀ j, (∀ n, 1 ≤ n → n < i → j ≠ n ∧ j ≠ H - n) →
        m'.getC (z.addC (sz * j)) = m.getC (z.addC (sz * j))) ∧
      (∀ b o, ¬ InStr z sz (H + 1) b o → m'.cell b o = m.cell b o))
    (Q - 1) 1 m
    ⟨rfl, rfl, fun n h1 h2 => by omega, fun _ _ => rfl, fun _ _ _ => rfl⟩
    (by
      rintro i m1 hi1 hi2 ⟨hsz1, hnx1, hA, hB, hC⟩
      have hiQ : i < Q := by omega
      obtain ⟨en, hen, hwn⟩ := he i hiQ
      have tsame : ∀ p, m1.getC (t.addC p) = m.getC (t.addC p) := by
        intro p
        apply Mem.getC_congr
        · exact hC _ _ (fun h => htz h.1)
        · exact hC _ _ (fun h => htz h.1)
      have ok : ∀ p, m1.okC p ↔ m.okC p := Mem.okC_congr hsz1
      have heq := s_realdft_1d_rec_eq H t z sz e i m1 en ((ok _).mpr (ht i (by omega)))
        ((ok _).mpr (ht (H - i) (by omega))) ((ok _).mpr (hz i (by omega)))
        ((ok _).mpr (hz (H - i) (by omega))) hen
      rw [tsame, tsame] at heq
      refine ⟨_, heq, hsz1, hnx1, ?_, ?_, ?_⟩
      · intro n hn1 hn2
        rcases Nat.lt_or_ge n i with hlt | hge
        · obtain ⟨a1, a2⟩ := hA n hn1 hlt
          constructor
          · rw [Mem.getC_setC_str _ _ _ _ _ _ hsz (by omega),
              Mem.getC_setC_str _ _ _ _ _ _ hsz (by omega), a1]
          · rw [Mem.getC_setC_str _ _ _ _ _ _ hsz (by omega),
              Mem.getC_setC_str _ _ _ _ _ _ hsz (by omega), a2]
        · have hni : n = i := by omega
          subst hni
          constructor
          · rw [Mem.getC_setC_str _ _ _ _ _ _ hsz (by omega), Mem.getC_setC_self]
            simp only [toC_add, toC_sub, toC_mul, toC_div, toC_conj, toC_I, toC_ofReal, hwn]
            push_cast
            ring
          · rw [Mem.getC_setC_self]
            simp only [toC_add, toC_sub, toC_mul, toC_div, toC_conj, toC_I, toC_ofReal, hwn]
            push_cast
            ring
      · intro j hj
        have hji := hj i hi1 (by omega)
        rw [Mem.getC_setC_str _ _ _ _ _ _ hsz (fun h => hji.2 h.symm),
          Mem.getC_setC_str _ _ _ _ _ _ hsz (fun h => hji.1 h.symm)]
        exact hB j (fun n h1 h2 => hj n h1 (by omega))
      · intro b o hb
        rw [Mem.cell_setC_str_of_not _ _ _ (H + 1) _ _ _ _ (by omega) hb,
          Mem.cell_setC_str_of_not _ _ _ (H + 1) _ _ _ _ (by omega) hb]
        exact hC b o hb)
  obtain ⟨m', hl, hs, hn, hA, hB, hC⟩ := key
  have eQ : 1 + (Q - 1) = Q ∨ Q = 0 := by omega
  refine ⟨m', hl, hs, hn, ?_, ?_, hC⟩
  · intro n h1 h2
    exact hA n h1 (by omega)
  · intro j hj
    exact hB j (fun n h1 h2 => hj n h1 (by omega))

end Minfft

namespace Minfft

open Cx

theorem toC_eq (z : Cx ℝ) : toC z = (z.re : ℂ) + Complex.I * (z.im : ℂ) := by
  apply Complex.ext <;> simp [toC]

theorem s_realdft_1d_unfold {R : Type} [Field R] (E : Num R) (fuel : ℕ) (x z : Ptr) (sz Q : ℕ)
    (hQ : 1 ≤ Q) (t : Ptr) (e : Option (List (Cx R))) (s1 s2 : Aux R) (m : Mem R) :
    s_realdft_1d E fuel x z sz (Aux.node (4 * Q) t e s1 s2) m =
      (s_dft_1d E fuel x t 1 s1 m).bind (fun m1 =>
        (m1.loadC t).bind (fun u =>
          (m1.storeC z (ofReal (u.re + u.im))).bind (fun m2 =>
            (m2.storeC (z.addC (sz * (2 * Q))) (ofReal (u.re - u.im))).bind (fun m3 =>
              (forLoop (s_realdft_1d_rec (2 * (2 * Q)) t z sz (e.getD [])) 1 (Q - 1) m3).bind
                (fun m4 => (m4.loadC (t.addC Q)).bind (fun tq =>
                  m4.storeC (z.addC (sz * Q)) (conj tq))))))) := by
  have h1 : ¬ 4 * Q = 1 := by omega
  have h2 : ¬ 4 * Q = 2 := by omega
  have e1 : sz * (4 * Q) / 2 = sz * (2 * Q) := by
    have : sz * (4 * Q) = 2 * (sz * (2 * Q)) := by ring
    rw [this, Nat.mul_div_cancel_left _ (by norm_num : 0 < 2)]
  have e2 : sz * (4 * Q) / 4 = sz * Q := by
    have : sz * (4 * Q) = 4 * (sz * Q) := by ring
    rw [this, Nat.mul_div_cancel_left _ (by norm_num : 0 < 4)]
  have e3 : 4 * Q / 4 = Q := by omega
  have e4 : 4 * Q = 2 * (2 * Q) := by ring
  simp only [s_realdft_1d, Aux.N?, Aux.e?, Aux.t?, Aux.sub1?, Option.bind_eq_bind,
    Option.some_bind, bind, if_neg h1, if_neg h2, e1, e2, e3]
  rw [← e4]

/-- The real DFT through a valid plan: `s_realdft_1d` returns and leaves the
bins `0 .. N/2` of the transform of the real input in `z[sz*j]`. -/
theorem s_realdft_1d_ok (E : Num ℝ) (w : ℕ → ℂ) (hw : Roots E w)
    (hu : ∀ k, w k * (starRingEnd ℂ) (w k) = 1) (k fuel : ℕ) (x z : Ptr)
    (sz : ℕ) (a : Aux ℝ) (m : Mem ℝ) (ha : RealOK w a k m)
    (hfuel : k ≤ fuel) (hsz : 0 < sz)
    (hx : ∀ i, i < 2 ^ k → m.okR (x.addR i))
    (hz : ∀ j, j < 2 ^ k / 2 + 1 → m.okC (z.addC (sz * j)))
    (hxa : x.blk ∉ a.blks) (hza : z.blk ∉ a.blks) :
    ∃ m', s_realdft_1d E fuel x z sz a m = some m' ∧
      CPost (dft (w k) (2 ^ k) (fun n => (m.getR (x.addR n) : ℂ))) (2 ^ k / 2 + 1) z sz
        a.blks m m' := by
  obtain ⟨t, e, s1, s2, rfl, hb⟩ := ha
  simp only [Aux.blks_node, List.mem_cons, List.mem_append, not_or] at hxa hza
  match k, hb, hfuel, hx, hz with
  | 0, _, _, hx, hz =>
    have hx0 : m.okR x := by simpa using hx 0 (by norm_num)
    have hz0 : m.okC z := by simpa using hz 0 (by norm_num)
    refine ⟨m.setC z (ofReal (m.getR x)), ?_, rfl, rfl, ?_, ?_⟩
    · simp [s_realdft_1d, Aux.N?, Aux.e?, Aux.t?, Aux.sub1?, Mem.loadR_of_ok hx0,
        Mem.storeC_of_ok hz0]
    · intro j hj
      have hj0 : j = 0 := by
        have : (2 : ℕ) ^ 0 / 2 + 1 = 1 := by norm_num
        omega
      subst hj0
      simp [dft_one_len]
    · intro b o _ hstr
      have h0 := not_InStr hstr 0 (by norm_num)
      simp only [mul_zero, Ptr.addC_zero] at h0
      exact Mem.cell_setC_of_not _ _ _ _ _ h0.1 h0.2
  | 1, _, _, hx, hz =>
    have hx0 : m.okR x := by simpa using hx 0 (by norm_num)
    have hx1 : m.okR (x.addR 1) := hx 1 (by norm_num)
    have hz0 : m.okC z := by simpa using hz 0 (by norm_num)
    have hz1 : m.okC (z.addC sz) := by simpa using hz 1 (by norm_num)
    refine ⟨(m.setC z (ofReal (m.getR x + m.getR (x.addR 1)))).setC (z.addC sz)
      (ofReal (m.getR x - m.getR (x.addR 1))), ?_, rfl, rfl, ?_, ?_⟩
    · simp [s_realdft_1d, Aux.N?, Aux.e?, Aux.t?, Aux.sub1?, Mem.loadR_of_ok hx0,
        Mem.loadR_of_ok hx1, Mem.storeC_of_ok hz0, Mem.storeC_of_ok, hz1]
    · intro j hj
      have hj' : j < 2 := by
        have : (2 : ℕ) ^ 1 / 2 + 1 = 2 := by norm_num
        omega
      rw [pow_one, dft_two, hw.one]
      interval_cases j
      · have := Mem.getC_setC_str (m.setC z (ofReal (m.getR x + m.getR (x.addR 1)))) z sz 1 0
          (ofReal (m.getR x - m.getR (x.addR 1))) hsz (by norm_num)
        simp only [mul_one, mul_zero, Ptr.addC_zero] at this
        simp only [mul_zero, Ptr.addC_zero, this, Mem.getC_setC_self]
        simp
      · simp only [mul_one, Mem.getC_setC_self]
        simp
        ring
    · intro b o _ hstr
      have h0 := not_InStr hstr 0 (by norm_num)
      have h1 := not_InStr hstr 1 (by norm_num)
      simp only [mul_zero, Ptr.addC_zero, mul_one] at h0 h1
      rw [Mem.cell_setC_of_not _ _ _ _ _ h1.1 h1.2, Mem.cell_setC_of_not _ _ _ _ _ h0.1 h0.2]
  | k + 2, hb, hfuel, hx, hz =>
    obtain ⟨ht, he, hs1, hts1⟩ := hb (by omega)
    obtain ⟨Q, hQ⟩ : ∃ Q, Q = 2 ^ k := ⟨_, rfl⟩
    have hQ1 : 1 ≤ Q := by rw [hQ]; exact Nat.one_le_two_pow
    have hN : 2 ^ (k + 2) = 4 * Q := by rw [hQ, pow_succ, pow_succ]; ring
    have hH : 2 ^ (k + 2 - 1) = 2 * Q := by
      rw [hQ, show k + 2 - 1 = k + 1 from rfl, pow_succ]; ring
    have hN4 : 4 * Q / 4 = Q := by omega
    have hN2 : 4 * Q / 2 + 1 = 2 * Q + 1 := by omega
    rw [hN] at hx hz he ⊢
    rw [hH] at ht
    rw [hN4] at he
    rw [hN2] at hz ⊢
    rw [show k + 2 - 1 = k + 1 from rfl] at hs1
    -- the packed complex DFT
    obtain ⟨m1, hd, hsz1, hnx1, hv1, hf1⟩ := s_dft_1d_ok E w hw (k + 1) fuel x t 1 s1 m hs1
      (by omega) (by norm_num)
      (fun i hi => by
        have h2 : 2 ^ (k + 1) = 2 * Q := by rw [hQ, pow_succ]; ring
        rw [h2] at hi
        have := hx (2 * i + 1) (by omega)
        exact okC_of_okR (by rw [Ptr.addC_eq_addR, Ptr.addR_addR]; exact this))
      (fun j hj => by
        have h2 : 2 ^ (k + 1) = 2 * Q := by rw [hQ, pow_succ]; ring
        rw [h2] at hj
        rw [one_mul]; exact ht j hj)
      (fun h => hxa.2.1 h) hts1
    have h2Q : 2 ^ (k + 1) = 2 * Q := by rw [hQ, pow_succ]; ring
    rw [h2Q] at hv1 hf1
    simp only [one_mul] at hv1
    have htz : t.blk ≠ z.blk := fun h => hza.1 h.symm
    have ok1 : ∀ p, m1.okC p ↔ m.okC p := Mem.okC_congr hsz1
    -- the two outer bins
    have okt0 : m1.okC t := by
      have := ht 0 (by omega)
      rw [ok1]; simpa using this
    have okz0 : m1.okC z := by
      have := hz 0 (by omega)
      rw [ok1]; simpa using this
    obtain ⟨u, hudef⟩ : ∃ u, u = m1.getC t := ⟨_, rfl⟩
    obtain ⟨m2, hm2⟩ : ∃ m2, m2 = m1.setC z (ofReal (u.re + u.im)) := ⟨_, rfl⟩
    obtain ⟨m3, hm3⟩ : ∃ m3, m3 = m2.setC (z.addC (sz * (2 * Q))) (ofReal (u.re - u.im)) :=
      ⟨_, rfl⟩
    have hs3 : m3.size = m.size := by rw [hm3, hm2]; exact hsz1
    have ok3 : ∀ p, m3.okC p ↔ m.okC p := Mem.okC_congr hs3
    have t3 : ∀ p, m3.getC (t.addC p) = m1.getC (t.addC p) := by
      intro p
      rw [hm3, hm2, Mem.getC_setC_blk _ _ _ _ (by simpa using htz),
        Mem.getC_setC_blk _ _ _ _ (by simpa using htz)]
    -- the loop
    obtain ⟨m4, hl, hsz4, hnx4, hA, hB, hC⟩ := s_realdft_1d_loop (w (k + 2)) (2 * Q) Q rfl t z sz
      (e.getD []) m3 hsz htz (fun i hi => (ok3 _).mpr (ht i hi))
      (fun j hj => (ok3 _).mpr (hz j hj)) he
    have hs4 : m4.size = m.size := by rw [hsz4, hs3]
    have ok4 : ∀ p, m4.okC p ↔ m.okC p := Mem.okC_congr hs4
    have t4 : ∀ p, m4.getC (t.addC p) = m1.getC (t.addC p) := by
      intro p
      rw [← t3 p]
      apply Mem.getC_congr
      · exact hC _ _ (fun h => htz h.1)
      · exact hC _ _ (fun h => htz h.1)
    refine ⟨m4.setC (z.addC (sz * Q)) (conj (m1.getC (t.addC Q))), ?_, ?_, ?_, ?_, ?_⟩
    · rw [s_realdft_1d_unfold E fuel x z sz Q hQ1, hd, Option.some_bind,
        Mem.loadC_of_ok okt0, Option.some_bind, Mem.storeC_of_ok okz0, Option.some_bind,
        ← hudef, ← hm2, Mem.storeC_of_ok (by rw [hm2]; exact (ok1 _).mpr (hz _ (by omega))),
        Option.some_bind, ← hm3, hl, Option.some_bind,
        Mem.loadC_of_ok ((ok4 _).mpr (ht Q (by omega))), Option.some_bind, t4,
        Mem.storeC_of_ok ((ok4 _).mpr (hz Q (by omega)))]
    · exact hs4
    · show m4.next = m.next
      rw [hnx4, hm3, hm2]; exact hnx1
    · -- values
      obtain ⟨X, hX⟩ : ∃ X : ℕ → ℝ, ∀ n, X n = m.getR (x.addR n) := ⟨_, fun _ => rfl⟩
      obtain ⟨T, hT⟩ : ∃ T : ℕ → ℂ, ∀ j, T j = dft (w (k + 2) ^ 2) (2 * Q)
          (fun j => (X (2 * j) : ℂ) + Complex.I * (X (2 * j + 1) : ℂ)) j := ⟨_, fun _ => rfl⟩
      have hwH : w (k + 2) ^ (2 * Q) = -1 := by
        have := hw.pow_two_pow 1 (k + 1)
        rw [hw.one, show 1 + (k + 1) = k + 2 by ring, h2Q] at this
        exact this
      have hwQ : w (k + 2) ^ Q = -Complex.I := by rw [hQ]; exact hw.quarter k
      obtain ⟨z0, zH, zg⟩ := realdft_unpack (w (k + 2)) (2 * Q) X hwH (hu (k + 2)) T
        (fun j => dft (w (k + 2)) (2 * (2 * Q)) (fun n => (X n : ℂ)) j) hT (fun _ => rfl)
      have hTm : ∀ j, j < 2 * Q → toC (m1.getC (t.addC j)) = T j := by
        intro j hj
        rw [hv1 j hj, hT, hw.sq (k + 1)]
        apply dft_congr
        intro n _
        rw [toC_eq, hX, hX]
        rfl
      have e4 : 4 * Q = 2 * (2 * Q) := by ring
      simp only [← hX]
      rw [e4]
      intro j hj
      rcases Nat.lt_or_ge j Q with hjQ | hjQ
      · rw [Mem.getC_setC_str _ _ _ _ _ _ hsz (by omega)]
        rcases Nat.eq_zero_or_pos j with hj0 | hj0
        · subst hj0
          rw [hB 0 (fun n h1 h2 => by omega), hm3,
            Mem.getC_setC_str _ _ _ _ _ _ hsz (by omega), hm2, mul_zero, Ptr.addC_zero,
            Mem.getC_setC_self, z0, ← hTm 0 (by omega), hudef]
          simp
        · rw [(hA j hj0 hjQ).1, t3, t3, hTm j (by omega), hTm (2 * Q - j) (by omega)]
          exact ((zg j (by omega)).1).symm
      · rcases Nat.eq_or_lt_of_le hjQ with hjq | hjq
        · subst hjq
          rw [Mem.getC_setC_self, toC_conj, hTm Q (by omega)]
          have := (zg Q (by omega)).1
          have hsub : 2 * Q - Q = Q := by omega
          rw [hsub, hwQ] at this
          rw [this]
          have hI : Complex.I ≠ 0 := Complex.I_ne_zero
          field_simp
          ring
        · rw [Mem.getC_setC_str _ _ _ _ _ _ hsz (by omega)]
          rcases Nat.eq_or_lt_of_le (Nat.lt_succ_iff.mp hj) with hjH | hjH
          · subst hjH
            rw [hB (2 * Q) (fun n h1 h2 => by omega), hm3, Mem.getC_setC_self, zH,
              ← hTm 0 (by omega), hudef]
            simp
          · have hn : 2 * Q - (2 * Q - j) = j := by omega
            have := (hA (2 * Q - j) (by omega) (by omega)).2
            rw [hn] at this
            rw [this, t3, t3, hTm (2 * Q - j) (by omega), hTm j (by omega)]
            have h2 := (zg (2 * Q - j) (by omega)).2
            rw [hn] at h2
            exact h2.symm
    · -- frame
      intro b o hbl hstr
      simp only [Aux.blks_node, List.mem_cons, List.mem_append, not_or] at hbl
      rw [Mem.cell_setC_str_of_not _ _ _ (2 * Q + 1) _ _ _ _ (by omega) hstr, hC b o hstr, hm3,
        Mem.cell_setC_str_of_not _ _ _ (2 * Q + 1) _ _ _ _ (by omega) hstr, hm2]
      have h0 := not_InStr hstr 0 (by omega)
      simp only [mul_zero, Ptr.addC_zero] at h0
      rw [Mem.cell_setC_of_not _ _ _ _ _ h0.1 h0.2]
      exact hf1 b o hbl.2.1 (fun h => hbl.1 h.1)

end Minfft

namespace Minfft

open Cx

/-- The plan of `minfft_mkaux_dft_1d`, at the level of blocks: it is valid in
every memory with the block sizes the builder left, and its scratch is the
null block or a block the caller did not have. -/
theorem mkaux_dft_1d_plan (E : Num ℝ) (hE : E.Exact) (w : ℕ → ℂ)
    (hw : ∀ k, w k = Complex.exp (-2 * Real.pi * Complex.I / 2 ^ k)) (k : ℕ) (m0 m : Mem ℝ)
    (hm : m.size = (minfft_mkaux_dft_1d E (2 ^ k) m0).2.size) :
    DftOK w (minfft_mkaux_dft_1d E (2 ^ k) m0).1 k m ∧
      (∀ b, b ∈ (minfft_mkaux_dft_1d E (2 ^ k) m0).1.blks → b = 0 ∨ m0.next < b) ∧
      (∀ b, b ≤ m0.next → m.size b = m0.size b) ∧
      m0.next ≤ (minfft_mkaux_dft_1d E (2 ^ k) m0).2.next := by
  obtain ⟨t, e, ha, hsz, hbig⟩ := mkaux_dft_1d_ok E hE w hw k m0 m hm
  refine ⟨?_, ?_, hsz, ?_⟩
  · rw [ha]
    exact ⟨t, e, _, _, rfl, fun h4 => ⟨(hbig h4).2.2.1, (hbig h4).2.2.2⟩⟩
  · rcases Nat.lt_or_ge k 4 with hk | hk
    · rw [mkaux_dft_1d_small E k hk]
      intro b hb
      left
      simpa [Ptr.null] using hb
    · rw [mkaux_dft_1d_big E k hk]
      intro b hb
      right
      have : b = m0.next + 1 := by simpa using hb
      omega
  · rcases Nat.lt_or_ge k 4 with hk | hk
    · rw [mkaux_dft_1d_small E k hk]
    · rw [mkaux_dft_1d_big E k hk]
      simp [Mem.malloc]

theorem mkaux_realdft_1d_small {R : Type} [Field R] (E : Num R) (k : ℕ) (hk : k < 2)
    (m0 : Mem R) :
    minfft_mkaux_realdft_1d E (2 ^ k) m0 =
      (Aux.node (2 ^ k) Ptr.null none Aux.null Aux.null, m0) := by
  have : ¬ 4 ≤ 2 ^ k := by
    have : 2 ^ k < 2 ^ 2 := Nat.pow_lt_pow_right (by norm_num) hk
    omega
  rw [minfft_mkaux_realdft_1d, if_neg this]

theorem mkaux_realdft_1d_big {R : Type} [Field R] (E : Num R) (k : ℕ) (m0 : Mem R) :
    minfft_mkaux_realdft_1d E (2 ^ (k + 2)) m0 =
      (Aux.node (2 ^ (k + 2)) ⟨m0.next + 1, 0⟩
        (some ((List.range (2 ^ k)).map (fun n => tw1 E n (2 ^ (k + 2)))))
        (minfft_mkaux_dft_1d E (2 ^ (k + 1)) (m0.malloc (2 * 2 ^ (k + 1))).2).1 Aux.null,
        (minfft_mkaux_dft_1d E (2 ^ (k + 1)) (m0.malloc (2 * 2 ^ (k + 1))).2).2) := by
  have h4 : 4 ≤ 2 ^ (k + 2) := by
    have : 2 ^ 2 ≤ 2 ^ (k + 2) := Nat.pow_le_pow_right (by norm_num) (by omega)
    omega
  have e1 : 2 ^ (k + 2) / 2 = 2 ^ (k + 1) := by
    rw [pow_succ]; omega
  have e2 : 2 ^ (k + 2) / 4 = 2 ^ k := by
    rw [pow_succ, pow_succ]; omega
  rw [minfft_mkaux_realdft_1d, if_pos h4]
  simp only [e1, e2]
  rfl

/-- The plan of `minfft_mkaux_realdft_1d`, at the level of blocks. -/
theorem mkaux_realdft_1d_plan (E : Num ℝ) (hE : E.Exact) (w : ℕ → ℂ)
    (hw : ∀ k, w k = Complex.exp (-2 * Real.pi * Complex.I / 2 ^ k)) (k : ℕ) (m0 m : Mem ℝ)
    (hm : m.size = (minfft_mkaux_realdft_1d E (2 ^ k) m0).2.size) :
    RealOK w (minfft_mkaux_realdft_1d E (2 ^ k) m0).1 k m ∧
      (∀ b, b ∈ (minfft_mkaux_realdft_1d E (2 ^ k) m0).1.blks → b = 0 ∨ m0.next < b) ∧
      (∀ b, b ≤ m0.next → m.size b = m0.size b) ∧
      m0.next ≤ (minfft_mkaux_realdft_1d E (2 ^ k) m0).2.next := by
  rcases Nat.lt_or_ge k 2 with hk | hk
  · rw [mkaux_realdft_1d_small E k hk] at hm ⊢
    refine ⟨⟨_, _, _, _, rfl, fun h => by omega⟩, ?_, fun b _ => by rw [hm], le_refl _⟩
    intro b hb
    left
    simpa [Ptr.null] using hb
  · obtain ⟨k, rfl⟩ : ∃ k', k = k' + 2 := ⟨k - 2, by omega⟩
    rw [mkaux_realdft_1d_big E k m0] at hm ⊢
    obtain ⟨hd, hfr, hsz, hnx⟩ := mkaux_dft_1d_plan E hE w hw (k + 1)
      (m0.malloc (2 * 2 ^ (k + 1))).2 m hm
    have hnext : (m0.malloc (2 * 2 ^ (k + 1))).2.next = m0.next + 1 := rfl
    rw [hnext] at hfr hsz hnx
    refine ⟨⟨_, _, _, _, rfl, fun _ => ⟨?_, ?_, hd, ?_⟩⟩, ?_, ?_, by simp only; omega⟩
    · intro i hi
      rw [show k + 2 - 1 = k + 1 from rfl] at hi
      refine ⟨by simp, ?_⟩
      simp only [Ptr.addC_blk, Ptr.addC_off]
      rw [hsz _ (le_refl _)]
      simp only [Mem.malloc, if_true]
      omega
    · intro n hn
      have e2 : 2 ^ (k + 2) / 4 = 2 ^ k := by
        rw [pow_succ, pow_succ]; omega
      rw [e2] at hn
      refine ⟨tw1 E n (2 ^ (k + 2)), ?_, ?_⟩
      · simp [List.getElem?_map, List.getElem?_range hn]
      · rw [toC_tw1 hE, hw]
        push_cast
        rfl
    · intro h
      rcases hfr _ h with h0 | h0
      · simp at h0
      · simp at h0
    · intro b hb
      simp only [Aux.blks_node, Aux.blks_null, List.append_nil, List.mem_cons] at hb
      rcases hb with hb | hb
      · right; rw [hb]; simp
      · rcases hfr b hb with h0 | h0
        · left; exact h0
        · right; omega
    · intro b hb
      rw [hsz b (by omega)]
      simp only [Mem.malloc]
      rw [if_neg (by omega)]

theorem minfft_realdft_leaf {R : Type} [Field R] (E : Num R) (fuel : ℕ) (x z : Ptr) (N : ℕ)
    (t : Ptr) (e : Option (List (Cx R))) (s1 : Aux R) (m : Mem R) :
    minfft_realdft E fuel x z (Aux.node N t e s1 Aux.null) m =
      s_realdft_1d E fuel x z 1 (Aux.node N t e s1 Aux.null) m := by
  simp [minfft_realdft, Aux.sub2?, Aux.isNull]

theorem okR_of_region {m0 m : Mem ℝ} {x : Ptr} {N i : ℕ}
    (hx : x.blk ≠ 0 ∧ x.blk ≤ m0.next ∧ x.off + N ≤ m0.size x.blk)
    (hm : ∀ b, b ≤ m0.next → m.size b = m0.size b) (hi : i < N) : m.okR (x.addR i) := by
  refine ⟨hx.1, ?_⟩
  simp only [Ptr.addR_blk, Ptr.addR_off]
  rw [hm _ hx.2.1]
  omega

theorem not_mem_blks {R : Type} {a : Aux R} {n : ℕ} {x : Ptr}
    (hfr : ∀ b, b ∈ a.blks → b = 0 ∨ n < b) (h0 : x.blk ≠ 0) (hn : x.blk ≤ n) :
    x.blk ∉ a.blks := by
  intro h
  rcases hfr _ h with h | h <;> omega

theorem realdft_leaf_shape {R : Type} [Field R] (E : Num R) (N : ℕ) (m0 : Mem R) :
    ∃ t e s1, (minfft_mkaux_realdft_1d E N m0).1 = Aux.node N t e s1 Aux.null := by
  unfold minfft_mkaux_realdft_1d
  split
  · exact ⟨_, _, _, rfl⟩
  · exact ⟨_, _, _, rfl⟩

/-- Effect of `minfft_realdft` with the plan of `minfft_mkaux_realdft_1d (2^k)`,
in any memory with the block sizes the builder left. -/
theorem minfft_realdft_1d_post (E : Num ℝ) (hE : E.Exact) (k fuel : ℕ) (hfuel : k ≤ fuel)
    (m0 m : Mem ℝ) (x z : Ptr)
    (hm : m.size = (minfft_mkaux_realdft_1d E (2 ^ k) m0).2.size)
    (hx : x.blk ≠ 0 ∧ x.blk ≤ m0.next ∧ x.off + 2 ^ k ≤ m0.size x.blk)
    (hz : z.blk ≠ 0 ∧ z.blk ≤ m0.next ∧ z.off + 2 * (2 ^ k / 2 + 1) ≤ m0.size z.blk) :
    ∃ m', minfft_realdft E fuel x z (minfft_mkaux_realdft_1d E (2 ^ k) m0).1 m = some m' ∧
      m'.size = m.size ∧
      (∀ j, j < 2 ^ k / 2 + 1 → toC (m'.getC (z.addC j)) =
        ∑ n in Finset.range (2 ^ k),
          (m.getR (x.addR n) : ℂ) * Complex.exp (-2 * Real.pi * Complex.I * n * j / 2 ^ k)) ∧
      (∀ b o, b ≠ 0 → b ≤ m0.next → ¬ InBuf z (2 * (2 ^ k / 2 + 1)) b o →
        m'.cell b o = m.cell b o) := by
  obtain ⟨w, hw⟩ : ∃ w : ℕ → ℂ, ∀ k, w k = Complex.exp (-2 * Real.pi * Complex.I / 2 ^ k) :=
    ⟨_, fun _ => rfl⟩
  obtain ⟨hr, hfr, hsz, -⟩ := mkaux_realdft_1d_plan E hE w hw k m0 m hm
  obtain ⟨t, e, s1, ha⟩ := realdft_leaf_shape E (2 ^ k) m0
  have hu : ∀ k, w k * (starRingEnd ℂ) (w k) = 1 := by
    intro k
    rw [hw]
    have := exp_root_mul_conj (2 ^ k)
    push_cast at this
    exact this
  obtain ⟨m', h1, h2, -, h4, h5⟩ := s_realdft_1d_ok E w (Roots.of_exact hE w hw) hu k fuel x z 1
    _ m hr hfuel (by norm_num) (fun i hi => okR_of_region hx hsz hi)
    (fun j hj => by rw [one_mul]; exact okC_of_region hz hsz hj)
    (not_mem_blks hfr hx.1 hx.2.1) (not_mem_blks hfr hz.1 hz.2.1)
  refine ⟨m', ?_, h2, ?_, ?_⟩
  · rw [ha, minfft_realdft_leaf, ← ha]
    exact h1
  · intro j hj
    have := h4 j hj
    rw [one_mul, hw] at this
    rw [this]
    have := dft_exp (2 ^ k) (fun n => (m.getR (x.addR n) : ℂ)) j
    push_cast at this
    exact this
  · intro b o hb0 hb hz'
    apply h5
    · intro hmem
      rcases hfr _ hmem with h | h <;> omega
    · rintro ⟨hb', j, hj, ho⟩
      apply hz'
      refine ⟨hb', ?_, ?_⟩ <;> omega

end Minfft

namespace Minfft

open Cx

/-- There is an exact numeric environment. -/
theorem exact_env_exists : ∃ E : Num ℝ, E.Exact :=
  ⟨⟨Real.pi, Real.sqrt 2, Real.sqrt 2 / 2, fun z => fromC (Complex.exp (toC z))⟩,
    rfl, rfl, rfl, fun _ => rfl⟩

/-- The bins of a real DFT of length 4, by the powers of `-i`. -/
theorem realdft_bins_1234 (f : ℕ → ℝ) (j : ℕ) :
    ∑ n in Finset.range (2 ^ 2),
        (f n : ℂ) * Complex.exp (-2 * Real.pi * Complex.I * n * j / 2 ^ 2) =
      (f 0 : ℂ) + f 1 * (-Complex.I) ^ j + f 2 * (-Complex.I) ^ (2 * j)
        + f 3 * (-Complex.I) ^ (3 * j) := by
  have e : ∀ n : ℕ, Complex.exp (-2 * Real.pi * Complex.I * n * j / 2 ^ 2) =
      (-Complex.I) ^ (n * j) := by
    intro n
    rw [← exp_root_two, ← Complex.exp_nat_mul]
    congr 1
    push_cast
    ring
  simp only [e]
  norm_num [Finset.sum_range_succ]

/-- Claim C3: for every `N = 2^k` and every real input `x` of length `N`,
`minfft_realdft` with the plan of `minfft_mkaux_realdft_1d N` returns and
leaves in `z[j]`, `j = 0 .. N/2`, the bins `Σ x[n] exp(-2πi n j / N)`, in exact
arithmetic, changing no cell of the caller outside these `N/2+1` bins; for
`N = 4` the input `[1, 2, 3, 4]` gives `[10, -2+2i, -2]`. -/
theorem minfft_realdft_1d_correct (E : Num ℝ) (hE : E.Exact) (k fuel : ℕ) (hfuel : k ≤ fuel)
    (m0 m : Mem ℝ) (x z : Ptr)
    (hm : m.size = (minfft_mkaux_realdft_1d E (2 ^ k) m0).2.size)
    (hx : x.blk ≠ 0 ∧ x.blk ≤ m0.next ∧ x.off + 2 ^ k ≤ m0.size x.blk)
    (hz : z.blk ≠ 0 ∧ z.blk ≤ m0.next ∧ z.off + 2 * (2 ^ k / 2 + 1) ≤ m0.size z.blk) :
    ∃ m', minfft_realdft E fuel x z (minfft_mkaux_realdft_1d E (2 ^ k) m0).1 m = some m' ∧
      m'.size = m.size ∧
      (∀ j, j < 2 ^ k / 2 + 1 → toC (m'.getC (z.addC j)) =
        ∑ n in Finset.range (2 ^ k),
          (m.getR (x.addR n) : ℂ) * Complex.exp (-2 * Real.pi * Complex.I * n * j / 2 ^ k)) ∧
      (∀ b o, b ≠ 0 → b ≤ m0.next → ¬ InBuf z (2 * (2 ^ k / 2 + 1)) b o →
        m'.cell b o = m.cell b o) ∧
      (k = 2 → m.getR (x.addR 0) = 1 → m.getR (x.addR 1) = 2 → m.getR (x.addR 2) = 3 →
        m.getR (x.addR 3) = 4 →
        m'.getC (z.addC 0) = ⟨10, 0⟩ ∧ m'.getC (z.addC 1) = ⟨-2, 2⟩ ∧
          m'.getC (z.addC 2) = ⟨-2, 0⟩) := by
  obtain ⟨m', h1, h2, h3, h4⟩ := minfft_realdft_1d_post E hE k fuel hfuel m0 m x z hm hx hz
  refine ⟨m', h1, h2, h3, h4, ?_⟩
  rintro rfl a0 a1 a2 a3
  have hb := realdft_bins_1234 (fun n => m.getR (x.addR n))
  simp only [a0, a1, a2, a3] at hb
  refine ⟨toC_injective ?_, toC_injective ?_, toC_injective ?_⟩
  · rw [h3 0 (by norm_num), hb 0]
    apply Complex.ext <;> norm_num
  · rw [h3 1 (by norm_num), hb 1]
    apply Complex.ext <;> norm_num [pow_succ]
  · rw [h3 2 (by norm_num), hb 2]
    apply Complex.ext <;> norm_num [pow_succ]

theorem minfft_realdft_1d_correct_witness :
    ∃ E : Num ℝ, E.Exact ∧
      ∃ m', minfft_realdft E 2 ⟨1, 0⟩ ⟨2, 0⟩
          (minfft_mkaux_realdft_1d E (2 ^ 2) ⟨2, fun _ => 6, fun _ o => (o : ℝ) + 1⟩).1
          (minfft_mkaux_realdft_1d E (2 ^ 2) ⟨2, fun _ => 6, fun _ o => (o : ℝ) + 1⟩).2
            = some m' ∧
        m'.getC ((⟨2, 0⟩ : Ptr).addC 0) = ⟨10, 0⟩ ∧
        m'.getC ((⟨2, 0⟩ : Ptr).addC 1) = ⟨-2, 2⟩ ∧
        m'.getC ((⟨2, 0⟩ : Ptr).addC 2) = ⟨-2, 0⟩ := by
  obtain ⟨E, hE⟩ := exact_env_exists
  obtain ⟨m', h1, -, -, -, h5⟩ := minfft_realdft_1d_correct E hE 2 2 (by decide)
    ⟨2, fun _ => 6, fun _ o => (o : ℝ) + 1⟩
    (minfft_mkaux_realdft_1d E (2 ^ 2) ⟨2, fun _ => 6, fun _ o => (o : ℝ) + 1⟩).2
    ⟨1, 0⟩ ⟨2, 0⟩ rfl
    ⟨by decide, by decide, by decide⟩ ⟨by decide, by decide, by decide⟩
  refine ⟨E, hE, m', h1, h5 rfl ?_ ?_ ?_ ?_⟩
  · show ((0 + 0 : ℕ) : ℝ) + 1 = 1
    norm_num
  · show ((0 + 1 : ℕ) : ℝ) + 1 = 2
    norm_num
  · show ((0 + 2 : ℕ) : ℝ) + 1 = 3
    norm_num
  · show ((0 + 3 : ℕ) : ℝ) + 1 = 4
    norm_num

end Minfft

namespace Minfft

open Cx

/-! ### The inverse real DFT `invrealdft_1d` -/

theorem Mem.getC_setC_idx {R : Type} (m : Mem R) (z : Ptr) (a b : ℕ) (v : Cx R) (hab : a ≠ b) :
    (m.setC (z.addC a) v).getC (z.addC b) = m.getC (z.addC b) := by
  have := Mem.getC_setC_str m z 1 a b v (by norm_num) hab
  simpa using this

theorem Mem.cell_setC_idx_of_not {R : Type} (m : Mem R) (z : Ptr) (N a : ℕ) (v : Cx R) (b o : ℕ)
    (ha : a < N) (h : ¬ InStr z 1 N b o) : (m.setC (z.addC a) v).cell b o = m.cell b o := by
  have := Mem.cell_setC_str_of_not m z 1 N a v b o ha h
  simpa using this

theorem invrealdft_1d_prep_eq {R : Type} [Field R] (H : ℕ) (z : Ptr) (e : List (Cx R))
    (n : ℕ) (m : Mem R) (en : Cx R)
    (hz0 : m.okC (z.addC n)) (hz1 : m.okC (z.addC (H - n))) (he : e.get? n = some en) :
    invrealdft_1d_prep (2 * H) z e n m = some
      ((m.setC (z.addC n)
        ((m.getC (z.addC n) + conj (m.getC (z.addC (H - n)))) +
          I * (m.getC (z.addC n) - conj (m.getC (z.addC (H - n)))) * conj en)).setC
        (z.addC (H - n))
        (conj ((m.getC (z.addC n) + conj (m.getC (z.addC (H - n)))) -
          I * (m.getC (z.addC n) - conj (m.getC (z.addC (H - n)))) * conj en))) := by
  have hH : 2 * H / 2 = H := by omega
  simp only [invrealdft_1d_prep, hH, Mem.loadC_of_ok hz0, Mem.loadC_of_ok hz1, Mem.storeC_of_ok,
    Mem.okC_setC, hz0, hz1, he, Option.bind_eq_bind, Option.some_bind, bind]

/-- Effect of the loop "prepare complex DFT inputs" of `invrealdft_1d`, for
`N = 2H = 4Q`. -/
theorem invrealdft_1d_loop (w : ℂ) (H Q : ℕ) (hH : H = 2 * Q) (z : Ptr)
    (e : List (Cx ℝ)) (m : Mem ℝ) (hz : ∀ j, j < H + 1 → m.okC (z.addC j))
    (he : ∀ n, n < Q → ∃ en, e.get? n = some en ∧ toC en = w ^ n) :
    ∃ m', forLoop (invrealdft_1d_prep (2 * H) z e) 1 (Q - 1) m = some m' ∧
      m'.size = m.size ∧ m'.next = m.next ∧
      (∀ n, 1 ≤ n → n < Q →
        toC (m'.getC (z.addC n)) =
          (toC (m.getC (z.addC n)) + (starRingEnd ℂ) (toC (m.getC (z.addC (H - n))))) +
          Complex.I * (toC (m.getC (z.addC n)) -
            (starRingEnd ℂ) (toC (m.getC (z.addC (H - n))))) * (starRingEnd ℂ) (w ^ n) ∧
        toC (m'.getC (z.addC (H - n))) = (starRingEnd ℂ)
          ((toC (m.getC (z.addC n)) + (starRingEnd ℂ) (toC (m.getC (z.addC (H - n))))) -
          Complex.I * (toC (m.getC (z.addC n)) -
            (starRingEnd ℂ) (toC (m.getC (z.addC (H - n))))) * (starRingEnd ℂ) (w ^ n))) ∧
      (∀ j, (∀ n, 1 ≤ n → n < Q → j ≠ n ∧ j ≠ H - n) →
        m'.getC (z.addC j) = m.getC (z.addC j)) ∧
      (∀ b o, ¬ InStr z 1 (H + 1) b o → m'.cell b o = m.cell b o) := by
  have key := forLoop_inv (invrealdft_1d_prep (2 * H) z e)
    (fun i m' => m'.size = m.size ∧ m'.next = m.next ∧
      (∀ n, 1 ≤ n → n < i →
        toC (m'.getC (z.addC n)) =
          (toC (m.getC (z.addC n)) + (starRingEnd ℂ) (toC (m.getC (z.addC (H - n))))) +
          Complex.I * (toC (m.getC (z.addC n)) -
            (starRingEnd ℂ) (toC (m.getC (z.addC (H - n))))) * (starRingEnd ℂ) (w ^ n) ∧
        toC (m'.getC (z.addC (H - n))) = (starRingEnd ℂ)
          ((toC (m.getC (z.addC n)) + (starRingEnd ℂ) (toC (m.getC (z.addC (H - n))))) -
          Complex.I * (toC (m.getC (z.addC n)) -
            (starRingEnd ℂ) (toC (m.getC (z.addC (H - n))))) * (starRingEnd ℂ) (w ^ n))) ∧
      (∀ j, (∀ n, 1 ≤ n → n < i → j ≠ n ∧ j ≠ H - n) →
        m'.getC (z.addC j) = m.getC (z.addC j)) ∧
      (∀ b o, ¬ InStr z 1 (H + 1) b o → m'.cell b o = m.cell b o))
    (Q - 1) 1 m
    ⟨rfl, rfl, fun n h1 h2 => by omega, fun _ _ => rfl, fun _ _ _ => rfl⟩
    (by
      rintro i m1 hi1 hi2 ⟨hsz1, hnx1, hA, hB, hC⟩
      have hiQ : i < Q := by omega
      obtain ⟨en, hen, hwn⟩ := he i hiQ
      have ok : ∀ p, m1.okC p ↔ m.okC p := Mem.okC_congr hsz1
      have heq := invrealdft_1d_prep_eq H z e i m1 en ((ok _).mpr (hz i (by omega)))
        ((ok _).mpr (hz (H - i) (by omega))) hen
      have s1 : m1.getC (z.addC i) = m.getC (z.addC i) :=
        hB i (fun n h1 h2 => by omega)
      have s2 : m1.getC (z.addC (H - i)) = m.getC (z.addC (H - i)) :=
        hB (H - i) (fun n h1 h2 => by omega)
      rw [s1, s2] at heq
      refine ⟨_, heq, hsz1, hnx1, ?_, ?_, ?_⟩
      · intro n hn1 hn2
        rcases Nat.lt_or_ge n i with hlt | hge
        · obtain ⟨a1, a2⟩ := hA n hn1 hlt
          constructor
          · rw [Mem.getC_setC_idx _ _ _ _ _ (by omega),
              Mem.getC_setC_idx _ _ _ _ _ (by omega), a1]
          · rw [Mem.getC_setC_idx _ _ _ _ _ (by omega),
              Mem.getC_setC_idx _ _ _ _ _ (by omega), a2]
        · have hni : n = i := by omega
          subst hni
          constructor
          · rw [Mem.getC_setC_idx _ _ _ _ _ (by omega), Mem.getC_setC_self]
            simp only [toC_add, toC_sub, toC_mul, toC_conj, toC_I, hwn]
          · rw [Mem.getC_setC_self]
            simp only [toC_add, toC_sub, toC_mul, toC_conj, toC_I, hwn]
      · intro j hj
        have hji := hj i hi1 (by omega)
        rw [Mem.getC_setC_idx _ _ _ _ _ (fun h => hji.2 h.symm),
          Mem.getC_setC_idx _ _ _ _ _ (fun h => hji.1 h.symm)]
        exact hB j (fun n h1 h2 => hj n h1 (by omega))
      · intro b o hb
        rw [Mem.cell_setC_idx_of_not _ _ (H + 1) _ _ _ _ (by omega) hb,
          Mem.cell_setC_idx_of_not _ _ (H + 1) _ _ _ _ (by omega) hb]
        exact hC b o hb)
  obtain ⟨m', hl, hs, hn, hA, hB, hC⟩ := key
  refine ⟨m', hl, hs, hn, ?_, ?_, hC⟩
  · intro n h1 h2
    exact hA n h1 (by omega)
  · intro j hj
    exact hB j (fun n h1 h2 => hj n h1 (by omega))

theorem invrealdft_1d_unfold {R : Type} [Field R] (E : Num R) (fuel : ℕ) (z y : Ptr) (Q : ℕ)
    (hQ : 1 ≤ Q) (t : Ptr) (e : Option (List (Cx R))) (s1 s2 : Aux R) (m : Mem R) :
    invrealdft_1d E fuel z y (Aux.node (4 * Q) t e s1 s2) m =
      (m.loadC z).bind (fun z0 =>
        (m.loadC (z.addC (2 * Q))).bind (fun zh =>
          (m.storeC z ((z0 + zh) + I * (z0 - zh))).bind (fun m1 =>
            (forLoop (invrealdft_1d_prep (2 * (2 * Q)) z (e.getD [])) 1 (Q - 1) m1).bind
              (fun m2 => (m2.loadC (z.addC Q)).bind (fun zq =>
                (m2.storeC (z.addC Q) (ofReal 2 * conj zq)).bind (fun m3 =>
                  s_invdft_1d E fuel z y 1 s1 m3)))))) := by
  have h1 : ¬ 4 * Q = 1 := by omega
  have h2 : ¬ 4 * Q = 2 := by omega
  have e1 : 4 * Q / 2 = 2 * Q := by omega
  have e3 : 4 * Q / 4 = Q := by omega
  have e4 : 4 * Q = 2 * (2 * Q) := by ring
  simp only [invrealdft_1d, Aux.N?, Aux.e?, Aux.sub1?, Option.bind_eq_bind,
    Option.some_bind, bind, if_neg h1, if_neg h2, e1, e3]
  rw [← e4]

/-- The inverse real DFT through a valid plan, for `N = 2^(k+2)`: when the
preparation turns the bins in `z` into the values `P n`, `n < N/2`, then
`invrealdft_1d` returns and leaves in `y`, read as `N/2` complex numbers, the
inverse complex DFT of `P`. -/
theorem invrealdft_1d_ok (E : Num ℝ) (w : ℕ → ℂ) (hw : Roots E w) (k fuel : ℕ) (z y : Ptr)
    (a : Aux ℝ) (m : Mem ℝ) (ha : RealOK w a (k + 2) m) (hfuel : k + 1 < fuel)
    (hz : ∀ j, j < 2 ^ (k + 1) + 1 → m.okC (z.addC j))
    (hy : ∀ i, i < 2 ^ (k + 2) → m.okR (y.addR i))
    (hza : z.blk ∉ a.blks) (hya : y.blk ∉ a.blks) (P : ℕ → ℂ)
    (hP0 : P 0 = (toC (m.getC z) + toC (m.getC (z.addC (2 ^ (k + 1))))) +
      Complex.I * (toC (m.getC z) - toC (m.getC (z.addC (2 ^ (k + 1))))))
    (hPn : ∀ n, 1 ≤ n → n < 2 ^ k →
      P n = (toC (m.getC (z.addC n)) +
          (starRingEnd ℂ) (toC (m.getC (z.addC (2 ^ (k + 1) - n))))) +
        Complex.I * (toC (m.getC (z.addC n)) -
          (starRingEnd ℂ) (toC (m.getC (z.addC (2 ^ (k + 1) - n))))) *
          (starRingEnd ℂ) (w (k + 2) ^ n) ∧
      P (2 ^ (k + 1) - n) = (starRingEnd ℂ) ((toC (m.getC (z.addC n)) +
          (starRingEnd ℂ) (toC (m.getC (z.addC (2 ^ (k + 1) - n))))) -
        Complex.I * (toC (m.getC (z.addC n)) -
          (starRingEnd ℂ) (toC (m.getC (z.addC (2 ^ (k + 1) - n))))) *
          (starRingEnd ℂ) (w (k + 2) ^ n)))
    (hPQ : P (2 ^ k) = 2 * (starRingEnd ℂ) (toC (m.getC (z.addC (2 ^ k))))) :
    ∃ m', invrealdft_1d E fuel z y a m = some m' ∧ m'.size = m.size ∧
      (∀ j, j < 2 ^ (k + 1) → toC (m'.getC (y.addC j)) =
        dft ((starRingEnd ℂ) (w (k + 1))) (2 ^ (k + 1)) P j) := by
  obtain ⟨t, e, s1, s2, rfl, hb⟩ := ha
  simp only [Aux.blks_node, List.mem_cons, List.mem_append, not_or] at hza hya
  obtain ⟨-, he, hs1, -⟩ := hb (by omega)
  obtain ⟨Q, hQ⟩ : ∃ Q, Q = 2 ^ k := ⟨_, rfl⟩
  have hQ1 : 1 ≤ Q := by rw [hQ]; exact Nat.one_le_two_pow
  have hN : 2 ^ (k + 2) = 4 * Q := by rw [hQ, pow_succ, pow_succ]; ring
  have h2Q : 2 ^ (k + 1) = 2 * Q := by rw [hQ, pow_succ]; ring
  have hN4 : 4 * Q / 4 = Q := by omega
  rw [show k + 2 - 1 = k + 1 from rfl] at hs1
  rw [hN] at hy he ⊢
  rw [hN4] at he
  rw [h2Q] at hz hP0 hPn ⊢
  rw [← hQ] at hPn hPQ
  have okz0 : m.okC z := by simpa using hz 0 (by omega)
  obtain ⟨m1, hm1⟩ : ∃ m1, m1 = m.setC z ((m.getC z + m.getC (z.addC (2 * Q))) +
      I * (m.getC z - m.getC (z.addC (2 * Q)))) := ⟨_, rfl⟩
  have hs1' : m1.size = m.size := by rw [hm1]; rfl
  have ok1 : ∀ p, m1.okC p ↔ m.okC p := Mem.okC_congr hs1'
  have z1 : ∀ j, j ≠ 0 → m1.getC (z.addC j) = m.getC (z.addC j) := by
    intro j hj
    have := Mem.getC_setC_idx m z 0 j ((m.getC z + m.getC (z.addC (2 * Q))) +
      I * (m.getC z - m.getC (z.addC (2 * Q)))) (fun h => hj h.symm)
    rw [Ptr.addC_zero] at this
    rw [hm1, this]
  obtain ⟨m2, hl, hsz2, hnx2, hA, hB, hC⟩ := invrealdft_1d_loop (w (k + 2)) (2 * Q) Q rfl z
    (e.getD []) m1 (fun j hj => (ok1 _).mpr (hz j hj)) he
  have hs2 : m2.size = m.size := by rw [hsz2, hs1']
  have ok2 : ∀ p, m2.okC p ↔ m.okC p := Mem.okC_congr hs2
  have zq : m2.getC (z.addC Q) = m.getC (z.addC Q) := by
    rw [hB Q (fun n h1 h2 => by omega), z1 Q (by omega)]
  obtain ⟨m3, hm3⟩ : ∃ m3, m3 = m2.setC (z.addC Q) (ofReal 2 * conj (m.getC (z.addC Q))) :=
    ⟨_, rfl⟩
  have hs3 : m3.size = m.size := by rw [hm3]; exact hs2
  have ok3 : ∀ p, m3.okC p ↔ m.okC p := Mem.okC_congr hs3
  -- the prepared values
  have hP : ∀ n, n < 2 * Q → toC (m3.getC (z.addC n)) = P n := by
    intro n hn
    rcases Nat.lt_or_ge n Q with hnQ | hnQ
    · rw [hm3, Mem.getC_setC_idx _ _ _ _ _ (by omega)]
      rcases Nat.eq_zero_or_pos n with h0 | h0
      · subst h0
        have := hB 0 (fun n h1 h2 => by omega)
        rw [Ptr.addC_zero] at this
        rw [Ptr.addC_zero, this, hm1, Mem.getC_setC_self, hP0]
        simp
      · rw [(hA n h0 hnQ).1, z1 n (by omega), z1 (2 * Q - n) (by omega)]
        exact ((hPn n h0 hnQ).1).symm
    · rcases Nat.eq_or_lt_of_le hnQ with hq | hq
      · subst hq
        rw [hm3, Mem.getC_setC_self, hPQ]
        simp
      · have hn' : 2 * Q - (2 * Q - n) = n := by omega
        have a2 := (hA (2 * Q - n) (by omega) (by omega)).2
        have p2 := (hPn (2 * Q - n) (by omega) (by omega)).2
        rw [hn'] at a2 p2
        rw [hm3, Mem.getC_setC_idx _ _ _ _ _ (by omega), a2, z1 n (by omega),
          z1 (2 * Q - n) (by omega), p2]
  obtain ⟨m4, hd, hsz4, -, hv4, -⟩ := s_invdft_1d_ok E w hw (k + 1) fuel z y 1 s1 m3
    (hs1.congrD hs3) hfuel (by norm_num)
    (fun i hi => by
      rw [h2Q] at hi
      exact (ok3 _).mpr (hz i (by omega)))
    (fun j hj => by
      rw [h2Q] at hj
      rw [one_mul]
      apply (ok3 _).mpr
      have := hy (2 * j + 1) (by omega)
      exact okC_of_okR (by rw [Ptr.addC_eq_addR, Ptr.addR_addR]; exact this))
    (fun h => hza.2.1 h) (fun h => hya.2.1 h)
  rw [h2Q] at hv4
  refine ⟨m4, ?_, by rw [hsz4, hs3], ?_⟩
  · rw [invrealdft_1d_unfold E fuel z y Q hQ1, Mem.loadC_of_ok okz0, Option.some_bind,
      Mem.loadC_of_ok (hz (2 * Q) (by omega)), Option.some_bind, Mem.storeC_of_ok okz0,
      Option.some_bind, ← hm1, hl, Option.some_bind,
      Mem.loadC_of_ok ((ok2 _).mpr (hz Q (by omega))), Option.some_bind, zq,
      Mem.storeC_of_ok ((ok2 _).mpr (hz Q (by omega))), Option.some_bind, ← hm3]
    exact hd
  · intro j hj
    have := hv4 j hj
    rw [one_mul] at this
    rw [this]
    apply dft_congr
    intro n hn
    exact hP n hn

end Minfft

namespace Minfft

open Cx

/-! ### Real DFT followed by the inverse real DFT -/

/-- The preparation of `invrealdft_1d` undoes the unpacking of `s_realdft_1d`,
up to the factor 2. -/
theorem realdft_repack (w : ℂ) (H : ℕ) (xr : ℕ → ℝ) (hw : w ^ H = -1)
    (hu : w * (starRingEnd ℂ) w = 1) (T Z : ℕ → ℂ)
    (hT : ∀ k, T k = dft (w ^ 2) H
      (fun j => (xr (2 * j) : ℂ) + Complex.I * (xr (2 * j + 1) : ℂ)) k)
    (hZ : ∀ k, Z k = dft w (2 * H) (fun n => (xr n : ℂ)) k) :
    2 * T 0 = (Z 0 + Z H) + Complex.I * (Z 0 - Z H) ∧
    (∀ n, n ≤ H →
      2 * T n = (Z n + (starRingEnd ℂ) (Z (H - n))) +
        Complex.I * (Z n - (starRingEnd ℂ) (Z (H - n))) * (starRingEnd ℂ) (w ^ n) ∧
      2 * T (H - n) = (starRingEnd ℂ) ((Z n + (starRingEnd ℂ) (Z (H - n))) -
        Complex.I * (Z n - (starRingEnd ℂ) (Z (H - n))) * (starRingEnd ℂ) (w ^ n))) := by
  obtain ⟨z0, zH, zg⟩ := realdft_unpack w H xr hw hu T Z hT hZ
  constructor
  · rw [z0, zH]
    apply Complex.ext <;> simp <;> ring
  · intro n hn
    obtain ⟨a1, a2⟩ := zg n hn
    have hun : w ^ n * (starRingEnd ℂ) (w ^ n) = 1 := by
      rw [map_pow, ← mul_pow, hu, one_pow]
    have hI : Complex.I ≠ 0 := Complex.I_ne_zero
    have hc : (starRingEnd ℂ) (Z (H - n)) =
        (T n + (starRingEnd ℂ) (T (H - n))) / 2 -
          (T n - (starRingEnd ℂ) (T (H - n))) * w ^ n / (2 * Complex.I) := by
      rw [a2, Complex.conj_conj]
    have e1 : (Z n + (starRingEnd ℂ) (Z (H - n))) = T n + (starRingEnd ℂ) (T (H - n)) := by
      rw [hc, a1]; ring
    have e2 : Complex.I * (Z n - (starRingEnd ℂ) (Z (H - n))) * (starRingEnd ℂ) (w ^ n) =
        T n - (starRingEnd ℂ) (T (H - n)) := by
      rw [hc, a1]
      have : Complex.I * ((T n + (starRingEnd ℂ) (T (H - n))) / 2 +
          (T n - (starRingEnd ℂ) (T (H - n))) * w ^ n / (2 * Complex.I) -
          ((T n + (starRingEnd ℂ) (T (H - n))) / 2 -
          (T n - (starRingEnd ℂ) (T (H - n))) * w ^ n / (2 * Complex.I))) *
          (starRingEnd ℂ) (w ^ n) =
          (T n - (starRingEnd ℂ) (T (H - n))) * (w ^ n * (starRingEnd ℂ) (w ^ n)) := by
        field_simp
        ring
      rw [this, hun, mul_one]
    rw [e1, e2]
    constructor
    · ring
    · have : T n + (starRingEnd ℂ) (T (H - n)) - (T n - (starRingEnd ℂ) (T (H - n))) =
          2 * (starRingEnd ℂ) (T (H - n)) := by ring
      rw [this, map_mul, Complex.conj_conj, map_ofNat]

theorem dft_smul {K : Type} [CommRing K] (w c : K) (N : ℕ) (f : ℕ → K) (j : ℕ) :
    dft w N (fun n => c * f n) j = c * dft w N f j := by
  unfold dft
  rw [Finset.mul_sum]
  apply Finset.sum_congr rfl
  intro n _
  ring

theorem invrealdft_1d_one {R : Type} [Field R] (E : Num R) (fuel : ℕ) (z y : Ptr) (t : Ptr)
    (e : Option (List (Cx R))) (s1 s2 : Aux R) (m : Mem R) (hz : m.okC z) (hy : m.okR y) :
    invrealdft_1d E fuel z y (Aux.node 1 t e s1 s2) m = some (m.setR y (m.getC z).re) := by
  simp [invrealdft_1d, Aux.N?, Aux.e?, Aux.sub1?, Mem.loadC_of_ok hz, Mem.storeR_of_ok hy]

theorem invrealdft_1d_two {R : Type} [Field R] (E : Num R) (fuel : ℕ) (z y : Ptr) (t : Ptr)
    (e : Option (List (Cx R))) (s1 s2 : Aux R) (m : Mem R) (hz : m.okC z)
    (hz1 : m.okC (z.addC 1)) (hy : m.okR y) (hy1 : m.okR (y.addR 1)) :
    invrealdft_1d E fuel z y (Aux.node 2 t e s1 s2) m =
      some ((m.setR y ((m.getC z).re + (m.getC (z.addC 1)).re)).setR (y.addR 1)
        ((m.getC z).re - (m.getC (z.addC 1)).re)) := by
  simp [invrealdft_1d, Aux.N?, Aux.e?, Aux.sub1?, Mem.loadC_of_ok hz, Mem.loadC_of_ok hz1,
    Mem.storeR_of_ok hy, Mem.storeR_of_ok, hy1]

/-- Round trip through a valid plan: `s_realdft_1d` from `x` to `z`, then
`invrealdft_1d` from `z` to `y`, leaves `N * x[i]` in `y[i]`. -/
theorem realdft_invrealdft_ok (E : Num ℝ) (w : ℕ → ℂ) (hw : Roots E w)
    (hu : ∀ k, w k * (starRingEnd ℂ) (w k) = 1)
    (hprim : ∀ k, IsPrimitiveRoot (w k) (2 ^ k)) (k fuel : ℕ) (x z y : Ptr)
    (a : Aux ℝ) (m : Mem ℝ) (ha : RealOK w a k m) (hfuel : k ≤ fuel)
    (hx : ∀ i, i < 2 ^ k → m.okR (x.addR i))
    (hz : ∀ j, j < 2 ^ k / 2 + 1 → m.okC (z.addC j))
    (hy : ∀ i, i < 2 ^ k → m.okR (y.addR i))
    (hxa : x.blk ∉ a.blks) (hza : z.blk ∉ a.blks) (hya : y.blk ∉ a.blks) :
    ∃ m1 m2, s_realdft_1d E fuel x z 1 a m = some m1 ∧
      invrealdft_1d E fuel z y a m1 = some m2 ∧ m2.size = m.size ∧
      ∀ i, i < 2 ^ k → m2.getR (y.addR i) = (2 ^ k : ℕ) * m.getR (x.addR i) := by
  obtain ⟨m1, h1, hs1, -, hv1, -⟩ := s_realdft_1d_ok E w hw hu k fuel x z 1 a m ha hfuel
    (by norm_num) hx (fun j hj => by rw [one_mul]; exact hz j hj) hxa hza
  simp only [one_mul] at hv1
  have ok1 : ∀ p, m1.okC p ↔ m.okC p := Mem.okC_congr hs1
  have okr1 : ∀ p, m1.okR p ↔ m.okR p := Mem.okR_congr hs1
  refine ⟨m1, ?_⟩
  match k, ha, hfuel, hx, hz, hy, h1, hv1 with
  | 0, ha, _, hx, hz, hy, h1, hv1 =>
    obtain ⟨t, e, s1, s2, rfl, -⟩ := ha
    have hz0 : m1.okC z := by
      rw [ok1]; simpa using hz 0 (by norm_num)
    have hy0 : m1.okR y := by
      rw [okr1]; simpa using hy 0 (by norm_num)
    refine ⟨_, h1, invrealdft_1d_one E fuel z y t e s1 s2 m1 hz0 hy0, hs1, ?_⟩
    intro i hi
    have hi0 : i = 0 := by simpa using hi
    subst hi0
    have := hv1 0 (by norm_num)
    rw [pow_zero, dft_one_len, Ptr.addC_zero] at this
    rw [Ptr.addR_zero, Mem.getR_setR_self, ← toC_re, this]
    simp
  | 1, ha, _, hx, hz, hy, h1, hv1 =>
    obtain ⟨t, e, s1, s2, rfl, -⟩ := ha
    have hz0 : m1.okC z := by
      rw [ok1]; simpa using hz 0 (by norm_num)
    have hz1 : m1.okC (z.addC 1) := by
      rw [ok1]; exact hz 1 (by norm_num)
    have hy0 : m1.okR y := by
      rw [okr1]; simpa using hy 0 (by norm_num)
    have hy1 : m1.okR (y.addR 1) := by
      rw [okr1]; exact hy 1 (by norm_num)
    refine ⟨_, h1, invrealdft_1d_two E fuel z y t e s1 s2 m1 hz0 hz1 hy0 hy1, hs1, ?_⟩
    have v0 := hv1 0 (by norm_num)
    have v1 := hv1 1 (by norm_num)
    rw [pow_one, dft_two, hw.one, Ptr.addC_zero] at v0
    rw [pow_one, dft_two, hw.one] at v1
    have r0 : (m1.getC z).re = m.getR (x.addR 0) + m.getR (x.addR 1) := by
      rw [← toC_re, v0]; simp
    have r1 : (m1.getC (z.addC 1)).re = m.getR (x.addR 0) - m.getR (x.addR 1) := by
      rw [← toC_re, v1]; simp; ring
    intro i hi
    have hi2 : i < 2 := by simpa using hi
    interval_cases i
    · rw [Ptr.addR_zero, Mem.getR_setR_of_ne _ _ _ _ (Or.inr (by simp)), Mem.getR_setR_self,
        r0, r1]
      simp
      ring
    · rw [Mem.getR_setR_self, r0, r1]
      simp
      ring
  | k + 2, ha, hfuel, hx, hz, hy, h1, hv1 =>
    have h2Q : 2 ^ (k + 2) / 2 + 1 = 2 ^ (k + 1) + 1 := by
      rw [pow_succ 2 (k + 1)]; omega
    have hN : 2 ^ (k + 2) = 2 * 2 ^ (k + 1) := by rw [pow_succ]; ring
    have hHQ : 2 ^ (k + 1) = 2 * 2 ^ k := by rw [pow_succ]; ring
    have hQ1 : 1 ≤ 2 ^ k := Nat.one_le_two_pow
    rw [h2Q] at hz hv1
    obtain ⟨X, hX⟩ : ∃ X : ℕ → ℝ, ∀ n, X n = m.getR (x.addR n) := ⟨_, fun _ => rfl⟩
    obtain ⟨W, hW⟩ : ∃ W : ℕ → ℂ, ∀ j, W j = (X (2 * j) : ℂ) + Complex.I * (X (2 * j + 1) : ℂ) :=
      ⟨_, fun _ => rfl⟩
    obtain ⟨T, hT⟩ : ∃ T : ℕ → ℂ, ∀ j, T j = dft (w (k + 2) ^ 2) (2 ^ (k + 1))
        (fun j => (X (2 * j) : ℂ) + Complex.I * (X (2 * j + 1) : ℂ)) j := ⟨_, fun _ => rfl⟩
    obtain ⟨Z, hZ⟩ : ∃ Z : ℕ → ℂ, ∀ j, Z j = dft (w (k + 2)) (2 * 2 ^ (k + 1))
        (fun n => (X n : ℂ)) j := ⟨_, fun _ => rfl⟩
    have hwH : w (k + 2) ^ (2 ^ (k + 1)) = -1 := by
      have := hw.pow_two_pow 1 (k + 1)
      rw [hw.one, show 1 + (k + 1) = k + 2 by ring] at this
      exact this
    have hwQ : w (k + 2) ^ (2 ^ k) = -Complex.I := hw.quarter k
    obtain ⟨p0, pg⟩ := realdft_repack (w (k + 2)) (2 ^ (k + 1)) X hwH (hu (k + 2)) T Z hT hZ
    have hzv : ∀ j, j < 2 ^ (k + 1) + 1 → toC (m1.getC (z.addC j)) = Z j := by
      intro j hj
      rw [hv1 j hj, hZ, hN]
      apply dft_congr
      intro n _
      rw [hX]
    have hzv0 : toC (m1.getC z) = Z 0 := by
      have := hzv 0 (by omega)
      rwa [Ptr.addC_zero] at this
    obtain ⟨m2, h2, hs2, hv2⟩ := invrealdft_1d_ok E w hw k fuel z y a m1 (ha.congrR hs1)
      (by omega) (fun j hj => (ok1 _).mpr (hz j hj)) (fun i hi => (okr1 _).mpr (hy i hi))
      hza hya (fun n => 2 * T n)
      (by rw [hzv0, hzv _ (by omega)]; exact p0)
      (fun n hn1 hn2 => by
        rw [hzv n (by omega), hzv (2 ^ (k + 1) - n) (by omega)]
        exact pg n (by omega))
      (by
        rw [hzv _ (by omega)]
        have := (pg (2 ^ k) (by omega)).1
        have hsub : 2 ^ (k + 1) - 2 ^ k = 2 ^ k := by omega
        rw [hsub, map_pow, ← map_pow, hwQ] at this
        show 2 * T (2 ^ k) = _
        rw [this]
        simp only [map_neg, Complex.conj_I]
        ring_nf
        rw [Complex.I_sq]
        ring)
    refine ⟨m2, h1, h2, by rw [hs2, hs1], ?_⟩
    -- the inverse transform of the doubled packed transform
    have hpk : ∀ j, j < 2 ^ (k + 1) →
        toC (m2.getC (y.addC j)) = (2 ^ (k + 2) : ℕ) * W j := by
      intro j hj
      rw [hv2 j hj, dft_smul]
      have hd := dft_dft_inv (w (k + 1)) ((starRingEnd ℂ) (w (k + 1))) (2 ^ (k + 1))
        (hprim (k + 1)) (hu (k + 1)) W j hj
      have hTW : ∀ n, T n = dft (w (k + 1)) (2 ^ (k + 1)) W n := by
        intro n
        rw [hT, hw.sq (k + 1)]
        apply dft_congr
        intro i _
        rw [hW]
      have : dft ((starRingEnd ℂ) (w (k + 1))) (2 ^ (k + 1)) T j =
          dft ((starRingEnd ℂ) (w (k + 1))) (2 ^ (k + 1)) (dft (w (k + 1)) (2 ^ (k + 1)) W) j := by
        apply dft_congr
        intro n _
        exact hTW n
      rw [this, hd, hN]
      push_cast
      ring
    intro i hi
    have hj : i / 2 < 2 ^ (k + 1) := by omega
    have hp := hpk (i / 2) hj
    rw [hW, Mem.getC_eq_getR] at hp
    rcases Nat.mod_two_eq_zero_or_one i with hi0 | hi1
    · have e : 2 * (i / 2) = i := by omega
      have := congrArg Complex.re hp
      rw [Ptr.addC_eq_addR, e] at this
      simp only [toC_mk, Complex.mul_re, Complex.add_re, Complex.ofReal_re, Complex.I_re,
        Complex.I_im, Complex.ofReal_im, Complex.natCast_re, Complex.natCast_im,
        Complex.add_im, Complex.mul_im] at this
      rw [this, hX]
      ring
    · have e : 2 * (i / 2) + 1 = i := by omega
      have := congrArg Complex.im hp
      rw [Ptr.addC_eq_addR, Ptr.addR_addR, e] at this
      simp only [toC_mk, Complex.mul_re, Complex.add_re, Complex.ofReal_re, Complex.I_re,
        Complex.I_im, Complex.ofReal_im, Complex.natCast_re, Complex.natCast_im,
        Complex.add_im, Complex.mul_im] at this
      rw [this, hX]
      ring

end Minfft

namespace Minfft

open Cx

theorem minfft_invrealdft_leaf {R : Type} [Field R] (E : Num R) (fuel : ℕ) (z y : Ptr) (N : ℕ)
    (t : Ptr) (e : Option (List (Cx R))) (s1 : Aux R) (m : Mem R) :
    minfft_invrealdft E fuel z y (Aux.node N t e s1 Aux.null) m =
      invrealdft_1d E fuel z y (Aux.node N t e s1 Aux.null) m := by
  simp [minfft_invrealdft, Aux.sub2?, Aux.isNull]

theorem exp_roots_unit (w : ℕ → ℂ)
    (hw : ∀ k, w k = Complex.exp (-2 * Real.pi * Complex.I / 2 ^ k)) (k : ℕ) :
    w k * (starRingEnd ℂ) (w k) = 1 := by
  rw [hw]
  have := exp_root_mul_conj (2 ^ k)
  push_cast at this
  exact this

theorem exp_roots_primitive (w : ℕ → ℂ)
    (hw : ∀ k, w k = Complex.exp (-2 * Real.pi * Complex.I / 2 ^ k)) (k : ℕ) :
    IsPrimitiveRoot (w k) (2 ^ k) := by
  rw [hw]
  have := exp_root_primitive (2 ^ k) (by positivity)
  push_cast at this
  exact this

/-- Effect of `minfft_realdft` followed by `minfft_invrealdft` with the plan of
`minfft_mkaux_realdft_1d (2^k)`. -/
theorem minfft_realdft_invrealdft_1d (E : Num ℝ) (hE : E.Exact) (k fuel : ℕ) (hfuel : k ≤ fuel)
    (m0 m : Mem ℝ) (x z y : Ptr)
    (hm : m.size = (minfft_mkaux_realdft_1d E (2 ^ k) m0).2.size)
    (hx : x.blk ≠ 0 ∧ x.blk ≤ m0.next ∧ x.off + 2 ^ k ≤ m0.size x.blk)
    (hz : z.blk ≠ 0 ∧ z.blk ≤ m0.next ∧ z.off + 2 * (2 ^ k / 2 + 1) ≤ m0.size z.blk)
    (hy : y.blk ≠ 0 ∧ y.blk ≤ m0.next ∧ y.off + 2 ^ k ≤ m0.size y.blk) :
    ∃ m1 m2, minfft_realdft E fuel x z (minfft_mkaux_realdft_1d E (2 ^ k) m0).1 m = some m1 ∧
      minfft_invrealdft E fuel z y (minfft_mkaux_realdft_1d E (2 ^ k) m0).1 m1 = some m2 ∧
      ∀ i, i < 2 ^ k → m2.getR (y.addR i) = (2 ^ k : ℕ) * m.getR (x.addR i) := by
  obtain ⟨w, hw⟩ : ∃ w : ℕ → ℂ, ∀ k, w k = Complex.exp (-2 * Real.pi * Complex.I / 2 ^ k) :=
    ⟨_, fun _ => rfl⟩
  obtain ⟨hr, hfr, hsz, -⟩ := mkaux_realdft_1d_plan E hE w hw k m0 m hm
  obtain ⟨t, e, s1, ha⟩ := realdft_leaf_shape E (2 ^ k) m0
  obtain ⟨m1, m2, h1, h2, -, h3⟩ := realdft_invrealdft_ok E w (Roots.of_exact hE w hw)
    (exp_roots_unit w hw) (exp_roots_primitive w hw) k fuel x z y _ m hr hfuel
    (fun i hi => okR_of_region hx hsz hi) (fun j hj => okC_of_region hz hsz hj)
    (fun i hi => okR_of_region hy hsz hi)
    (not_mem_blks hfr hx.1 hx.2.1) (not_mem_blks hfr hz.1 hz.2.1) (not_mem_blks hfr hy.1 hy.2.1)
  refine ⟨m1, m2, ?_, ?_, h3⟩
  · rw [ha, minfft_realdft_leaf, ← ha]
    exact h1
  · rw [ha, minfft_invrealdft_leaf, ← ha]
    exact h2

/-- Claim C4: for every `N = 2^k` and every real input `x` of length `N`,
`minfft_realdft` from `x` to `z` followed by `minfft_invrealdft` from the
`N/2+1` bins in `z` to `y`, with the same plan of `minfft_mkaux_realdft_1d N`,
returns and leaves `N * x[i]` in `y[i]` for every `i < N`, in exact
arithmetic. -/
theorem minfft_realdft_invrealdft_roundtrip (E : Num ℝ) (hE : E.Exact) (k fuel : ℕ)
    (hfuel : k ≤ fuel) (m0 m : Mem ℝ) (x z y : Ptr)
    (hm : m.size = (minfft_mkaux_realdft_1d E (2 ^ k) m0).2.size)
    (hx : x.blk ≠ 0 ∧ x.blk ≤ m0.next ∧ x.off + 2 ^ k ≤ m0.size x.blk)
    (hz : z.blk ≠ 0 ∧ z.blk ≤ m0.next ∧ z.off + 2 * (2 ^ k / 2 + 1) ≤ m0.size z.blk)
    (hy : y.blk ≠ 0 ∧ y.blk ≤ m0.next ∧ y.off + 2 ^ k ≤ m0.size y.blk) :
    ∃ m1 m2, minfft_realdft E fuel x z (minfft_mkaux_realdft_1d E (2 ^ k) m0).1 m = some m1 ∧
      minfft_invrealdft E fuel z y (minfft_mkaux_realdft_1d E (2 ^ k) m0).1 m1 = some m2 ∧
      ∀ i, i < 2 ^ k → m2.getR (y.addR i) = (2 ^ k : ℕ) * m.getR (x.addR i) :=
  minfft_realdft_invrealdft_1d E hE k fuel hfuel m0 m x z y hm hx hz hy

theorem minfft_realdft_invrealdft_roundtrip_witness :
    ∃ E : Num ℝ, E.Exact ∧
      ∃ m1 m2, minfft_realdft E 6 ⟨1, 0⟩ ⟨2, 0⟩
          (minfft_mkaux_realdft_1d E (2 ^ 6) ⟨3, fun _ => 66, fun _ o => (o : ℝ)⟩).1
          (minfft_mkaux_realdft_1d E (2 ^ 6) ⟨3, fun _ => 66, fun _ o => (o : ℝ)⟩).2
            = some m1 ∧
        minfft_invrealdft E 6 ⟨2, 0⟩ ⟨3, 0⟩
          (minfft_mkaux_realdft_1d E (2 ^ 6) ⟨3, fun _ => 66, fun _ o => (o : ℝ)⟩).1 m1
            = some m2 ∧
        ∀ i, i < 2 ^ 6 → m2.getR ((⟨3, 0⟩ : Ptr).addR i) = (2 ^ 6 : ℕ) *
          (minfft_mkaux_realdft_1d E (2 ^ 6) ⟨3, fun _ => 66, fun _ o => (o : ℝ)⟩).2.getR
            ((⟨1, 0⟩ : Ptr).addR i) := by
  obtain ⟨E, hE⟩ := exact_env_exists
  exact ⟨E, hE, minfft_realdft_invrealdft_roundtrip E hE 6 6 (by decide)
    ⟨3, fun _ => 66, fun _ o => (o : ℝ)⟩ _ ⟨1, 0⟩ ⟨2, 0⟩ ⟨3, 0⟩ rfl
    ⟨by decide, by decide, by decide⟩ ⟨by decide, by decide, by decide⟩
    ⟨by decide, by decide, by decide⟩⟩

end Minfft

namespace Minfft

open Cx

/-! ### The transforms of length one -/

theorem mkaux_t2t3_1d_one {R : Type} [Field R] (E : Num R) (m0 : Mem R) :
    (minfft_mkaux_t2t3_1d E 1 m0).1 =
      Aux.node 1 Ptr.null none (Aux.node 1 Ptr.null none Aux.null Aux.null) Aux.null := by
  simp [minfft_mkaux_t2t3_1d, minfft_mkaux_realdft_1d]

theorem mkaux_t4_1d_one {R : Type} [Field R] (E : Num R) (m0 : Mem R) :
    (minfft_mkaux_t4_1d E 1 m0).1 =
      Aux.node 1 Ptr.null none (Aux.node 0 Ptr.null none Aux.null Aux.null) Aux.null := by
  simp [minfft_mkaux_t4_1d, minfft_mkaux_dft_1d]

theorem symmetric_one {R : Type} [Field R] (E : Num R) (fuel : ℕ) (m0 m : Mem R) (x y : Ptr)
    (hx : m.okR x) (hy : m.okR y) :
    minfft_dct2 E fuel x y (minfft_mkaux_t2t3_1d E 1 m0).1 m = some (m.setR y (2 * m.getR x)) ∧
    minfft_dst2 E fuel x y (minfft_mkaux_t2t3_1d E 1 m0).1 m = some (m.setR y (2 * m.getR x)) ∧
    minfft_dct3 E fuel x y (minfft_mkaux_t2t3_1d E 1 m0).1 m = some (m.setR y (m.getR x)) ∧
    minfft_dst3 E fuel x y (minfft_mkaux_t2t3_1d E 1 m0).1 m = some (m.setR y (m.getR x)) ∧
    minfft_dct4 E fuel x y (minfft_mkaux_t4_1d E 1 m0).1 m =
      some (m.setR y (E.sqrt2 * m.getR x)) ∧
    minfft_dst4 E fuel x y (minfft_mkaux_t4_1d E 1 m0).1 m =
      some (m.setR y (E.sqrt2 * m.getR x)) := by
  rw [mkaux_t2t3_1d_one, mkaux_t4_1d_one]
  refine ⟨?_, ?_, ?_, ?_, ?_, ?_⟩
  · simp [minfft_dct2, s_dct2, make_real_transform, Aux.isNull, s_dct2_1d, Aux.N?, Aux.t?,
      Aux.e?, Aux.sub1?, Mem.loadR_of_ok hx, Mem.storeR_of_ok hy]
  · simp [minfft_dst2, s_dst2, make_real_transform, Aux.isNull, s_dst2_1d, Aux.N?, Aux.t?,
      Aux.e?, Aux.sub1?, Mem.loadR_of_ok hx, Mem.storeR_of_ok hy]
  · simp [minfft_dct3, s_dct3, make_real_transform, Aux.isNull, s_dct3_1d, Aux.N?, Aux.t?,
      Aux.e?, Aux.sub1?, Mem.loadR_of_ok hx, Mem.storeR_of_ok hy]
  · simp [minfft_dst3, s_dst3, make_real_transform, Aux.isNull, s_dst3_1d, Aux.N?, Aux.t?,
      Aux.e?, Aux.sub1?, Mem.loadR_of_ok hx, Mem.storeR_of_ok hy]
  · simp [minfft_dct4, s_dct4, make_real_transform, Aux.isNull, s_dct4_1d, Aux.N?, Aux.t?,
      Aux.e?, Aux.sub1?, Mem.loadR_of_ok hx, Mem.storeR_of_ok hy]
  · simp [minfft_dst4, s_dst4, make_real_transform, Aux.isNull, s_dst4_1d, Aux.N?, Aux.t?,
      Aux.e?, Aux.sub1?, Mem.loadR_of_ok hx, Mem.storeR_of_ok hy]

theorem Mem.setR_only {R : Type} (m : Mem R) (y : Ptr) (v : R) :
    (m.setR y v).getR y = v ∧ (m.setR y v).size = m.size ∧
      ∀ b o, ¬ (b = y.blk ∧ o = y.off) → (m.setR y v).cell b o = m.cell b o := by
  refine ⟨Mem.getR_setR_self m y v, rfl, ?_⟩
  intro b o h
  rw [Mem.cell_setR, if_neg h]

/-- Claim C10: for `N = 1`, with the plans of `minfft_mkaux_t2t3_1d 1` and
`minfft_mkaux_t4_1d 1` and every real `x0` in `x[0]`: `minfft_dct2` and
`minfft_dst2` store `2 * x0`, `minfft_dct3` and `minfft_dst3` store `x0`,
`minfft_dct4` and `minfft_dst4` store `sqrt2 * x0`; each of them writes the
cell `y[0]` and no other cell. -/
theorem symmetric_transforms_length_one {R : Type} [Field R] (E : Num R) (fuel : ℕ)
    (m0 m : Mem R) (x y : Ptr) (hx : m.okR x) (hy : m.okR y) :
    minfft_dct2 E fuel x y (minfft_mkaux_t2t3_1d E 1 m0).1 m = some (m.setR y (2 * m.getR x)) ∧
    minfft_dst2 E fuel x y (minfft_mkaux_t2t3_1d E 1 m0).1 m = some (m.setR y (2 * m.getR x)) ∧
    minfft_dct3 E fuel x y (minfft_mkaux_t2t3_1d E 1 m0).1 m = some (m.setR y (m.getR x)) ∧
    minfft_dst3 E fuel x y (minfft_mkaux_t2t3_1d E 1 m0).1 m = some (m.setR y (m.getR x)) ∧
    minfft_dct4 E fuel x y (minfft_mkaux_t4_1d E 1 m0).1 m =
      some (m.setR y (E.sqrt2 * m.getR x)) ∧
    minfft_dst4 E fuel x y (minfft_mkaux_t4_1d E 1 m0).1 m =
      some (m.setR y (E.sqrt2 * m.getR x)) ∧
    ∀ v : R, (m.setR y v).getR y = v ∧ (m.setR y v).size = m.size ∧
      ∀ b o, ¬ (b = y.blk ∧ o = y.off) → (m.setR y v).cell b o = m.cell b o := by
  obtain ⟨h1, h2, h3, h4, h5, h6⟩ := symmetric_one E fuel m0 m x y hx hy
  exact ⟨h1, h2, h3, h4, h5, h6, fun v => Mem.setR_only m y v⟩

theorem symmetric_transforms_length_one_witness :
    minfft_dct2 (⟨3, 7 / 5, 7 / 10, id⟩ : Num ℚ) 0 ⟨1, 0⟩ ⟨2, 0⟩
        (minfft_mkaux_t2t3_1d (⟨3, 7 / 5, 7 / 10, id⟩ : Num ℚ) 1 ⟨2, fun _ => 1, fun _ _ => 5⟩).1
        ⟨2, fun _ => 1, fun _ _ => 5⟩ =
      some ((⟨2, fun _ => 1, fun _ _ => 5⟩ : Mem ℚ).setR ⟨2, 0⟩
        (2 * (⟨2, fun _ => 1, fun _ _ => 5⟩ : Mem ℚ).getR ⟨1, 0⟩)) ∧
    minfft_dct4 (⟨3, 7 / 5, 7 / 10, id⟩ : Num ℚ) 0 ⟨1, 0⟩ ⟨2, 0⟩
        (minfft_mkaux_t4_1d (⟨3, 7 / 5, 7 / 10, id⟩ : Num ℚ) 1 ⟨2, fun _ => 1, fun _ _ => 5⟩).1
        ⟨2, fun _ => 1, fun _ _ => 5⟩ =
      some ((⟨2, fun _ => 1, fun _ _ => 5⟩ : Mem ℚ).setR ⟨2, 0⟩
        (7 / 5 * (⟨2, fun _ => 1, fun _ _ => 5⟩ : Mem ℚ).getR ⟨1, 0⟩)) := by
  have h := symmetric_transforms_length_one (⟨3, 7 / 5, 7 / 10, id⟩ : Num ℚ) 0
    ⟨2, fun _ => 1, fun _ _ => 5⟩ ⟨2, fun _ => 1, fun _ _ => 5⟩ ⟨1, 0⟩ ⟨2, 0⟩
    (by decide) (by decide)
  exact ⟨h.1, h.2.2.2.2.1⟩

end Minfft

namespace Minfft

/-! ### Loops over a family of transforms with disjoint outputs -/

/-- A loop whose iteration `n` writes its results into the cells `Wr n` and
otherwise changes only the blocks `bl`: when the outputs of different
iterations are disjoint and lie outside `bl`, all results `Q n` hold at the
end, and outside `bl` and the outputs no cell has changed. -/
theorem forLoop_family {R : Type} (body : ℕ → Mem R → Option (Mem R)) (cnt : ℕ) (m : Mem R)
    (bl : List ℕ) (Wr : ℕ → ℕ → ℕ → Prop) (Q : ℕ → Mem R → Prop)
    (hQ : ∀ n m1 m2, (∀ b o, Wr n b o → m2.cell b o = m1.cell b o) → Q n m1 → Q n m2)
    (hdisj : ∀ n n' b o, n < cnt → n' < cnt → n ≠ n' → Wr n b o → ¬ Wr n' b o)
    (hbl : ∀ n b o, Wr n b o → b ∉ bl)
    (hstep : ∀ n m1, n < cnt → m1.size = m.size → m1.next = m.next →
      (∀ b o, b ∉ bl → (∀ n', n' < n → ¬ Wr n' b o) → m1.cell b o = m.cell b o) →
      ∃ m2, body n m1 = some m2 ∧ m2.size = m1.size ∧ m2.next = m1.next ∧ Q n m2 ∧
        (∀ b o, b ∉ bl → ¬ Wr n b o → m2.cell b o = m1.cell b o)) :
    ∃ m', forLoop body 0 cnt m = some m' ∧ m'.size = m.size ∧ m'.next = m.next ∧
      (∀ n, n < cnt → Q n m') ∧
      (∀ b o, b ∉ bl → (∀ n, n < cnt → ¬ Wr n b o) → m'.cell b o = m.cell b o) := by
  have key := forLoop_inv body
    (fun i m1 => m1.size = m.size ∧ m1.next = m.next ∧ (∀ n, n < i → Q n m1) ∧
      (∀ b o, b ∉ bl → (∀ n', n' < i → ¬ Wr n' b o) → m1.cell b o = m.cell b o))
    cnt 0 m ⟨rfl, rfl, fun n hn => by omega, fun _ _ _ _ => rfl⟩
    (by
      rintro n m1 - hn ⟨hs, hx, hq, hf⟩
      obtain ⟨m2, hb, hs2, hx2, hq2, hf2⟩ := hstep n m1 (by omega) hs hx hf
      refine ⟨m2, hb, by rw [hs2, hs], by rw [hx2, hx], ?_, ?_⟩
      · intro n' hn'
        rcases Nat.lt_or_ge n' n with h | h
        · apply hQ n' m1 m2 _ (hq n' h)
          intro b o hw
          exact hf2 b o (hbl n' b o hw) (hdisj n' n b o (by omega) (by omega) (by omega) hw)
        · have : n' = n := by omega
          rw [this]; exact hq2
      · intro b o hb' hw
        rw [hf2 b o hb' (hw n (by omega))]
        exact hf b o hb' (fun n' h => hw n' (by omega)))
  obtain ⟨m', hl, hs, hx, hq, hf⟩ := key
  simp only [Nat.zero_add] at hq hf
  exact ⟨m', hl, hs, hx, hq, hf⟩

end Minfft

namespace Minfft

open Cx

/-! ### Complex transforms of any dimension -/

theorem InStr_family_disj (y : Ptr) (sy a M n n' b o : ℕ) (hsy : 0 < sy) (hn : n < a)
    (hn' : n' < a) (hne : n ≠ n') (h : InStr (y.addC (sy * n)) (a * sy) M b o) :
    ¬ InStr (y.addC (sy * n')) (a * sy) M b o := by
  rw [InStr_index y (y.addC (sy * n)) sy (a * sy) n a M b o rfl rfl rfl] at h
  rw [InStr_index y (y.addC (sy * n')) sy (a * sy) n' a M b o rfl rfl rfl]
  rintro ⟨-, j', -, ho'⟩
  obtain ⟨-, j, -, ho⟩ := h
  have key : a * j + n = a * j' + n' := by
    rcases ho with ho | ho <;> rcases ho' with ho' | ho'
    · exact (stride_inj sy _ _ 0 0 hsy (by norm_num) (by norm_num) (by omega)).1
    · exact (stride_inj sy _ _ 0 1 hsy (by norm_num) (by norm_num) (by omega)).1
    · exact (stride_inj sy _ _ 1 0 hsy (by norm_num) (by norm_num) (by omega)).1
    · exact (stride_inj sy _ _ 1 1 hsy (by norm_num) (by norm_num) (by omega)).1
  have h1 : (a * j + n) % a = n := by
    rw [Nat.mul_add_mod]; exact Nat.mod_eq_of_lt hn
  have h2 : (a * j' + n') % a = n' := by
    rw [Nat.mul_add_mod]; exact Nat.mod_eq_of_lt hn'
  rw [key, h2] at h1
  exact hne h1.symm

theorem idx_lt {a b n j : ℕ} (hn : n < a) (hj : j < b) : n + a * j < a * b := by
  have h1 : a * j + a ≤ a * b := by
    have := Nat.mul_le_mul_left a (Nat.succ_le_of_lt hj)
    rw [Nat.mul_succ] at this
    exact this
  omega

theorem mdft_one {K : Type} [CommRing K] (w : ℕ → K) (k : ℕ) (f : ℕ → K) (j : ℕ) :
    mdft w [k] f j = dft (w k) (2 ^ k) f j := by
  simp [mdft]

theorem CxOK.congrC {w : ℕ → ℂ} : ∀ {ks : List ℕ} {a : Aux ℝ} {m m' : Mem ℝ},
    CxOK w ks a m → m'.size = m.size → CxOK w ks a m'
  | [], _, _, _, h, _ => h.elim
  | [_], _, _, _, h, hs => ⟨h.1.congrD hs, h.2⟩
  | _ :: _ :: _, _, _, _, h, hs => by
    obtain ⟨t, e, s1, s2, ha, h2, h1, ht, hb⟩ := h
    exact ⟨t, e, s1, s2, ha, h2.congrD hs, CxOK.congrC h1 hs,
      fun i hi => (Mem.okC_congr hs _).mpr (ht i hi), hb⟩

theorem CxOK.lenC {w : ℕ → ℂ} : ∀ {ks : List ℕ} {a : Aux ℝ} {m : Mem ℝ},
    CxOK w ks a m → a.N? = some (2 ^ ks.sum)
  | [], _, _, h => h.elim
  | [k], _, _, h => by
    obtain ⟨⟨t, e, s1, s2, rfl, -⟩, -⟩ := h
    simp [Aux.N?]
  | _ :: _ :: _, _, _, h => by
    obtain ⟨t, e, s1, s2, rfl, -⟩ := h
    simp [Aux.N?]

theorem DftOK.lenD {w : ℕ → ℂ} {a : Aux ℝ} {k : ℕ} {m : Mem ℝ} (h : DftOK w a k m) :
    a.N? = some (2 ^ k) ∧ a.isNull = false := by
  obtain ⟨t, e, s1, s2, rfl, -⟩ := h
  exact ⟨rfl, rfl⟩

theorem make_complex_transform_node {R : Type} [Field R]
    (s_1d : Ptr → Ptr → ℕ → Aux R → Mem R → Option (Mem R)) (x y : Ptr) (sy N : ℕ) (t : Ptr)
    (e : Option (List (Cx R))) (s1 s2 : Aux R) (m : Mem R) (N1 N2 : ℕ)
    (h1 : s1.N? = some N1) (h2 : s2.N? = some N2) (hn : s2.isNull = false) :
    make_complex_transform s_1d x y sy (Aux.node N t e s1 s2) m =
      (forLoop (fun n m =>
        make_complex_transform s_1d (x.addC (n * N1)) (t.addC n) N2 s1 m) 0 N2 m).bind
      (forLoop (fun n m =>
        s_1d (t.addC (n * N2)) (y.addC (sy * n)) (sy * N1) s2 m) 0 N1) := by
  rw [make_complex_transform]
  simp only [hn, h1, h2, Bool.false_eq_true, if_false, Option.bind_eq_bind, Option.some_bind,
    bind]

end Minfft

namespace Minfft

open Cx

/-- The complex DFT of any dimension through a valid plan: the transform
returns and leaves the transform `mdft` of the input in `y[sy*j]`; only these
cells and the scratch of the plan change. -/
theorem s_dft_ok (E : Num ℝ) (w : ℕ → ℂ) (hw : Roots E w) (fuel : ℕ) :
    ∀ (ks : List ℕ) (a : Aux ℝ) (x y : Ptr) (sy : ℕ) (m : Mem ℝ),
      CxOK w ks a m → (∀ k, k ∈ ks → k < fuel) → 0 < sy →
      (∀ i, i < 2 ^ ks.sum → m.okC (x.addC i)) →
      (∀ j, j < 2 ^ ks.sum → m.okC (y.addC (sy * j))) →
      x.blk ∉ a.blks → y.blk ∉ a.blks →
      ∃ m', make_complex_transform (s_dft_1d E fuel) x y sy a m = some m' ∧
        CPost (mdft w ks (fun n => toC (m.getC (x.addC n)))) (2 ^ ks.sum) y sy a.blks m m'
  | [], _, _, _, _, _, ha, _, _, _, _, _, _ => ha.elim
  | [k], a, x, y, sy, m, ha, hf, hsy, hx, hy, hxa, hya => by
    obtain ⟨hd, N, t, e, s1, rfl⟩ := ha
    have hleaf : make_complex_transform (s_dft_1d E fuel) x y sy (Aux.node N t e s1 Aux.null) m =
        s_dft_1d E fuel x y sy (Aux.node N t e s1 Aux.null) m := by
      simp [make_complex_transform, Aux.isNull]
    simp only [List.sum_cons, List.sum_nil, add_zero] at hx hy ⊢
    obtain ⟨m', h1, h2, h3, h4, h5⟩ := s_dft_1d_ok E w hw k fuel x y sy _ m hd
      (hf k (by simp)) hsy hx hy hxa hya
    refine ⟨m', by rw [hleaf]; exact h1, h2, h3, ?_, h5⟩
    intro j hj
    rw [h4 j hj, mdft_one]
  | k :: k' :: rest, a, x, y, sy, m, ha, hf, hsy, hx, hy, hxa, hya => by
    have ih := s_dft_ok E w hw fuel (k' :: rest)
    obtain ⟨t, e, s1, s2, rfl, h2, h1, ht, hts1, hts2⟩ := ha
    have hs1N := h1.lenC
    have hs2N := h2.lenD
    simp only [Aux.blks_node, List.mem_cons, List.mem_append, not_or] at hxa hya
    have hsum : (k :: k' :: rest).sum = k + (k' :: rest).sum := by simp
    rw [hsum] at hx hy ⊢
    obtain ⟨N1, hN1⟩ : ∃ N1, N1 = 2 ^ (k' :: rest).sum := ⟨_, rfl⟩
    obtain ⟨N2, hN2⟩ : ∃ N2, N2 = 2 ^ k := ⟨_, rfl⟩
    have hP : 2 ^ (k + (k' :: rest).sum) = N1 * N2 := by rw [hN1, hN2, pow_add]; ring
    have hN1p : 0 < N1 := by rw [hN1]; positivity
    have hN2p : 0 < N2 := by rw [hN2]; positivity
    rw [hP] at hx hy ht ⊢
    rw [← hN1] at ih hs1N
    rw [← hN2] at hs2N
    -- the transforms of the first dimensions
    obtain ⟨m1, hl1, hsz1, hnx1, hq1, hfr1⟩ := forLoop_family
      (fun n m => make_complex_transform (s_dft_1d E fuel) (x.addC (n * N1)) (t.addC n) N2 s1 m)
      N2 m s1.blks (fun n => InStr (t.addC n) N2 N1)
      (fun n m1 => ∀ j, j < N1 → toC (m1.getC (t.addC (n + N2 * j))) =
        mdft w (k' :: rest) (fun i => toC (m.getC (x.addC (i + N1 * n)))) j)
      (by
        intro n ma mb hcell hq j hj
        rw [← hq j hj]
        congr 1
        apply Mem.getC_congr
        · exact hcell _ _ ⟨rfl, j, hj, Or.inl (by simp only [Ptr.addC_off]; ring)⟩
        · exact hcell _ _ ⟨rfl, j, hj, Or.inr (by simp only [Ptr.addC_off]; ring)⟩)
      (by
        intro n n' b o hn hn' hne h
        have := InStr_family_disj t 1 N2 N1 n n' b o one_pos hn hn' hne
        simp only [one_mul, mul_one] at this
        exact this h)
      (by
        intro n b o h
        rw [h.1]
        exact hts1)
      (by
        intro n ma hn hs hnx hfr
        have oka : ∀ p, ma.okC p ↔ m.okC p := Mem.okC_congr hs
        obtain ⟨mb, hb, hsb, hnb, hvb, hfb⟩ := ih s1 (x.addC (n * N1)) (t.addC n) N2 ma
          (h1.congrC hs) (fun k hk => hf k (by simp at hk ⊢; tauto)) hN2p
          (fun i hi => by
            rw [Ptr.addC_addC]
            apply (oka _).mpr
            apply hx
            have := idx_lt hi hn
            rw [Nat.mul_comm n N1, Nat.add_comm]
            exact this)
          (fun j hj => by
            rw [Ptr.addC_addC]
            apply (oka _).mpr
            apply ht
            have := idx_lt hn hj
            rw [Nat.mul_comm N1 N2]
            exact this)
          hxa.2.1 hts1
        refine ⟨mb, hb, hsb, hnb, ?_, hfb⟩
        intro j hj
        have := hvb j hj
        rw [Ptr.addC_addC] at this
        rw [this]
        congr 1
        funext i
        rw [Ptr.addC_addC, show n * N1 + i = i + N1 * n by ring]
        congr 1
        apply Mem.getC_of_cells
        intro o
        exact hfr _ o hxa.2.1 (fun n' _ h => hxa.1 h.1))
    -- the transforms of the last dimension
    have ok1 : ∀ p, m1.okC p ↔ m.okC p := Mem.okC_congr hsz1
    obtain ⟨m2, hl2, hsz2, hnx2, hq2, hfr2⟩ := forLoop_family
      (fun n m => s_dft_1d E fuel (t.addC (n * N2)) (y.addC (sy * n)) (sy * N1) s2 m)
      N1 m1 s2.blks (fun n => InStr (y.addC (sy * n)) (sy * N1) N2)
      (fun n mb => ∀ j, j < N2 → toC (mb.getC (y.addC (sy * (n + N1 * j)))) =
        dft (w k) N2 (fun n2 => toC (m1.getC (t.addC (n * N2 + n2)))) j)
      (by
        intro n ma mb hcell hq j hj
        rw [← hq j hj]
        congr 1
        apply Mem.getC_congr
        · exact hcell _ _ ⟨rfl, j, hj, Or.inl (by simp only [Ptr.addC_off]; ring)⟩
        · exact hcell _ _ ⟨rfl, j, hj, Or.inr (by simp only [Ptr.addC_off]; ring)⟩)
      (by
        intro n n' b o hn hn' hne h
        rw [Nat.mul_comm sy N1] at h ⊢
        exact InStr_family_disj y sy N1 N2 n n' b o hsy hn hn' hne h)
      (by
        intro n b o h
        rw [h.1]
        exact hya.2.2)
      (by
        intro n ma hn hs hnx hfr
        have oka : ∀ p, ma.okC p ↔ m.okC p := fun p =>
          (Mem.okC_congr hs p).trans (ok1 p)
        obtain ⟨mb, hb, hsb, hnb, hvb, hfb⟩ := s_dft_1d_ok E w hw k fuel (t.addC (n * N2))
          (y.addC (sy * n)) (sy * N1) s2 ma (h2.congrD (by rw [hs, hsz1]))
          (hf k (by simp)) (Nat.mul_pos hsy hN1p)
          (fun i hi => by
            rw [← hN2] at hi
            rw [Ptr.addC_addC]
            apply (oka _).mpr
            apply ht
            have := idx_lt hi hn
            rw [Nat.mul_comm n N2, Nat.add_comm, Nat.mul_comm N1 N2]
            exact this)
          (fun j hj => by
            rw [← hN2] at hj
            rw [Ptr.addC_addC, show sy * n + sy * N1 * j = sy * (n + N1 * j) by ring]
            apply (oka _).mpr
            apply hy
            exact idx_lt hn hj)
          hts2 hya.2.2
        rw [← hN2] at hvb hfb
        refine ⟨mb, hb, hsb, hnb, ?_, hfb⟩
        intro j hj
        have := hvb j hj
        rw [Ptr.addC_addC, show sy * n + sy * N1 * j = sy * (n + N1 * j) by ring] at this
        rw [this]
        apply dft_congr
        intro n2 _
        rw [Ptr.addC_addC]
        congr 1
        apply Mem.getC_of_cells
        intro o
        exact hfr _ o hts2 (fun n' _ h => hya.1 h.1.symm))
    refine ⟨m2, ?_, by rw [hsz2, hsz1], by rw [hnx2, hnx1], ?_, ?_⟩
    · rw [make_complex_transform_node _ x y sy _ t e s1 s2 m N1 N2 hs1N hs2N.1 hs2N.2, hl1]
      exact hl2
    · intro j hj
      have hj1 : j % N1 < N1 := Nat.mod_lt _ hN1p
      have hj2 : j / N1 < N2 := by
        rw [Nat.div_lt_iff_lt_mul hN1p, Nat.mul_comm]; exact hj
      have hjj : j % N1 + N1 * (j / N1) = j := Nat.mod_add_div j N1
      have := hq2 (j % N1) hj1 (j / N1) hj2
      rw [hjj] at this
      rw [this]
      show _ = dft (w k) (2 ^ k) _ _
      rw [← hN1, ← hN2]
      apply dft_congr
      intro n2 hn2
      rw [show j % N1 * N2 + n2 = n2 + N2 * (j % N1) by ring, hq1 n2 hn2 (j % N1) hj1]
    · intro b o hb hstr
      simp only [Aux.blks_node, List.mem_cons, List.mem_append, not_or] at hb
      rw [hfr2 b o hb.2.2 (fun n hn h => hstr (InStr_sub y (y.addC (sy * n)) sy (sy * N1) n N1
        N2 (N1 * N2) b o rfl rfl (Nat.mul_comm sy N1) (fun j hj => by
          have := idx_lt hn hj
          omega) h))]
      exact hfr1 b o hb.2.1 (fun n _ h => hb.1 h.1)

end Minfft

namespace Minfft

open Cx

/-! ### Plans of any dimension built by `make_aux` -/

theorem okC_of_size {m m' : Mem ℝ} {p : Ptr} (h : m'.size p.blk = m.size p.blk)
    (hp : m.okC p) : m'.okC p := by
  refine ⟨hp.1, ?_⟩
  rw [h]
  exact hp.2

theorem DftOK.blksD {w : ℕ → ℂ} {a : Aux ℝ} {k : ℕ} {m m' : Mem ℝ} (h : DftOK w a k m)
    (hs : ∀ b, b ∈ a.blks → m'.size b = m.size b) : DftOK w a k m' := by
  obtain ⟨t, e, s1, s2, rfl, hb⟩ := h
  refine ⟨t, e, s1, s2, rfl, fun h4 => ⟨fun i hi => ?_, (hb h4).2⟩⟩
  exact okC_of_size (hs _ (by simp)) ((hb h4).1 i hi)

theorem RealOK.blksR {w : ℕ → ℂ} {a : Aux ℝ} {k : ℕ} {m m' : Mem ℝ} (h : RealOK w a k m)
    (hs : ∀ b, b ∈ a.blks → m'.size b = m.size b) : RealOK w a k m' := by
  obtain ⟨t, e, s1, s2, rfl, hb⟩ := h
  refine ⟨t, e, s1, s2, rfl, fun h2 => ⟨fun i hi => ?_, (hb h2).2.1, ?_, (hb h2).2.2.2⟩⟩
  · exact okC_of_size (hs _ (by simp)) ((hb h2).1 i hi)
  · exact (hb h2).2.2.1.blksD (fun b hb' => hs b (by simp [hb']))

theorem CxOK.blksC {w : ℕ → ℂ} : ∀ {ks : List ℕ} {a : Aux ℝ} {m m' : Mem ℝ},
    CxOK w ks a m → (∀ b, b ∈ a.blks → m'.size b = m.size b) → CxOK w ks a m'
  | [], _, _, _, h, _ => h.elim
  | [_], _, _, _, h, hs => ⟨h.1.blksD hs, h.2⟩
  | _ :: _ :: _, _, _, _, h, hs => by
    obtain ⟨t, e, s1, s2, rfl, h2, h1, ht, hb⟩ := h
    refine ⟨t, e, s1, s2, rfl, h2.blksD (fun b hb' => hs b (by simp [hb'])),
      CxOK.blksC h1 (fun b hb' => hs b (by simp [hb'])), fun i hi => ?_, hb⟩
    exact okC_of_size (hs _ (by simp)) (ht i hi)

theorem prod_dims (es : List ℕ) : ∀ n, n ≤ es.length →
    ((List.range n).map (fun i => (es.map (fun e => 2 ^ e)).getD i 0)).prod =
      2 ^ (es.take n).sum := by
  intro n
  induction n with
  | zero => intro _; simp
  | succ n ih =>
    intro hn
    have hlt : n < es.length := by omega
    rw [List.range_succ, List.map_append, List.prod_append, ih (by omega)]
    have htake : es.take (n + 1) = es.take n ++ [es.get ⟨n, hlt⟩] := by
      rw [List.take_succ]
      simp [List.getElem?_eq_getElem hlt]
    rw [htake, List.sum_append, pow_add]
    simp [List.getD, List.getElem?_map, List.getElem?_eq_getElem hlt]

theorem make_aux_one {R : Type} (datasz : ℕ) (aux_1d : ℕ → Mem R → Aux R × Mem R) (Ns : List ℕ)
    (m : Mem R) (N0 : ℕ) (h : Ns.get? 0 = some N0) :
    make_aux datasz aux_1d 1 Ns m = some (aux_1d N0 m) := by
  rw [make_aux]
  simp only [h, Option.bind_eq_bind, Option.some_bind, bind, pure]

theorem make_aux_succ {R : Type} (datasz : ℕ) (aux_1d : ℕ → Mem R → Aux R × Mem R) (d : ℕ)
    (Ns : List ℕ) (m : Mem R) (p Nd : ℕ) (a1 : Aux R) (m1 : Mem R)
    (hp : ((List.range (d + 2)).map (fun i => Ns.getD i 0)).prod = p)
    (h1 : make_aux datasz aux_1d (d + 1) Ns (m.malloc (p * datasz)).2 = some (a1, m1))
    (hd : Ns.get? (d + 1) = some Nd) :
    make_aux datasz aux_1d (d + 2) Ns m =
      some (Aux.node p (m.malloc (p * datasz)).1 none a1 (aux_1d Nd m1).1, (aux_1d Nd m1).2) := by
  rw [make_aux]
  simp only [hp, h1, hd, Option.bind_eq_bind, Option.some_bind, bind, pure]

theorem mkaux_dft_1d_blks {R : Type} [Field R] (E : Num R) (k : ℕ) (m0 : Mem R) (b : ℕ)
    (hb : b ∈ (minfft_mkaux_dft_1d E (2 ^ k) m0).1.blks) :
    b = 0 ∨ (m0.next < b ∧ b ≤ (minfft_mkaux_dft_1d E (2 ^ k) m0).2.next) := by
  rcases Nat.lt_or_ge k 4 with hk | hk
  · rw [mkaux_dft_1d_small E _ hk] at hb
    left
    simpa [Ptr.null] using hb
  · rw [mkaux_dft_1d_big E _ hk] at hb ⊢
    right
    have : b = m0.next + 1 := by simpa using hb
    simp [Mem.malloc, this]

theorem mkaux_dft_1d_plan_next {R : Type} [Field R] (E : Num R) (k : ℕ) (m0 : Mem R) :
    m0.next ≤ (minfft_mkaux_dft_1d E (2 ^ k) m0).2.next := by
  rcases Nat.lt_or_ge k 4 with hk | hk
  · rw [mkaux_dft_1d_small E _ hk]
  · rw [mkaux_dft_1d_big E _ hk]
    simp [Mem.malloc]

/-- The plan `make_aux` builds for the complex DFT of `d` dimensions of the
lengths `2^e`: it is valid in the memory the builder returns, its scratch
blocks are fresh, and the blocks of the caller keep their sizes. -/
theorem make_aux_dft_ok (E : Num ℝ) (hE : E.Exact) (w : ℕ → ℂ)
    (hw : ∀ k, w k = Complex.exp (-2 * Real.pi * Complex.I / 2 ^ k)) (es : List ℕ) :
    ∀ (d : ℕ) (m0 : Mem ℝ), 1 ≤ d → d ≤ es.length →
      ∃ a m1, make_aux 2 (minfft_mkaux_dft_1d E) d (es.map (fun e => 2 ^ e)) m0 = some (a, m1) ∧
        m0.next ≤ m1.next ∧ (∀ b, b ≤ m0.next → m1.size b = m0.size b) ∧
        (∀ b, b ∈ a.blks → b = 0 ∨ (m0.next < b ∧ b ≤ m1.next)) ∧
        CxOK w (es.take d).reverse a m1
  | 0, _, h, _ => by omega
  | 1, m0, _, hd => by
    have hlt : 0 < es.length := by omega
    have hget : (es.map (fun e => 2 ^ e)).get? 0 = some (2 ^ es.get ⟨0, hlt⟩) := by
      simp [List.getElem?_map, List.getElem?_eq_getElem hlt]
    obtain ⟨hd1, hfr, hsz, hnx⟩ := mkaux_dft_1d_plan E hE w hw (es.get ⟨0, hlt⟩) m0
      (minfft_mkaux_dft_1d E (2 ^ es.get ⟨0, hlt⟩) m0).2 rfl
    refine ⟨(minfft_mkaux_dft_1d E (2 ^ es.get ⟨0, hlt⟩) m0).1,
      (minfft_mkaux_dft_1d E (2 ^ es.get ⟨0, hlt⟩) m0).2, make_aux_one 2 _ _ m0 _ hget, hnx,
      hsz, ?_, ?_⟩
    · intro b hb
      exact mkaux_dft_1d_blks E _ m0 b hb
    · have htake : es.take 1 = [es.get ⟨0, hlt⟩] := by
        rw [List.take_succ]
        simp [List.getElem?_eq_getElem hlt]
      rw [htake]
      refine ⟨hd1, ?_⟩
      obtain ⟨t, e, ha, -⟩ := mkaux_dft_1d_ok E hE w hw (es.get ⟨0, hlt⟩) m0
        (minfft_mkaux_dft_1d E (2 ^ es.get ⟨0, hlt⟩) m0).2 rfl
      exact ⟨_, _, _, _, ha⟩
  | d + 2, m0, _, hd => by
    have hlt : d + 1 < es.length := by omega
    obtain ⟨k, hk⟩ : ∃ k, k = es.get ⟨d + 1, hlt⟩ := ⟨_, rfl⟩
    have hget : (es.map (fun e => 2 ^ e)).get? (d + 1) = some (2 ^ k) := by
      simp [List.getElem?_map, List.getElem?_eq_getElem hlt, hk]
    have hp := prod_dims es (d + 2) hd
    obtain ⟨a1, ms1, hb1, hnx1, hsz1, hfr1, hc1⟩ := make_aux_dft_ok E hE w hw es (d + 1)
      (m0.malloc (2 ^ (es.take (d + 2)).sum * 2)).2 (by omega) (by omega)
    replace hnx1 : m0.next + 1 ≤ ms1.next := hnx1
    replace hsz1 : ∀ b, b ≤ m0.next + 1 →
        ms1.size b = (m0.malloc (2 ^ (es.take (d + 2)).sum * 2)).2.size b := hsz1
    replace hfr1 : ∀ b, b ∈ a1.blks → b = 0 ∨ (m0.next + 1 < b ∧ b ≤ ms1.next) := hfr1
    obtain ⟨hd2, hfr2, hsz2, hnx2⟩ := mkaux_dft_1d_plan E hE w hw k ms1
      (minfft_mkaux_dft_1d E (2 ^ k) ms1).2 rfl
    have hblk2 : ∀ b, b ∈ (minfft_mkaux_dft_1d E (2 ^ k) ms1).1.blks →
        b = 0 ∨ (ms1.next < b ∧ b ≤ (minfft_mkaux_dft_1d E (2 ^ k) ms1).2.next) :=
      fun b hb => mkaux_dft_1d_blks E k ms1 b hb
    refine ⟨Aux.node (2 ^ (es.take (d + 2)).sum)
        (m0.malloc (2 ^ (es.take (d + 2)).sum * 2)).1 none a1
        (minfft_mkaux_dft_1d E (2 ^ k) ms1).1,
      (minfft_mkaux_dft_1d E (2 ^ k) ms1).2, make_aux_succ 2 _ d _ m0 _ _ a1 ms1 hp hb1 hget, by omega, ?_, ?_, ?_⟩
    · intro b hb
      rw [hsz2 b (by omega), hsz1 b (by omega)]
      simp only [Mem.malloc]
      rw [if_neg (by omega)]
    · intro b hb
      simp only [Aux.blks_node, List.mem_cons, List.mem_append] at hb
      rcases hb with hb | hb | hb
      · right
        rw [hb]
        show m0.next < m0.next + 1 ∧ m0.next + 1 ≤ _
        omega
      · rcases hfr1 b hb with h | h
        · exact Or.inl h
        · right; omega
      · rcases hblk2 b hb with h | h
        · exact Or.inl h
        · right; omega
    · have htake : es.take (d + 2) = es.take (d + 1) ++ [k] := by
        rw [List.take_succ]
        simp [List.getElem?_eq_getElem hlt, hk]
      have hrev : (es.take (d + 2)).reverse = k :: (es.take (d + 1)).reverse := by
        rw [htake]; simp
      have hsum : (es.take (d + 2)).sum = k + ((es.take (d + 1)).reverse).sum := by
        rw [htake, List.sum_append, List.sum_reverse]; simp; ring
      rw [hrev, hsum]
      rw [hsum] at hsz1
      obtain ⟨k', rest, hL⟩ : ∃ k' rest, (es.take (d + 1)).reverse = k' :: rest := by
        cases hL : (es.take (d + 1)).reverse with
        | nil =>
          have h1 : (es.take (d + 1)).reverse.length = d + 1 := by
            rw [List.length_reverse, List.length_take]
            omega
          rw [hL] at h1
          simp at h1
        | cons k' rest => exact ⟨k', rest, rfl⟩
      rw [hL] at hc1 hsz1 ⊢
      refine ⟨_, _, _, _, rfl, hd2, ?_, ?_, ?_, ?_⟩
      · apply hc1.blksC
        intro b hb
        rcases hfr1 b hb with h | h
        · exact hsz2 b (by omega)
        · exact hsz2 b h.2
      · intro i hi
        refine ⟨by simp [Mem.malloc], ?_⟩
        show 0 + 2 * i + 2 ≤ (minfft_mkaux_dft_1d E (2 ^ k) ms1).2.size (m0.next + 1)
        have h1 : (minfft_mkaux_dft_1d E (2 ^ k) ms1).2.size (m0.next + 1) =
            2 ^ (k + (k' :: rest).sum) * 2 := by
          rw [hsz2 _ (by omega), hsz1 _ (by omega)]
          simp [Mem.malloc]
        rw [h1]
        omega
      · intro h
        have h' : m0.next + 1 ∈ a1.blks := h
        rcases hfr1 _ h' with h0 | h0 <;> omega
      · intro h
        have h' : m0.next + 1 ∈ (minfft_mkaux_dft_1d E (2 ^ k) ms1).1.blks := h
        rcases hblk2 _ h' with h0 | h0 <;> omega

end Minfft

namespace Minfft

open Cx

/-! ### The complex DFT of two dimensions -/

theorem mdft_two (w : ℕ → ℂ) (k1 k2 : ℕ) (f : ℕ → ℂ) (j1 j2 : ℕ) (hj1 : j1 < 2 ^ k1) :
    mdft w [k2, k1] f (j1 + 2 ^ k1 * j2) =
      ∑ n1 in Finset.range (2 ^ k1), ∑ n2 in Finset.range (2 ^ k2),
        f (n1 + 2 ^ k1 * n2) * (w k1 ^ (n1 * j1) * w k2 ^ (n2 * j2)) := by
  have hpos : 0 < 2 ^ k1 := by positivity
  have h1 : (j1 + 2 ^ k1 * j2) % 2 ^ k1 = j1 := by
    rw [Nat.add_mul_mod_self_left]; exact Nat.mod_eq_of_lt hj1
  have h2 : (j1 + 2 ^ k1 * j2) / 2 ^ k1 = j2 := by
    rw [Nat.add_mul_div_left _ _ hpos, Nat.div_eq_of_lt hj1, zero_add]
  simp only [mdft, List.sum_cons, List.sum_nil, add_zero, pow_zero, Nat.mod_one, Nat.div_one,
    one_mul, zero_add, h1, h2]
  unfold dft
  rw [Finset.sum_comm]
  apply Finset.sum_congr rfl
  intro n2 _
  rw [Finset.sum_mul]
  apply Finset.sum_congr rfl
  intro n1 _
  ring

theorem exp_two_dim (k1 k2 n1 j1 n2 j2 : ℕ) :
    Complex.exp (-2 * Real.pi * Complex.I / 2 ^ k1) ^ (n1 * j1) *
        Complex.exp (-2 * Real.pi * Complex.I / 2 ^ k2) ^ (n2 * j2) =
      Complex.exp (-2 * Real.pi * Complex.I *
        ((n1 : ℂ) * j1 / 2 ^ k1 + (n2 : ℂ) * j2 / 2 ^ k2)) := by
  rw [← Complex.exp_nat_mul, ← Complex.exp_nat_mul, ← Complex.exp_add]
  congr 1
  push_cast
  ring

theorem mkaux_dft_2d_eq {R : Type} [Field R] (E : Num R) (k1 k2 : ℕ) (m0 : Mem R) :
    minfft_mkaux_dft_2d E (2 ^ k1) (2 ^ k2) m0 =
      make_aux 2 (minfft_mkaux_dft_1d E) 2 ([k1, k2].map (fun e => 2 ^ e)) m0 := rfl

/-- Effect of `minfft_dft` with the plan of `minfft_mkaux_dft_2d (2^k1) (2^k2)`:
the two-dimensional DFT in which the first dimension is the contiguous one. -/
theorem minfft_dft_2d_post (E : Num ℝ) (hE : E.Exact) (w : ℕ → ℂ)
    (hw : ∀ k, w k = Complex.exp (-2 * Real.pi * Complex.I / 2 ^ k))
    (k1 k2 fuel : ℕ) (hf1 : k1 < fuel) (hf2 : k2 < fuel) (m0 : Mem ℝ) (x y : Ptr)
    (hx : x.blk ≠ 0 ∧ x.blk ≤ m0.next ∧ x.off + 2 * (2 ^ k1 * 2 ^ k2) ≤ m0.size x.blk)
    (hy : y.blk ≠ 0 ∧ y.blk ≤ m0.next ∧ y.off + 2 * (2 ^ k1 * 2 ^ k2) ≤ m0.size y.blk) :
    ∃ a m1, minfft_mkaux_dft_2d E (2 ^ k1) (2 ^ k2) m0 = some (a, m1) ∧
      ∀ m, m.size = m1.size →
        ∃ m', minfft_dft E fuel x y a m = some m' ∧ m'.size = m.size ∧
          (∀ j1 j2, j1 < 2 ^ k1 → j2 < 2 ^ k2 →
            toC (m'.getC (y.addC (j1 + 2 ^ k1 * j2))) =
              ∑ n1 in Finset.range (2 ^ k1), ∑ n2 in Finset.range (2 ^ k2),
                toC (m.getC (x.addC (n1 + 2 ^ k1 * n2))) *
                  (w k1 ^ (n1 * j1) * w k2 ^ (n2 * j2))) ∧
          (∀ b o, b ≠ 0 → b ≤ m0.next → ¬ InBuf y (2 * (2 ^ k1 * 2 ^ k2)) b o →
            m'.cell b o = m.cell b o) := by
  obtain ⟨a, m1, hb, hnx, hsz, hfr, hc⟩ := make_aux_dft_ok E hE w hw [k1, k2] 2 m0
    (by norm_num) (by simp)
  refine ⟨a, m1, by rw [mkaux_dft_2d_eq]; exact hb, ?_⟩
  intro m hm
  have hc' : CxOK w [k2, k1] a m := by
    have : ([k1, k2].take 2).reverse = [k2, k1] := rfl
    rw [this] at hc
    exact hc.congrC hm
  have hsum : ([k2, k1] : List ℕ).sum = k1 + k2 := by simp; ring
  have hP : 2 ^ (k1 + k2) = 2 ^ k1 * 2 ^ k2 := pow_add 2 k1 k2
  have hsz' : ∀ b, b ≤ m0.next → m.size b = m0.size b := fun b hb' => by
    rw [hm]; exact hsz b hb'
  obtain ⟨m', h1, h2, -, h4, h5⟩ := s_dft_ok E w (Roots.of_exact hE w hw) fuel [k2, k1] a x y 1 m
    hc' (by
      intro k hk
      simp at hk
      rcases hk with rfl | rfl <;> assumption)
    one_pos
    (fun i hi => by
      rw [hsum, hP] at hi
      exact okC_of_region hx hsz' hi)
    (fun j hj => by
      rw [hsum, hP] at hj
      rw [one_mul]
      exact okC_of_region hy hsz' hj)
    (fun h => by rcases hfr _ h with h0 | h0 <;> omega)
    (fun h => by rcases hfr _ h with h0 | h0 <;> omega)
  rw [hsum, hP] at h4 h5
  refine ⟨m', h1, h2, ?_, ?_⟩
  · intro j1 j2 hj1 hj2
    have := h4 (j1 + 2 ^ k1 * j2) (idx_lt hj1 hj2)
    rw [one_mul] at this
    rw [this, mdft_two w k1 k2 _ j1 j2 hj1]
  · intro b o hb0 hbn hbuf
    apply h5
    · intro hmem
      rcases hfr _ hmem with h0 | h0 <;> omega
    · rintro ⟨hb', j, hj, ho⟩
      apply hbuf
      refine ⟨hb', ?_, ?_⟩ <;> omega

end Minfft

namespace Minfft

open Cx

/-- The numeric environment of the real constants and the complex exponential
is exact. -/
theorem exact_env :
    Num.Exact ⟨Real.pi, Real.sqrt 2, Real.sqrt 2 / 2, fun z => fromC (Complex.exp (toC z))⟩ :=
  ⟨rfl, rfl, rfl, fun _ => rfl⟩

theorem exp_root_one : Complex.exp (-2 * Real.pi * Complex.I / 2 ^ 1) = -1 := by
  have h := exp_root_sq 1
  rw [exp_root_two] at h
  rw [← h]
  ring_nf
  rw [Complex.I_sq]

/-- The sum claimed for `y[0*4+1]` by the row-major reading, for the input
that is `1` at the flat index `1` and `0` elsewhere. -/
theorem row_major_sum (f : ℕ → ℂ) (h1 : f 1 = 1) (h0 : ∀ n, n ≠ 1 → f n = 0) :
    ∑ n1 in Finset.range (2 ^ 1), ∑ n2 in Finset.range (2 ^ 2),
      f (n1 * 2 ^ 2 + n2) *
        Complex.exp (-2 * Real.pi * Complex.I * ((n1 : ℂ) * 0 / 2 ^ 1 + (n2 : ℂ) * 1 / 2 ^ 2)) =
      -Complex.I := by
  have e : Complex.exp (-2 * Real.pi * Complex.I * (((0 : ℕ) : ℂ) * 0 / 2 ^ 1 +
      ((1 : ℕ) : ℂ) * 1 / 2 ^ 2)) = -Complex.I := by
    rw [← exp_root_two]
    congr 1
    push_cast
    ring
  simp only [show (2 : ℕ) ^ 1 = 2 from rfl, show (2 : ℕ) ^ 2 = 4 from rfl,
    Finset.sum_range_succ, Finset.sum_range_zero, zero_add, Nat.reduceMul, Nat.reduceAdd,
    zero_mul, one_mul]
  rw [h0 0 (by norm_num), h0 2 (by norm_num), h0 3 (by norm_num), h0 4 (by norm_num),
    h0 5 (by norm_num), h0 6 (by norm_num), h0 7 (by norm_num), h1]
  simp only [zero_mul, zero_add, add_zero, one_mul]
  convert e using 2

/-- The run of `minfft_dft` on the two-dimensional plan of the lengths 2 and 4,
for the input that is `1` at the flat index `1` and `0` elsewhere. -/
theorem minfft_dft_2d_impulse :
    ∃ a m1 m', minfft_mkaux_dft_2d
        (⟨Real.pi, Real.sqrt 2, Real.sqrt 2 / 2, fun z => fromC (Complex.exp (toC z))⟩ : Num ℝ)
        (2 ^ 1) (2 ^ 2) ⟨2, fun _ => 16, fun _ _ => 0⟩ = some (a, m1) ∧
      minfft_dft ⟨Real.pi, Real.sqrt 2, Real.sqrt 2 / 2, fun z => fromC (Complex.exp (toC z))⟩
        3 ⟨1, 0⟩ ⟨2, 0⟩ a ⟨m1.next, m1.size, fun b o => if b = 1 ∧ o = 2 then 1 else 0⟩
        = some m' ∧
      toC (m'.getC ((⟨2, 0⟩ : Ptr).addC 1)) = -1 := by
  obtain ⟨w, hw⟩ : ∃ w : ℕ → ℂ, ∀ k, w k = Complex.exp (-2 * Real.pi * Complex.I / 2 ^ k) :=
    ⟨_, fun _ => rfl⟩
  obtain ⟨a, m1, hb, hrun⟩ := minfft_dft_2d_post _ exact_env w hw 1 2 3 (by decide) (by decide)
    ⟨2, fun _ => 16, fun _ _ => 0⟩ ⟨1, 0⟩ ⟨2, 0⟩ ⟨by decide, by decide, by decide⟩
    ⟨by decide, by decide, by decide⟩
  obtain ⟨m', h1, -, hv, -⟩ := hrun ⟨m1.next, m1.size, fun b o => if b = 1 ∧ o = 2 then 1 else 0⟩
    rfl
  refine ⟨a, m1, m', hb, h1, ?_⟩
  have := hv 1 0 (by norm_num) (by norm_num)
  rw [show 1 + 2 ^ 1 * 0 = 1 from rfl] at this
  rw [this, hw, hw, exp_root_one, exp_root_two]
  simp [Finset.sum_range_succ, Mem.getC, Ptr.addC, toC]
  apply Complex.ext <;> simp

end Minfft

namespace Minfft

open Cx

/-! ### The real DFT of any dimension -/

theorem mdft_congr {K : Type} [CommRing K] (w : ℕ → K) : ∀ (ks : List ℕ) (f g : ℕ → K) (j : ℕ),
    (∀ i, i < 2 ^ ks.sum → f i = g i) → mdft w ks f j = mdft w ks g j
  | [], f, g, _, h => by
    simp only [mdft]
    exact h 0 (by simp)
  | k :: rest, f, g, j, h => by
    simp only [mdft]
    apply dft_congr
    intro n2 hn2
    apply mdft_congr w rest
    intro i hi
    apply h
    rw [List.sum_cons, pow_add, Nat.mul_comm (2 ^ k)]
    exact idx_lt hi hn2

theorem mkaux_realdft_1d_blks {R : Type} [Field R] (E : Num R) (k : ℕ) (m0 : Mem R) (b : ℕ)
    (hb : b ∈ (minfft_mkaux_realdft_1d E (2 ^ k) m0).1.blks) :
    b = 0 ∨ (m0.next < b ∧ b ≤ (minfft_mkaux_realdft_1d E (2 ^ k) m0).2.next) := by
  rcases Nat.lt_or_ge k 2 with hk | hk
  · rw [mkaux_realdft_1d_small E k hk] at hb
    left
    simpa [Ptr.null] using hb
  · obtain ⟨k, rfl⟩ : ∃ k', k = k' + 2 := ⟨k - 2, by omega⟩
    rw [mkaux_realdft_1d_big E k m0] at hb ⊢
    simp only [Aux.blks_node, Aux.blks_null, List.append_nil, List.mem_cons] at hb
    rcases hb with hb | hb
    · right
      rw [hb]
      have := (mkaux_dft_1d_plan_next E (k + 1) (m0.malloc (2 * 2 ^ (k + 1))).2)
      have h2 : (m0.malloc (2 * 2 ^ (k + 1))).2.next = m0.next + 1 := rfl
      simp only at this ⊢
      omega
    · rcases mkaux_dft_1d_blks E (k + 1) _ b hb with h | h
      · exact Or.inl h
      · right
        have h2 : (m0.malloc (2 * 2 ^ (k + 1))).2.next = m0.next + 1 := rfl
        simp only at h ⊢
        omega

end Minfft

namespace Minfft

open Cx

theorem CxOK.notNull {w : ℕ → ℂ} : ∀ {ks : List ℕ} {a : Aux ℝ} {m : Mem ℝ},
    CxOK w ks a m → a.isNull = false
  | [], _, _, h => h.elim
  | [_], _, _, h => by
    obtain ⟨-, N, t, e, s1, rfl⟩ := h
    rfl
  | _ :: _ :: _, _, _, h => by
    obtain ⟨t, e, s1, s2, rfl, -⟩ := h
    rfl

theorem minfft_realdft_node {R : Type} [Field R] (E : Num R) (fuel : ℕ) (x z : Ptr) (N : ℕ)
    (t : Ptr) (e : Option (List (Cx R))) (s1 s2 : Aux R) (m : Mem R) (N1 N2 : ℕ)
    (h1 : s1.N? = some N1) (h2 : s2.N? = some N2) (hn : s2.isNull = false) :
    minfft_realdft E fuel x z (Aux.node N t e s1 s2) m =
      (forLoop (fun n m =>
        s_realdft_1d E fuel (x.addR (n * N1)) (t.addC n) N2 s1 m) 0 N2 m).bind
      (forLoop (fun n m =>
        s_dft E fuel (t.addC (n * N2)) (z.addC n) (N1 / 2 + 1) s2 m) 0 (N1 / 2 + 1)) := by
  simp only [minfft_realdft, Aux.sub2?, Aux.sub1?, Aux.t?, hn, h1, h2, Bool.false_eq_true,
    if_false, Option.bind_eq_bind, Option.some_bind, bind]

theorem RealOK.lenR {w : ℕ → ℂ} {a : Aux ℝ} {k : ℕ} {m : Mem ℝ} (h : RealOK w a k m) :
    a.N? = some (2 ^ k) := by
  obtain ⟨t, e, s1, s2, rfl, -⟩ := h
  rfl

/-- The real DFT of more than one dimension through a valid plan:
`minfft_realdft` returns; the cell `z[n + (N1/2+1) * j]`, for `n ≤ N1/2`,
holds the bin `n` of the real DFT along the first dimension, transformed by
the complex DFT along the other dimensions; and only the `(N1/2+1) * N2`
cells `z[0 ..]` and the scratch of the plan change. -/
theorem minfft_realdft_nd_ok (E : Num ℝ) (w : ℕ → ℂ) (hw : Roots E w)
    (hu : ∀ k, w k * (starRingEnd ℂ) (w k) = 1) (fuel e0 : ℕ) (ks : List ℕ) (a : Aux ℝ)
    (x z : Ptr) (m : Mem ℝ) (ha : RealNdOK w e0 ks a m) (hf0 : e0 ≤ fuel)
    (hf : ∀ k, k ∈ ks → k < fuel)
    (hx : ∀ i, i < 2 ^ e0 * 2 ^ ks.sum → m.okR (x.addR i))
    (hz : ∀ j, j < (2 ^ e0 / 2 + 1) * 2 ^ ks.sum → m.okC (z.addC j))
    (hxa : x.blk ∉ a.blks) (hza : z.blk ∉ a.blks) :
    ∃ m', minfft_realdft E fuel x z a m = some m' ∧ m'.size = m.size ∧
      (∀ n j, n < 2 ^ e0 / 2 + 1 → j < 2 ^ ks.sum →
        toC (m'.getC (z.addC (n + (2 ^ e0 / 2 + 1) * j))) =
          mdft w ks (fun i => dft (w e0) (2 ^ e0)
            (fun n1 => (m.getR (x.addR (n1 + 2 ^ e0 * i)) : ℂ)) n) j) ∧
      (∀ b o, b ∉ a.blks → ¬ InStr z 1 ((2 ^ e0 / 2 + 1) * 2 ^ ks.sum) b o →
        m'.cell b o = m.cell b o) := by
  obtain ⟨t, e, s1, s2, rfl, h1, h2, ht, hts1, hts2⟩ := ha
  have hs1N := h1.lenR
  have hs2N := h2.lenC
  have hs2n := h2.notNull
  simp only [Aux.blks_node, List.mem_cons, List.mem_append, not_or] at hxa hza
  obtain ⟨N1, hN1⟩ : ∃ N1, N1 = 2 ^ e0 := ⟨_, rfl⟩
  obtain ⟨N2, hN2⟩ : ∃ N2, N2 = 2 ^ ks.sum := ⟨_, rfl⟩
  obtain ⟨H1, hH1⟩ : ∃ H1, H1 = N1 / 2 + 1 := ⟨_, rfl⟩
  have hN2p : 0 < N2 := by rw [hN2]; positivity
  have hH1p : 0 < H1 := by omega
  rw [← hN1] at hx hz ht hs1N ⊢
  rw [← hN2] at hx hz ht hs2N ⊢
  rw [← hH1] at hz ht ⊢
  -- the real transforms along the first dimension
  obtain ⟨m1, hl1, hsz1, hnx1, hq1, hfr1⟩ := forLoop_family
    (fun n m => s_realdft_1d E fuel (x.addR (n * N1)) (t.addC n) N2 s1 m)
    N2 m s1.blks (fun n => InStr (t.addC n) N2 H1)
    (fun n m1 => ∀ j, j < H1 → toC (m1.getC (t.addC (n + N2 * j))) =
      dft (w e0) N1 (fun n1 => (m.getR (x.addR (n1 + N1 * n)) : ℂ)) j)
    (by
      intro n ma mb hcell hq j hj
      rw [← hq j hj]
      congr 1
      apply Mem.getC_congr
      · exact hcell _ _ ⟨rfl, j, hj, Or.inl (by simp only [Ptr.addC_off]; ring)⟩
      · exact hcell _ _ ⟨rfl, j, hj, Or.inr (by simp only [Ptr.addC_off]; ring)⟩)
    (by
      intro n n' b o hn hn' hne h
      have := InStr_family_disj t 1 N2 H1 n n' b o one_pos hn hn' hne
      simp only [one_mul, mul_one] at this
      exact this h)
    (by
      intro n b o h
      rw [h.1]
      exact hts1)
    (by
      intro n ma hn hs hnx hfr
      have oka : ∀ p, ma.okC p ↔ m.okC p := Mem.okC_congr hs
      have okr : ∀ p, ma.okR p ↔ m.okR p := Mem.okR_congr hs
      obtain ⟨mb, hb, hsb, hnb, hvb, hfb⟩ := s_realdft_1d_ok E w hw hu e0 fuel
        (x.addR (n * N1)) (t.addC n) N2 s1 ma (h1.congrR hs) hf0 hN2p
        (fun i hi => by
          rw [← hN1] at hi
          rw [Ptr.addR_addR]
          apply (okr _).mpr
          apply hx
          have := idx_lt hi hn
          rw [Nat.mul_comm n N1, Nat.add_comm]
          exact this)
        (fun j hj => by
          rw [← hN1, ← hH1] at hj
          rw [Ptr.addC_addC]
          apply (oka _).mpr
          apply ht
          have := idx_lt hn hj
          rw [Nat.mul_comm H1 N2]
          exact this)
        hxa.2.1 hts1
      rw [← hN1, ← hH1] at hvb hfb
      refine ⟨mb, hb, hsb, hnb, ?_, hfb⟩
      intro j hj
      have := hvb j hj
      rw [Ptr.addC_addC] at this
      rw [this]
      apply dft_congr
      intro i _
      rw [Ptr.addR_addR, show n * N1 + i = i + N1 * n by ring]
      congr 1
      exact hfr _ _ hxa.2.1 (fun n' _ h => hxa.1 h.1))
  -- the complex transforms along the other dimensions
  have ok1 : ∀ p, m1.okC p ↔ m.okC p := Mem.okC_congr hsz1
  obtain ⟨m2, hl2, hsz2, hnx2, hq2, hfr2⟩ := forLoop_family
    (fun n m => s_dft E fuel (t.addC (n * N2)) (z.addC n) H1 s2 m)
    H1 m1 s2.blks (fun n => InStr (z.addC n) H1 N2)
    (fun n mb => ∀ j, j < N2 → toC (mb.getC (z.addC (n + H1 * j))) =
      mdft w ks (fun i => toC (m1.getC (t.addC (n * N2 + i)))) j)
    (by
      intro n ma mb hcell hq j hj
      rw [← hq j hj]
      congr 1
      apply Mem.getC_congr
      · exact hcell _ _ ⟨rfl, j, hj, Or.inl (by simp only [Ptr.addC_off]; ring)⟩
      · exact hcell _ _ ⟨rfl, j, hj, Or.inr (by simp only [Ptr.addC_off]; ring)⟩)
    (by
      intro n n' b o hn hn' hne h
      have := InStr_family_disj z 1 H1 N2 n n' b o one_pos hn hn' hne
      simp only [one_mul, mul_one] at this
      exact this h)
    (by
      intro n b o h
      rw [h.1]
      exact hza.2.2)
    (by
      intro n ma hn hs hnx hfr
      have oka : ∀ p, ma.okC p ↔ m.okC p := fun p =>
        (Mem.okC_congr hs p).trans (ok1 p)
      obtain ⟨mb, hb, hsb, hnb, hvb, hfb⟩ := s_dft_ok E w hw fuel ks s2 (t.addC (n * N2))
        (z.addC n) H1 ma (h2.congrC (by rw [hs, hsz1])) hf hH1p
        (fun i hi => by
          rw [← hN2] at hi
          rw [Ptr.addC_addC]
          apply (oka _).mpr
          apply ht
          have := idx_lt hi hn
          rw [Nat.mul_comm n N2, Nat.add_comm, Nat.mul_comm H1 N2]
          exact this)
        (fun j hj => by
          rw [← hN2] at hj
          rw [Ptr.addC_addC]
          apply (oka _).mpr
          apply hz
          exact idx_lt hn hj)
        hts2 hza.2.2
      rw [← hN2] at hvb hfb
      refine ⟨mb, hb, hsb, hnb, ?_, hfb⟩
      intro j hj
      have := hvb j hj
      rw [Ptr.addC_addC] at this
      rw [this]
      congr 1
      funext i
      rw [Ptr.addC_addC]
      congr 1
      apply Mem.getC_of_cells
      intro o
      exact hfr _ o hts2 (fun n' _ h => hza.1 h.1.symm))
  refine ⟨m2, ?_, by rw [hsz2, hsz1], ?_, ?_⟩
  · rw [minfft_realdft_node E fuel x z _ t e s1 s2 m N1 N2 hs1N hs2N hs2n, hl1, ← hH1]
    exact hl2
  · intro n j hn hj
    rw [hq2 n hn j hj]
    apply mdft_congr
    intro i hi
    rw [← hN2] at hi
    rw [show n * N2 + i = i + N2 * n by ring, hq1 i hi n hn]
  · intro b o hb hstr
    simp only [Aux.blks_node, List.mem_cons, List.mem_append, not_or] at hb
    rw [hfr2 b o hb.2.2 (fun n hn h => hstr (InStr_sub z (z.addC n) 1 H1 n H1
      N2 (H1 * N2) b o rfl (by simp) (by simp) (fun j hj => by
        have := idx_lt hn hj
        omega) h))]
    exact hfr1 b o hb.2.1 (fun n _ h => hb.1 h.1)

end Minfft

namespace Minfft

open Cx

theorem prod_pow_two (es : List ℕ) : (es.map (fun e => 2 ^ e)).prod = 2 ^ es.sum := by
  induction es with
  | nil => simp
  | cons e es ih => simp [ih, pow_add]

theorem mkaux_realdft_nd_eq {R : Type} [Field R] (E : Num R) (d : ℕ) (Ns : List ℕ) (m : Mem R)
    (p N0 : ℕ) (a2 : Aux R) (m1 : Mem R) (hd : d ≠ 1)
    (hp : ((List.range (d - 1)).map (fun i => Ns.getD (i + 1) 0)).prod = p)
    (h0 : Ns.get? 0 = some N0)
    (h2 : minfft_mkaux_dft E (d - 1) (Ns.drop 1)
      (minfft_mkaux_realdft_1d E N0 (m.malloc (2 * ((N0 / 2 + 1) * p))).2).2 = some (a2, m1)) :
    minfft_mkaux_realdft E d Ns m =
      some (Aux.node (N0 * p) (m.malloc (2 * ((N0 / 2 + 1) * p))).1 none
        (minfft_mkaux_realdft_1d E N0 (m.malloc (2 * ((N0 / 2 + 1) * p))).2).1 a2, m1) := by
  rw [minfft_mkaux_realdft, if_neg hd]
  simp only [hp, h0, h2, Option.bind_eq_bind, Option.some_bind, bind, pure]

/-- The plan `minfft_mkaux_realdft` builds for more than one dimension, of the
lengths `2^e0` and `2^e`, `e` in `rest`. -/
theorem mkaux_realdft_nd_ok (E : Num ℝ) (hE : E.Exact) (w : ℕ → ℂ)
    (hw : ∀ k, w k = Complex.exp (-2 * Real.pi * Complex.I / 2 ^ k)) (e0 : ℕ) (rest : List ℕ)
    (hrest : rest ≠ []) (m0 : Mem ℝ) :
    ∃ a m1, minfft_mkaux_realdft E (rest.length + 1) ((e0 :: rest).map (fun e => 2 ^ e)) m0 =
        some (a, m1) ∧
      (∀ b, b ≤ m0.next → m1.size b = m0.size b) ∧
      (∀ b, b ∈ a.blks → b = 0 ∨ (m0.next < b ∧ b ≤ m1.next)) ∧
      RealNdOK w e0 rest.reverse a m1 := by
  have hlen : 1 ≤ rest.length := by
    rcases rest with _ | ⟨r, rs⟩
    · exact absurd rfl hrest
    · simp
  have hp : ((List.range (rest.length + 1 - 1)).map
      (fun i => ((e0 :: rest).map (fun e => 2 ^ e)).getD (i + 1) 0)).prod = 2 ^ rest.sum := by
    have := prod_dims rest rest.length (le_refl _)
    rw [List.take_length] at this
    rw [← this]
    simp
  obtain ⟨r, hr⟩ : ∃ r, r = m0.malloc (2 * ((2 ^ e0 / 2 + 1) * 2 ^ rest.sum)) := ⟨_, rfl⟩
  have hrn : r.2.next = m0.next + 1 := by rw [hr]; rfl
  have hrb : r.1 = ⟨m0.next + 1, 0⟩ := by rw [hr]; rfl
  have hrs : r.2.size (m0.next + 1) = 2 * ((2 ^ e0 / 2 + 1) * 2 ^ rest.sum) := by
    rw [hr]; simp [Mem.malloc]
  have hrs' : ∀ b, b ≤ m0.next → r.2.size b = m0.size b := by
    intro b hb
    rw [hr]
    simp only [Mem.malloc]
    rw [if_neg (by omega)]
  obtain ⟨s1, hs1⟩ : ∃ s1, s1 = minfft_mkaux_realdft_1d E (2 ^ e0) r.2 := ⟨_, rfl⟩
  obtain ⟨hr1, hfr1, hsz1, hnx1⟩ := mkaux_realdft_1d_plan E hE w hw e0 r.2 s1.2 (by rw [hs1])
  have hbl1 := mkaux_realdft_1d_blks E e0 r.2
  rw [← hs1] at hr1 hfr1 hnx1 hbl1
  rw [hrn] at hsz1 hnx1 hbl1
  obtain ⟨a2, m1, hb2, hnx2, hsz2, hfr2, hc2⟩ := make_aux_dft_ok E hE w hw rest rest.length s1.2
    hlen (le_refl _)
  rw [List.take_length] at hc2
  refine ⟨Aux.node (2 ^ e0 * 2 ^ rest.sum) r.1 none s1.1 a2, m1, ?_, ?_, ?_, ?_⟩
  · subst hs1
    subst hr
    apply mkaux_realdft_nd_eq E _ _ m0 _ (2 ^ e0) a2 m1 (by omega) hp (by simp)
    have : ((e0 :: rest).map (fun e => 2 ^ e)).drop 1 = rest.map (fun e => 2 ^ e) := by simp
    rw [this]
    exact hb2
  · intro b hb
    rw [hsz2 b (by omega), hsz1 b (by omega), hrs' b hb]
  · intro b hb
    simp only [Aux.blks_node, List.mem_cons, List.mem_append] at hb
    rcases hb with hb | hb | hb
    · right
      rw [hb, hrb]
      show m0.next < m0.next + 1 ∧ m0.next + 1 ≤ _
      omega
    · rcases hbl1 b hb with h | h
      · exact Or.inl h
      · right; omega
    · rcases hfr2 b hb with h | h
      · exact Or.inl h
      · right; omega
  · refine ⟨r.1, none, s1.1, a2, by rw [List.sum_reverse], ?_, hc2, ?_, ?_, ?_⟩
    · apply hr1.blksR
      intro b hb
      rcases hbl1 b hb with h | h
      · exact hsz2 b (by omega)
      · exact hsz2 b h.2
    · intro i hi
      rw [List.sum_reverse] at hi
      rw [hrb]
      refine ⟨by simp, ?_⟩
      show 0 + 2 * i + 2 ≤ m1.size (m0.next + 1)
      rw [hsz2 _ (by omega), hsz1 _ (by omega), hrs]
      omega
    · intro h
      rw [hrb] at h
      rcases hbl1 _ h with h0 | h0
      · simp at h0
      · simp only at h0
        omega
    · intro h
      rw [hrb] at h
      rcases hfr2 _ h with h0 | h0
      · simp at h0
      · simp only at h0
        omega

/-- Effect of `minfft_realdft` with the plan `minfft_mkaux_realdft` builds for
more than one dimension. -/
theorem minfft_realdft_nd_post (E : Num ℝ) (hE : E.Exact) (w : ℕ → ℂ)
    (hw : ∀ k, w k = Complex.exp (-2 * Real.pi * Complex.I / 2 ^ k)) (e0 : ℕ) (rest : List ℕ)
    (hrest : rest ≠ []) (fuel : ℕ) (hf0 : e0 ≤ fuel) (hf : ∀ k, k ∈ rest → k < fuel)
    (m0 : Mem ℝ) (x z : Ptr)
    (hx : x.blk ≠ 0 ∧ x.blk ≤ m0.next ∧ x.off + 2 ^ e0 * 2 ^ rest.sum ≤ m0.size x.blk)
    (hz : z.blk ≠ 0 ∧ z.blk ≤ m0.next ∧
      z.off + 2 * ((2 ^ e0 / 2 + 1) * 2 ^ rest.sum) ≤ m0.size z.blk) :
    ∃ a m1, minfft_mkaux_realdft E (rest.length + 1) ((e0 :: rest).map (fun e => 2 ^ e)) m0 =
        some (a, m1) ∧
      ∀ m, m.size = m1.size →
        ∃ m', minfft_realdft E fuel x z a m = some m' ∧ m'.size = m.size ∧
          (∀ n j, n < 2 ^ e0 / 2 + 1 → j < 2 ^ rest.sum →
            toC (m'.getC (z.addC (n + (2 ^ e0 / 2 + 1) * j))) =
              mdft w rest.reverse (fun i => dft (w e0) (2 ^ e0)
                (fun n1 => (m.getR (x.addR (n1 + 2 ^ e0 * i)) : ℂ)) n) j) ∧
          (∀ b o, b ≠ 0 → b ≤ m0.next →
            ¬ InBuf z (2 * ((2 ^ e0 / 2 + 1) * 2 ^ rest.sum)) b o →
            m'.cell b o = m.cell b o) := by
  obtain ⟨a, m1, hb, hsz, hfr, hok⟩ := mkaux_realdft_nd_ok E hE w hw e0 rest hrest m0
  refine ⟨a, m1, hb, fun m hm => ?_⟩
  have hsz' : ∀ b, b ≤ m0.next → m.size b = m0.size b := fun b hb' => by
    rw [hm]; exact hsz b hb'
  have hok' : RealNdOK w e0 rest.reverse a m := by
    obtain ⟨t, e, s1, s2, ha, h1, h2, ht, hb'⟩ := hok
    exact ⟨t, e, s1, s2, ha, h1.congrR hm, h2.congrC hm,
      fun i hi => (Mem.okC_congr hm _).mpr (ht i hi), hb'⟩
  obtain ⟨m', h1, h2, h3, h4⟩ := minfft_realdft_nd_ok E w (Roots.of_exact hE w hw)
    (exp_roots_unit w hw) fuel e0 rest.reverse a x z m hok' hf0
    (fun k hk => hf k (by simpa using hk))
    (fun i hi => by
      rw [List.sum_reverse] at hi
      exact okR_of_region hx hsz' hi)
    (fun j hj => by
      rw [List.sum_reverse] at hj
      exact okC_of_region hz hsz' hj)
    (fun h => by rcases hfr _ h with h0 | h0 <;> omega)
    (fun h => by rcases hfr _ h with h0 | h0 <;> omega)
  rw [List.sum_reverse] at h3 h4
  refine ⟨m', h1, h2, h3, ?_⟩
  intro b o hb0 hbn hbuf
  apply h4
  · intro hmem
    rcases hfr _ hmem with h0 | h0 <;> omega
  · rintro ⟨hb', j, hj, ho⟩
    apply hbuf
    refine ⟨hb', ?_, ?_⟩ <;> omega

end Minfft

namespace Minfft

open Cx

theorem mdft_zero (w : ℕ → ℂ) : ∀ (ks : List ℕ) (j : ℕ), mdft w ks (fun _ => 0) j = 0
  | [], _ => rfl
  | k :: rest, j => by
    simp only [mdft]
    unfold dft
    apply Finset.sum_eq_zero
    intro n _
    rw [mdft_zero w rest, zero_mul]

/-- The run of `minfft_realdft` on the plan of the dimensions 2 and 4, from a
source of zeros: the cell `z[7]` receives the value `0`. -/
theorem minfft_realdft_2d_zero :
    ∃ a m1 m', minfft_mkaux_realdft
        (⟨Real.pi, Real.sqrt 2, Real.sqrt 2 / 2, fun z => fromC (Complex.exp (toC z))⟩ : Num ℝ)
        2 [2 ^ 1, 2 ^ 2] ⟨2, fun _ => 16, fun _ _ => 0⟩ = some (a, m1) ∧
      minfft_realdft ⟨Real.pi, Real.sqrt 2, Real.sqrt 2 / 2, fun z => fromC (Complex.exp (toC z))⟩
        3 ⟨1, 0⟩ ⟨2, 0⟩ a ⟨m1.next, m1.size, fun b _ => if b = 2 then 5 else 0⟩ = some m' ∧
      m'.getC ((⟨2, 0⟩ : Ptr).addC 7) = ⟨0, 0⟩ := by
  obtain ⟨w, hw⟩ : ∃ w : ℕ → ℂ, ∀ k, w k = Complex.exp (-2 * Real.pi * Complex.I / 2 ^ k) :=
    ⟨_, fun _ => rfl⟩
  obtain ⟨a, m1, hb, hrun⟩ := minfft_realdft_nd_post _ exact_env w hw 1 [2] (by simp) 3
    (by decide) (by simp) ⟨2, fun _ => 16, fun _ _ => 0⟩ ⟨1, 0⟩ ⟨2, 0⟩
    ⟨by decide, by decide, by decide⟩ ⟨by decide, by decide, by decide⟩
  obtain ⟨m', h1, -, hv, -⟩ := hrun ⟨m1.next, m1.size, fun b _ => if b = 2 then 5 else 0⟩ rfl
  refine ⟨a, m1, m', hb, h1, ?_⟩
  have := hv 1 3 (by norm_num) (by norm_num)
  rw [show 1 + (2 ^ 1 / 2 + 1) * 3 = 7 from rfl] at this
  apply toC_injective
  rw [this]
  have hz : (fun i => dft (w 1) (2 ^ 1) (fun n1 =>
      (((⟨m1.next, m1.size, fun b _ => if b = 2 then 5 else 0⟩ : Mem ℝ).getR
        ((⟨1, 0⟩ : Ptr).addR (n1 + 2 ^ 1 * i)) : ℝ) : ℂ)) 1) = fun _ => 0 := by
    funext i
    unfold dft
    apply Finset.sum_eq_zero
    intro n _
    simp [Mem.getR, Ptr.addR]
  rw [hz, mdft_zero]
  apply Complex.ext <;> simp

end Minfft

namespace Minfft

open Cx

/-! ### Loops that store two reals in each iteration -/

theorem forLoop_shift {R : Type} (body : ℕ → Mem R → Option (Mem R)) (lo : ℕ) :
    ∀ (cnt i : ℕ) (m : Mem R),
      forLoop body (i + lo) cnt m = forLoop (fun n => body (n + lo)) i cnt m := by
  intro cnt
  induction cnt with
  | zero => intro i m; rfl
  | succ c ih =>
    intro i m
    rw [forLoop_succ, forLoop_succ]
    congr 1
    funext m'
    rw [show i + lo + 1 = (i + 1) + lo by ring]
    exact ih (i + 1) m'

theorem Mem.setC_eq_setR {R : Type} (m : Mem R) (p : Ptr) (v : Cx R) :
    m.setC p v = (m.setR p v.re).setR (p.addR 1) v.im := by
  have : (m.setC p v).cell = ((m.setR p v.re).setR (p.addR 1) v.im).cell := by
    funext b o
    simp only [Mem.cell_setC, Mem.cell_setR, Ptr.addR_blk, Ptr.addR_off]
    by_cases h1 : b = p.blk ∧ o = p.off
    · have h2 : ¬ (b = p.blk ∧ o = p.off + 1) := by omega
      simp [h1, h2]
    · simp [h1]
  cases m
  simp only [Mem.setC, Mem.setR] at this ⊢
  simp only [Mem.mk.injEq, true_and]
  exact this

theorem Mem.getR_setR {R : Type} (m : Mem R) (p q : Ptr) (v : R) :
    (m.setR p v).getR q = if q = p then v else m.getR q := by
  by_cases h : q = p
  · rw [if_pos h, h, Mem.getR_setR_self]
  · rw [if_neg h]
    apply Mem.getR_setR_of_ne
    by_contra hc
    apply h
    cases p; cases q
    simp only [not_or, not_not] at hc
    simp only [Ptr.mk.injEq]
    exact hc

/-- A loop whose iteration `n` stores `A n` in `p n` and then `B n` in `q n`,
whenever the memory agrees with the initial one outside the cells the loop
stores to: when these cells are pairwise different, they hold the values at
the end and no other cell has changed. -/
theorem forLoop_two_writes (body : ℕ → Mem ℝ → Option (Mem ℝ)) (lo cnt : ℕ) (m : Mem ℝ)
    (p q : ℕ → Ptr) (A B : ℕ → ℝ)
    (hpp : ∀ n n', lo ≤ n → n < lo + cnt → lo ≤ n' → n' < lo + cnt → n ≠ n' → p n ≠ p n')
    (hqq : ∀ n n', lo ≤ n → n < lo + cnt → lo ≤ n' → n' < lo + cnt → n ≠ n' → q n ≠ q n')
    (hpq : ∀ n n', lo ≤ n → n < lo + cnt → lo ≤ n' → n' < lo + cnt → p n ≠ q n')
    (hbody : ∀ n m1, lo ≤ n → n < lo + cnt → m1.size = m.size → m1.next = m.next →
      (∀ r : Ptr, (∀ n', lo ≤ n' → n' < lo + cnt → r ≠ p n' ∧ r ≠ q n') →
        m1.getR r = m.getR r) →
      body n m1 = some ((m1.setR (p n) (A n)).setR (q n) (B n))) :
    ∃ m', forLoop body lo cnt m = some m' ∧ m'.size = m.size ∧ m'.next = m.next ∧
      (∀ n, lo ≤ n → n < lo + cnt → m'.getR (p n) = A n ∧ m'.getR (q n) = B n) ∧
      (∀ r : Ptr, (∀ n, lo ≤ n → n < lo + cnt → r ≠ p n ∧ r ≠ q n) →
        m'.getR r = m.getR r) := by
  have key := forLoop_inv body
    (fun i m1 => m1.size = m.size ∧ m1.next = m.next ∧
      (∀ n, lo ≤ n → n < i → m1.getR (p n) = A n ∧ m1.getR (q n) = B n) ∧
      (∀ r : Ptr, (∀ n, lo ≤ n → n < i → r ≠ p n ∧ r ≠ q n) → m1.getR r = m.getR r))
    cnt lo m ⟨rfl, rfl, fun n h1 h2 => by omega, fun _ _ => rfl⟩
    (by
      rintro n m1 hn1 hn2 ⟨hs, hx, hv, hf⟩
      have hb := hbody n m1 hn1 hn2 hs hx
        (fun r hr => hf r (fun n' h1 h2 => hr n' h1 (by omega)))
      refine ⟨_, hb, hs, hx, ?_, ?_⟩
      · intro n' h1 h2
        rcases Nat.lt_or_ge n' n with h | h
        · obtain ⟨a1, a2⟩ := hv n' h1 h
          constructor
          · rw [Mem.getR_setR, if_neg (hpq n' n h1 (by omega) hn1 hn2), Mem.getR_setR,
              if_neg (hpp n' n h1 (by omega) hn1 hn2 (by omega)), a1]
          · rw [Mem.getR_setR, if_neg (hqq n' n h1 (by omega) hn1 hn2 (by omega)),
              Mem.getR_setR, if_neg (fun hc => hpq n n' hn1 hn2 h1 (by omega) hc.symm), a2]
        · have hnn : n' = n := by omega
          subst hnn
          constructor
          · rw [Mem.getR_setR, if_neg (hpq n' n' h1 hn2 h1 hn2), Mem.getR_setR_self]
          · rw [Mem.getR_setR_self]
      · intro r hr
        obtain ⟨r1, r2⟩ := hr n hn1 (by omega)
        rw [Mem.getR_setR, if_neg r2, Mem.getR_setR, if_neg r1]
        exact hf r (fun n' h1 h2 => hr n' h1 (by omega)))
  obtain ⟨m', hl, hs, hx, hv, hf⟩ := key
  exact ⟨m', hl, hs, hx, hv, hf⟩

theorem Ptr.addR_ne {p : Ptr} {a b : ℕ} (h : a ≠ b) : p.addR a ≠ p.addR b := by
  intro hc
  have := congrArg Ptr.off hc
  simp only [Ptr.addR_off] at this
  omega

theorem Ptr.ne_of_blk {p q : Ptr} (h : p.blk ≠ q.blk) : p ≠ q := by
  intro hc
  exact h (congrArg Ptr.blk hc)

theorem Ptr.addR_str_ne {p : Ptr} {sy a b : ℕ} (hsy : 0 < sy) (h : a ≠ b) :
    p.addR (sy * a) ≠ p.addR (sy * b) := by
  apply Ptr.addR_ne
  intro hc
  exact h (Nat.eq_of_mul_eq_mul_left hsy hc)

end Minfft

namespace Minfft

open Cx

/-! ### The transform `s_dct2_1d` -/

theorem s_dct2_1d_prep_eq {R : Type} [Field R] (H : ℕ) (x t : Ptr) (n : ℕ) (m : Mem R)
    (hxt : x.blk ≠ t.blk) (hx0 : m.okR (x.addR (2 * n))) (hx1 : m.okR (x.addR (2 * H - 1 - 2 * n)))
    (ht0 : m.okR (t.addR n)) (ht1 : m.okR (t.addR (H + n))) :
    s_dct2_1d_prep (2 * H) x t n m = some
      ((m.setR (t.addR n) (m.getR (x.addR (2 * n)))).setR (t.addR (H + n))
        (m.getR (x.addR (2 * H - 1 - 2 * n)))) := by
  have hH : 2 * H / 2 = H := by omega
  have hg : (m.setR (t.addR n) (m.getR (x.addR (2 * n)))).getR (x.addR (2 * H - 1 - 2 * n)) =
      m.getR (x.addR (2 * H - 1 - 2 * n)) :=
    Mem.getR_setR_of_ne _ _ _ _ (Or.inl hxt)
  simp only [s_dct2_1d_prep, hH, Mem.loadR_of_ok hx0, Mem.storeR_of_ok ht0, Mem.loadR_of_ok,
    Mem.okR_setR, hx1, Mem.storeR_of_ok, ht1, hg, Option.bind_eq_bind, Option.some_bind, bind]

theorem s_dct2_1d_rec_eq {R : Type} [Field R] (N : ℕ) (z y : Ptr) (sy : ℕ) (e : List (Cx R))
    (n : ℕ) (m : Mem R) (en : Cx R) (hz : m.okC (z.addC n)) (he : e.get? n = some en)
    (hy0 : m.okR (y.addR (sy * n))) (hy1 : m.okR (y.addR (sy * (N - n)))) :
    s_dct2_1d_rec N z y sy e n m = some
      ((m.setR (y.addR (sy * n)) (2 * (m.getC (z.addC n) * en).re)).setR
        (y.addR (sy * (N - n))) (-2 * (m.getC (z.addC n) * en).im)) := by
  simp only [s_dct2_1d_rec, Mem.loadC_of_ok hz, he, Mem.storeR_of_ok hy0, Mem.storeR_of_ok,
    Mem.okR_setR, hy1, Option.bind_eq_bind, Option.some_bind, bind]

theorem s_dct2_1d_unfold {R : Type} [Field R] (E : Num R) (fuel : ℕ) (x y : Ptr) (sy H : ℕ)
    (hH : 1 ≤ H) (t : Ptr) (e : Option (List (Cx R))) (s1 s2 : Aux R) (m : Mem R) :
    s_dct2_1d E fuel x y sy (Aux.node (2 * H) t e s1 s2) m =
      (forLoop (s_dct2_1d_prep (2 * H) x t) 0 H m).bind (fun m1 =>
        (s_realdft_1d E fuel t t 1 s1 m1).bind (fun m2 =>
          (m2.loadC t).bind (fun z0 =>
            (m2.storeR y (2 * z0.re)).bind (fun m3 =>
              (forLoop (s_dct2_1d_rec (2 * H) t y sy (e.getD [])) 1 (H - 1) m3).bind (fun m4 =>
                (m4.loadC (t.addC H)).bind (fun zh =>
                  m4.storeR (y.addR (sy * H)) (E.sqrt2 * zh.re))))))) := by
  have h1 : ¬ 2 * H = 1 := by omega
  have e1 : 2 * H / 2 = H := by omega
  have e2 : sy * (2 * H) / 2 = sy * H := by
    have : sy * (2 * H) = 2 * (sy * H) := by ring
    rw [this, Nat.mul_div_cancel_left _ (by norm_num : 0 < 2)]
  simp only [s_dct2_1d, Aux.N?, Aux.e?, Aux.t?, Aux.sub1?, Option.bind_eq_bind,
    Option.some_bind, bind, if_neg h1, e1, e2]

theorem getC_of_getR {m m' : Mem ℝ} (p : Ptr) (h0 : m'.getR p = m.getR p)
    (h1 : m'.getR (p.addR 1) = m.getR (p.addR 1)) : m'.getC p = m.getC p := by
  rw [Mem.getC_eq_getR, Mem.getC_eq_getR, h0, h1]

theorem toC_mul_re (a b : Cx ℝ) : (a * b).re = (toC a * toC b).re := by
  rw [← toC_mul, toC_re]

theorem toC_mul_im (a b : Cx ℝ) : (a * b).im = (toC a * toC b).im := by
  rw [← toC_mul, toC_im]

/-- The transform `s_dct2_1d` through a valid plan of length `N = 2^(k+1)`:
it returns; with `Z` the real DFT of the re-indexed input `P`
(`P n = x[2n]`, `P (N/2+n) = x[N-1-2n]`) and `v = exp(-2 pi i / (4N))`, it leaves
`2 Re Z_0` in `y[0]`, `2 Re (Z_n v^n)` in `y[sy*n]` and `-2 Im (Z_n v^n)` in
`y[sy*(N-n)]` for `0 < n < N/2`, and `sqrt2 * Re Z_(N/2)` in `y[sy*N/2]`; no
cell outside `y` and the blocks of the plan changes. -/
theorem s_dct2_1d_ok (E : Num ℝ) (w : ℕ → ℂ) (hw : Roots E w)
    (hu : ∀ k, w k * (starRingEnd ℂ) (w k) = 1) (k fuel : ℕ) (x y : Ptr) (sy : ℕ)
    (a : Aux ℝ) (m : Mem ℝ) (ha : T23OK w a (k + 1) m) (hfuel : k + 1 ≤ fuel) (hsy : 0 < sy)
    (hx : ∀ i, i < 2 ^ (k + 1) → m.okR (x.addR i))
    (hy : ∀ j, j < 2 ^ (k + 1) → m.okR (y.addR (sy * j)))
    (hxa : x.blk ∉ a.blks) (hya : y.blk ∉ a.blks) (P : ℕ → ℝ)
    (hP : ∀ n, n < 2 ^ k → P n = m.getR (x.addR (2 * n)) ∧
      P (2 ^ k + n) = m.getR (x.addR (2 ^ (k + 1) - 1 - 2 * n))) :
    ∃ m', s_dct2_1d E fuel x y sy a m = some m' ∧ m'.size = m.size ∧
      m'.getR (y.addR (sy * 0)) = 2 * (dft (w (k + 1)) (2 ^ (k + 1)) (fun i => (P i : ℂ)) 0).re ∧
      (∀ n, 1 ≤ n → n < 2 ^ k →
        m'.getR (y.addR (sy * n)) =
          2 * (dft (w (k + 1)) (2 ^ (k + 1)) (fun i => (P i : ℂ)) n * w (k + 3) ^ n).re ∧
        m'.getR (y.addR (sy * (2 ^ (k + 1) - n))) =
          -2 * (dft (w (k + 1)) (2 ^ (k + 1)) (fun i => (P i : ℂ)) n * w (k + 3) ^ n).im) ∧
      m'.getR (y.addR (sy * 2 ^ k)) =
        E.sqrt2 * (dft (w (k + 1)) (2 ^ (k + 1)) (fun i => (P i : ℂ)) (2 ^ k)).re ∧
      (∀ r : Ptr, r.blk ∉ a.blks → (∀ j, j < 2 ^ (k + 1) → r ≠ y.addR (sy * j)) →
        m'.getR r = m.getR r) := by
  obtain ⟨t, e, s1, rfl, hb⟩ := ha
  obtain ⟨ht, he, hs1, hts1⟩ := hb (by omega)
  simp only [Aux.blks_node, Aux.blks_null, List.append_nil, List.mem_cons, not_or] at hxa hya
  obtain ⟨H, hH⟩ : ∃ H, H = 2 ^ k := ⟨_, rfl⟩
  have hH1 : 1 ≤ H := by rw [hH]; exact Nat.one_le_two_pow
  have hN : 2 ^ (k + 1) = 2 * H := by rw [hH, pow_succ]; ring
  have hN2 : 2 * H / 2 = H := by omega
  rw [hN] at hx hy ht he hP ⊢
  rw [← hH] at hP ⊢
  rw [hN2] at he
  have hxt : x.blk ≠ t.blk := hxa.1
  have hyt : y.blk ≠ t.blk := hya.1
  obtain ⟨Z, hZ⟩ : ∃ Z : ℕ → ℂ, ∀ j, Z j = dft (w (k + 1)) (2 * H) (fun i => (P i : ℂ)) j :=
    ⟨_, fun _ => rfl⟩
  simp only [← hZ]
  -- the re-indexing of the input
  obtain ⟨m1, hl1, hsz1, hnx1, hv1, hf1⟩ := forLoop_two_writes
    (s_dct2_1d_prep (2 * H) x t) 0 H m (fun n => t.addR n) (fun n => t.addR (H + n))
    (fun n => m.getR (x.addR (2 * n))) (fun n => m.getR (x.addR (2 * H - 1 - 2 * n)))
    (fun n n' _ _ _ _ hne => Ptr.addR_ne hne)
    (fun n n' _ _ _ _ hne => Ptr.addR_ne (by omega))
    (fun n n' _ hn _ _ => Ptr.addR_ne (by omega))
    (by
      intro n ma _ hn hs _ hfr
      have okr : ∀ p, ma.okR p ↔ m.okR p := Mem.okR_congr hs
      have hxs : ∀ i, ma.getR (x.addR i) = m.getR (x.addR i) := by
        intro i
        apply hfr
        intro n' _ _
        exact ⟨Ptr.ne_of_blk hxt, Ptr.ne_of_blk hxt⟩
      rw [s_dct2_1d_prep_eq H x t n ma hxt ((okr _).mpr (hx _ (by omega)))
        ((okr _).mpr (hx _ (by omega))) ((okr _).mpr (ht _ (by omega)))
        ((okr _).mpr (ht _ (by omega))), hxs, hxs])
  simp only [Nat.zero_add, Nat.zero_le, true_implies] at hv1 hf1
  have hP1 : ∀ i, i < 2 * H → m1.getR (t.addR i) = P i := by
    intro i hi
    rcases Nat.lt_or_ge i H with h | h
    · rw [(hv1 i h).1, (hP i h).1]
    · have := (hv1 (i - H) (by omega)).2
      have e1 : H + (i - H) = i := by omega
      rw [e1] at this
      rw [this, ← (hP (i - H) (by omega)).2, e1]
  have okr1 : ∀ p, m1.okR p ↔ m.okR p := Mem.okR_congr hsz1
  -- the real DFT in place
  obtain ⟨m2, h2, hsz2, hnx2, hv2, hf2⟩ := s_realdft_1d_ok E w hw hu (k + 1) fuel t t 1 s1 m1
    (hs1.congrR hsz1) hfuel one_pos
    (fun i hi => by
      rw [hN] at hi
      exact (okr1 _).mpr (ht i (by omega)))
    (fun j hj => by
      rw [hN, hN2] at hj
      rw [one_mul]
      apply okC_of_okR
      rw [Ptr.addC_eq_addR, Ptr.addR_addR]
      exact (okr1 _).mpr (ht _ (by omega)))
    hts1 hts1
  rw [hN, hN2] at hv2 hf2
  simp only [one_mul] at hv2
  have hZ2 : ∀ j, j < H + 1 → toC (m2.getC (t.addC j)) = Z j := by
    intro j hj
    rw [hv2 j hj, hZ]
    apply dft_congr
    intro i hi
    rw [hP1 i hi]
  have hs2 : m2.size = m.size := by rw [hsz2, hsz1]
  have okr2 : ∀ p, m2.okR p ↔ m.okR p := Mem.okR_congr hs2
  have okc2 : ∀ j, j < H + 1 → m2.okC (t.addC j) := by
    intro j hj
    apply okC_of_okR
    rw [Ptr.addC_eq_addR, Ptr.addR_addR]
    exact (okr2 _).mpr (ht _ (by omega))
  -- the results
  obtain ⟨m3, hm3⟩ : ∃ m3, m3 = m2.setR (y.addR (sy * 0)) (2 * (m2.getC t).re) := ⟨_, rfl⟩
  have hs3 : m3.size = m.size := by rw [hm3]; exact hs2
  have t3 : ∀ r : Ptr, r.blk = t.blk → m3.getR r = m2.getR r := by
    intro r hr
    rw [hm3]
    exact Mem.getR_setR_of_ne _ _ _ _ (Or.inl (by rw [hr]; exact fun h => hyt h.symm))
  obtain ⟨m4, hl4, hsz4, hnx4, hv4, hf4⟩ := forLoop_two_writes
    (s_dct2_1d_rec (2 * H) t y sy (e.getD [])) 1 (H - 1) m3
    (fun n => y.addR (sy * n)) (fun n => y.addR (sy * (2 * H - n)))
    (fun n => 2 * (Z n * w (k + 3) ^ n).re) (fun n => -2 * (Z n * w (k + 3) ^ n).im)
    (fun n n' _ _ _ _ hne => Ptr.addR_str_ne hsy hne)
    (fun n n' _ _ _ _ hne => Ptr.addR_str_ne hsy (by omega))
    (fun n n' _ _ _ _ => Ptr.addR_str_ne hsy (by omega))
    (by
      intro n ma hn1 hn2 hs _ hfr
      have okr : ∀ p, ma.okR p ↔ m.okR p := fun p => (Mem.okR_congr hs p).trans
        (Mem.okR_congr hs3 p)
      have okc : ma.okC (t.addC n) :=
        (Mem.okC_congr (by rw [hs, hs3, hs2]) _).mpr (okc2 n (by omega))
      obtain ⟨en, hen, hwn⟩ := he n (by omega)
      have hz : ma.getC (t.addC n) = m2.getC (t.addC n) := by
        apply getC_of_getR
        · exact (hfr (t.addC n) (fun n' _ _ => ⟨Ptr.ne_of_blk (fun h => hyt h.symm),
            Ptr.ne_of_blk (fun h => hyt h.symm)⟩)).trans (t3 _ rfl)
        · exact (hfr ((t.addC n).addR 1) (fun n' _ _ => ⟨Ptr.ne_of_blk (fun h => hyt h.symm),
            Ptr.ne_of_blk (fun h => hyt h.symm)⟩)).trans (t3 _ rfl)
      rw [s_dct2_1d_rec_eq (2 * H) t y sy (e.getD []) n ma en okc hen
        ((okr _).mpr (hy _ (by omega))) ((okr _).mpr (hy _ (by omega))), hz, toC_mul_re,
        toC_mul_im, hZ2 n (by omega), hwn, show k + 1 + 2 = k + 3 from rfl])
  have hs4 : m4.size = m.size := by rw [hsz4, hs3]
  have t4 : ∀ r : Ptr, r.blk = t.blk → m4.getR r = m2.getR r := by
    intro r hr
    rw [hf4 r (fun n _ _ => ⟨Ptr.ne_of_blk (by rw [hr]; exact fun h => hyt h.symm),
      Ptr.ne_of_blk (by rw [hr]; exact fun h => hyt h.symm)⟩)]
    exact t3 r hr
  have hzh : m4.getC (t.addC H) = m2.getC (t.addC H) :=
    getC_of_getR _ (t4 _ rfl) (t4 _ rfl)
  refine ⟨m4.setR (y.addR (sy * H)) (E.sqrt2 * (m2.getC (t.addC H)).re), ?_, hs4, ?_, ?_, ?_, ?_⟩
  · have okt0 : m2.okC t := by simpa using okc2 0 (by omega)
    have oky0 : m2.okR y := by
      have := (okr2 _).mpr (hy 0 (by omega))
      simpa using this
    have hy0 : y.addR (sy * 0) = y := by simp
    rw [hy0] at hm3
    rw [s_dct2_1d_unfold E fuel x y sy H hH1, hl1, Option.some_bind, h2, Option.some_bind,
      Mem.loadC_of_ok okt0, Option.some_bind, Mem.storeR_of_ok oky0, Option.some_bind, ← hm3,
      hl4, Option.some_bind,
      Mem.loadC_of_ok ((Mem.okC_congr (by rw [hs4, hs2]) _).mpr (okc2 H (by omega))),
      Option.some_bind, hzh,
      Mem.storeR_of_ok ((Mem.okR_congr hs4 _).mpr (hy H (by omega)))]
  · rw [Mem.getR_setR_of_ne _ _ _ _ (Or.inr (by
      simp only [Ptr.addR_off]
      have : 0 < sy * H := Nat.mul_pos hsy hH1
      omega)),
      hf4 _ (fun n hn1 hn2 => ⟨Ptr.addR_str_ne hsy (by omega), Ptr.addR_str_ne hsy (by omega)⟩),
      hm3, Mem.getR_setR_self]
    have := hZ2 0 (by omega)
    rw [Ptr.addC_zero] at this
    rw [← this, toC_re]
  · intro n hn1 hn2
    obtain ⟨a1, a2⟩ := hv4 n hn1 (by omega)
    constructor
    · rw [Mem.getR_setR, if_neg (Ptr.addR_str_ne hsy (by omega)), a1]
    · rw [Mem.getR_setR, if_neg (Ptr.addR_str_ne hsy (by omega)), a2]
  · rw [Mem.getR_setR_self, ← hZ2 H (by omega), toC_re]
  · intro r hr hj
    simp only [Aux.blks_node, Aux.blks_null, List.append_nil, List.mem_cons, not_or] at hr
    rw [Mem.getR_setR, if_neg (hj H (by omega)),
      hf4 r (fun n hn1 hn2 => ⟨hj n (by omega), hj (2 * H - n) (by omega)⟩), hm3,
      Mem.getR_setR, if_neg (hj 0 (by omega))]
    have e2 : m2.getR r = m1.getR r :=
      hf2 r.blk r.off hr.2 (fun h => hr.1 h.1)
    rw [e2]
    exact hf1 r (fun n _ => ⟨Ptr.ne_of_blk hr.1, Ptr.ne_of_blk hr.1⟩)

end Minfft

namespace Minfft

/-! ### The closed form of the Type-2 cosine transform -/

theorem unit_pow_conj (v : ℂ) (hu : v * (starRingEnd ℂ) v = 1) (a : ℕ) :
    v ^ a * (starRingEnd ℂ) (v ^ a) = 1 := by
  rw [map_pow, ← mul_pow, hu, one_pow]

theorem unit_pow_eq_conj (v : ℂ) (hu : v * (starRingEnd ℂ) v = 1) (a b : ℕ) (c : ℂ)
    (h : v ^ b * v ^ a = c) : v ^ b = c * (starRingEnd ℂ) (v ^ a) := by
  have h1 := unit_pow_conj v hu a
  calc v ^ b = v ^ b * (v ^ a * (starRingEnd ℂ) (v ^ a)) := by rw [h1, mul_one]
    _ = c * (starRingEnd ℂ) (v ^ a) := by rw [← mul_assoc, h]

theorem dft_twist (v : ℂ) (N : ℕ) (p : ℕ → ℂ) (j : ℕ) :
    dft (v ^ 4) N p j * v ^ j = ∑ i in Finset.range N, p i * v ^ ((4 * i + 1) * j) := by
  unfold dft
  rw [Finset.sum_mul]
  apply Finset.sum_congr rfl
  intro i _
  rw [mul_assoc, ← pow_mul, ← pow_add]
  congr 2
  ring

/-- Sums over the re-indexed sequence `P n = X (2n)`, `P (H+n) = X (2H-1-2n)`. -/
theorem sum_reindex (H : ℕ) (X P c : ℕ → ℂ) (C : ℕ → ℂ)
    (hP : ∀ n, n < H → P n = X (2 * n) ∧ P (H + n) = X (2 * H - 1 - 2 * n))
    (hc0 : ∀ n, n < H → c n = C (2 * n))
    (hc1 : ∀ n, n < H → c (H + n) = C (2 * H - 1 - 2 * n)) :
    ∑ i in Finset.range (2 * H), P i * c i = ∑ m in Finset.range (2 * H), X m * C m := by
  rw [two_mul H, Finset.sum_range_add, ← two_mul, sum_range_even_odd (fun m => X m * C m) H]
  congr 1
  · apply Finset.sum_congr rfl
    intro n hn
    have hn' := Finset.mem_range.mp hn
    rw [(hP n hn').1, hc0 n hn']
  · rw [← Finset.sum_range_reflect (fun j => X (2 * j + 1) * C (2 * j + 1)) H]
    apply Finset.sum_congr rfl
    intro n hn
    have hn' := Finset.mem_range.mp hn
    have e : 2 * (H - 1 - n) + 1 = 2 * H - 1 - 2 * n := by omega
    rw [(hP n hn').2, hc1 n hn']
    simp only [e]

theorem neg_I_pow_q (n : ℕ) : (-Complex.I) ^ (4 * n + 1) = -Complex.I := by
  have h4 : (-Complex.I) ^ 4 = 1 := by
    have : (-Complex.I) ^ 4 = (Complex.I ^ 2) ^ 2 := by ring
    rw [this, Complex.I_sq]; ring
  rw [pow_add, pow_mul, h4, one_pow, one_mul, pow_one]

/-- The real parts of `Z_j v^j`: the cosine sums of the Type-2 transform. -/
theorem dct2_re (v : ℂ) (H : ℕ) (hvN : v ^ (2 * H) = -Complex.I)
    (hu : v * (starRingEnd ℂ) v = 1) (X P : ℕ → ℝ)
    (hP : ∀ n, n < H → P n = X (2 * n) ∧ P (H + n) = X (2 * H - 1 - 2 * n)) (j : ℕ) :
    (dft (v ^ 4) (2 * H) (fun i => (P i : ℂ)) j * v ^ j).re =
      ∑ m in Finset.range (2 * H), X m * (v ^ ((2 * m + 1) * j)).re := by
  have h4N : v ^ (4 * (2 * H)) = 1 := by
    rw [Nat.mul_comm 4, pow_mul, hvN]
    have : (-Complex.I) ^ 4 = (Complex.I ^ 2) ^ 2 := by ring
    rw [this, Complex.I_sq]; ring
  rw [dft_twist, Complex.re_sum]
  have key := sum_reindex H (fun m => (X m : ℂ)) (fun i => (P i : ℂ))
    (fun i => (((v ^ ((4 * i + 1) * j)).re : ℝ) : ℂ))
    (fun m => (((v ^ ((2 * m + 1) * j)).re : ℝ) : ℂ))
    (fun n hn => ⟨by beta_reduce; rw [(hP n hn).1], by beta_reduce; rw [(hP n hn).2]⟩)
    (fun n _ => by beta_reduce; rw [show 4 * n + 1 = 2 * (2 * n) + 1 by ring])
    (fun n hn => by
      have hb : v ^ ((2 * (2 * H - 1 - 2 * n) + 1) * j) =
          1 * (starRingEnd ℂ) (v ^ ((4 * (H + n) + 1) * j)) := by
        apply unit_pow_eq_conj v hu
        rw [← pow_add]
        have e : (2 * (2 * H - 1 - 2 * n) + 1) * j + (4 * (H + n) + 1) * j =
            4 * (2 * H) * j := by
          have : 2 * (2 * H - 1 - 2 * n) + 1 + (4 * (H + n) + 1) = 4 * (2 * H) := by omega
          rw [← Nat.add_mul, this]
        rw [e, pow_mul, h4N, one_pow]
      beta_reduce
      rw [hb, one_mul, Complex.conj_re])
  have key2 := congrArg Complex.re key
  simp only [Complex.re_sum, Complex.mul_re, Complex.ofReal_re, Complex.ofReal_im, mul_zero,
    sub_zero, zero_mul] at key2
  rw [← key2]
  apply Finset.sum_congr rfl
  intro i _
  simp

/-- The imaginary parts of `Z_j v^j`: the cosine sums at the mirrored index. -/
theorem dct2_im (v : ℂ) (H : ℕ) (hvN : v ^ (2 * H) = -Complex.I)
    (hu : v * (starRingEnd ℂ) v = 1) (X P : ℕ → ℝ)
    (hP : ∀ n, n < H → P n = X (2 * n) ∧ P (H + n) = X (2 * H - 1 - 2 * n)) (j : ℕ)
    (hj : j ≤ 2 * H) :
    -(dft (v ^ 4) (2 * H) (fun i => (P i : ℂ)) j * v ^ j).im =
      ∑ m in Finset.range (2 * H), X m * (v ^ ((2 * m + 1) * (2 * H - j))).re := by
  have hI4 : (-Complex.I) ^ 4 = 1 := by
    have : (-Complex.I) ^ 4 = (Complex.I ^ 2) ^ 2 := by ring
    rw [this, Complex.I_sq]; ring
  have h4N : v ^ (4 * (2 * H)) = 1 := by
    rw [Nat.mul_comm 4, pow_mul, hvN, hI4]
  rw [dft_twist, Complex.im_sum, ← Finset.sum_neg_distrib]
  have key := sum_reindex H (fun m => (X m : ℂ)) (fun i => (P i : ℂ))
    (fun i => ((-(v ^ ((4 * i + 1) * j)).im : ℝ) : ℂ))
    (fun m => (((v ^ ((2 * m + 1) * (2 * H - j))).re : ℝ) : ℂ))
    (fun n hn => ⟨by beta_reduce; rw [(hP n hn).1], by beta_reduce; rw [(hP n hn).2]⟩)
    (fun n _ => by
      have hb : v ^ ((2 * (2 * n) + 1) * (2 * H - j)) =
          -Complex.I * (starRingEnd ℂ) (v ^ ((4 * n + 1) * j)) := by
        apply unit_pow_eq_conj v hu
        rw [← pow_add]
        have e : (2 * (2 * n) + 1) * (2 * H - j) + (4 * n + 1) * j = 2 * H * (4 * n + 1) := by
          have : 2 * (2 * n) + 1 = 4 * n + 1 := by ring
          rw [this, ← Nat.mul_add, Nat.sub_add_cancel hj, Nat.mul_comm]
        rw [e, pow_mul, hvN, neg_I_pow_q]
      beta_reduce
      rw [hb]
      congr 1
      simp only [Complex.mul_re, Complex.neg_re, Complex.neg_im, Complex.I_re, Complex.I_im,
        Complex.conj_re, Complex.conj_im]
      ring)
    (fun n hn => by
      have hb : v ^ ((2 * (2 * H - 1 - 2 * n) + 1) * (2 * H - j)) * (-Complex.I) =
          v ^ ((4 * (H + n) + 1) * j) := by
        have e1 : -Complex.I = v ^ (4 * (2 * H) * j + 2 * H * (4 * n + 1)) := by
          rw [pow_add, pow_mul, h4N, one_pow, one_mul, pow_mul, hvN, neg_I_pow_q]
        have e2 : v ^ ((4 * (H + n) + 1) * j) =
            v ^ ((4 * (H + n) + 1) * j) * v ^ (4 * (2 * H) * H) := by
          rw [pow_mul _ (4 * (2 * H)), h4N, one_pow, mul_one]
        rw [e2, e1, ← pow_add, ← pow_add]
        congr 1
        obtain ⟨q', hq'⟩ : ∃ q', 2 * (2 * H - 1 - 2 * n) + 1 = q' ∧ q' + (4 * n + 1) = 4 * H :=
          ⟨_, rfl, by omega⟩
        obtain ⟨j', hj'⟩ : ∃ j', 2 * H - j = j' ∧ j' + j = 2 * H := ⟨_, rfl, by omega⟩
        rw [hq'.1, hj'.1]
        have hH : 2 * H = j' + j := hj'.2.symm
        have hq : 4 * H = q' + (4 * n + 1) := hq'.2.symm
        have h1 : 4 * (2 * H) * j = 2 * (q' + (4 * n + 1)) * j := by rw [← hq]; ring
        have h2 : 2 * H * (4 * n + 1) = (j' + j) * (4 * n + 1) := by rw [hH]
        have h3 : (4 * (H + n) + 1) * j = (q' + (4 * n + 1) + (4 * n + 1)) * j := by
          rw [← hq]; ring
        have h4 : 4 * (2 * H) * H = (q' + (4 * n + 1)) * (j' + j) := by rw [← hq, ← hH]; ring
        rw [h1, h2, h3, h4]
        ring
      have hb' : v ^ ((2 * (2 * H - 1 - 2 * n) + 1) * (2 * H - j)) =
          Complex.I * v ^ ((4 * (H + n) + 1) * j) := by
        rw [← hb]
        ring_nf
        rw [Complex.I_sq]
        ring
      beta_reduce
      rw [hb']
      simp)
  have key2 := congrArg Complex.re key
  simp only [Complex.re_sum, Complex.mul_re, Complex.ofReal_re, Complex.ofReal_im, mul_zero,
    sub_zero, zero_mul] at key2
  rw [← key2]
  apply Finset.sum_congr rfl
  intro i _
  simp

end Minfft

namespace Minfft

open Cx

theorem mkaux_t2t3_1d_small {R : Type} [Field R] (E : Num R) (m0 : Mem R) :
    minfft_mkaux_t2t3_1d E (2 ^ 0) m0 =
      (Aux.node (2 ^ 0) Ptr.null none (minfft_mkaux_realdft_1d E (2 ^ 0) m0).1 Aux.null,
        (minfft_mkaux_realdft_1d E (2 ^ 0) m0).2) := by
  simp [minfft_mkaux_t2t3_1d]

theorem mkaux_t2t3_1d_big {R : Type} [Field R] (E : Num R) (k : ℕ) (m0 : Mem R) :
    minfft_mkaux_t2t3_1d E (2 ^ (k + 1)) m0 =
      (Aux.node (2 ^ (k + 1)) ⟨m0.next + 1, 0⟩
        (some ((List.range (2 ^ k)).map (fun n => tw1 E n (4 * 2 ^ (k + 1)))))
        (minfft_mkaux_realdft_1d E (2 ^ (k + 1)) (m0.malloc (2 ^ (k + 1) + 2)).2).1 Aux.null,
        (minfft_mkaux_realdft_1d E (2 ^ (k + 1)) (m0.malloc (2 ^ (k + 1) + 2)).2).2) := by
  have h2 : 2 ≤ 2 ^ (k + 1) := by
    have : 2 ^ 1 ≤ 2 ^ (k + 1) := Nat.pow_le_pow_right (by norm_num) (by omega)
    omega
  have e1 : 2 ^ (k + 1) / 2 = 2 ^ k := by
    rw [pow_succ]; omega
  rw [minfft_mkaux_t2t3_1d, if_pos h2]
  simp only [e1]
  rfl

/-- The plan of `minfft_mkaux_t2t3_1d`, at the level of blocks. -/
theorem mkaux_t2t3_1d_plan (E : Num ℝ) (hE : E.Exact) (w : ℕ → ℂ)
    (hw : ∀ k, w k = Complex.exp (-2 * Real.pi * Complex.I / 2 ^ k)) (k : ℕ) (m0 m : Mem ℝ)
    (hm : m.size = (minfft_mkaux_t2t3_1d E (2 ^ k) m0).2.size) :
    T23OK w (minfft_mkaux_t2t3_1d E (2 ^ k) m0).1 k m ∧
      (∀ b, b ∈ (minfft_mkaux_t2t3_1d E (2 ^ k) m0).1.blks → b = 0 ∨ m0.next < b) ∧
      (∀ b, b ≤ m0.next → m.size b = m0.size b) := by
  rcases k with _ | k
  · rw [mkaux_t2t3_1d_small] at hm ⊢
    obtain ⟨-, hfr, hsz, -⟩ := mkaux_realdft_1d_plan E hE w hw 0 m0 m hm
    refine ⟨⟨_, _, _, rfl, fun h => by omega⟩, ?_, hsz⟩
    intro b hb
    simp only [Aux.blks_node, Aux.blks_null, List.append_nil, List.mem_cons] at hb
    rcases hb with hb | hb
    · left; rw [hb]; rfl
    · exact hfr b hb
  · rw [mkaux_t2t3_1d_big] at hm ⊢
    obtain ⟨hr, hfr, hsz, -⟩ := mkaux_realdft_1d_plan E hE w hw (k + 1)
      (m0.malloc (2 ^ (k + 1) + 2)).2 m hm
    replace hfr : ∀ b, b ∈ (minfft_mkaux_realdft_1d E (2 ^ (k + 1))
        (m0.malloc (2 ^ (k + 1) + 2)).2).1.blks → b = 0 ∨ m0.next + 1 < b := hfr
    replace hsz : ∀ b, b ≤ m0.next + 1 → m.size b = (m0.malloc (2 ^ (k + 1) + 2)).2.size b := hsz
    refine ⟨⟨_, _, _, rfl, fun _ => ⟨?_, ?_, hr, ?_⟩⟩, ?_, ?_⟩
    · intro i hi
      refine ⟨by simp, ?_⟩
      show 0 + i + 1 ≤ m.size (m0.next + 1)
      rw [hsz _ (le_refl _)]
      simp only [Mem.malloc, if_true]
      omega
    · intro n hn
      have e1 : 2 ^ (k + 1) / 2 = 2 ^ k := by
        rw [pow_succ]; omega
      rw [e1] at hn
      refine ⟨tw1 E n (4 * 2 ^ (k + 1)), ?_, ?_⟩
      · simp [List.getElem?_map, List.getElem?_range hn]
      · rw [toC_tw1 hE, hw]
        congr 2
        push_cast
        ring
    · intro h
      have h' : m0.next + 1 ∈ (minfft_mkaux_realdft_1d E (2 ^ (k + 1))
        (m0.malloc (2 ^ (k + 1) + 2)).2).1.blks := h
      rcases hfr _ h' with h0 | h0 <;> omega
    · intro b hb
      simp only [Aux.blks_node, Aux.blks_null, List.append_nil, List.mem_cons] at hb
      rcases hb with hb | hb
      · right; rw [hb]; exact Nat.lt_succ_self _
      · rcases hfr b hb with h0 | h0
        · exact Or.inl h0
        · right; omega
    · intro b hb
      rw [hsz b (by omega)]
      simp only [Mem.malloc]
      rw [if_neg (by omega)]

theorem root_pow_re (k p : ℕ) :
    (Complex.exp (-2 * Real.pi * Complex.I / 2 ^ (k + 3)) ^ p).re =
      Real.cos (Real.pi * p / (2 * 2 ^ (k + 1))) := by
  rw [← Complex.exp_nat_mul]
  have : (p : ℂ) * (-2 * Real.pi * Complex.I / 2 ^ (k + 3)) =
      ((-(Real.pi * p / (2 * 2 ^ (k + 1))) : ℝ) : ℂ) * Complex.I := by
    push_cast
    rw [pow_succ 2 (k + 2), pow_succ 2 (k + 1)]
    field_simp
    ring
  rw [this, Complex.exp_ofReal_mul_I_re, Real.cos_neg]

theorem minfft_dct2_leaf {R : Type} [Field R] (E : Num R) (fuel : ℕ) (x y : Ptr) (N : ℕ)
    (t : Ptr) (e : Option (List (Cx R))) (s1 : Aux R) (m : Mem R) :
    minfft_dct2 E fuel x y (Aux.node N t e s1 Aux.null) m =
      s_dct2_1d E fuel x y 1 (Aux.node N t e s1 Aux.null) m := by
  simp [minfft_dct2, s_dct2, make_real_transform, Aux.isNull]

end Minfft

namespace Minfft

open Cx

theorem dft_nyquist_real (v : ℂ) (H : ℕ) (hvN : v ^ (2 * H) = -Complex.I) (P : ℕ → ℝ) :
    (dft (v ^ 4) (2 * H) (fun i => (P i : ℂ)) H).im = 0 := by
  unfold dft
  rw [Complex.im_sum]
  apply Finset.sum_eq_zero
  intro i _
  have e : (v ^ 4) ^ (i * H) = (((-1 : ℝ) ^ i : ℝ) : ℂ) := by
    rw [← pow_mul, show 4 * (i * H) = 2 * H * (2 * i) by ring, pow_mul, hvN, pow_mul]
    have : (-Complex.I) ^ 2 = -1 := by
      rw [neg_sq, Complex.I_sq]
    rw [this]
    push_cast
    rfl
  rw [e, ← Complex.ofReal_mul, Complex.ofReal_im]

theorem dft_zero_real (v : ℂ) (N : ℕ) (P : ℕ → ℝ) :
    (dft v N (fun i => (P i : ℂ)) 0).im = 0 := by
  unfold dft
  rw [Complex.im_sum]
  apply Finset.sum_eq_zero
  intro i _
  simp

/-- The values `s_dct2_1d` stores are the cosine sums of the Type-2 transform. -/
theorem dct2_values (E : Num ℝ) (hE : E.Exact) (w : ℕ → ℂ)
    (hw : ∀ k, w k = Complex.exp (-2 * Real.pi * Complex.I / 2 ^ k)) (k : ℕ) (X P : ℕ → ℝ)
    (hP : ∀ n, n < 2 ^ k → P n = X (2 * n) ∧ P (2 ^ k + n) = X (2 ^ (k + 1) - 1 - 2 * n)) :
    (2 * (dft (w (k + 1)) (2 ^ (k + 1)) (fun i => (P i : ℂ)) 0).re =
      2 * ∑ n in Finset.range (2 ^ (k + 1)),
        X n * Real.cos (Real.pi * (0 : ℕ) * (2 * n + 1) / (2 * 2 ^ (k + 1)))) ∧
    (∀ j, 1 ≤ j → j < 2 ^ k →
      2 * (dft (w (k + 1)) (2 ^ (k + 1)) (fun i => (P i : ℂ)) j * w (k + 3) ^ j).re =
        2 * ∑ n in Finset.range (2 ^ (k + 1)),
          X n * Real.cos (Real.pi * j * (2 * n + 1) / (2 * 2 ^ (k + 1))) ∧
      -2 * (dft (w (k + 1)) (2 ^ (k + 1)) (fun i => (P i : ℂ)) j * w (k + 3) ^ j).im =
        2 * ∑ n in Finset.range (2 ^ (k + 1)),
          X n * Real.cos (Real.pi * (2 ^ (k + 1) - j : ℕ) * (2 * n + 1) / (2 * 2 ^ (k + 1)))) ∧
    (E.sqrt2 * (dft (w (k + 1)) (2 ^ (k + 1)) (fun i => (P i : ℂ)) (2 ^ k)).re =
      2 * ∑ n in Finset.range (2 ^ (k + 1)),
        X n * Real.cos (Real.pi * (2 ^ k : ℕ) * (2 * n + 1) / (2 * 2 ^ (k + 1)))) := by
  have hR := Roots.of_exact hE w hw
  have hu := exp_roots_unit w hw (k + 3)
  have hN : 2 ^ (k + 1) = 2 * 2 ^ k := by rw [pow_succ]; ring
  have hv4 : w (k + 3) ^ 4 = w (k + 1) := by
    have := hR.pow_two_pow (k + 1) 2
    rw [show k + 1 + 2 = k + 3 from rfl] at this
    exact this
  have hvN : w (k + 3) ^ (2 * 2 ^ k) = -Complex.I := by
    have := hR.quarter (k + 1)
    rw [show k + 1 + 2 = k + 3 from rfl, hN] at this
    exact this
  have hvH : w (k + 3) ^ (2 ^ k) = ((Real.sqrt 2 / 2 : ℝ) : ℂ) * (1 - Complex.I) := by
    have := hR.pow_two_pow 3 k
    rw [Nat.add_comm 3 k] at this
    rw [this, ← hR.three, hE.2.2.1]
  have hcos : ∀ n j : ℕ, (w (k + 3) ^ ((2 * n + 1) * j)).re =
      Real.cos (Real.pi * j * (2 * n + 1) / (2 * 2 ^ (k + 1))) := by
    intro n j
    rw [hw, root_pow_re]
    congr 1
    push_cast
    ring
  rw [hN] at hP
  simp only [← hv4, hN]
  have hre := dct2_re (w (k + 3)) (2 ^ k) hvN hu X P hP
  have him := dct2_im (w (k + 3)) (2 ^ k) hvN hu X P hP
  refine ⟨?_, ?_, ?_⟩
  · have := hre 0
    rw [pow_zero, mul_one] at this
    rw [this]
    congr 1
    apply Finset.sum_congr rfl
    intro n _
    rw [hcos]
  · intro j hj1 hj2
    constructor
    · rw [hre j]
      congr 1
      apply Finset.sum_congr rfl
      intro n _
      rw [hcos]
    · have := him j (by omega)
      rw [show (-2 : ℝ) * (dft (w (k + 3) ^ 4) (2 * 2 ^ k) (fun i => (P i : ℂ)) j *
          w (k + 3) ^ j).im = 2 * -(dft (w (k + 3) ^ 4) (2 * 2 ^ k) (fun i => (P i : ℂ)) j *
          w (k + 3) ^ j).im by ring, this]
      congr 1
      apply Finset.sum_congr rfl
      intro n _
      rw [hcos]
  · have h0 := dft_nyquist_real (w (k + 3)) (2 ^ k) hvN P
    have := hre (2 ^ k)
    rw [hvH, Complex.mul_re, h0] at this
    simp only [Complex.mul_re, Complex.ofReal_re, Complex.ofReal_im, Complex.sub_re,
      Complex.one_re, Complex.I_re, Complex.sub_im, Complex.one_im, Complex.I_im, zero_mul,
      sub_zero, mul_zero] at this
    have hs : Real.sqrt 2 * Real.sqrt 2 = 2 := Real.mul_self_sqrt (by norm_num)
    have e : E.sqrt2 * (dft (w (k + 3) ^ 4) (2 * 2 ^ k) (fun i => (P i : ℂ)) (2 ^ k)).re =
        2 * ((dft (w (k + 3) ^ 4) (2 * 2 ^ k) (fun i => (P i : ℂ)) (2 ^ k)).re *
          (Real.sqrt 2 / 2 * 1)) := by
      rw [hE.2.1]
      ring
    rw [e, this]
    congr 1
    apply Finset.sum_congr rfl
    intro n _
    rw [hcos]

end Minfft

namespace Minfft

open Cx

theorem t23_leaf_shape {R : Type} [Field R] (E : Num R) (N : ℕ) (m0 : Mem R) :
    ∃ t e s1, (minfft_mkaux_t2t3_1d E N m0).1 = Aux.node N t e s1 Aux.null := by
  unfold minfft_mkaux_t2t3_1d
  split
  · exact ⟨_, _, _, rfl⟩
  · exact ⟨_, _, _, rfl⟩

theorem okR_str_of_region {m0 m : Mem ℝ} {y : Ptr} {N j : ℕ}
    (hy : y.blk ≠ 0 ∧ y.blk ≤ m0.next ∧ y.off + N ≤ m0.size y.blk)
    (hm : ∀ b, b ≤ m0.next → m.size b = m0.size b) (hj : j < N) : m.okR (y.addR (1 * j)) := by
  rw [one_mul]
  exact okR_of_region hy hm hj

/-- Effect of `minfft_dct2` with the plan of `minfft_mkaux_t2t3_1d (2^k)`. -/
theorem minfft_dct2_1d_post (E : Num ℝ) (hE : E.Exact) (k fuel : ℕ) (hfuel : k ≤ fuel)
    (m0 m : Mem ℝ) (x y : Ptr)
    (hm : m.size = (minfft_mkaux_t2t3_1d E (2 ^ k) m0).2.size)
    (hx : x.blk ≠ 0 ∧ x.blk ≤ m0.next ∧ x.off + 2 ^ k ≤ m0.size x.blk)
    (hy : y.blk ≠ 0 ∧ y.blk ≤ m0.next ∧ y.off + 2 ^ k ≤ m0.size y.blk) :
    ∃ m', minfft_dct2 E fuel x y (minfft_mkaux_t2t3_1d E (2 ^ k) m0).1 m = some m' ∧
      m'.size = m.size ∧
      (∀ j, j < 2 ^ k → m'.getR (y.addR j) =
        2 * ∑ n in Finset.range (2 ^ k),
          m.getR (x.addR n) * Real.cos (Real.pi * j * (2 * n + 1) / (2 * 2 ^ k))) ∧
      (∀ b o, b ≠ 0 → b ≤ m0.next → ¬ InBuf y (2 ^ k) b o → m'.cell b o = m.cell b o) := by
  obtain ⟨w, hw⟩ : ∃ w : ℕ → ℂ, ∀ k, w k = Complex.exp (-2 * Real.pi * Complex.I / 2 ^ k) :=
    ⟨_, fun _ => rfl⟩
  obtain ⟨hok, hfr, hsz⟩ := mkaux_t2t3_1d_plan E hE w hw k m0 m hm
  rcases k with _ | k
  · have hx0 : m.okR x := by simpa using okR_of_region hx hsz (show 0 < 2 ^ 0 by norm_num)
    have hy0 : m.okR y := by simpa using okR_of_region hy hsz (show 0 < 2 ^ 0 by norm_num)
    have h := (symmetric_one E fuel m0 m x y hx0 hy0).1
    refine ⟨_, h, rfl, ?_, ?_⟩
    · intro j hj
      have hj0 : j = 0 := by simpa using hj
      subst hj0
      simp
    · intro b o _ _ hb
      rw [Mem.cell_setR, if_neg]
      rintro ⟨h1, h2⟩
      apply hb
      refine ⟨h1, by omega, ?_⟩
      simp only [pow_zero]
      omega
  · obtain ⟨t, e, s1, ha⟩ := t23_leaf_shape E (2 ^ (k + 1)) m0
    obtain ⟨P, hPdef⟩ : ∃ P : ℕ → ℝ, ∀ i, P i = if i < 2 ^ k then m.getR (x.addR (2 * i))
        else m.getR (x.addR (2 ^ (k + 1) - 1 - 2 * (i - 2 ^ k))) := ⟨_, fun _ => rfl⟩
    have hP : ∀ n, n < 2 ^ k → P n = m.getR (x.addR (2 * n)) ∧
        P (2 ^ k + n) = m.getR (x.addR (2 ^ (k + 1) - 1 - 2 * n)) := by
      intro n hn
      constructor
      · rw [hPdef, if_pos hn]
      · rw [hPdef, if_neg (by omega), Nat.add_sub_cancel_left]
    obtain ⟨m', h1, h2, v0, vn, vH, hf⟩ := s_dct2_1d_ok E w (Roots.of_exact hE w hw)
      (exp_roots_unit w hw) k fuel x y 1 _ m hok hfuel one_pos
      (fun i hi => okR_of_region hx hsz hi) (fun j hj => okR_str_of_region hy hsz hj)
      (not_mem_blks hfr hx.1 hx.2.1) (not_mem_blks hfr hy.1 hy.2.1) P hP
    obtain ⟨c0, cn, cH⟩ := dct2_values E hE w hw k (fun n => m.getR (x.addR n)) P hP
    simp only [one_mul] at v0 vn vH hf
    have hN : 2 ^ (k + 1) = 2 * 2 ^ k := by rw [pow_succ]; ring
    refine ⟨m', ?_, h2, ?_, ?_⟩
    · rw [ha, minfft_dct2_leaf, ← ha]
      exact h1
    · intro j hj
      rcases Nat.lt_or_ge j (2 ^ k) with hjH | hjH
      · rcases Nat.eq_zero_or_pos j with hj0 | hj0
        · subst hj0
          rw [v0, c0]
        · rw [(vn j hj0 hjH).1, (cn j hj0 hjH).1]
      · rcases Nat.eq_or_lt_of_le hjH with hjq | hjq
        · subst hjq
          rw [vH, cH]
        · have hn1 : 1 ≤ 2 ^ (k + 1) - j := by omega
          have hn2 : 2 ^ (k + 1) - j < 2 ^ k := by omega
          have hjj : 2 ^ (k + 1) - (2 ^ (k + 1) - j) = j := by omega
          have a2 := (vn _ hn1 hn2).2
          have b2 := (cn _ hn1 hn2).2
          rw [hjj] at a2 b2
          rw [a2, b2]
    · intro b o hb0 hbn hbuf
      have := hf ⟨b, o⟩ (by
        intro hmem
        rcases hfr _ hmem with h0 | h0
        · exact hb0 h0
        · exact absurd hbn (by simp only at h0; omega))
        (by
          intro j hj hc
          apply hbuf
          have h1 := congrArg Ptr.blk hc
          have h2 := congrArg Ptr.off hc
          simp only [Ptr.addR_blk, Ptr.addR_off] at h1 h2
          exact ⟨h1, by omega, by omega⟩)
      exact this

end Minfft

namespace Minfft

open Cx

end Minfft

namespace Minfft

open Cx

/-! ### The inverse real DFT of a spectrum -/

/-- The inverse real DFT through a valid plan, applied to `c` times the bins
`0 .. N/2` of the real DFT of `P`: `invrealdft_1d` returns and leaves
`c * N * P i` in `y[i]`. -/
theorem invrealdft_1d_spectrum (E : Num ℝ) (w : ℕ → ℂ) (hw : Roots E w)
    (hu : ∀ k, w k * (starRingEnd ℂ) (w k) = 1)
    (hprim : ∀ k, IsPrimitiveRoot (w k) (2 ^ k)) (k fuel : ℕ) (z y : Ptr)
    (a : Aux ℝ) (m : Mem ℝ) (ha : RealOK w a k m) (hfuel : k ≤ fuel)
    (hz : ∀ j, j < 2 ^ k / 2 + 1 → m.okC (z.addC j))
    (hy : ∀ i, i < 2 ^ k → m.okR (y.addR i))
    (hza : z.blk ∉ a.blks) (hya : y.blk ∉ a.blks) (c : ℝ) (P : ℕ → ℝ)
    (hzv : ∀ j, j < 2 ^ k / 2 + 1 →
      toC (m.getC (z.addC j)) = c * dft (w k) (2 ^ k) (fun n => (P n : ℂ)) j) :
    ∃ m', invrealdft_1d E fuel z y a m = some m' ∧ m'.size = m.size ∧
      ∀ i, i < 2 ^ k → m'.getR (y.addR i) = c * (2 ^ k : ℕ) * P i := by
  match k, ha, hfuel, hz, hy, hzv with
  | 0, ha, _, hz, hy, hzv =>
    obtain ⟨t, e, s1, s2, rfl, -⟩ := ha
    have hz0 : m.okC z := by simpa using hz 0 (by norm_num)
    have hy0 : m.okR y := by simpa using hy 0 (by norm_num)
    refine ⟨_, invrealdft_1d_one E fuel z y t e s1 s2 m hz0 hy0, rfl, ?_⟩
    intro i hi
    have hi0 : i = 0 := by simpa using hi
    subst hi0
    have := hzv 0 (by norm_num)
    rw [pow_zero, dft_one_len, Ptr.addC_zero] at this
    rw [Ptr.addR_zero, Mem.getR_setR_self, ← toC_re, this]
    simp
  | 1, ha, _, hz, hy, hzv =>
    obtain ⟨t, e, s1, s2, rfl, -⟩ := ha
    have hz0 : m.okC z := by simpa using hz 0 (by norm_num)
    have hz1 : m.okC (z.addC 1) := hz 1 (by norm_num)
    have hy0 : m.okR y := by simpa using hy 0 (by norm_num)
    have hy1 : m.okR (y.addR 1) := hy 1 (by norm_num)
    refine ⟨_, invrealdft_1d_two E fuel z y t e s1 s2 m hz0 hz1 hy0 hy1, rfl, ?_⟩
    have v0 := hzv 0 (by norm_num)
    have v1 := hzv 1 (by norm_num)
    rw [pow_one, dft_two, hw.one, Ptr.addC_zero] at v0
    rw [pow_one, dft_two, hw.one] at v1
    have r0 : (m.getC z).re = c * (P 0 + P 1) := by
      rw [← toC_re, v0, pow_zero, mul_one, ← Complex.ofReal_add, ← Complex.ofReal_mul,
        Complex.ofReal_re]
    have r1 : (m.getC (z.addC 1)).re = c * (P 0 - P 1) := by
      rw [← toC_re, v1, pow_one, mul_neg_one, ← sub_eq_add_neg, ← Complex.ofReal_sub,
        ← Complex.ofReal_mul, Complex.ofReal_re]
    intro i hi
    have hi2 : i < 2 := by simpa using hi
    interval_cases i
    · rw [Ptr.addR_zero, Mem.getR_setR_of_ne _ _ _ _ (Or.inr (by simp)), Mem.getR_setR_self,
        r0, r1]
      simp
      ring
    · rw [Mem.getR_setR_self, r0, r1]
      simp
      ring
  | k + 2, ha, hfuel, hz, hy, hzv =>
    have h2Q : 2 ^ (k + 2) / 2 + 1 = 2 ^ (k + 1) + 1 := by
      rw [pow_succ 2 (k + 1)]; omega
    have hN : 2 ^ (k + 2) = 2 * 2 ^ (k + 1) := by rw [pow_succ]; ring
    have hHQ : 2 ^ (k + 1) = 2 * 2 ^ k := by rw [pow_succ]; ring
    have hQ1 : 1 ≤ 2 ^ k := Nat.one_le_two_pow
    rw [h2Q] at hz hzv
    obtain ⟨W, hW⟩ : ∃ W : ℕ → ℂ, ∀ j, W j = (P (2 * j) : ℂ) + Complex.I * (P (2 * j + 1) : ℂ) :=
      ⟨_, fun _ => rfl⟩
    obtain ⟨T, hT⟩ : ∃ T : ℕ → ℂ, ∀ j, T j = dft (w (k + 2) ^ 2) (2 ^ (k + 1))
        (fun j => (P (2 * j) : ℂ) + Complex.I * (P (2 * j + 1) : ℂ)) j := ⟨_, fun _ => rfl⟩
    obtain ⟨Z, hZ⟩ : ∃ Z : ℕ → ℂ, ∀ j, Z j = dft (w (k + 2)) (2 * 2 ^ (k + 1))
        (fun n => (P n : ℂ)) j := ⟨_, fun _ => rfl⟩
    have hwH : w (k + 2) ^ (2 ^ (k + 1)) = -1 := by
      have := hw.pow_two_pow 1 (k + 1)
      rw [hw.one, show 1 + (k + 1) = k + 2 by ring] at this
      exact this
    have hwQ : w (k + 2) ^ (2 ^ k) = -Complex.I := hw.quarter k
    obtain ⟨p0, pg⟩ := realdft_repack (w (k + 2)) (2 ^ (k + 1)) P hwH (hu (k + 2)) T Z hT hZ
    have hzv' : ∀ j, j < 2 ^ (k + 1) + 1 → toC (m.getC (z.addC j)) = c * Z j := by
      intro j hj
      rw [hzv j hj, hZ, hN]
    have hzv0 : toC (m.getC z) = c * Z 0 := by
      have := hzv' 0 (by omega)
      rwa [Ptr.addC_zero] at this
    have hcc : ∀ u : ℂ, (starRingEnd ℂ) ((c : ℂ) * u) = (c : ℂ) * (starRingEnd ℂ) u := by
      intro u
      rw [map_mul, Complex.conj_ofReal]
    obtain ⟨m2, h2, hs2, hv2⟩ := invrealdft_1d_ok E w hw k fuel z y a m ha
      (by omega) hz hy hza hya (fun n => (c : ℂ) * (2 * T n))
      (by
        rw [hzv0, hzv' _ (by omega)]
        show (c : ℂ) * (2 * T 0) = _
        rw [p0]
        ring)
      (fun n hn1 hn2 => by
        rw [hzv' n (by omega), hzv' (2 ^ (k + 1) - n) (by omega), hcc]
        obtain ⟨g1, g2⟩ := pg n (by omega)
        constructor
        · show (c : ℂ) * (2 * T n) = _
          rw [g1]
          ring
        · show (c : ℂ) * (2 * T (2 ^ (k + 1) - n)) = _
          rw [g2]
          have e : (c : ℂ) * Z n + (c : ℂ) * (starRingEnd ℂ) (Z (2 ^ (k + 1) - n)) -
              Complex.I * ((c : ℂ) * Z n - (c : ℂ) * (starRingEnd ℂ) (Z (2 ^ (k + 1) - n))) *
                (starRingEnd ℂ) (w (k + 2) ^ n) =
              (c : ℂ) * (Z n + (starRingEnd ℂ) (Z (2 ^ (k + 1) - n)) -
                Complex.I * (Z n - (starRingEnd ℂ) (Z (2 ^ (k + 1) - n))) *
                  (starRingEnd ℂ) (w (k + 2) ^ n)) := by ring
          rw [e, hcc])
      (by
        rw [hzv' _ (by omega), hcc]
        have := (pg (2 ^ k) (by omega)).1
        have hsub : 2 ^ (k + 1) - 2 ^ k = 2 ^ k := by omega
        rw [hsub, map_pow, ← map_pow, hwQ] at this
        show (c : ℂ) * (2 * T (2 ^ k)) = _
        rw [this]
        simp only [map_neg, Complex.conj_I]
        ring_nf
        rw [Complex.I_sq]
        ring)
    refine ⟨m2, h2, hs2, ?_⟩
    have hpk : ∀ j, j < 2 ^ (k + 1) →
        toC (m2.getC (y.addC j)) = (c : ℂ) * (2 ^ (k + 2) : ℕ) * W j := by
      intro j hj
      rw [hv2 j hj]
      have e1 : (fun n => (c : ℂ) * (2 * T n)) = fun n => ((c : ℂ) * 2) * T n := by
        funext n; ring
      rw [e1, dft_smul]
      have hd := dft_dft_inv (w (k + 1)) ((starRingEnd ℂ) (w (k + 1))) (2 ^ (k + 1))
        (hprim (k + 1)) (hu (k + 1)) W j hj
      have hTW : ∀ n, T n = dft (w (k + 1)) (2 ^ (k + 1)) W n := by
        intro n
        rw [hT, hw.sq (k + 1)]
        apply dft_congr
        intro i _
        rw [hW]
      have : dft ((starRingEnd ℂ) (w (k + 1))) (2 ^ (k + 1)) T j =
          dft ((starRingEnd ℂ) (w (k + 1))) (2 ^ (k + 1)) (dft (w (k + 1)) (2 ^ (k + 1)) W) j := by
        apply dft_congr
        intro n _
        exact hTW n
      rw [this, hd, hN]
      push_cast
      ring
    intro i hi
    have hj : i / 2 < 2 ^ (k + 1) := by omega
    have hp := hpk (i / 2) hj
    rw [hW, Mem.getC_eq_getR] at hp
    rcases Nat.mod_two_eq_zero_or_one i with hi0 | hi1
    · have e : 2 * (i / 2) = i := by omega
      have := congrArg Complex.re hp
      rw [Ptr.addC_eq_addR, e] at this
      simp only [toC_mk, Complex.mul_re, Complex.add_re, Complex.ofReal_re, Complex.I_re,
        Complex.I_im, Complex.ofReal_im, Complex.natCast_re, Complex.natCast_im,
        Complex.add_im, Complex.mul_im] at this
      rw [this]
      ring
    · have e : 2 * (i / 2) + 1 = i := by omega
      have := congrArg Complex.im hp
      rw [Ptr.addC_eq_addR, Ptr.addR_addR, e] at this
      simp only [toC_mk, Complex.mul_re, Complex.add_re, Complex.ofReal_re, Complex.I_re,
        Complex.I_im, Complex.ofReal_im, Complex.natCast_re, Complex.natCast_im,
        Complex.add_im, Complex.mul_im] at this
      rw [this]
      ring

end Minfft

namespace Minfft

open Cx

/-! ### The transform `s_dct3_1d` -/

/-- A loop whose iteration `n` stores the complex number `V n` in `z[n]`. -/
theorem forLoop_writeC (body : ℕ → Mem ℝ → Option (Mem ℝ)) (lo cnt : ℕ) (m : Mem ℝ)
    (z : Ptr) (V : ℕ → Cx ℝ)
    (hbody : ∀ n m1, lo ≤ n → n < lo + cnt → m1.size = m.size → m1.next = m.next →
      (∀ r : Ptr, (∀ n', lo ≤ n' → n' < lo + cnt → r ≠ z.addC n' ∧ r ≠ (z.addC n').addR 1) →
        m1.getR r = m.getR r) →
      body n m1 = some (m1.setC (z.addC n) (V n))) :
    ∃ m', forLoop body lo cnt m = some m' ∧ m'.size = m.size ∧ m'.next = m.next ∧
      (∀ n, lo ≤ n → n < lo + cnt → m'.getC (z.addC n) = V n) ∧
      (∀ r : Ptr, (∀ n, lo ≤ n → n < lo + cnt → r ≠ z.addC n ∧ r ≠ (z.addC n).addR 1) →
        m'.getR r = m.getR r) := by
  have hne : ∀ a b c d : ℕ, c < 2 → d < 2 → (a ≠ b ∨ c ≠ d) →
      (⟨z.blk, z.off + 2 * a + c⟩ : Ptr) ≠ ⟨z.blk, z.off + 2 * b + d⟩ := by
    intro a b c d hc hd h hc'
    have := congrArg Ptr.off hc'
    simp only at this
    omega
  obtain ⟨m', hl, hs, hx, hv, hf⟩ := forLoop_two_writes body lo cnt m
    (fun n => z.addC n) (fun n => (z.addC n).addR 1) (fun n => (V n).re) (fun n => (V n).im)
    (fun n n' _ _ _ _ h => hne n n' 0 0 (by norm_num) (by norm_num) (Or.inl h))
    (fun n n' _ _ _ _ h => hne n n' 1 1 (by norm_num) (by norm_num) (Or.inl h))
    (fun n n' _ _ _ _ => hne n n' 0 1 (by norm_num) (by norm_num) (Or.inr (by norm_num)))
    (fun n m1 h1 h2 hs hx hfr => by
      rw [hbody n m1 h1 h2 hs hx hfr, Mem.setC_eq_setR])
  refine ⟨m', hl, hs, hx, ?_, hf⟩
  intro n h1 h2
  obtain ⟨a1, a2⟩ := hv n h1 h2
  have a1' : m'.getR (z.addC n) = (V n).re := a1
  have a2' : m'.getR ((z.addC n).addR 1) = (V n).im := a2
  rw [Mem.getC_eq_getR, a1', a2']

theorem s_dct3_1d_prep_eq {R : Type} [Field R] (N : ℕ) (x z : Ptr) (e : List (Cx R)) (n : ℕ)
    (m : Mem R) (en : Cx R) (hx0 : m.okR (x.addR n)) (hx1 : m.okR (x.addR (N - n)))
    (he : e.get? n = some en) (hz : m.okC (z.addC n)) :
    s_dct3_1d_prep N x z e n m = some (m.setC (z.addC n)
      (conj ((ofReal (m.getR (x.addR n)) + I * ofReal (m.getR (x.addR (N - n)))) * en))) := by
  simp only [s_dct3_1d_prep, Mem.loadR_of_ok hx0, Mem.loadR_of_ok hx1, he,
    Mem.storeC_of_ok hz, Option.bind_eq_bind, Option.some_bind, bind]

theorem s_dct3_1d_rec_eq {R : Type} [Field R] (H : ℕ) (t y : Ptr) (sy : ℕ) (n : ℕ)
    (m : Mem R) (hty : y.blk ≠ t.blk) (ht0 : m.okR (t.addR n)) (ht1 : m.okR (t.addR (H + n)))
    (hy0 : m.okR (y.addR (sy * 2 * n))) (hy1 : m.okR (y.addR (sy * (2 * H - 1 - 2 * n)))) :
    s_dct3_1d_rec (2 * H) t y sy n m = some
      ((m.setR (y.addR (sy * 2 * n)) (m.getR (t.addR n))).setR
        (y.addR (sy * (2 * H - 1 - 2 * n))) (m.getR (t.addR (H + n)))) := by
  have hH : 2 * H / 2 = H := by omega
  have hg : (m.setR (y.addR (sy * 2 * n)) (m.getR (t.addR n))).getR (t.addR (H + n)) =
      m.getR (t.addR (H + n)) :=
    Mem.getR_setR_of_ne _ _ _ _ (Or.inl (fun h => hty h.symm))
  simp only [s_dct3_1d_rec, hH, Mem.loadR_of_ok ht0, Mem.storeR_of_ok hy0, Mem.loadR_of_ok,
    Mem.okR_setR, ht1, Mem.storeR_of_ok, hy1, hg, Option.bind_eq_bind, Option.some_bind, bind]

theorem s_dct3_1d_unfold {R : Type} [Field R] (E : Num R) (fuel : ℕ) (x y : Ptr) (sy H : ℕ)
    (hH : 1 ≤ H) (z : Ptr) (e : Option (List (Cx R))) (s1 s2 : Aux R) (m : Mem R) :
    s_dct3_1d E fuel x y sy (Aux.node (2 * H) z e s1 s2) m =
      (m.loadR x).bind (fun x0 =>
        (m.storeC z (ofReal x0)).bind (fun m1 =>
          (forLoop (s_dct3_1d_prep (2 * H) x z (e.getD [])) 1 (H - 1) m1).bind (fun m2 =>
            (m2.loadR (x.addR H)).bind (fun xh =>
              (m2.storeC (z.addC H) (ofReal (E.sqrt2 * xh))).bind (fun m3 =>
                (invrealdft_1d E fuel z z s1 m3).bind (fun m4 =>
                  forLoop (s_dct3_1d_rec (2 * H) z y sy) 0 H m4)))))) := by
  have h1 : ¬ 2 * H = 1 := by omega
  have e1 : 2 * H / 2 = H := by omega
  simp only [s_dct3_1d, Aux.N?, Aux.e?, Aux.t?, Aux.sub1?, Option.bind_eq_bind,
    Option.some_bind, bind, if_neg h1, e1]

/-- Undoing the rotation of the Type-2 transform: from `2 Re u` and `-2 Im u`
with `u = Z v^n` back to `2 Z`, for `v` of modulus one. -/
theorem type3_unrotate (Z v : ℂ) (n : ℕ) (hu : v * (starRingEnd ℂ) v = 1) (a b : ℝ)
    (ha : a = 2 * (Z * v ^ n).re) (hb : b = -2 * (Z * v ^ n).im) :
    (starRingEnd ℂ) (((a : ℂ) + Complex.I * (b : ℂ)) * v ^ n) = 2 * Z := by
  have h1 : (a : ℂ) + Complex.I * (b : ℂ) = 2 * (starRingEnd ℂ) (Z * v ^ n) := by
    rw [ha, hb]
    obtain ⟨u, hu'⟩ : ∃ u, u = Z * v ^ n := ⟨_, rfl⟩
    rw [← hu']
    apply Complex.ext <;> simp
  rw [h1, map_mul, map_mul, Complex.conj_conj, map_ofNat, mul_assoc, mul_assoc,
    unit_pow_conj v hu n, mul_one]

theorem real_of_im_zero (Z : ℂ) (h : Z.im = 0) (r : ℝ) (hr : r = 2 * Z.re) :
    (r : ℂ) = 2 * Z := by
  rw [hr]
  apply Complex.ext <;> simp [h]

end Minfft

namespace Minfft

open Cx

/-- The transform `s_dct3_1d` through a valid plan of length `N = 2^(k+1)`,
applied to the values the Type-2 transform produces from a sequence `P`
(with `Z` the real DFT of `P` and `v = exp(-2 pi i / (4N))`: `2 Re Z_0` in
`x[0]`, `2 Re (Z_n v^n)` in `x[n]` and `-2 Im (Z_n v^n)` in `x[N-n]` for
`0 < n < N/2`, `sqrt2 * Re Z_(N/2)` in `x[N/2]`): it returns and leaves
`2N * P n` in `y[sy*2n]` and `2N * P (N/2+n)` in `y[sy*(N-1-2n)]`. -/
theorem s_dct3_1d_ok (E : Num ℝ) (w : ℕ → ℂ) (hw : Roots E w)
    (hu : ∀ k, w k * (starRingEnd ℂ) (w k) = 1)
    (hprim : ∀ k, IsPrimitiveRoot (w k) (2 ^ k)) (hsq : E.sqrt2 * E.sqrt2 = 2)
    (k fuel : ℕ) (x y : Ptr) (sy : ℕ)
    (a : Aux ℝ) (m : Mem ℝ) (ha : T23OK w a (k + 1) m) (hfuel : k + 1 ≤ fuel) (hsy : 0 < sy)
    (hx : ∀ i, i < 2 ^ (k + 1) → m.okR (x.addR i))
    (hy : ∀ j, j < 2 ^ (k + 1) → m.okR (y.addR (sy * j)))
    (hxa : x.blk ∉ a.blks) (hya : y.blk ∉ a.blks) (P : ℕ → ℝ)
    (hX0 : m.getR (x.addR 0) =
      2 * (dft (w (k + 1)) (2 ^ (k + 1)) (fun i => (P i : ℂ)) 0).re)
    (hXn : ∀ n, 1 ≤ n → n < 2 ^ k →
      m.getR (x.addR n) =
        2 * (dft (w (k + 1)) (2 ^ (k + 1)) (fun i => (P i : ℂ)) n * w (k + 3) ^ n).re ∧
      m.getR (x.addR (2 ^ (k + 1) - n)) =
        -2 * (dft (w (k + 1)) (2 ^ (k + 1)) (fun i => (P i : ℂ)) n * w (k + 3) ^ n).im)
    (hXH : m.getR (x.addR (2 ^ k)) =
      E.sqrt2 * (dft (w (k + 1)) (2 ^ (k + 1)) (fun i => (P i : ℂ)) (2 ^ k)).re) :
    ∃ m', s_dct3_1d E fuel x y sy a m = some m' ∧ m'.size = m.size ∧
      ∀ n, n < 2 ^ k →
        m'.getR (y.addR (sy * (2 * n))) = 2 * (2 ^ (k + 1) : ℕ) * P n ∧
        m'.getR (y.addR (sy * (2 ^ (k + 1) - 1 - 2 * n))) =
          2 * (2 ^ (k + 1) : ℕ) * P (2 ^ k + n) := by
  obtain ⟨z, e, s1, rfl, hb⟩ := ha
  obtain ⟨ht, he, hs1, hts1⟩ := hb (by omega)
  simp only [Aux.blks_node, Aux.blks_null, List.append_nil, List.mem_cons, not_or] at hxa hya
  obtain ⟨H, hH⟩ : ∃ H, H = 2 ^ k := ⟨_, rfl⟩
  have hH1 : 1 ≤ H := by rw [hH]; exact Nat.one_le_two_pow
  have hN : 2 ^ (k + 1) = 2 * H := by rw [hH, pow_succ]; ring
  have hN2 : 2 * H / 2 = H := by omega
  have hv4 : w (k + 3) ^ 4 = w (k + 1) := by
    have := hw.pow_two_pow (k + 1) 2
    rw [show k + 1 + 2 = k + 3 from rfl] at this
    exact this
  have hvN : w (k + 3) ^ (2 * H) = -Complex.I := by
    have := hw.quarter (k + 1)
    rw [show k + 1 + 2 = k + 3 from rfl, hN] at this
    exact this
  obtain ⟨Z, hZ⟩ : ∃ Z : ℕ → ℂ, ∀ j, Z j = dft (w (k + 1)) (2 ^ (k + 1)) (fun i => (P i : ℂ)) j :=
    ⟨_, fun _ => rfl⟩
  simp only [← hZ] at hX0 hXn hXH
  have hZ0 : (Z 0).im = 0 := by rw [hZ]; exact dft_zero_real _ _ P
  have hZH : (Z H).im = 0 := by
    rw [hZ, ← hv4, hN]
    exact dft_nyquist_real (w (k + 3)) H hvN P
  rw [hN] at hx hy ht he hXn ⊢
  rw [← hH] at hXn hXH ⊢
  rw [hN2] at he
  have hxz : x.blk ≠ z.blk := hxa.1
  have hyz : y.blk ≠ z.blk := hya.1
  have okz : ∀ j, j < H + 1 → m.okC (z.addC j) := by
    intro j hj
    apply okC_of_okR
    rw [Ptr.addC_eq_addR, Ptr.addR_addR]
    exact ht _ (by omega)
  obtain ⟨eN, heN⟩ : ∃ eN : ℕ → Cx ℝ, ∀ n, eN n = ((e.getD []).get? n).getD ⟨0, 0⟩ :=
    ⟨_, fun _ => rfl⟩
  have heN' : ∀ n, n < H → (e.getD []).get? n = some (eN n) ∧ toC (eN n) = w (k + 3) ^ n := by
    intro n hn
    obtain ⟨en, h1, h2⟩ := he n hn
    rw [heN, h1]
    exact ⟨rfl, h2⟩
  -- the preparation
  obtain ⟨m1, hm1⟩ : ∃ m1, m1 = m.setC z (ofReal (m.getR x)) := ⟨_, rfl⟩
  have hs1' : m1.size = m.size := by rw [hm1]; rfl
  have x1 : ∀ i, m1.getR (x.addR i) = m.getR (x.addR i) := by
    intro i
    rw [hm1, Mem.setC_eq_setR, Mem.getR_setR_of_ne _ (z.addR 1) (x.addR i) _ (Or.inl hxz),
      Mem.getR_setR_of_ne _ z (x.addR i) _ (Or.inl hxz)]
  obtain ⟨m2, hl2, hsz2, hnx2, hv2, hf2⟩ := forLoop_writeC
    (s_dct3_1d_prep (2 * H) x z (e.getD [])) 1 (H - 1) m1 z
    (fun n => conj ((ofReal (m.getR (x.addR n)) + I * ofReal (m.getR (x.addR (2 * H - n)))) *
      eN n))
    (by
      intro n ma hn1 hn2 hs _ hfr
      have okr : ∀ p, ma.okR p ↔ m.okR p := fun p =>
        (Mem.okR_congr hs p).trans (Mem.okR_congr hs1' p)
      have hxs : ∀ i, ma.getR (x.addR i) = m.getR (x.addR i) := by
        intro i
        rw [hfr (x.addR i) (fun n' _ _ => ⟨Ptr.ne_of_blk hxz, Ptr.ne_of_blk hxz⟩)]
        exact x1 i
      rw [s_dct3_1d_prep_eq (2 * H) x z (e.getD []) n ma (eN n) ((okr _).mpr (hx _ (by omega)))
        ((okr _).mpr (hx _ (by omega))) (heN' n (by omega)).1
        ((Mem.okC_congr (by rw [hs, hs1']) _).mpr (okz n (by omega))), hxs, hxs])
  have hs2 : m2.size = m.size := by rw [hsz2, hs1']
  have x2 : ∀ i, m2.getR (x.addR i) = m.getR (x.addR i) := by
    intro i
    rw [hf2 (x.addR i) (fun n' _ _ => ⟨Ptr.ne_of_blk hxz, Ptr.ne_of_blk hxz⟩)]
    exact x1 i
  obtain ⟨m3, hm3⟩ : ∃ m3, m3 = m2.setC (z.addC H) (ofReal (E.sqrt2 * m.getR (x.addR H))) :=
    ⟨_, rfl⟩
  have hs3 : m3.size = m.size := by rw [hm3]; exact hs2
  have hne : ∀ a b c d : ℕ, c < 2 → d < 2 → (a ≠ b ∨ c ≠ d) →
      (⟨z.blk, z.off + 2 * a + c⟩ : Ptr) ≠ ⟨z.blk, z.off + 2 * b + d⟩ := by
    intro a b c d hc hd h hc'
    have := congrArg Ptr.off hc'
    simp only at this
    omega
  -- the prepared bins are twice the bins of the real DFT of `P`
  have hz3 : ∀ j, j < H + 1 → toC (m3.getC (z.addC j)) = (2 : ℝ) * Z j := by
    intro j hj
    push_cast
    rcases Nat.lt_or_ge j H with hjH | hjH
    · rw [hm3, Mem.getC_setC_idx _ _ _ _ _ (by omega)]
      rcases Nat.eq_zero_or_pos j with hj0 | hj0
      · subst hj0
        have e0 : m2.getC (z.addC 0) = m1.getC (z.addC 0) := by
          apply getC_of_getR
          · exact hf2 _ (fun n' h1 _ => ⟨hne 0 n' 0 0 (by norm_num) (by norm_num)
              (Or.inl (by omega)), hne 0 n' 0 1 (by norm_num) (by norm_num)
              (Or.inr (by norm_num))⟩)
          · exact hf2 _ (fun n' h1 _ => ⟨hne 0 n' 1 0 (by norm_num) (by norm_num)
              (Or.inr (by norm_num)), hne 0 n' 1 1 (by norm_num) (by norm_num)
              (Or.inl (by omega))⟩)
        rw [e0, Ptr.addC_zero, hm1, Mem.getC_setC_self, toC_ofReal]
        have hx0 : m.getR x = 2 * (Z 0).re := by
          rw [Ptr.addR_zero] at hX0
          exact hX0
        exact real_of_im_zero (Z 0) hZ0 _ hx0
      · rw [hv2 j hj0 (by omega), toC_conj, toC_mul, toC_add, toC_mul, toC_I, toC_ofReal,
          toC_ofReal, (heN' j hjH).2]
        exact type3_unrotate (Z j) (w (k + 3)) j (hu (k + 3)) _ _ (hXn j hj0 hjH).1
          (hXn j hj0 hjH).2
    · have hjq : j = H := by omega
      subst hjq
      rw [hm3, Mem.getC_setC_self, toC_ofReal]
      apply real_of_im_zero (Z j) hZH
      rw [hXH, ← mul_assoc, hsq]
  -- the inverse real DFT in place
  obtain ⟨m4, h4, hsz4, hv4'⟩ := invrealdft_1d_spectrum E w hw hu hprim (k + 1) fuel z z s1 m3
    (hs1.congrR hs3) hfuel
    (fun j hj => by
      rw [hN, hN2] at hj
      exact (Mem.okC_congr hs3 _).mpr (okz j hj))
    (fun i hi => by
      rw [hN] at hi
      exact (Mem.okR_congr hs3 _).mpr (ht i (by omega)))
    hts1 hts1 2 P
    (fun j hj => by
      rw [hN, hN2] at hj
      rw [hz3 j hj, hZ])
  rw [hN] at hv4'
  have hs4 : m4.size = m.size := by rw [hsz4, hs3]
  -- the results
  obtain ⟨m5, hl5, hsz5, hnx5, hv5, hf5⟩ := forLoop_two_writes
    (s_dct3_1d_rec (2 * H) z y sy) 0 H m4
    (fun n => y.addR (sy * 2 * n)) (fun n => y.addR (sy * (2 * H - 1 - 2 * n)))
    (fun n => 2 * ((2 * H : ℕ) : ℝ) * P n) (fun n => 2 * ((2 * H : ℕ) : ℝ) * P (H + n))
    (fun n n' _ _ _ _ hne' => by
      show y.addR (sy * 2 * n) ≠ y.addR (sy * 2 * n')
      rw [Nat.mul_assoc, Nat.mul_assoc]
      exact Ptr.addR_str_ne hsy (by omega))
    (fun n n' _ _ _ _ hne' => Ptr.addR_str_ne hsy (by omega))
    (fun n n' _ _ _ _ => by
      show y.addR (sy * 2 * n) ≠ y.addR (sy * (2 * H - 1 - 2 * n'))
      rw [Nat.mul_assoc]
      exact Ptr.addR_str_ne hsy (by omega))
    (by
      intro n ma _ hn hs _ hfr
      have okr : ∀ p, ma.okR p ↔ m.okR p := fun p =>
        (Mem.okR_congr hs p).trans (Mem.okR_congr hs4 p)
      have hts : ∀ i, ma.getR (z.addR i) = m4.getR (z.addR i) := by
        intro i
        exact hfr (z.addR i) (fun n' _ _ => ⟨Ptr.ne_of_blk (fun h => hyz h.symm),
          Ptr.ne_of_blk (fun h => hyz h.symm)⟩)
      rw [s_dct3_1d_rec_eq H z y sy n ma hyz ((okr _).mpr (ht _ (by omega)))
        ((okr _).mpr (ht _ (by omega)))
        ((okr _).mpr (by rw [Nat.mul_assoc]; exact hy _ (by omega)))
        ((okr _).mpr (hy _ (by omega))), hts, hts, hv4' n (by omega),
        hv4' (H + n) (by omega)])
  simp only [Nat.zero_add, Nat.zero_le, true_implies] at hv5
  refine ⟨m5, ?_, by rw [hsz5, hs4], ?_⟩
  · have okx0 : m.okR x := by simpa using hx 0 (by omega)
    rw [s_dct3_1d_unfold E fuel x y sy H hH1, Mem.loadR_of_ok okx0, Option.some_bind,
      Mem.storeC_of_ok (by simpa using okz 0 (by omega)), Option.some_bind, ← hm1, hl2,
      Option.some_bind, Mem.loadR_of_ok ((Mem.okR_congr hs2 _).mpr (hx H (by omega))),
      Option.some_bind, x2,
      Mem.storeC_of_ok ((Mem.okC_congr hs2 _).mpr (okz H (by omega))), Option.some_bind,
      ← hm3, h4, Option.some_bind]
    exact hl5
  · intro n hn
    obtain ⟨a1, a2⟩ := hv5 n hn
    rw [Nat.mul_assoc] at a1
    exact ⟨a1, a2⟩

end Minfft

namespace Minfft

open Cx

/-! ### Parseval's relation -/

/-- Parseval's relation for the transform with a primitive root of modulus one. -/
theorem dft_parseval (z : ℂ) (N : ℕ) (hz : IsPrimitiveRoot z N)
    (hzz : z * (starRingEnd ℂ) z = 1) (f : ℕ → ℂ) :
    ∑ j in Finset.range N, Complex.normSq (dft z N f j) =
      N * ∑ n in Finset.range N, Complex.normSq (f n) := by
  have hc : ∀ j, (starRingEnd ℂ) (dft z N f j) =
      ∑ n in Finset.range N, (starRingEnd ℂ) (f n) * (starRingEnd ℂ) z ^ (j * n) := by
    intro j
    unfold dft
    rw [map_sum]
    apply Finset.sum_congr rfl
    intro n _
    rw [map_mul, map_pow, Nat.mul_comm]
  have key : ∑ j in Finset.range N, dft z N f j * (starRingEnd ℂ) (dft z N f j) =
      (N : ℂ) * ∑ n in Finset.range N, f n * (starRingEnd ℂ) (f n) := by
    simp only [hc, Finset.mul_sum]
    rw [Finset.sum_comm]
    apply Finset.sum_congr rfl
    intro n hn
    have hd := dft_dft_inv z ((starRingEnd ℂ) z) N hz hzz f n (Finset.mem_range.mp hn)
    unfold dft at hd
    unfold dft
    calc ∑ j in Finset.range N, (∑ i in Finset.range N, f i * z ^ (i * j)) *
            ((starRingEnd ℂ) (f n) * (starRingEnd ℂ) z ^ (j * n))
        = (starRingEnd ℂ) (f n) * ∑ j in Finset.range N,
            (∑ i in Finset.range N, f i * z ^ (i * j)) * (starRingEnd ℂ) z ^ (j * n) := by
          rw [Finset.mul_sum]
          apply Finset.sum_congr rfl
          intro j _
          ring
      _ = (N : ℂ) * (f n * (starRingEnd ℂ) (f n)) := by
          rw [hd]
          ring
  simp only [Complex.mul_conj] at key
  have key' : ((∑ j in Finset.range N, Complex.normSq (dft z N f j) : ℝ) : ℂ) =
      ((N * ∑ n in Finset.range N, Complex.normSq (f n) : ℝ) : ℂ) := by
    push_cast
    exact key
  exact Complex.ofReal_injective key'

/-- Parseval's relation for `minfft_dft` with the plan of `minfft_mkaux_dft_1d`. -/
theorem minfft_dft_1d_parseval (E : Num ℝ) (hE : E.Exact) (k fuel : ℕ) (hfuel : k < fuel)
    (m0 m : Mem ℝ) (x y : Ptr)
    (hm : m.size = (minfft_mkaux_dft_1d E (2 ^ k) m0).2.size)
    (hx : x.blk ≠ 0 ∧ x.blk ≤ m0.next ∧ x.off + 2 * 2 ^ k ≤ m0.size x.blk)
    (hy : y.blk ≠ 0 ∧ y.blk ≤ m0.next ∧ y.off + 2 * 2 ^ k ≤ m0.size y.blk) :
    ∃ m', minfft_dft E fuel x y (minfft_mkaux_dft_1d E (2 ^ k) m0).1 m = some m' ∧
      ((2 ^ k : ℕ) : ℝ) * ∑ n in Finset.range (2 ^ k),
          ((m.getC (x.addC n)).re ^ 2 + (m.getC (x.addC n)).im ^ 2) =
        ∑ j in Finset.range (2 ^ k),
          ((m'.getC (y.addC j)).re ^ 2 + (m'.getC (y.addC j)).im ^ 2) := by
  obtain ⟨m', h1, -, hv, -⟩ := minfft_dft_1d_post E hE k fuel hfuel m0 m x y hm hx hy
  refine ⟨m', h1, ?_⟩
  have hN : (2 ^ k : ℕ) ≠ 0 := by positivity
  have hp := dft_parseval _ (2 ^ k) (exp_root_primitive (2 ^ k) hN) (exp_root_mul_conj (2 ^ k))
    (fun n => toC (m.getC (x.addC n)))
  have hn : ∀ c : Cx ℝ, c.re ^ 2 + c.im ^ 2 = Complex.normSq (toC c) := by
    intro c
    rw [Complex.normSq_apply]
    simp only [toC]
    ring
  simp only [hn]
  rw [← hp]
  apply Finset.sum_congr rfl
  intro j hj
  rw [hv j (Finset.mem_range.mp hj), dft_exp]
  push_cast
  rfl

end Minfft

namespace Minfft

open Cx

end Minfft

namespace Minfft

open Cx

/-! ### The terminal cases of the complex DFT -/

/-- For the lengths 1, 2, 4, 8 the result of `minfft_dft` depends neither on
the scratch pointer nor on the twiddle table of the plan, nor on the fuel. -/
theorem minfft_dft_small_indep {R : Type} [Field R] (E : Num R) (k : ℕ) (hk : k < 4)
    (fuel fuel' : ℕ) (x y t t' : Ptr) (e e' : Option (List (Cx R))) (m : Mem R) :
    minfft_dft E (fuel + 1) x y (Aux.node (2 ^ k) t e Aux.null Aux.null) m =
      minfft_dft E (fuel' + 1) x y (Aux.node (2 ^ k) t' e' Aux.null Aux.null) m := by
  rw [minfft_dft_leaf, minfft_dft_leaf]
  simp only [s_dft_1d, Aux.N?, Aux.t?, Aux.e?, Option.bind_eq_bind, Option.some_bind, bind]
  have h := rs_dft_1d_small E fuel x t y 1 (e.getD []) m
  have h' := rs_dft_1d_small E fuel' x t' y 1 (e'.getD []) m
  interval_cases k
  · rw [show (2 : ℕ) ^ 0 = 1 from rfl, h.1, h'.1]
  · rw [show (2 : ℕ) ^ 1 = 2 from rfl, h.2.1, h'.2.1]
  · rw [show (2 : ℕ) ^ 2 = 4 from rfl, h.2.2.1, h'.2.2.1]
  · rw [show (2 : ℕ) ^ 3 = 8 from rfl, h.2.2.2, h'.2.2.2]

/-- The transform of the constant sequence `1`. -/
theorem dft_const_one (z : ℂ) (N : ℕ) (hz : IsPrimitiveRoot z N) (j : ℕ) (hj : j < N) :
    dft z N (fun _ => 1) j = if j = 0 then (N : ℂ) else 0 := by
  unfold dft
  have e : ∀ n, (1 : ℂ) * z ^ (n * j) = (z ^ j) ^ n := by
    intro n
    rw [one_mul, ← pow_mul, Nat.mul_comm]
  simp only [e]
  split_ifs with h
  · subst h
    simp
  · apply geom_root_sum
    · rw [← pow_mul, Nat.mul_comm, pow_mul, hz.pow_eq_one, one_pow]
    · intro h1
      apply h
      have := hz.pow_inj hj (by omega : 0 < N) (by rw [h1, pow_zero])
      exact this

/-- The transform of the unit impulse at index `0`. -/
theorem dft_impulse (z : ℂ) (N : ℕ) (hN : 0 < N) (f : ℕ → ℂ) (hf0 : f 0 = 1)
    (hf : ∀ n, 0 < n → n < N → f n = 0) (j : ℕ) : dft z N f j = 1 := by
  unfold dft
  rw [Finset.sum_eq_single 0]
  · rw [hf0, Nat.zero_mul, pow_zero, mul_one]
  · intro n hn h0
    rw [hf n (Nat.pos_of_ne_zero h0) (Finset.mem_range.mp hn), zero_mul]
  · intro h
    exact absurd (Finset.mem_range.mpr hN) h

/-- Effect of `minfft_dft` for the lengths 1, 2, 4, 8. -/
theorem minfft_dft_small_post (E : Num ℝ) (hE : E.Exact) (k fuel : ℕ) (hk : k < 4)
    (hfuel : 0 < fuel) (m0 m : Mem ℝ) (x y : Ptr) (hm : m.size = m0.size)
    (hx : x.blk ≠ 0 ∧ x.blk ≤ m0.next ∧ x.off + 2 * 2 ^ k ≤ m0.size x.blk)
    (hy : y.blk ≠ 0 ∧ y.blk ≤ m0.next ∧ y.off + 2 * 2 ^ k ≤ m0.size y.blk) :
    minfft_mkaux_dft_1d E (2 ^ k) m0 =
        (Aux.node (2 ^ k) Ptr.null none Aux.null Aux.null, m0) ∧
      toC (ofReal E.sqrt1_2 * (ofReal 1 - I)) = Complex.exp (-2 * Real.pi * Complex.I / 8) ∧
      ∃ m', minfft_dft E fuel x y (minfft_mkaux_dft_1d E (2 ^ k) m0).1 m = some m' ∧
        (∀ (t : Ptr) (e : Option (List (Cx ℝ))),
          minfft_dft E fuel x y (Aux.node (2 ^ k) t e Aux.null Aux.null) m = some m') ∧
        (∀ j, j < 2 ^ k → toC (m'.getC (y.addC j)) =
          ∑ n in Finset.range (2 ^ k),
            toC (m.getC (x.addC n)) * Complex.exp (-2 * Real.pi * Complex.I * n * j / 2 ^ k)) ∧
        (k = 2 → m.getC (x.addC 0) = ⟨1, 0⟩ → (∀ n, 0 < n → n < 4 → m.getC (x.addC n) = ⟨0, 0⟩) →
          ∀ j, j < 4 → m'.getC (y.addC j) = ⟨1, 0⟩) ∧
        (k = 3 → (∀ n, n < 8 → m.getC (x.addC n) = ⟨1, 0⟩) →
          m'.getC (y.addC 0) = ⟨8, 0⟩ ∧ ∀ j, 0 < j → j < 8 → m'.getC (y.addC j) = ⟨0, 0⟩) := by
  have hsmall := mkaux_dft_1d_small E k hk m0
  refine ⟨hsmall, ?_, ?_⟩
  · rw [toC_mul, toC_sub, toC_ofReal, toC_ofReal, toC_I, hE.2.2.1]
    have := exp_root_three
    norm_num at this ⊢
    exact this
  obtain ⟨f, rfl⟩ : ∃ f, fuel = f + 1 := ⟨fuel - 1, by omega⟩
  obtain ⟨m', h1, -, hv, -⟩ := minfft_dft_1d_post E hE k (k + 1) (by omega) m0 m x y
    (by rw [hm, hsmall]) hx hy
  rw [hsmall] at h1 ⊢
  have h1' : ∀ (t : Ptr) (e : Option (List (Cx ℝ))),
      minfft_dft E (f + 1) x y (Aux.node (2 ^ k) t e Aux.null Aux.null) m = some m' := by
    intro t e
    rw [← h1]
    exact minfft_dft_small_indep E k hk f k x y t Ptr.null e none m
  have hv' : ∀ j, j < 2 ^ k → toC (m'.getC (y.addC j)) =
      dft (Complex.exp (-2 * Real.pi * Complex.I / (2 ^ k : ℕ))) (2 ^ k)
        (fun n => toC (m.getC (x.addC n))) j := by
    intro j hj
    rw [hv j hj, dft_exp]
    push_cast
    rfl
  refine ⟨m', h1' _ _, h1', hv, ?_, ?_⟩
  · rintro rfl h0 hn j hj
    apply toC_injective
    rw [hv' j hj]
    exact dft_impulse _ (2 ^ 2) (by norm_num) (fun n => toC (m.getC (x.addC n)))
      (by
        show toC (m.getC (x.addC 0)) = 1
        rw [h0]; rfl)
      (fun n h0' h4 => by
        show toC (m.getC (x.addC n)) = 0
        rw [hn n h0' h4]; rfl) j
  · rintro rfl h1s
    have hN : (2 ^ 3 : ℕ) ≠ 0 := by norm_num
    have hd := dft_const_one _ (2 ^ 3) (exp_root_primitive (2 ^ 3) hN)
    have hval : ∀ j, j < 2 ^ 3 →
        toC (m'.getC (y.addC j)) = if j = 0 then ((2 ^ 3 : ℕ) : ℂ) else 0 := by
      intro j hj
      rw [hv' j hj, ← hd j hj]
      apply dft_congr
      intro n hn
      rw [h1s n hn]
      rfl
    constructor
    · apply toC_injective
      rw [hval 0 (by norm_num), if_pos rfl]
      apply Complex.ext <;> norm_num
    · intro j h0 hj
      apply toC_injective
      rw [hval j hj, if_neg (by omega)]
      rfl

end Minfft

namespace Minfft

open Cx

/-- Claim C13: for `N` in `{1, 2, 4, 8}`, `minfft_mkaux_dft_1d N` builds a plan
with null scratch and null twiddle table (and allocates nothing), and
`minfft_dft` returns with any positive fuel, that is without recursion,
leaving the exact unnormalised DFT in `y`; the result is the same for every
scratch pointer and twiddle table put in the plan, so neither is read.  The
constant `0.7071...*(1-i)` of the length-8 kernel is `exp(-2πi/8)`; the `N = 4`
DFT of `[1,0,0,0]` is `[1,1,1,1]` and the `N = 8` DFT of the constant `1` is
`[8,0,0,0,0,0,0,0]`. -/
theorem minfft_dft_terminal_cases (E : Num ℝ) (hE : E.Exact) (k fuel : ℕ) (hk : k < 4)
    (hfuel : 0 < fuel) (m0 m : Mem ℝ) (x y : Ptr) (hm : m.size = m0.size)
    (hx : x.blk ≠ 0 ∧ x.blk ≤ m0.next ∧ x.off + 2 * 2 ^ k ≤ m0.size x.blk)
    (hy : y.blk ≠ 0 ∧ y.blk ≤ m0.next ∧ y.off + 2 * 2 ^ k ≤ m0.size y.blk) :
    minfft_mkaux_dft_1d E (2 ^ k) m0 =
        (Aux.node (2 ^ k) Ptr.null none Aux.null Aux.null, m0) ∧
      toC (ofReal E.sqrt1_2 * (ofReal 1 - I)) = Complex.exp (-2 * Real.pi * Complex.I / 8) ∧
      ∃ m', minfft_dft E fuel x y (minfft_mkaux_dft_1d E (2 ^ k) m0).1 m = some m' ∧
        (∀ (t : Ptr) (e : Option (List (Cx ℝ))),
          minfft_dft E fuel x y (Aux.node (2 ^ k) t e Aux.null Aux.null) m = some m') ∧
        (∀ j, j < 2 ^ k → toC (m'.getC (y.addC j)) =
          ∑ n in Finset.range (2 ^ k),
            toC (m.getC (x.addC n)) * Complex.exp (-2 * Real.pi * Complex.I * n * j / 2 ^ k)) ∧
        (k = 2 → m.getC (x.addC 0) = ⟨1, 0⟩ → (∀ n, 0 < n → n < 4 → m.getC (x.addC n) = ⟨0, 0⟩) →
          ∀ j, j < 4 → m'.getC (y.addC j) = ⟨1, 0⟩) ∧
        (k = 3 → (∀ n, n < 8 → m.getC (x.addC n) = ⟨1, 0⟩) →
          m'.getC (y.addC 0) = ⟨8, 0⟩ ∧ ∀ j, 0 < j → j < 8 → m'.getC (y.addC j) = ⟨0, 0⟩) :=
  minfft_dft_small_post E hE k fuel hk hfuel m0 m x y hm hx hy

theorem minfft_dft_terminal_cases_witness :
    ∃ E : Num ℝ, E.Exact ∧
      ∃ m', minfft_dft E 1 ⟨1, 0⟩ ⟨2, 0⟩
          (minfft_mkaux_dft_1d E (2 ^ 2)
            ⟨2, fun _ => 8, fun _ o => if o = 0 then (1 : ℝ) else 0⟩).1
          ⟨2, fun _ => 8, fun _ o => if o = 0 then (1 : ℝ) else 0⟩ = some m' ∧
        ∀ j, j < 4 → m'.getC ((⟨2, 0⟩ : Ptr).addC j) = ⟨1, 0⟩ := by
  obtain ⟨E, hE⟩ := exact_env_exists
  obtain ⟨-, -, m', h1, -, -, h4, -⟩ := minfft_dft_terminal_cases E hE 2 1 (by decide)
    (by decide) ⟨2, fun _ => 8, fun _ o => if o = 0 then (1 : ℝ) else 0⟩
    ⟨2, fun _ => 8, fun _ o => if o = 0 then (1 : ℝ) else 0⟩ ⟨1, 0⟩ ⟨2, 0⟩ rfl
    ⟨by decide, by decide, by decide⟩ ⟨by decide, by decide, by decide⟩
  refine ⟨E, hE, m', h1, h4 rfl ?_ ?_⟩
  · simp [Mem.getC, Ptr.addC]
  · intro n h0 _
    have h2 : 2 * n ≠ 0 := by omega
    simp [Mem.getC, Ptr.addC, h2]

end Minfft

namespace Minfft

open Cx

/-! ### The recursion of `rs_dft_1d` and `rs_invdft_1d` -/

/-- The body of `rs_dft_1d` outside the terminal cases makes the calls `rs_calls` lists. -/
theorem rs_dft_1d_step {R : Type} [Field R] (E : Num R) (fuel N : ℕ) (x t y : Ptr) (sy : ℕ)
    (e : List (Cx R)) (m : Mem R) (c0 c1 c2 : ℕ × List (Cx R))
    (h : rs_calls N e = [c0, c1, c2]) :
    rs_dft_1d E (fuel + 1) N x t y sy e m =
      (forLoop (rs_dft_1d_prep N x t e) 0 (N / 4) m).bind (fun m1 =>
        (rs_dft_1d E fuel c0.1 t t y (2 * sy) c0.2 m1).bind (fun m2 =>
          (rs_dft_1d E fuel c1.1 (t.addC (N / 2)) (t.addC (N / 2)) (y.addC sy) (4 * sy)
            c1.2 m2).bind (fun m3 =>
              rs_dft_1d E fuel c2.1 (t.addC (3 * N / 4)) (t.addC (3 * N / 4))
                (y.addC (3 * sy)) (4 * sy) c2.2 m3))) := by
  unfold rs_calls at h
  by_cases hN : N = 1 ∨ N = 2 ∨ N = 4 ∨ N = 8
  · rw [if_pos hN] at h
    exact absurd h (by simp)
  · rw [if_neg hN] at h
    simp only [List.cons.injEq, and_true] at h
    obtain ⟨rfl, rfl, rfl⟩ := h
    simp only [not_or] at hN
    rw [rs_dft_1d]
    simp only [hN.1, hN.2.1, hN.2.2.1, hN.2.2.2, if_false]
    rfl

/-- The body of `rs_invdft_1d` outside the terminal cases makes the calls `rs_calls` lists. -/
theorem rs_invdft_1d_step {R : Type} [Field R] (E : Num R) (fuel N : ℕ) (x t y : Ptr) (sy : ℕ)
    (e : List (Cx R)) (m : Mem R) (c0 c1 c2 : ℕ × List (Cx R))
    (h : rs_calls N e = [c0, c1, c2]) :
    rs_invdft_1d E (fuel + 1) N x t y sy e m =
      (forLoop (rs_invdft_1d_prep N x t e) 0 (N / 4) m).bind (fun m1 =>
        (rs_invdft_1d E fuel c0.1 t t y (2 * sy) c0.2 m1).bind (fun m2 =>
          (rs_invdft_1d E fuel c1.1 (t.addC (N / 2)) (t.addC (N / 2)) (y.addC sy) (4 * sy)
            c1.2 m2).bind (fun m3 =>
              rs_invdft_1d E fuel c2.1 (t.addC (3 * N / 4)) (t.addC (3 * N / 4))
                (y.addC (3 * sy)) (4 * sy) c2.2 m3))) := by
  unfold rs_calls at h
  by_cases hN : N = 1 ∨ N = 2 ∨ N = 4 ∨ N = 8
  · rw [if_pos hN] at h
    exact absurd h (by simp)
  · rw [if_neg hN] at h
    simp only [List.cons.injEq, and_true] at h
    obtain ⟨rfl, rfl, rfl⟩ := h
    simp only [not_or] at hN
    rw [rs_invdft_1d]
    simp only [hN.1, hN.2.1, hN.2.2.1, hN.2.2.2, if_false]
    rfl

/-- In the terminal cases the bodies make no recursive call. -/
theorem rs_calls_terminal {R : Type} (N : ℕ) (e : List (Cx R)) :
    rs_calls N e = [] ↔ (N = 1 ∨ N = 2 ∨ N = 4 ∨ N = 8) := by
  unfold rs_calls
  split_ifs with h
  · simp [h]
  · simp [h]

theorem mem_rs_calls {R : Type} {N : ℕ} {e : List (Cx R)} {c : ℕ × List (Cx R)}
    (h : c ∈ rs_calls N e) :
    ¬ (N = 1 ∨ N = 2 ∨ N = 4 ∨ N = 8) ∧
      (c = (N / 2, e.drop (N / 2)) ∨ c = (N / 4, e.drop (3 * N / 4))) := by
  unfold rs_calls at h
  split_ifs at h with hN
  · simp at h
  · refine ⟨hN, ?_⟩
    simp only [List.mem_cons, List.mem_singleton, List.not_mem_nil, or_false] at h
    rcases h with h | h | h
    · exact Or.inl h
    · exact Or.inr h
    · exact Or.inr h

/-- The length of the table of `minfft_mkaux_dft_1d`. -/
theorem dft_1d_e_length {R : Type} [Field R] (E : Num R) (k : ℕ) (hk : 3 ≤ k) :
    (dft_1d_e E (2 ^ k)).length = 2 ^ k - 8 := by
  induction k with
  | zero => omega
  | succ k ih =>
    rcases Nat.lt_or_ge k 3 with h | h
    · have hk2 : k = 2 := by omega
      subst hk2
      rw [dft_1d_e, if_neg (by norm_num)]
      rfl
    · rw [dft_1d_e_succ E k h, List.length_append, pairs_length, ih h]
      have h8 : 8 ≤ 2 ^ k := by
        calc 8 = 2 ^ 3 := by norm_num
          _ ≤ 2 ^ k := Nat.pow_le_pow_right (by norm_num) h
      obtain ⟨k', rfl⟩ : ∃ k', k = k' + 1 := ⟨k - 1, by omega⟩
      have e2 : 2 ^ (k' + 1 + 1) = 4 * 2 ^ k' := by rw [pow_succ, pow_succ]; ring
      have e1 : 2 ^ (k' + 1) = 2 * 2 ^ k' := by rw [pow_succ]; ring
      rw [e2, e1] at *
      omega

/-- Every call of length at least 16 reached from a call of length `2^k` with
the pointer `e` has a length `2^l` and the pointer `e + (2^k - 2^l)`. -/
theorem reached_pointer {R : Type} (k : ℕ) (e : List (Cx R)) (d M : ℕ) (e' : List (Cx R))
    (h : Reached (2 ^ k) e d M e') (hM : 16 ≤ M) :
    ∃ l, 4 ≤ l ∧ l ≤ k ∧ M = 2 ^ l ∧ e' = e.drop (2 ^ k - 2 ^ l) := by
  induction h with
  | root =>
    have h4 : 4 ≤ k := by
      by_contra hc
      exact pow_two_lt_16 (by omega) hM
    exact ⟨k, h4, le_refl k, rfl, by simp⟩
  | @step d M e' c _ hc ih =>
    obtain ⟨-, hc'⟩ := mem_rs_calls hc
    have hM2 : 16 ≤ M := by
      rcases hc' with rfl | rfl
      · simp only at hM; omega
      · simp only at hM; omega
    obtain ⟨l, h4, hlk, rfl, rfl⟩ := ih hM2
    have hle : 2 ^ l ≤ 2 ^ k := Nat.pow_le_pow_right (by norm_num) hlk
    obtain ⟨l', rfl⟩ : ∃ l', l = l' + 2 := ⟨l - 2, by omega⟩
    have e2 : 2 ^ (l' + 2) = 4 * 2 ^ l' := by rw [pow_add]; ring
    have e1 : 2 ^ (l' + 1) = 2 * 2 ^ l' := by rw [pow_succ]; ring
    rcases hc' with rfl | rfl
    · refine ⟨l' + 1, ?_, by omega, ?_, ?_⟩
      · simp only at hM
        by_contra hcon
        have : l' + 1 < 4 := by omega
        exact pow_two_lt_16 this (by rw [e1]; omega)
      · simp only
        omega
      · simp only
        rw [List.drop_drop]
        congr 1
        omega
    · refine ⟨l', ?_, by omega, ?_, ?_⟩
      · simp only at hM
        by_contra hcon
        have : l' < 4 := by omega
        exact pow_two_lt_16 this (by omega)
      · simp only
        omega
      · simp only
        rw [List.drop_drop]
        congr 1
        omega

/-- Every call reached from a call of length `2^k` has a length `2^l`, with
`l` plus the nesting depth at most `k`; below the root `2 ≤ l`. -/
theorem reached_length {R : Type} (k : ℕ) (e : List (Cx R)) (d M : ℕ) (e' : List (Cx R))
    (h : Reached (2 ^ k) e d M e') :
    ∃ l, M = 2 ^ l ∧ d + l ≤ k ∧ (0 < d → 2 ≤ l) := by
  induction h with
  | root => exact ⟨k, rfl, by omega, by omega⟩
  | @step d M e' c _ hc ih =>
    obtain ⟨hN, hc'⟩ := mem_rs_calls hc
    obtain ⟨l, rfl, hd, -⟩ := ih
    have hl4 : 4 ≤ l := by
      by_contra hcon
      apply hN
      have : l < 4 := by omega
      interval_cases l
      · exact Or.inl rfl
      · exact Or.inr (Or.inl rfl)
      · exact Or.inr (Or.inr (Or.inl rfl))
      · exact Or.inr (Or.inr (Or.inr rfl))
    obtain ⟨l', rfl⟩ : ∃ l', l = l' + 2 := ⟨l - 2, by omega⟩
    have e2 : 2 ^ (l' + 2) = 4 * 2 ^ l' := by rw [pow_add]; ring
    have e1 : 2 ^ (l' + 1) = 2 * 2 ^ l' := by rw [pow_succ]; ring
    rcases hc' with rfl | rfl
    · exact ⟨l' + 1, by simp only; omega, by omega, by omega⟩
    · exact ⟨l', by simp only; omega, by omega, by omega⟩

end Minfft

namespace Minfft

open Cx

/-! ### The twiddle table, termination and non-termination -/

/-- The plan of `minfft_mkaux_dft_1d (2^k)`, `16 ≤ 2^k`: its table, the length
of the table, the entries of the block of each level, and the pointers the
recursive calls receive. -/
theorem mkaux_dft_1d_table (E : Num ℝ) (hE : E.Exact) (k : ℕ) (hk : 4 ≤ k) (m0 : Mem ℝ) :
    (∃ t, (minfft_mkaux_dft_1d E (2 ^ k) m0).1 =
      Aux.node (2 ^ k) t (some (dft_1d_e E (2 ^ k))) Aux.null Aux.null) ∧
    (dft_1d_e E (2 ^ k)).length = 2 ^ k - 8 ∧
    (∀ l, 4 ≤ l → l ≤ k → ∀ n, n < 2 ^ l / 4 →
      ∃ e0 e1, (dft_1d_e E (2 ^ k)).get? (2 ^ k - 2 ^ l + 2 * n) = some e0 ∧
        (dft_1d_e E (2 ^ k)).get? (2 ^ k - 2 ^ l + 2 * n + 1) = some e1 ∧
        toC e0 = Complex.exp (-2 * Real.pi * Complex.I * n / 2 ^ l) ∧
        toC e1 = Complex.exp (-2 * Real.pi * Complex.I * (3 * n) / 2 ^ l)) ∧
    (∀ d M e', Reached (2 ^ k) (dft_1d_e E (2 ^ k)) d M e' → 16 ≤ M →
      ∃ l, 4 ≤ l ∧ l ≤ k ∧ M = 2 ^ l ∧ e' = (dft_1d_e E (2 ^ k)).drop (2 ^ k - 2 ^ l)) := by
  refine ⟨⟨_, congrArg Prod.fst (mkaux_dft_1d_big E k hk m0)⟩, dft_1d_e_length E k (by omega),
    ?_, fun d M e' h hM => reached_pointer k _ d M e' h hM⟩
  obtain ⟨w, hw⟩ : ∃ w : ℕ → ℂ, ∀ k, w k = Complex.exp (-2 * Real.pi * Complex.I / 2 ^ k) :=
    ⟨_, fun _ => rfl⟩
  intro l h4 hl n hn
  obtain ⟨e0, e1, h0, h1, v0, v1⟩ := TwOK_table hE w hw k l h4 hl n hn
  refine ⟨e0, e1, h0, h1, ?_, ?_⟩
  · rw [v0, hw]
    have := exp_root_pow (2 ^ l) n
    push_cast at this
    exact this
  · rw [v1, hw]
    have := exp_root_pow (2 ^ l) (3 * n)
    push_cast at this
    exact this

/-- The shape of the recursion started at a length `2^k`. -/
theorem reached_shape {R : Type} (k : ℕ) (e : List (Cx R)) (d M : ℕ) (e' : List (Cx R))
    (h : Reached (2 ^ k) e d M e') :
    ∃ l, M = 2 ^ l ∧ d + l ≤ k ∧ (0 < d → 2 ≤ l) ∧
      (∀ c ∈ rs_calls M e', c.1 < M) ∧
      (rs_calls M e' = [] → d = 0 ∨ M = 4 ∨ M = 8) := by
  obtain ⟨l, rfl, hd, hl⟩ := reached_length k e d M e' h
  refine ⟨l, rfl, hd, hl, ?_, ?_⟩
  · intro c hc
    obtain ⟨-, hc'⟩ := mem_rs_calls hc
    have hpos : 0 < 2 ^ l := by positivity
    rcases hc' with rfl | rfl
    · simp only; omega
    · simp only; omega
  · intro h0
    rcases Nat.eq_zero_or_pos d with hd0 | hd0
    · exact Or.inl hd0
    · right
      have h2 := hl hd0
      rcases (rs_calls_terminal _ _).mp h0 with h | h | h | h
      · have : 2 ^ 2 ≤ 2 ^ l := Nat.pow_le_pow_right (by norm_num) h2
        omega
      · have : 2 ^ 2 ≤ 2 ^ l := Nat.pow_le_pow_right (by norm_num) h2
        omega
      · exact Or.inl h
      · exact Or.inr h

/-- A call of `rs_dft_1d` whose sub-call of half the length never returns
does not return. -/
theorem rs_dft_1d_none_of_half {R : Type} [Field R] (E : Num R) (fuel N : ℕ) (x t y : Ptr)
    (sy : ℕ) (e : List (Cx R)) (m : Mem R) (hN : ¬ (N = 1 ∨ N = 2 ∨ N = 4 ∨ N = 8))
    (h : ∀ x t y sy e m, rs_dft_1d E fuel (N / 2) x t y sy e m = none) :
    rs_dft_1d E (fuel + 1) N x t y sy e m = none := by
  rw [rs_dft_1d_step E fuel N x t y sy e m _ _ _ (by rw [rs_calls, if_neg hN])]
  cases forLoop (rs_dft_1d_prep N x t e) 0 (N / 4) m with
  | none => rfl
  | some m1 => rw [Option.some_bind, h]; rfl

/-- A call of `rs_dft_1d` whose sub-calls of a quarter of the length never
return does not return. -/
theorem rs_dft_1d_none_of_quarter {R : Type} [Field R] (E : Num R) (fuel N : ℕ) (x t y : Ptr)
    (sy : ℕ) (e : List (Cx R)) (m : Mem R) (hN : ¬ (N = 1 ∨ N = 2 ∨ N = 4 ∨ N = 8))
    (h : ∀ x t y sy e m, rs_dft_1d E fuel (N / 4) x t y sy e m = none) :
    rs_dft_1d E (fuel + 1) N x t y sy e m = none := by
  rw [rs_dft_1d_step E fuel N x t y sy e m _ _ _ (by rw [rs_calls, if_neg hN])]
  cases forLoop (rs_dft_1d_prep N x t e) 0 (N / 4) m with
  | none => rfl
  | some m1 =>
    rw [Option.some_bind]
    cases rs_dft_1d E fuel (N / 2) t t y (2 * sy) (e.drop (N / 2)) m1 with
    | none => rfl
    | some m2 => rw [Option.some_bind, h]; rfl

/-- A call of `rs_dft_1d` of length 0 does not return, whatever the fuel. -/
theorem rs_dft_1d_zero {R : Type} [Field R] (E : Num R) :
    ∀ (fuel : ℕ) (x t y : Ptr) (sy : ℕ) (e : List (Cx R)) (m : Mem R),
      rs_dft_1d E fuel 0 x t y sy e m = none
  | 0, _, _, _, _, _, _ => rfl
  | fuel + 1, x, t, y, sy, e, m =>
    rs_dft_1d_none_of_half E fuel 0 x t y sy e m (by omega)
      (fun x t y sy e m => rs_dft_1d_zero E fuel x t y sy e m)

/-- A call of `rs_dft_1d` of length 24 does not return, whatever the fuel and
the memory. -/
theorem rs_dft_1d_24 {R : Type} [Field R] (E : Num R) (fuel : ℕ) (x t y : Ptr) (sy : ℕ)
    (e : List (Cx R)) (m : Mem R) : rs_dft_1d E fuel 24 x t y sy e m = none := by
  have h3 : ∀ fuel x t y sy e m, rs_dft_1d E fuel 3 x t y sy e m = none := by
    intro fuel
    cases fuel with
    | zero => intros; rfl
    | succ f =>
      intro x t y sy e m
      exact rs_dft_1d_none_of_quarter E f 3 x t y sy e m (by omega)
        (fun x t y sy e m => rs_dft_1d_zero E f x t y sy e m)
  have h6 : ∀ fuel x t y sy e m, rs_dft_1d E fuel 6 x t y sy e m = none := by
    intro fuel
    cases fuel with
    | zero => intros; rfl
    | succ f =>
      intro x t y sy e m
      exact rs_dft_1d_none_of_half E f 6 x t y sy e m (by omega) (h3 f)
  have h12 : ∀ fuel x t y sy e m, rs_dft_1d E fuel 12 x t y sy e m = none := by
    intro fuel
    cases fuel with
    | zero => intros; rfl
    | succ f =>
      intro x t y sy e m
      exact rs_dft_1d_none_of_half E f 12 x t y sy e m (by omega) (h6 f)
  cases fuel with
  | zero => rfl
  | succ f => exact rs_dft_1d_none_of_half E f 24 x t y sy e m (by omega) (h12 f)

/-- From the length 24 the recursion reaches the length 0 at the depth 4, and
then at every greater depth. -/
theorem reached_24 {R : Type} (e : List (Cx R)) :
    (∃ e1, Reached 24 e 1 12 e1) ∧ (∃ e2, Reached 24 e 2 6 e2) ∧ (∃ e3, Reached 24 e 3 3 e3) ∧
      ∀ d, 4 ≤ d → ∃ e', Reached 24 e d 0 e' := by
  have r1 : Reached 24 e 1 12 (e.drop 12) :=
    Reached.step (12, e.drop 12) Reached.root (by simp [rs_calls])
  have r2 : Reached 24 e 2 6 ((e.drop 12).drop 6) :=
    Reached.step (6, (e.drop 12).drop 6) r1 (by simp [rs_calls])
  have r3 : Reached 24 e 3 3 (((e.drop 12).drop 6).drop 3) :=
    Reached.step (3, ((e.drop 12).drop 6).drop 3) r2 (by simp [rs_calls])
  have r4 : Reached 24 e 4 0 ((((e.drop 12).drop 6).drop 3).drop 2) :=
    Reached.step (0, (((e.drop 12).drop 6).drop 3).drop 2) r3 (by simp [rs_calls])
  refine ⟨⟨_, r1⟩, ⟨_, r2⟩, ⟨_, r3⟩, ?_⟩
  intro d hd
  induction d with
  | zero => omega
  | succ d ih =>
    rcases Nat.lt_or_ge d 4 with h | h
    · have : d = 3 := by omega
      subst this
      exact ⟨_, r4⟩
    · obtain ⟨e', he'⟩ := ih h
      exact ⟨e'.drop 0, Reached.step (0, e'.drop 0) he' (by simp [rs_calls])⟩

end Minfft

namespace Minfft

open Cx

/-- Claim C16: the length 24 violates the power-of-two precondition and the
recursion of `rs_dft_1d` started there never reaches a terminal case: the
chain of sub-transform lengths 24, 12, 6, 3, 0 reaches a call of length 0, the
call of length 0 is no terminal case and calls the length 0 again, so that a
call of length 0 is reached at every nesting depth from 4 on; and the run
of `rs_dft_1d` on the length 24 returns for no fuel, whatever the memory, the
pointers and the table. -/
theorem rs_dft_1d_24_never_returns {R : Type} [Field R] (E : Num R) (e : List (Cx R)) :
    (∃ e1, Reached 24 e 1 12 e1) ∧ (∃ e2, Reached 24 e 2 6 e2) ∧ (∃ e3, Reached 24 e 3 3 e3) ∧
    (∀ d, 4 ≤ d → ∃ e', Reached 24 e d 0 e') ∧
    (∀ e' : List (Cx R), (0, e'.drop 0) ∈ rs_calls 0 e') ∧
    ∀ (fuel : ℕ) (x t y : Ptr) (sy : ℕ) (m : Mem R), rs_dft_1d E fuel 24 x t y sy e m = none :=
  ⟨(reached_24 e).1, (reached_24 e).2.1, (reached_24 e).2.2.1, (reached_24 e).2.2.2,
    fun e' => by simp [rs_calls],
    fun fuel x t y sy m => rs_dft_1d_24 E fuel x t y sy e m⟩

end Minfft

namespace Minfft

open Cx

/-! ### The shape of the plans -/

theorem dft_leaf_shape {R : Type} [Field R] (E : Num R) (N : ℕ) (m0 : Mem R) :
    ∃ t e, (minfft_mkaux_dft_1d E N m0).1 = Aux.node N t e Aux.null Aux.null := by
  unfold minfft_mkaux_dft_1d
  split
  · exact ⟨_, _, rfl⟩
  · exact ⟨_, _, rfl⟩

theorem realdft_leaf_children {R : Type} [Field R] (E : Num R) (N : ℕ) (m0 : Mem R) :
    (N < 4 → (minfft_mkaux_realdft_1d E N m0).1 = Aux.node N Ptr.null none Aux.null Aux.null) ∧
    (4 ≤ N → ∃ t e m1, (minfft_mkaux_realdft_1d E N m0).1 =
      Aux.node N t e (minfft_mkaux_dft_1d E (N / 2) m1).1 Aux.null) := by
  unfold minfft_mkaux_realdft_1d
  constructor
  · intro h
    rw [if_neg (by omega)]
  · intro h
    rw [if_pos h]
    exact ⟨_, _, _, rfl⟩

theorem t23_leaf_children {R : Type} [Field R] (E : Num R) (N : ℕ) (m0 : Mem R) :
    ∃ t e m1, (minfft_mkaux_t2t3_1d E N m0).1 =
      Aux.node N t e (minfft_mkaux_realdft_1d E N m1).1 Aux.null := by
  unfold minfft_mkaux_t2t3_1d
  split
  · exact ⟨_, _, _, rfl⟩
  · exact ⟨_, _, _, rfl⟩

theorem t4_leaf_children {R : Type} [Field R] (E : Num R) (N : ℕ) (m0 : Mem R) :
    ∃ t e m1, (minfft_mkaux_t4_1d E N m0).1 =
      Aux.node N t e (minfft_mkaux_dft_1d E (N / 2) m1).1 Aux.null := by
  unfold minfft_mkaux_t4_1d
  split
  · exact ⟨_, _, _, rfl⟩
  · exact ⟨_, _, _, rfl⟩

/-- A node without `sub2` satisfies the product rule when its `sub1` does. -/
theorem Aux.prodOK_leaf {R : Type} (N : ℕ) (t : Ptr) (e : Option (List (Cx R))) (s1 : Aux R)
    (h : s1.prodOK) : (Aux.node N t e s1 Aux.null).prodOK :=
  ⟨fun hn => by simp [Aux.isNull] at hn, h, trivial⟩

/-- The four builders of leaves: the leaf has the length asked for, no `sub2`,
and satisfies the product rule. -/
theorem leaf_builders_prodOK {R : Type} [Field R] (E : Num R) (N : ℕ) (m0 : Mem R) :
    (∃ t e s1, (minfft_mkaux_dft_1d E N m0).1 = Aux.node N t e s1 Aux.null ∧ s1.prodOK) ∧
    (∃ t e s1, (minfft_mkaux_realdft_1d E N m0).1 = Aux.node N t e s1 Aux.null ∧ s1.prodOK) ∧
    (∃ t e s1, (minfft_mkaux_t2t3_1d E N m0).1 = Aux.node N t e s1 Aux.null ∧ s1.prodOK) ∧
    (∃ t e s1, (minfft_mkaux_t4_1d E N m0).1 = Aux.node N t e s1 Aux.null ∧ s1.prodOK) := by
  have hd : ∀ (N : ℕ) (m0 : Mem R),
      ∃ t e s1, (minfft_mkaux_dft_1d E N m0).1 = Aux.node N t e s1 Aux.null ∧ s1.prodOK := by
    intro N m0
    obtain ⟨t, e, h⟩ := dft_leaf_shape E N m0
    exact ⟨t, e, Aux.null, h, trivial⟩
  have hr : ∀ (N : ℕ) (m0 : Mem R),
      ∃ t e s1, (minfft_mkaux_realdft_1d E N m0).1 = Aux.node N t e s1 Aux.null ∧ s1.prodOK := by
    intro N m0
    rcases Nat.lt_or_ge N 4 with h | h
    · exact ⟨_, _, _, (realdft_leaf_children E N m0).1 h, trivial⟩
    · obtain ⟨t, e, m1, h1⟩ := (realdft_leaf_children E N m0).2 h
      obtain ⟨t', e', s', h2, h3⟩ := hd (N / 2) m1
      exact ⟨t, e, _, h1, by rw [h2]; exact Aux.prodOK_leaf _ _ _ _ h3⟩
  refine ⟨hd N m0, hr N m0, ?_, ?_⟩
  · obtain ⟨t, e, m1, h1⟩ := t23_leaf_children E N m0
    obtain ⟨t', e', s', h2, h3⟩ := hr N m1
    exact ⟨t, e, _, h1, by rw [h2]; exact Aux.prodOK_leaf _ _ _ _ h3⟩
  · obtain ⟨t, e, m1, h1⟩ := t4_leaf_children E N m0
    obtain ⟨t', e', s', h2, h3⟩ := hd (N / 2) m1
    exact ⟨t, e, _, h1, by rw [h2]; exact Aux.prodOK_leaf _ _ _ _ h3⟩

/-- The product of the first `n` entries. -/
theorem prod_range_getD (Ns : List ℕ) :
    ((List.range Ns.length).map (fun i => Ns.getD i 0)).prod = Ns.prod := by
  induction Ns with
  | nil => rfl
  | cons a Ns ih =>
    rw [List.length_cons, List.range_succ_eq_map, List.map_cons, List.prod_cons, List.prod_cons,
      List.map_map, ← ih]
    rfl

theorem prod_range_succ_getD (Ns : List ℕ) (d : ℕ) :
    ((List.range (d + 1)).map (fun i => Ns.getD i 0)).prod =
      ((List.range d).map (fun i => Ns.getD i 0)).prod * Ns.getD d 0 := by
  rw [List.range_succ, List.map_append, List.prod_append]
  simp

/-- The plan `make_aux` builds: its length is the product of the first `d`
lengths, and every node with a `sub2` satisfies the product rule. -/
theorem make_aux_prodOK {R : Type} (datasz : ℕ) (aux_1d : ℕ → Mem R → Aux R × Mem R)
    (h1d : ∀ N m, ∃ t e s1, (aux_1d N m).1 = Aux.node N t e s1 Aux.null ∧ s1.prodOK)
    (Ns : List ℕ) :
    ∀ (d : ℕ) (m : Mem R), 1 ≤ d → d ≤ Ns.length →
      ∃ a m', make_aux datasz aux_1d d Ns m = some (a, m') ∧
        a.N? = some ((List.range d).map (fun i => Ns.getD i 0)).prod ∧ a.prodOK := by
  intro d
  induction d with
  | zero => intro m h; omega
  | succ d ih =>
    intro m _ hd
    rcases Nat.eq_zero_or_pos d with h0 | h0
    · subst h0
      have hg : Ns.get? 0 = some (Ns.getD 0 0) := by
        rw [List.getD_eq_getElem?_getD, List.get?_eq_getElem?]
        cases h : Ns[0]? with
        | none =>
          rw [List.getElem?_eq_none_iff] at h
          omega
        | some v => rfl
      obtain ⟨t, e, s1, hs, hp⟩ := h1d (Ns.getD 0 0) m
      refine ⟨(aux_1d (Ns.getD 0 0) m).1, (aux_1d (Ns.getD 0 0) m).2,
        make_aux_one datasz aux_1d Ns m _ hg, ?_, ?_⟩
      · rw [hs]
        show some (Ns.getD 0 0) = some ([Ns.getD 0 0].prod)
        rw [List.prod_singleton]
      · rw [hs]
        exact Aux.prodOK_leaf _ _ _ _ hp
    · obtain ⟨d', rfl⟩ : ∃ d', d = d' + 1 := ⟨d - 1, by omega⟩
      have hg : Ns.get? (d' + 1) = some (Ns.getD (d' + 1) 0) := by
        rw [List.getD_eq_getElem?_getD, List.get?_eq_getElem?]
        cases h : Ns[d' + 1]? with
        | none =>
          rw [List.getElem?_eq_none_iff] at h
          omega
        | some v => rfl
      obtain ⟨a1, m1, h1, hN1, hp1⟩ := ih
        (m.malloc (((List.range (d' + 2)).map (fun i => Ns.getD i 0)).prod * datasz)).2
        (by omega) (by omega)
      obtain ⟨t, e, s1, hs, hp⟩ := h1d (Ns.getD (d' + 1) 0) m1
      refine ⟨_, _, make_aux_succ datasz aux_1d d' Ns m _ _ a1 m1 rfl h1 hg, rfl, ?_, hp1, ?_⟩
      · intro _
        refine ⟨_, _, hN1, ?_, prod_range_succ_getD Ns (d' + 1)⟩
        rw [hs]
        rfl
      · rw [hs]
        exact Aux.prodOK_leaf _ _ _ _ hp

theorem getD_drop_one (Ns : List ℕ) (i : ℕ) : (Ns.drop 1).getD i 0 = Ns.getD (i + 1) 0 := by
  cases Ns with
  | nil => simp
  | cons a Ns => simp

/-- The plans of more than one dimension of the four families: the length
of the root is the product of the lengths, and every node with a `sub2`
satisfies the product rule. -/
theorem nd_builders_prodOK {R : Type} [Field R] (E : Num R) (d : ℕ) (Ns : List ℕ)
    (hd : 2 ≤ d) (hNs : Ns.length = d) (m : Mem R) :
    (∃ a m', minfft_mkaux_dft E d Ns m = some (a, m') ∧ a.N? = some Ns.prod ∧
      a.isNull = false ∧ a.prodOK) ∧
    (∃ a m', minfft_mkaux_realdft E d Ns m = some (a, m') ∧ a.N? = some Ns.prod ∧
      a.isNull = false ∧ a.prodOK) ∧
    (∃ a m', minfft_mkaux_t2t3 E d Ns m = some (a, m') ∧ a.N? = some Ns.prod ∧
      a.isNull = false ∧ a.prodOK) ∧
    (∃ a m', minfft_mkaux_t4 E d Ns m = some (a, m') ∧ a.N? = some Ns.prod ∧
      a.isNull = false ∧ a.prodOK) := by
  have hprod : ((List.range d).map (fun i => Ns.getD i 0)).prod = Ns.prod := by
    rw [← hNs]
    exact prod_range_getD Ns
  have hnn : ∀ a : Aux R, a.N? = some Ns.prod → a.isNull = false := by
    intro a h
    cases a with
    | null => simp [Aux.N?] at h
    | node _ _ _ _ _ => rfl
  have gen : ∀ (datasz : ℕ) (aux_1d : ℕ → Mem R → Aux R × Mem R),
      (∀ N m, ∃ t e s1, (aux_1d N m).1 = Aux.node N t e s1 Aux.null ∧ s1.prodOK) →
      ∃ a m', make_aux datasz aux_1d d Ns m = some (a, m') ∧ a.N? = some Ns.prod ∧
        a.isNull = false ∧ a.prodOK := by
    intro datasz aux_1d h1d
    obtain ⟨a, m', h1, h2, h3⟩ := make_aux_prodOK datasz aux_1d h1d Ns d m (by omega)
      (by omega)
    rw [hprod] at h2
    exact ⟨a, m', h1, h2, hnn a h2, h3⟩
  refine ⟨gen 2 _ (fun N m => (leaf_builders_prodOK E N m).1), ?_,
    gen 1 _ (fun N m => (leaf_builders_prodOK E N m).2.2.1),
    gen 1 _ (fun N m => (leaf_builders_prodOK E N m).2.2.2)⟩
  -- the real DFT
  obtain ⟨N0, rest, rfl⟩ : ∃ N0 rest, Ns = N0 :: rest := by
    cases Ns with
    | nil => simp at hNs; omega
    | cons a r => exact ⟨a, r, rfl⟩
  have hlen : rest.length = d - 1 := by
    simp at hNs
    omega
  obtain ⟨t, e, s1, hs, hp⟩ := (leaf_builders_prodOK E N0
    ((m.malloc (2 * ((N0 / 2 + 1) * rest.prod))).2)).2.1
  obtain ⟨a2, m2, h2, hN2, hp2⟩ := make_aux_prodOK 2 (minfft_mkaux_dft_1d E)
    (fun N m => (leaf_builders_prodOK E N m).1) rest (d - 1)
    (minfft_mkaux_realdft_1d E N0 (m.malloc (2 * ((N0 / 2 + 1) * rest.prod))).2).2
    (by omega) (by omega)
  have hpr : ((List.range (d - 1)).map (fun i => (N0 :: rest).getD (i + 1) 0)).prod =
      rest.prod := by
    rw [← hlen, ← prod_range_getD rest]
    rfl
  rw [← hlen, prod_range_getD] at hN2
  have hnn2 : a2.isNull = false := by
    cases a2 with
    | null => simp [Aux.N?] at hN2
    | node _ _ _ _ _ => rfl
  refine ⟨_, _, mkaux_realdft_nd_eq E d (N0 :: rest) m rest.prod N0 a2 m2 (by omega) hpr rfl
    (by rw [List.drop_one, List.tail_cons]; exact h2), ?_, rfl, ?_, ?_, hp2⟩
  · simp [Aux.N?]
  · intro _
    exact ⟨N0, rest.prod, by rw [hs]; rfl, hN2, rfl⟩
  · rw [hs]
    exact Aux.prodOK_leaf _ _ _ _ hp

end Minfft

namespace Minfft

open Cx

/-- Counterexample to claim C18: the leaves `minfft_mkaux_realdft_1d 4`,
`minfft_mkaux_t2t3_1d 1` and `minfft_mkaux_t4_1d 1` have a non-null `sub1`. -/
theorem leaf_sub1_null_counterexample :
    (minfft_mkaux_realdft_1d (⟨3, 7 / 5, 7 / 10, id⟩ : Num ℚ) 4
        ⟨0, fun _ => 0, fun _ _ => 0⟩).1.sub1?.map Aux.isNull = some false ∧
    (minfft_mkaux_t2t3_1d (⟨3, 7 / 5, 7 / 10, id⟩ : Num ℚ) 1
        ⟨0, fun _ => 0, fun _ _ => 0⟩).1.sub1?.map Aux.isNull = some false ∧
    (minfft_mkaux_t4_1d (⟨3, 7 / 5, 7 / 10, id⟩ : Num ℚ) 1
        ⟨0, fun _ => 0, fun _ _ => 0⟩).1.sub1?.map Aux.isNull = some false :=
  ⟨rfl, rfl, rfl⟩

/-- Claim C18, amended: for every family and every length `N` the leaf of the
family's one-dimensional builder has a null `sub2`; its `sub1` is null for
`minfft_mkaux_dft_1d`, and for `minfft_mkaux_realdft_1d` when `N < 4`;
otherwise `sub1` is a non-null plan: the complex plan of length `N/2` for
`minfft_mkaux_realdft_1d` with `N ≥ 4` and for `minfft_mkaux_t4_1d`, the real
plan of length `N` for `minfft_mkaux_t2t3_1d`. -/
theorem leaf_plans_children {R : Type} [Field R] (E : Num R) (N : ℕ) (m : Mem R) :
    (∃ t e, (minfft_mkaux_dft_1d E N m).1 = Aux.node N t e Aux.null Aux.null) ∧
    (N < 4 → (minfft_mkaux_realdft_1d E N m).1 =
      Aux.node N Ptr.null none Aux.null Aux.null) ∧
    (4 ≤ N → ∃ t e m1, (minfft_mkaux_realdft_1d E N m).1 =
        Aux.node N t e (minfft_mkaux_dft_1d E (N / 2) m1).1 Aux.null ∧
      (minfft_mkaux_dft_1d E (N / 2) m1).1.isNull = false) ∧
    (∃ t e m1, (minfft_mkaux_t2t3_1d E N m).1 =
        Aux.node N t e (minfft_mkaux_realdft_1d E N m1).1 Aux.null ∧
      (minfft_mkaux_realdft_1d E N m1).1.isNull = false) ∧
    (∃ t e m1, (minfft_mkaux_t4_1d E N m).1 =
        Aux.node N t e (minfft_mkaux_dft_1d E (N / 2) m1).1 Aux.null ∧
      (minfft_mkaux_dft_1d E (N / 2) m1).1.isNull = false) := by
  have hd : ∀ (N : ℕ) (m : Mem R), (minfft_mkaux_dft_1d E N m).1.isNull = false := by
    intro N m
    obtain ⟨t, e, h⟩ := dft_leaf_shape E N m
    rw [h]
    rfl
  have hr : ∀ (N : ℕ) (m : Mem R), (minfft_mkaux_realdft_1d E N m).1.isNull = false := by
    intro N m
    obtain ⟨t, e, s1, h⟩ := realdft_leaf_shape E N m
    rw [h]
    rfl
  refine ⟨dft_leaf_shape E N m, (realdft_leaf_children E N m).1, ?_, ?_, ?_⟩
  · intro h
    obtain ⟨t, e, m1, h1⟩ := (realdft_leaf_children E N m).2 h
    exact ⟨t, e, m1, h1, hd _ _⟩
  · obtain ⟨t, e, m1, h1⟩ := t23_leaf_children E N m
    exact ⟨t, e, m1, h1, hr _ _⟩
  · obtain ⟨t, e, m1, h1⟩ := t4_leaf_children E N m
    exact ⟨t, e, m1, h1, hd _ _⟩

end Minfft

namespace Minfft

open Cx

/-! ### The inverse engine is the conjugate of the forward engine -/

section conj

variable {R : Type} [Field R]

theorem Cx.add_re (a b : Cx R) : (a + b).re = a.re + b.re := rfl

theorem Cx.add_im (a b : Cx R) : (a + b).im = a.im + b.im := rfl

theorem Cx.sub_re (a b : Cx R) : (a - b).re = a.re - b.re := rfl

theorem Cx.sub_im (a b : Cx R) : (a - b).im = a.im - b.im := rfl

theorem Cx.neg_re (a : Cx R) : (-a).re = -a.re := rfl

theorem Cx.neg_im (a : Cx R) : (-a).im = -a.im := rfl

theorem Cx.mul_re (a b : Cx R) : (a * b).re = a.re * b.re - a.im * b.im := rfl

theorem Cx.mul_im (a b : Cx R) : (a * b).im = a.re * b.im + a.im * b.re := rfl

theorem Cx.conj_re (a : Cx R) : (conj a).re = a.re := rfl

theorem Cx.conj_im (a : Cx R) : (conj a).im = -a.im := rfl

theorem Cx.I_re : (I : Cx R).re = 0 := rfl

theorem Cx.I_im : (I : Cx R).im = 1 := rfl

theorem Cx.ofReal_re (r : R) : (ofReal r).re = r := rfl

theorem Cx.ofReal_im (r : R) : (ofReal r).im = 0 := rfl

theorem Cx.conj_conj (a : Cx R) : conj (conj a) = a := by
  rw [Cx.ext_iff']
  simp [Cx.conj_re, Cx.conj_im]

theorem Mem.conj_size (m : Mem R) : m.conj.size = m.size := rfl

theorem Mem.conj_next (m : Mem R) : m.conj.next = m.next := rfl

theorem Mem.conj_involutive (m : Mem R) : m.conj.conj = m := by
  cases m with
  | mk n s c =>
    simp only [Mem.conj, Mem.mk.injEq, true_and]
    funext b o
    split_ifs <;> simp

theorem Mem.okC_conj (m : Mem R) (p : Ptr) : m.conj.okC p ↔ m.okC p := Iff.rfl

theorem Mem.getC_conj (m : Mem R) (p : Ptr) (hp : p.off % 2 = 0) :
    m.conj.getC p = Cx.conj (m.getC p) := by
  have h1 : (p.off + 1) % 2 = 1 := by omega
  simp [Mem.getC, Mem.conj, Cx.conj, hp, h1]

theorem Mem.loadC_conj (m : Mem R) (p : Ptr) (hp : p.off % 2 = 0) :
    m.conj.loadC p = (m.loadC p).map Cx.conj := by
  unfold Mem.loadC
  by_cases h : m.okC p
  · rw [if_pos h, if_pos ((Mem.okC_conj m p).mpr h), Mem.getC_conj m p hp]
    rfl
  · rw [if_neg h, if_neg (fun h' => h ((Mem.okC_conj m p).mp h'))]
    rfl

theorem Mem.setC_conj (m : Mem R) (p : Ptr) (v : Cx R) (hp : p.off % 2 = 0) :
    m.conj.setC p v = (m.setC p (Cx.conj v)).conj := by
  cases m with
  | mk n s c =>
    simp only [Mem.conj, Mem.setC, Mem.mk.injEq, true_and]
    funext b o
    by_cases h1 : b = p.blk ∧ o = p.off
    · have ho : ¬ o % 2 = 1 := by omega
      simp [h1, hp, Cx.conj_re]
    · by_cases h2 : b = p.blk ∧ o = p.off + 1
      · have ho : (p.off + 1) % 2 = 1 := by omega
        have h3 : ¬ (p.off + 1 = p.off) := by omega
        simp [h2, ho, Cx.conj_im, h3]
      · simp [h1, h2]

theorem Mem.storeC_conj (m : Mem R) (p : Ptr) (v : Cx R) (hp : p.off % 2 = 0) :
    m.conj.storeC p v = (m.storeC p (Cx.conj v)).map Mem.conj := by
  unfold Mem.storeC
  by_cases h : m.okC p
  · rw [if_pos h, if_pos ((Mem.okC_conj m p).mpr h), Mem.setC_conj m p v hp]
    rfl
  · rw [if_neg h, if_neg (fun h' => h ((Mem.okC_conj m p).mp h'))]
    rfl

/-- A load on the conjugated memory, followed by a continuation. -/
theorem load_dual (m : Mem R) (p : Ptr) (hp : p.off % 2 = 0)
    (K K' : Cx R → Option (Mem R)) (h : ∀ v, K (conj v) = (K' v).map Mem.conj) :
    (m.conj.loadC p).bind K = ((m.loadC p).bind K').map Mem.conj := by
  rw [Mem.loadC_conj m p hp]
  cases m.loadC p with
  | none => rfl
  | some v => exact h v

/-- A store on the conjugated memory, followed by a continuation. -/
theorem store_dual (m : Mem R) (p : Ptr) (hp : p.off % 2 = 0) (v v' : Cx R)
    (K K' : Mem R → Option (Mem R)) (hv : conj v = v')
    (h : ∀ m1, K m1.conj = (K' m1).map Mem.conj) :
    (m.conj.storeC p v).bind K = ((m.storeC p v').bind K').map Mem.conj := by
  rw [Mem.storeC_conj m p v hp, hv]
  cases m.storeC p v' with
  | none => rfl
  | some m1 => exact h m1

/-- A last store on the conjugated memory. -/
theorem store_dual_last (m : Mem R) (p : Ptr) (hp : p.off % 2 = 0) (v v' : Cx R)
    (hv : conj v = v') :
    m.conj.storeC p v = (m.storeC p v').map Mem.conj := by
  rw [Mem.storeC_conj m p v hp, hv]

theorem even_addC (p : Ptr) (n : ℕ) (hp : p.off % 2 = 0) : (p.addC n).off % 2 = 0 := by
  simp only [Ptr.addC_off]
  omega

theorem rs_1_conj (x y : Ptr) (m : Mem R) (hx : x.off % 2 = 0) (hy : y.off % 2 = 0) :
    (do let x0 ← m.conj.loadC x; m.conj.storeC y x0) =
      (do let x0 ← m.loadC x; m.storeC y x0 : Option (Mem R)).map Mem.conj := by
  simp only [bind, Option.bind_eq_bind]
  refine load_dual m x hx _ _ (fun x0 => ?_)
  exact store_dual_last m y hy _ _ (Cx.conj_conj x0)

theorem rs_2_conj (x y : Ptr) (sy : ℕ) (m : Mem R) (hx : x.off % 2 = 0) (hy : y.off % 2 = 0) :
    rs_dft_1d_2 x y sy m.conj = (rs_invdft_1d_2 x y sy m).map Mem.conj := by
  simp only [rs_dft_1d_2, rs_invdft_1d_2, bind, Option.bind_eq_bind]
  refine load_dual m x hx _ _ (fun x0 => ?_)
  refine load_dual m _ (even_addC x _ hx) _ _ (fun x1 => ?_)
  refine store_dual m y hy _ _ _ _ ?_ (fun m1 => ?_)
  · rw [Cx.ext_iff']
    simp only [Cx.add_re, Cx.add_im, Cx.conj_re, Cx.conj_im]
    constructor <;> ring
  · refine store_dual_last m1 _ (even_addC y _ hy) _ _ ?_
    rw [Cx.ext_iff']
    simp only [Cx.sub_re, Cx.sub_im, Cx.conj_re, Cx.conj_im]
    constructor <;> ring

theorem rs_4_conj (x y : Ptr) (sy : ℕ) (m : Mem R) (hx : x.off % 2 = 0) (hy : y.off % 2 = 0) :
    rs_dft_1d_4 x y sy m.conj = (rs_invdft_1d_4 x y sy m).map Mem.conj := by
  simp only [rs_dft_1d_4, rs_invdft_1d_4, bind, Option.bind_eq_bind]
  refine load_dual m x hx _ _ (fun x0 => ?_)
  refine load_dual m _ (even_addC x _ hx) _ _ (fun x2 => ?_)
  refine load_dual m _ (even_addC x _ hx) _ _ (fun x1 => ?_)
  refine load_dual m _ (even_addC x _ hx) _ _ (fun x3 => ?_)
  refine store_dual m y hy _ _ _ _ ?_ (fun m1 => ?_)
  · rw [Cx.ext_iff']
    simp only [Cx.add_re, Cx.add_im, Cx.conj_re, Cx.conj_im]
    constructor <;> ring
  refine store_dual m1 _ (even_addC y _ hy) _ _ _ _ ?_ (fun m2 => ?_)
  · rw [Cx.ext_iff']
    simp only [Cx.add_re, Cx.add_im, Cx.sub_re, Cx.sub_im, Cx.mul_re, Cx.mul_im, Cx.I_re, Cx.I_im,
      Cx.conj_re, Cx.conj_im]
    constructor <;> ring
  refine store_dual m2 _ (even_addC y _ hy) _ _ _ _ ?_ (fun m3 => ?_)
  · rw [Cx.ext_iff']
    simp only [Cx.add_re, Cx.add_im, Cx.sub_re, Cx.sub_im, Cx.conj_re, Cx.conj_im]
    constructor <;> ring
  refine store_dual_last m3 _ (even_addC y _ hy) _ _ ?_
  rw [Cx.ext_iff']
  simp only [Cx.add_re, Cx.add_im, Cx.sub_re, Cx.sub_im, Cx.mul_re, Cx.mul_im, Cx.I_re, Cx.I_im,
    Cx.conj_re, Cx.conj_im]
  constructor <;> ring

theorem store8_conj (y : Ptr) (sy : ℕ) (v0 v1 v2 v3 v4 v5 v6 v7 : Cx R)
    (u0 u1 u2 u3 u4 u5 u6 u7 : Cx R) (m : Mem R) (hy : y.off % 2 = 0)
    (h0 : conj v0 = u0) (h1 : conj v1 = u1) (h2 : conj v2 = u2) (h3 : conj v3 = u3)
    (h4 : conj v4 = u4) (h5 : conj v5 = u5) (h6 : conj v6 = u6) (h7 : conj v7 = u7) :
    store8 y sy v0 v1 v2 v3 v4 v5 v6 v7 m.conj =
      (store8 y sy u0 u1 u2 u3 u4 u5 u6 u7 m).map Mem.conj := by
  simp only [store8, bind, Option.bind_eq_bind]
  refine store_dual m y hy _ _ _ _ h0 (fun m1 => ?_)
  refine store_dual m1 _ (even_addC y _ hy) _ _ _ _ h1 (fun m2 => ?_)
  refine store_dual m2 _ (even_addC y _ hy) _ _ _ _ h2 (fun m3 => ?_)
  refine store_dual m3 _ (even_addC y _ hy) _ _ _ _ h3 (fun m4 => ?_)
  refine store_dual m4 _ (even_addC y _ hy) _ _ _ _ h4 (fun m5 => ?_)
  refine store_dual m5 _ (even_addC y _ hy) _ _ _ _ h5 (fun m6 => ?_)
  refine store_dual m6 _ (even_addC y _ hy) _ _ _ _ h6 (fun m7 => ?_)
  exact store_dual_last m7 _ (even_addC y _ hy) _ _ h7

theorem rs_8_conj (E : Num R) (x y : Ptr) (sy : ℕ) (m : Mem R) (hx : x.off % 2 = 0)
    (hy : y.off % 2 = 0) :
    rs_dft_1d_8 E x y sy m.conj = (rs_invdft_1d_8 E x y sy m).map Mem.conj := by
  simp only [rs_dft_1d_8, rs_invdft_1d_8, bind, Option.bind_eq_bind]
  refine load_dual m x hx _ _ (fun x0 => ?_)
  refine load_dual m _ (even_addC x _ hx) _ _ (fun x4 => ?_)
  refine load_dual m _ (even_addC x _ hx) _ _ (fun x2 => ?_)
  refine load_dual m _ (even_addC x _ hx) _ _ (fun x6 => ?_)
  refine load_dual m _ (even_addC x _ hx) _ _ (fun x1 => ?_)
  refine load_dual m _ (even_addC x _ hx) _ _ (fun x5 => ?_)
  refine load_dual m _ (even_addC x _ hx) _ _ (fun x3 => ?_)
  refine load_dual m _ (even_addC x _ hx) _ _ (fun x7 => ?_)
  apply store8_conj _ _ _ _ _ _ _ _ _ _ _ _ _ _ _ _ _ _ _ hy <;>
  · rw [Cx.ext_iff']
    simp only [Cx.add_re, Cx.add_im, Cx.sub_re, Cx.sub_im, Cx.mul_re, Cx.mul_im, Cx.I_re, Cx.I_im,
      Cx.conj_re, Cx.conj_im, Cx.neg_re, Cx.neg_im, Cx.ofReal_re, Cx.ofReal_im]
    constructor <;> ring

/-- A read of the (read-only) table, followed by a continuation. -/
theorem get_dual (o : Option (Cx R)) (K K' : Cx R → Option (Mem R))
    (h : ∀ v, K v = (K' v).map Mem.conj) : o.bind K = (o.bind K').map Mem.conj := by
  cases o with
  | none => rfl
  | some v => exact h v

theorem rs_prep_conj (N : ℕ) (x t : Ptr) (e : List (Cx R)) (n : ℕ) (m : Mem R)
    (hx : x.off % 2 = 0) (ht : t.off % 2 = 0) :
    rs_dft_1d_prep N x t e n m.conj = (rs_invdft_1d_prep N x t e n m).map Mem.conj := by
  simp only [rs_dft_1d_prep, rs_invdft_1d_prep, bind, Option.bind_eq_bind]
  refine load_dual m _ (even_addC x _ hx) _ _ (fun xn => ?_)
  refine load_dual m _ (even_addC x _ hx) _ _ (fun xn2 => ?_)
  refine load_dual m _ (even_addC x _ hx) _ _ (fun xn1 => ?_)
  refine load_dual m _ (even_addC x _ hx) _ _ (fun xn3 => ?_)
  refine store_dual m _ (even_addC t _ ht) _ _ _ _ ?_ (fun m1 => ?_)
  · rw [Cx.ext_iff']
    simp only [Cx.add_re, Cx.add_im, Cx.conj_re, Cx.conj_im]
    constructor <;> ring
  refine store_dual m1 _ (even_addC t _ ht) _ _ _ _ ?_ (fun m2 => ?_)
  · rw [Cx.ext_iff']
    simp only [Cx.add_re, Cx.add_im, Cx.conj_re, Cx.conj_im]
    constructor <;> ring
  refine get_dual _ _ _ (fun e0 => ?_)
  refine store_dual m2 _ (even_addC t _ ht) _ _ _ _ ?_ (fun m3 => ?_)
  · rw [Cx.ext_iff']
    simp only [Cx.add_re, Cx.add_im, Cx.sub_re, Cx.sub_im, Cx.mul_re, Cx.mul_im, Cx.I_re, Cx.I_im,
      Cx.conj_re, Cx.conj_im]
    constructor <;> ring
  refine get_dual _ _ _ (fun e1 => ?_)
  refine store_dual_last m3 _ (even_addC t _ ht) _ _ ?_
  rw [Cx.ext_iff']
  simp only [Cx.add_re, Cx.add_im, Cx.sub_re, Cx.sub_im, Cx.mul_re, Cx.mul_im, Cx.I_re, Cx.I_im,
    Cx.conj_re, Cx.conj_im]
  constructor <;> ring

theorem forLoop_conj (body body' : ℕ → Mem R → Option (Mem R))
    (h : ∀ n m, body n m.conj = (body' n m).map Mem.conj) :
    ∀ (cnt lo : ℕ) (m : Mem R),
      forLoop body lo cnt m.conj = (forLoop body' lo cnt m).map Mem.conj := by
  intro cnt
  induction cnt with
  | zero => intro lo m; rfl
  | succ c ih =>
    intro lo m
    rw [forLoop_succ, forLoop_succ, h]
    cases body' lo m with
    | none => rfl
    | some m1 => exact ih (lo + 1) m1

/-- Sequencing of two steps that commute with the conjugation of the memory. -/
theorem bind_dual (F F' K K' : Mem R → Option (Mem R)) (m : Mem R)
    (hF : F m.conj = (F' m).map Mem.conj) (hK : ∀ m1, K m1.conj = (K' m1).map Mem.conj) :
    (F m.conj).bind K = ((F' m).bind K').map Mem.conj := by
  rw [hF]
  cases F' m with
  | none => rfl
  | some m1 => exact hK m1

/-- The forward engine on the conjugated memory gives the conjugate of what
the inverse engine gives, and fails when it fails. -/
theorem rs_dft_1d_conj (E : Num R) :
    ∀ (fuel N : ℕ) (x t y : Ptr) (sy : ℕ) (e : List (Cx R)) (m : Mem R),
      x.off % 2 = 0 → t.off % 2 = 0 → y.off % 2 = 0 →
      rs_dft_1d E fuel N x t y sy e m.conj =
        (rs_invdft_1d E fuel N x t y sy e m).map Mem.conj := by
  intro fuel
  induction fuel with
  | zero => intros; rfl
  | succ f ih =>
    intro N x t y sy e m hx ht hy
    rw [rs_dft_1d, rs_invdft_1d]
    by_cases h1 : N = 1
    · simp only [h1, if_true]
      exact rs_1_conj x y m hx hy
    by_cases h2 : N = 2
    · simp only [h2, if_true]
      exact rs_2_conj x y sy m hx hy
    by_cases h4 : N = 4
    · simp only [h4, if_true]
      exact rs_4_conj x y sy m hx hy
    by_cases h8 : N = 8
    · simp only [h8, if_true]
      exact rs_8_conj E x y sy m hx hy
    simp only [h1, h2, h4, h8, if_false, bind, Option.bind_eq_bind]
    refine bind_dual _ _ _ _ m
      (forLoop_conj _ _ (fun n m => rs_prep_conj N x t e n m hx ht) _ _ m) (fun m1 => ?_)
    refine bind_dual _ _ _ _ m1 (ih _ _ _ _ _ _ m1 ht ht hy) (fun m2 => ?_)
    refine bind_dual _ _ _ _ m2
      (ih _ _ _ _ _ _ m2 (even_addC t _ ht) (even_addC t _ ht) (even_addC y _ hy)) (fun m3 => ?_)
    exact ih _ _ _ _ _ _ m3 (even_addC t _ ht) (even_addC t _ ht) (even_addC y _ hy)

/-- The inverse engine is the conjugate of the forward engine applied to the
conjugated input. -/
theorem rs_invdft_1d_eq_conj (E : Num R) (fuel N : ℕ) (x t y : Ptr) (sy : ℕ)
    (e : List (Cx R)) (m : Mem R) (hx : x.off % 2 = 0) (ht : t.off % 2 = 0)
    (hy : y.off % 2 = 0) :
    rs_invdft_1d E fuel N x t y sy e m =
      (rs_dft_1d E fuel N x t y sy e m.conj).map Mem.conj := by
  rw [rs_dft_1d_conj E fuel N x t y sy e m hx ht hy, Option.map_map]
  have : (Mem.conj ∘ Mem.conj : Mem R → Mem R) = id := by
    funext m
    exact Mem.conj_involutive m
  rw [this, Option.map_id]
  rfl

end conj

end Minfft

namespace Minfft

open Cx

/-- Claim C20: the inverse engine is the conjugate of the forward engine.  For
every length `N`, fuel, stride, twiddle table `e` (correct or not) and
memory `m`, with complex arrays at even offsets of their blocks:
`rs_invdft_1d` on `m` gives the conjugate of what `rs_dft_1d` gives on the
conjugated memory, and returns exactly when that run returns; so every output
element is the conjugate of the forward output on the conjugated input; and
`minfft_invdft` is related to `minfft_dft` in the same way for every
one-dimensional plan. -/
theorem rs_invdft_1d_conj_rs_dft_1d {R : Type} [Field R] (E : Num R) (fuel N : ℕ)
    (x t y : Ptr) (sy : ℕ) (e : List (Cx R)) (m : Mem R)
    (hx : x.off % 2 = 0) (ht : t.off % 2 = 0) (hy : y.off % 2 = 0) :
    rs_invdft_1d E fuel N x t y sy e m = (rs_dft_1d E fuel N x t y sy e m.conj).map Mem.conj ∧
    (∀ n, m.conj.getC (x.addC n) = conj (m.getC (x.addC n))) ∧
    (∀ m', rs_invdft_1d E fuel N x t y sy e m = some m' →
      ∃ m'', rs_dft_1d E fuel N x t y sy e m.conj = some m'' ∧
        ∀ j, m'.getC (y.addC (sy * j)) = conj (m''.getC (y.addC (sy * j)))) ∧
    (∀ (eo : Option (List (Cx R))) (s1 : Aux R),
      minfft_invdft E fuel x y (Aux.node N t eo s1 Aux.null) m =
        (minfft_dft E fuel x y (Aux.node N t eo s1 Aux.null) m.conj).map Mem.conj) := by
  refine ⟨rs_invdft_1d_eq_conj E fuel N x t y sy e m hx ht hy,
    fun n => Mem.getC_conj m _ (even_addC x n hx), ?_, ?_⟩
  · intro m' h
    have h' := rs_invdft_1d_eq_conj E fuel N x t y sy e m hx ht hy
    rw [h] at h'
    cases hf : rs_dft_1d E fuel N x t y sy e m.conj with
    | none =>
      rw [hf] at h'
      exact absurd h' (by simp)
    | some m'' =>
      rw [hf] at h'
      simp only [Option.map_some', Option.some.injEq] at h'
      refine ⟨m'', rfl, fun j => ?_⟩
      rw [h', Mem.getC_conj m'' _ (even_addC y _ hy)]
  · intro eo s1
    rw [minfft_invdft_leaf, minfft_dft_leaf]
    simp only [s_invdft_1d, s_dft_1d, Aux.N?, Aux.t?, Aux.e?, Option.bind_eq_bind,
      Option.some_bind, bind]
    exact rs_invdft_1d_eq_conj E fuel N x t y 1 _ m hx ht hy

theorem rs_invdft_1d_conj_rs_dft_1d_witness :
    rs_invdft_1d (⟨3, 7 / 5, 7 / 10, id⟩ : Num ℚ) 1 4 ⟨1, 0⟩ ⟨0, 0⟩ ⟨2, 0⟩ 1 []
        ⟨2, fun _ => 8, fun _ o => (o : ℚ)⟩ =
      (rs_dft_1d (⟨3, 7 / 5, 7 / 10, id⟩ : Num ℚ) 1 4 ⟨1, 0⟩ ⟨0, 0⟩ ⟨2, 0⟩ 1 []
        (Mem.conj ⟨2, fun _ => 8, fun _ o => (o : ℚ)⟩)).map Mem.conj :=
  (rs_invdft_1d_conj_rs_dft_1d (⟨3, 7 / 5, 7 / 10, id⟩ : Num ℚ) 1 4 ⟨1, 0⟩ ⟨0, 0⟩ ⟨2, 0⟩ 1 []
    ⟨2, fun _ => 8, fun _ o => (o : ℚ)⟩ rfl rfl rfl).1

end Minfft

namespace Minfft

open Cx

/-! ### The source buffer of the inverse real DFT -/

/-- The inverse real DFT through a valid plan, for `N = 2^(k+2)`, from `z` to a
`y` in another block: it returns, and leaves in `z[0 .. N/2-1]` the re-packed
sequence; `z[N/2]` is unchanged. -/
theorem invrealdft_1d_source (E : Num ℝ) (w : ℕ → ℂ) (hw : Roots E w) (k fuel : ℕ) (z y : Ptr)
    (a : Aux ℝ) (m : Mem ℝ) (ha : RealOK w a (k + 2) m) (hfuel : k + 1 < fuel)
    (hz : ∀ j, j < 2 ^ (k + 1) + 1 → m.okC (z.addC j))
    (hy : ∀ i, i < 2 ^ (k + 2) → m.okR (y.addR i))
    (hza : z.blk ∉ a.blks) (hya : y.blk ∉ a.blks) (hzy : z.blk ≠ y.blk) :
    ∃ m', invrealdft_1d E fuel z y a m = some m' ∧ m'.size = m.size ∧
      toC (m'.getC z) = (toC (m.getC z) + toC (m.getC (z.addC (2 ^ (k + 1))))) +
        Complex.I * (toC (m.getC z) - toC (m.getC (z.addC (2 ^ (k + 1))))) ∧
      (∀ n, 1 ≤ n → n < 2 ^ k →
        toC (m'.getC (z.addC n)) = (toC (m.getC (z.addC n)) +
            (starRingEnd ℂ) (toC (m.getC (z.addC (2 ^ (k + 1) - n))))) +
          Complex.I * (toC (m.getC (z.addC n)) -
            (starRingEnd ℂ) (toC (m.getC (z.addC (2 ^ (k + 1) - n))))) *
            (starRingEnd ℂ) (w (k + 2) ^ n) ∧
        toC (m'.getC (z.addC (2 ^ (k + 1) - n))) = (starRingEnd ℂ) ((toC (m.getC (z.addC n)) +
            (starRingEnd ℂ) (toC (m.getC (z.addC (2 ^ (k + 1) - n))))) -
          Complex.I * (toC (m.getC (z.addC n)) -
            (starRingEnd ℂ) (toC (m.getC (z.addC (2 ^ (k + 1) - n))))) *
            (starRingEnd ℂ) (w (k + 2) ^ n))) ∧
      toC (m'.getC (z.addC (2 ^ k))) = 2 * (starRingEnd ℂ) (toC (m.getC (z.addC (2 ^ k)))) ∧
      m'.getC (z.addC (2 ^ (k + 1))) = m.getC (z.addC (2 ^ (k + 1))) := by
  obtain ⟨t, e, s1, s2, rfl, hb⟩ := ha
  simp only [Aux.blks_node, List.mem_cons, List.mem_append, not_or] at hza hya
  obtain ⟨-, he, hs1, -⟩ := hb (by omega)
  obtain ⟨Q, hQ⟩ : ∃ Q, Q = 2 ^ k := ⟨_, rfl⟩
  have hQ1 : 1 ≤ Q := by rw [hQ]; exact Nat.one_le_two_pow
  have hN : 2 ^ (k + 2) = 4 * Q := by rw [hQ, pow_succ, pow_succ]; ring
  have h2Q : 2 ^ (k + 1) = 2 * Q := by rw [hQ, pow_succ]; ring
  have hN4 : 4 * Q / 4 = Q := by omega
  rw [show k + 2 - 1 = k + 1 from rfl] at hs1
  rw [hN] at hy he ⊢
  rw [hN4] at he
  rw [h2Q] at hz ⊢
  rw [← hQ]
  have okz0 : m.okC z := by simpa using hz 0 (by omega)
  obtain ⟨m1, hm1⟩ : ∃ m1, m1 = m.setC z ((m.getC z + m.getC (z.addC (2 * Q))) +
      I * (m.getC z - m.getC (z.addC (2 * Q)))) := ⟨_, rfl⟩
  have hs1' : m1.size = m.size := by rw [hm1]; rfl
  have ok1 : ∀ p, m1.okC p ↔ m.okC p := Mem.okC_congr hs1'
  have z1 : ∀ j, j ≠ 0 → m1.getC (z.addC j) = m.getC (z.addC j) := by
    intro j hj
    have := Mem.getC_setC_idx m z 0 j ((m.getC z + m.getC (z.addC (2 * Q))) +
      I * (m.getC z - m.getC (z.addC (2 * Q)))) (fun h => hj h.symm)
    rw [Ptr.addC_zero] at this
    rw [hm1, this]
  obtain ⟨m2, hl, hsz2, hnx2, hA, hB, hC⟩ := invrealdft_1d_loop (w (k + 2)) (2 * Q) Q rfl z
    (e.getD []) m1 (fun j hj => (ok1 _).mpr (hz j hj)) he
  have hs2 : m2.size = m.size := by rw [hsz2, hs1']
  have ok2 : ∀ p, m2.okC p ↔ m.okC p := Mem.okC_congr hs2
  have zq : m2.getC (z.addC Q) = m.getC (z.addC Q) := by
    rw [hB Q (fun n h1 h2 => by omega), z1 Q (by omega)]
  obtain ⟨m3, hm3⟩ : ∃ m3, m3 = m2.setC (z.addC Q) (ofReal 2 * conj (m.getC (z.addC Q))) :=
    ⟨_, rfl⟩
  have hs3 : m3.size = m.size := by rw [hm3]; exact hs2
  have ok3 : ∀ p, m3.okC p ↔ m.okC p := Mem.okC_congr hs3
  obtain ⟨m4, hd, hsz4, -, -, hf4⟩ := s_invdft_1d_ok E w hw (k + 1) fuel z y 1 s1 m3
    (hs1.congrD hs3) hfuel (by norm_num)
    (fun i hi => by
      rw [h2Q] at hi
      exact (ok3 _).mpr (hz i (by omega)))
    (fun j hj => by
      rw [h2Q] at hj
      rw [one_mul]
      apply (ok3 _).mpr
      have := hy (2 * j + 1) (by omega)
      exact okC_of_okR (by rw [Ptr.addC_eq_addR, Ptr.addR_addR]; exact this))
    (fun h => hza.2.1 h) (fun h => hya.2.1 h)
  -- the source after the inverse complex DFT is the prepared source
  have z4 : ∀ j, m4.getC (z.addC j) = m3.getC (z.addC j) := by
    intro j
    apply Mem.getC_congr
    · exact hf4 _ _ (fun h => hza.2.1 h) (fun h => hzy h.1)
    · exact hf4 _ _ (fun h => hza.2.1 h) (fun h => hzy h.1)
  refine ⟨m4, ?_, by rw [hsz4, hs3], ?_, ?_, ?_, ?_⟩
  · rw [invrealdft_1d_unfold E fuel z y Q hQ1, Mem.loadC_of_ok okz0, Option.some_bind,
      Mem.loadC_of_ok (hz (2 * Q) (by omega)), Option.some_bind, Mem.storeC_of_ok okz0,
      Option.some_bind, ← hm1, hl, Option.some_bind,
      Mem.loadC_of_ok ((ok2 _).mpr (hz Q (by omega))), Option.some_bind, zq,
      Mem.storeC_of_ok ((ok2 _).mpr (hz Q (by omega))), Option.some_bind, ← hm3]
    exact hd
  · have h0 := z4 0
    rw [Ptr.addC_zero] at h0
    have hb0 := hB 0 (fun n h1 h2 => by omega)
    rw [Ptr.addC_zero] at hb0
    have h3 : m3.getC z = m2.getC z := by
      have := Mem.getC_setC_idx m2 z Q 0 (ofReal 2 * conj (m.getC (z.addC Q))) (by omega)
      rw [Ptr.addC_zero] at this
      rw [hm3, this]
    rw [h0, h3, hb0, hm1, Mem.getC_setC_self]
    simp
  · intro n h1 hn
    have hq1 : m3.getC (z.addC n) = m2.getC (z.addC n) := by
      rw [hm3, Mem.getC_setC_idx _ _ _ _ _ (by omega)]
    have hq2 : m3.getC (z.addC (2 * Q - n)) = m2.getC (z.addC (2 * Q - n)) := by
      rw [hm3, Mem.getC_setC_idx _ _ _ _ _ (by omega)]
    obtain ⟨a1, a2⟩ := hA n h1 hn
    rw [z1 n (by omega), z1 (2 * Q - n) (by omega)] at a1 a2
    exact ⟨by rw [z4, hq1, a1], by rw [z4, hq2, a2]⟩
  · rw [z4, hm3, Mem.getC_setC_self]
    simp
  · rw [z4, hm3, Mem.getC_setC_idx _ _ _ _ _ (by omega), hB (2 * Q) (fun n h1 h2 => by omega),
      z1 (2 * Q) (by omega)]

/-- Effect of `minfft_invrealdft` on its source, with the plan of
`minfft_mkaux_realdft_1d (2^k)` and the destination in another block. -/
theorem minfft_invrealdft_source_post (E : Num ℝ) (hE : E.Exact) (k fuel : ℕ) (hfuel : k < fuel)
    (m0 m : Mem ℝ) (z y : Ptr)
    (hm : m.size = (minfft_mkaux_realdft_1d E (2 ^ k) m0).2.size)
    (hz : z.blk ≠ 0 ∧ z.blk ≤ m0.next ∧ z.off + 2 * (2 ^ k / 2 + 1) ≤ m0.size z.blk)
    (hy : y.blk ≠ 0 ∧ y.blk ≤ m0.next ∧ y.off + 2 ^ k ≤ m0.size y.blk)
    (hzy : z.blk ≠ y.blk) :
    ∃ m', minfft_invrealdft E fuel z y (minfft_mkaux_realdft_1d E (2 ^ k) m0).1 m = some m' ∧
      (k < 2 → ∀ j, j < 2 ^ k / 2 + 1 → m'.getC (z.addC j) = m.getC (z.addC j)) ∧
      (2 ≤ k →
        toC (m'.getC z) = (toC (m.getC z) + toC (m.getC (z.addC (2 ^ k / 2)))) +
          Complex.I * (toC (m.getC z) - toC (m.getC (z.addC (2 ^ k / 2)))) ∧
        (∀ n, 1 ≤ n → n < 2 ^ k / 4 →
          toC (m'.getC (z.addC n)) = (toC (m.getC (z.addC n)) +
              (starRingEnd ℂ) (toC (m.getC (z.addC (2 ^ k / 2 - n))))) +
            Complex.I * (toC (m.getC (z.addC n)) -
              (starRingEnd ℂ) (toC (m.getC (z.addC (2 ^ k / 2 - n))))) *
              (starRingEnd ℂ) (Complex.exp (-2 * Real.pi * Complex.I * n / 2 ^ k)) ∧
          toC (m'.getC (z.addC (2 ^ k / 2 - n))) = (starRingEnd ℂ)
            ((toC (m.getC (z.addC n)) +
              (starRingEnd ℂ) (toC (m.getC (z.addC (2 ^ k / 2 - n))))) -
            Complex.I * (toC (m.getC (z.addC n)) -
              (starRingEnd ℂ) (toC (m.getC (z.addC (2 ^ k / 2 - n))))) *
              (starRingEnd ℂ) (Complex.exp (-2 * Real.pi * Complex.I * n / 2 ^ k)))) ∧
        toC (m'.getC (z.addC (2 ^ k / 4))) =
          2 * (starRingEnd ℂ) (toC (m.getC (z.addC (2 ^ k / 4)))) ∧
        m'.getC (z.addC (2 ^ k / 2)) = m.getC (z.addC (2 ^ k / 2))) := by
  obtain ⟨w, hw⟩ : ∃ w : ℕ → ℂ, ∀ k, w k = Complex.exp (-2 * Real.pi * Complex.I / 2 ^ k) :=
    ⟨_, fun _ => rfl⟩
  obtain ⟨hr, hfr, hsz, -⟩ := mkaux_realdft_1d_plan E hE w hw k m0 m hm
  obtain ⟨t, e, s1, ha⟩ := realdft_leaf_shape E (2 ^ k) m0
  have hza := not_mem_blks hfr hz.1 hz.2.1
  have hya := not_mem_blks hfr hy.1 hy.2.1
  have okz : ∀ j, j < 2 ^ k / 2 + 1 → m.okC (z.addC j) := fun j hj => okC_of_region hz hsz hj
  have oky : ∀ i, i < 2 ^ k → m.okR (y.addR i) := fun i hi => okR_of_region hy hsz hi
  rw [ha, minfft_invrealdft_leaf, ← ha]
  match k, hfuel, hr, hza, hya, okz, oky, ha with
  | 0, _, hr, _, _, okz, oky, ha =>
    rw [ha]
    have okz0 : m.okC z := by simpa using okz 0 (by norm_num)
    have oky0 : m.okR y := by simpa using oky 0 (by norm_num)
    refine ⟨_, invrealdft_1d_one E fuel z y t e s1 Aux.null m okz0 oky0, ?_, fun h => by omega⟩
    intro _ j _
    exact Mem.getC_setR_of_ne _ y (z.addC j) _ (Or.inl hzy)
  | 1, _, hr, _, _, okz, oky, ha =>
    rw [ha]
    have okz0 : m.okC z := by simpa using okz 0 (by norm_num)
    have oky0 : m.okR y := by simpa using oky 0 (by norm_num)
    refine ⟨_, invrealdft_1d_two E fuel z y t e s1 Aux.null m okz0 (okz 1 (by norm_num)) oky0
      (oky 1 (by norm_num)), ?_, fun h => by omega⟩
    intro _ j _
    rw [Mem.getC_setR_of_ne _ (y.addR 1) (z.addC j) _ (Or.inl hzy),
      Mem.getC_setR_of_ne _ y (z.addC j) _ (Or.inl hzy)]
  | k + 2, hfuel, hr, hza, hya, okz, oky, ha =>
    have h2 : 2 ^ (k + 2) / 2 = 2 ^ (k + 1) := by rw [pow_succ]; omega
    have h4 : 2 ^ (k + 2) / 4 = 2 ^ k := by rw [pow_succ, pow_succ]; omega
    rw [h2] at okz
    obtain ⟨m', h1, -, v0, vn, vq, vh⟩ := invrealdft_1d_source E w (Roots.of_exact hE w hw) k fuel
      z y _ m hr (by omega) okz oky hza hya hzy
    refine ⟨m', h1, fun h => by omega, fun _ => ?_⟩
    rw [h2, h4]
    refine ⟨v0, ?_, vq, vh⟩
    intro n hn1 hn
    have hwn : w (k + 2) ^ n = Complex.exp (-2 * Real.pi * Complex.I * n / 2 ^ (k + 2)) := by
      rw [hw]
      have := exp_root_pow (2 ^ (k + 2)) n
      push_cast at this
      exact this
    rw [← hwn]
    exact vn n hn1 hn

end Minfft

namespace Minfft

open Cx

/-- Claim C12: `minfft_invrealdft` uses its source buffer as scratch.  With the
plan of `minfft_mkaux_realdft_1d N`, `N = 2^k`, and a destination in another
block, it returns; for `N ≥ 4` the source entries `0 .. N/2-1` then hold the
re-packed sequence fed to the inverse complex DFT: entry 0 is
`(z0 + z[N/2]) + i (z0 - z[N/2])`, entry `N/4` is `2 conj z[N/4]`, and for
`1 ≤ n < N/4` the entries `n` and `N/2 - n` are `u + v` and `conj (u - v)` with
`u = z[n] + conj z[N/2-n]`, `v = i (z[n] - conj z[N/2-n]) conj (exp(-2πi n/N))`;
entry `N/2` is unchanged; for `N` in `{1, 2}` the source is unchanged. -/
theorem minfft_invrealdft_source_scratch (E : Num ℝ) (hE : E.Exact) (k fuel : ℕ)
    (hfuel : k < fuel) (m0 m : Mem ℝ) (z y : Ptr)
    (hm : m.size = (minfft_mkaux_realdft_1d E (2 ^ k) m0).2.size)
    (hz : z.blk ≠ 0 ∧ z.blk ≤ m0.next ∧ z.off + 2 * (2 ^ k / 2 + 1) ≤ m0.size z.blk)
    (hy : y.blk ≠ 0 ∧ y.blk ≤ m0.next ∧ y.off + 2 ^ k ≤ m0.size y.blk)
    (hzy : z.blk ≠ y.blk) :
    ∃ m', minfft_invrealdft E fuel z y (minfft_mkaux_realdft_1d E (2 ^ k) m0).1 m = some m' ∧
      (k < 2 → ∀ j, j < 2 ^ k / 2 + 1 → m'.getC (z.addC j) = m.getC (z.addC j)) ∧
      (2 ≤ k →
        toC (m'.getC z) = (toC (m.getC z) + toC (m.getC (z.addC (2 ^ k / 2)))) +
          Complex.I * (toC (m.getC z) - toC (m.getC (z.addC (2 ^ k / 2)))) ∧
        (∀ n, 1 ≤ n → n < 2 ^ k / 4 →
          toC (m'.getC (z.addC n)) = (toC (m.getC (z.addC n)) +
              (starRingEnd ℂ) (toC (m.getC (z.addC (2 ^ k / 2 - n))))) +
            Complex.I * (toC (m.getC (z.addC n)) -
              (starRingEnd ℂ) (toC (m.getC (z.addC (2 ^ k / 2 - n))))) *
              (starRingEnd ℂ) (Complex.exp (-2 * Real.pi * Complex.I * n / 2 ^ k)) ∧
          toC (m'.getC (z.addC (2 ^ k / 2 - n))) = (starRingEnd ℂ)
            ((toC (m.getC (z.addC n)) +
              (starRingEnd ℂ) (toC (m.getC (z.addC (2 ^ k / 2 - n))))) -
            Complex.I * (toC (m.getC (z.addC n)) -
              (starRingEnd ℂ) (toC (m.getC (z.addC (2 ^ k / 2 - n))))) *
              (starRingEnd ℂ) (Complex.exp (-2 * Real.pi * Complex.I * n / 2 ^ k)))) ∧
        toC (m'.getC (z.addC (2 ^ k / 4))) =
          2 * (starRingEnd ℂ) (toC (m.getC (z.addC (2 ^ k / 4)))) ∧
        m'.getC (z.addC (2 ^ k / 2)) = m.getC (z.addC (2 ^ k / 2))) :=
  minfft_invrealdft_source_post E hE k fuel hfuel m0 m z y hm hz hy hzy

theorem minfft_invrealdft_source_scratch_witness :
    ∃ E : Num ℝ, E.Exact ∧
      ∃ m', minfft_invrealdft E 4 ⟨1, 0⟩ ⟨2, 0⟩
          (minfft_mkaux_realdft_1d E (2 ^ 3) ⟨2, fun _ => 10, fun _ o => (o : ℝ)⟩).1
          (minfft_mkaux_realdft_1d E (2 ^ 3) ⟨2, fun _ => 10, fun _ o => (o : ℝ)⟩).2
            = some m' ∧
        toC (m'.getC ((⟨1, 0⟩ : Ptr).addC (2 ^ 3 / 4))) = 2 * (starRingEnd ℂ) (toC
          ((minfft_mkaux_realdft_1d E (2 ^ 3) ⟨2, fun _ => 10, fun _ o => (o : ℝ)⟩).2.getC
            ((⟨1, 0⟩ : Ptr).addC (2 ^ 3 / 4)))) ∧
        m'.getC ((⟨1, 0⟩ : Ptr).addC (2 ^ 3 / 2)) =
          (minfft_mkaux_realdft_1d E (2 ^ 3) ⟨2, fun _ => 10, fun _ o => (o : ℝ)⟩).2.getC
            ((⟨1, 0⟩ : Ptr).addC (2 ^ 3 / 2)) := by
  obtain ⟨E, hE⟩ := exact_env_exists
  obtain ⟨m', h1, -, h3⟩ := minfft_invrealdft_source_scratch E hE 3 4 (by decide)
    ⟨2, fun _ => 10, fun _ o => (o : ℝ)⟩
    (minfft_mkaux_realdft_1d E (2 ^ 3) ⟨2, fun _ => 10, fun _ o => (o : ℝ)⟩).2
    ⟨1, 0⟩ ⟨2, 0⟩ rfl
    ⟨by decide, by decide, by decide⟩ ⟨by decide, by decide, by decide⟩ (by decide)
  exact ⟨E, hE, m', h1, (h3 (by decide)).2.2.1, (h3 (by decide)).2.2.2⟩

end Minfft

namespace Minfft

open Cx

/-! ### The transform `s_dst2_1d` -/

theorem s_dst2_1d_prep_eq {R : Type} [Field R] (H : ℕ) (x t : Ptr) (n : ℕ) (m : Mem R)
    (hxt : x.blk ≠ t.blk) (hx0 : m.okR (x.addR (2 * n))) (hx1 : m.okR (x.addR (2 * H - 1 - 2 * n)))
    (ht0 : m.okR (t.addR n)) (ht1 : m.okR (t.addR (H + n))) :
    s_dst2_1d_prep (2 * H) x t n m = some
      ((m.setR (t.addR n) (m.getR (x.addR (2 * n)))).setR (t.addR (H + n))
        (-(m.getR (x.addR (2 * H - 1 - 2 * n))))) := by
  have hH : 2 * H / 2 = H := by omega
  have hg : (m.setR (t.addR n) (m.getR (x.addR (2 * n)))).getR (x.addR (2 * H - 1 - 2 * n)) =
      m.getR (x.addR (2 * H - 1 - 2 * n)) :=
    Mem.getR_setR_of_ne _ (t.addR n) (x.addR (2 * H - 1 - 2 * n)) _ (Or.inl hxt)
  simp only [s_dst2_1d_prep, hH, Mem.loadR_of_ok hx0, Mem.storeR_of_ok ht0, Mem.loadR_of_ok,
    Mem.okR_setR, hx1, Mem.storeR_of_ok, ht1, hg, Option.bind_eq_bind, Option.some_bind, bind]

theorem s_dst2_1d_rec_eq {R : Type} [Field R] (N : ℕ) (z y : Ptr) (sy : ℕ) (e : List (Cx R))
    (n : ℕ) (m : Mem R) (en : Cx R) (hz : m.okC (z.addC n)) (he : e.get? n = some en)
    (hy0 : m.okR (y.addR (sy * (n - 1)))) (hy1 : m.okR (y.addR (sy * (N - n - 1)))) :
    s_dst2_1d_rec N z y sy e n m = some
      ((m.setR (y.addR (sy * (n - 1))) (-2 * (m.getC (z.addC n) * en).im)).setR
        (y.addR (sy * (N - n - 1))) (2 * (m.getC (z.addC n) * en).re)) := by
  simp only [s_dst2_1d_rec, Mem.loadC_of_ok hz, he, Mem.storeR_of_ok hy0, Mem.storeR_of_ok,
    Mem.okR_setR, hy1, Option.bind_eq_bind, Option.some_bind, bind]

theorem s_dst2_1d_unfold {R : Type} [Field R] (E : Num R) (fuel : ℕ) (x y : Ptr) (sy H : ℕ)
    (hH : 1 ≤ H) (t : Ptr) (e : Option (List (Cx R))) (s1 s2 : Aux R) (m : Mem R) :
    s_dst2_1d E fuel x y sy (Aux.node (2 * H) t e s1 s2) m =
      (forLoop (s_dst2_1d_prep (2 * H) x t) 0 H m).bind (fun m1 =>
        (s_realdft_1d E fuel t t 1 s1 m1).bind (fun m2 =>
          (m2.loadC t).bind (fun z0 =>
            (m2.storeR (y.addR (sy * (2 * H - 1))) (2 * z0.re)).bind (fun m3 =>
              (forLoop (s_dst2_1d_rec (2 * H) t y sy (e.getD [])) 1 (H - 1) m3).bind (fun m4 =>
                (m4.loadC (t.addC H)).bind (fun zh =>
                  m4.storeR (y.addR (sy * (H - 1))) (E.sqrt2 * zh.re))))))) := by
  have h1 : ¬ 2 * H = 1 := by omega
  have e1 : 2 * H / 2 = H := by omega
  simp only [s_dst2_1d, Aux.N?, Aux.e?, Aux.t?, Aux.sub1?, Option.bind_eq_bind,
    Option.some_bind, bind, if_neg h1, e1]

/-- The transform `s_dst2_1d` through a valid plan of length `N = 2^(k+1)`:
it returns; with `Z` the real DFT of the re-indexed input `P`
(`P n = x[2n]`, `P (N/2+n) = -x[N-1-2n]`) and `v = exp(-2 pi i / (4N))`, it leaves
`2 Re Z_0` in `y[sy*(N-1)]`, `-2 Im (Z_n v^n)` in `y[sy*(n-1)]` and `2 Re (Z_n v^n)`
in `y[sy*(N-n-1)]` for `0 < n < N/2`, and `sqrt2 * Re Z_(N/2)` in `y[sy*(N/2-1)]`;
no cell outside `y` and the blocks of the plan changes. -/
theorem s_dst2_1d_ok (E : Num ℝ) (w : ℕ → ℂ) (hw : Roots E w)
    (hu : ∀ k, w k * (starRingEnd ℂ) (w k) = 1) (k fuel : ℕ) (x y : Ptr) (sy : ℕ)
    (a : Aux ℝ) (m : Mem ℝ) (ha : T23OK w a (k + 1) m) (hfuel : k + 1 ≤ fuel) (hsy : 0 < sy)
    (hx : ∀ i, i < 2 ^ (k + 1) → m.okR (x.addR i))
    (hy : ∀ j, j < 2 ^ (k + 1) → m.okR (y.addR (sy * j)))
    (hxa : x.blk ∉ a.blks) (hya : y.blk ∉ a.blks) (P : ℕ → ℝ)
    (hP : ∀ n, n < 2 ^ k → P n = m.getR (x.addR (2 * n)) ∧
      P (2 ^ k + n) = -(m.getR (x.addR (2 ^ (k + 1) - 1 - 2 * n)))) :
    ∃ m', s_dst2_1d E fuel x y sy a m = some m' ∧ m'.size = m.size ∧
      m'.getR (y.addR (sy * (2 ^ (k + 1) - 1))) =
        2 * (dft (w (k + 1)) (2 ^ (k + 1)) (fun i => (P i : ℂ)) 0).re ∧
      (∀ n, 1 ≤ n → n < 2 ^ k →
        m'.getR (y.addR (sy * (n - 1))) =
          -2 * (dft (w (k + 1)) (2 ^ (k + 1)) (fun i => (P i : ℂ)) n * w (k + 3) ^ n).im ∧
        m'.getR (y.addR (sy * (2 ^ (k + 1) - n - 1))) =
          2 * (dft (w (k + 1)) (2 ^ (k + 1)) (fun i => (P i : ℂ)) n * w (k + 3) ^ n).re) ∧
      m'.getR (y.addR (sy * (2 ^ k - 1))) =
        E.sqrt2 * (dft (w (k + 1)) (2 ^ (k + 1)) (fun i => (P i : ℂ)) (2 ^ k)).re ∧
      (∀ r : Ptr, r.blk ∉ a.blks → (∀ j, j < 2 ^ (k + 1) → r ≠ y.addR (sy * j)) →
        m'.getR r = m.getR r) := by
  obtain ⟨t, e, s1, rfl, hb⟩ := ha
  obtain ⟨ht, he, hs1, hts1⟩ := hb (by omega)
  simp only [Aux.blks_node, Aux.blks_null, List.append_nil, List.mem_cons, not_or] at hxa hya
  obtain ⟨H, hH⟩ : ∃ H, H = 2 ^ k := ⟨_, rfl⟩
  have hH1 : 1 ≤ H := by rw [hH]; exact Nat.one_le_two_pow
  have hN : 2 ^ (k + 1) = 2 * H := by rw [hH, pow_succ]; ring
  have hN2 : 2 * H / 2 = H := by omega
  rw [hN] at hx hy ht he hP ⊢
  rw [← hH] at hP ⊢
  rw [hN2] at he
  have hxt : x.blk ≠ t.blk := hxa.1
  have hyt : y.blk ≠ t.blk := hya.1
  obtain ⟨Z, hZ⟩ : ∃ Z : ℕ → ℂ, ∀ j, Z j = dft (w (k + 1)) (2 * H) (fun i => (P i : ℂ)) j :=
    ⟨_, fun _ => rfl⟩
  simp only [← hZ]
  -- the re-indexing of the input
  obtain ⟨m1, hl1, hsz1, hnx1, hv1, hf1⟩ := forLoop_two_writes
    (s_dst2_1d_prep (2 * H) x t) 0 H m (fun n => t.addR n) (fun n => t.addR (H + n))
    (fun n => m.getR (x.addR (2 * n))) (fun n => -(m.getR (x.addR (2 * H - 1 - 2 * n))))
    (fun n n' _ _ _ _ hne => Ptr.addR_ne hne)
    (fun n n' _ _ _ _ hne => Ptr.addR_ne (by omega))
    (fun n n' _ hn _ _ => Ptr.addR_ne (by omega))
    (by
      intro n ma _ hn hs _ hfr
      have okr : ∀ p, ma.okR p ↔ m.okR p := Mem.okR_congr hs
      have hxs : ∀ i, ma.getR (x.addR i) = m.getR (x.addR i) := by
        intro i
        apply hfr
        intro n' _ _
        exact ⟨Ptr.ne_of_blk hxt, Ptr.ne_of_blk hxt⟩
      rw [s_dst2_1d_prep_eq H x t n ma hxt ((okr _).mpr (hx _ (by omega)))
        ((okr _).mpr (hx _ (by omega))) ((okr _).mpr (ht _ (by omega)))
        ((okr _).mpr (ht _ (by omega))), hxs, hxs])
  simp only [Nat.zero_add, Nat.zero_le, true_implies] at hv1 hf1
  have hP1 : ∀ i, i < 2 * H → m1.getR (t.addR i) = P i := by
    intro i hi
    rcases Nat.lt_or_ge i H with h | h
    · rw [(hv1 i h).1, (hP i h).1]
    · have := (hv1 (i - H) (by omega)).2
      have e1 : H + (i - H) = i := by omega
      rw [e1] at this
      rw [this, ← (hP (i - H) (by omega)).2, e1]
  have okr1 : ∀ p, m1.okR p ↔ m.okR p := Mem.okR_congr hsz1
  -- the real DFT in place
  obtain ⟨m2, h2, hsz2, hnx2, hv2, hf2⟩ := s_realdft_1d_ok E w hw hu (k + 1) fuel t t 1 s1 m1
    (hs1.congrR hsz1) hfuel one_pos
    (fun i hi => by
      rw [hN] at hi
      exact (okr1 _).mpr (ht i (by omega)))
    (fun j hj => by
      rw [hN, hN2] at hj
      rw [one_mul]
      apply okC_of_okR
      rw [Ptr.addC_eq_addR, Ptr.addR_addR]
      exact (okr1 _).mpr (ht _ (by omega)))
    hts1 hts1
  rw [hN, hN2] at hv2 hf2
  simp only [one_mul] at hv2
  have hZ2 : ∀ j, j < H + 1 → toC (m2.getC (t.addC j)) = Z j := by
    intro j hj
    rw [hv2 j hj, hZ]
    apply dft_congr
    intro i hi
    rw [hP1 i hi]
  have hs2 : m2.size = m.size := by rw [hsz2, hsz1]
  have okr2 : ∀ p, m2.okR p ↔ m.okR p := Mem.okR_congr hs2
  have okc2 : ∀ j, j < H + 1 → m2.okC (t.addC j) := by
    intro j hj
    apply okC_of_okR
    rw [Ptr.addC_eq_addR, Ptr.addR_addR]
    exact (okr2 _).mpr (ht _ (by omega))
  -- the results
  obtain ⟨m3, hm3⟩ : ∃ m3, m3 = m2.setR (y.addR (sy * (2 * H - 1))) (2 * (m2.getC t).re) :=
    ⟨_, rfl⟩
  have hs3 : m3.size = m.size := by rw [hm3]; exact hs2
  have t3 : ∀ r : Ptr, r.blk = t.blk → m3.getR r = m2.getR r := by
    intro r hr
    rw [hm3]
    exact Mem.getR_setR_of_ne _ (y.addR (sy * (2 * H - 1))) r _
      (Or.inl (by rw [hr]; exact fun h => hyt h.symm))
  obtain ⟨m4, hl4, hsz4, hnx4, hv4, hf4⟩ := forLoop_two_writes
    (s_dst2_1d_rec (2 * H) t y sy (e.getD [])) 1 (H - 1) m3
    (fun n => y.addR (sy * (n - 1))) (fun n => y.addR (sy * (2 * H - n - 1)))
    (fun n => -2 * (Z n * w (k + 3) ^ n).im) (fun n => 2 * (Z n * w (k + 3) ^ n).re)
    (fun n n' _ _ _ _ hne => Ptr.addR_str_ne hsy (by omega))
    (fun n n' _ _ _ _ hne => Ptr.addR_str_ne hsy (by omega))
    (fun n n' _ _ _ _ => Ptr.addR_str_ne hsy (by omega))
    (by
      intro n ma hn1 hn2 hs _ hfr
      have okr : ∀ p, ma.okR p ↔ m.okR p := fun p => (Mem.okR_congr hs p).trans
        (Mem.okR_congr hs3 p)
      have okc : ma.okC (t.addC n) :=
        (Mem.okC_congr (by rw [hs, hs3, hs2]) _).mpr (okc2 n (by omega))
      obtain ⟨en, hen, hwn⟩ := he n (by omega)
      have hz : ma.getC (t.addC n) = m2.getC (t.addC n) := by
        apply getC_of_getR
        · exact (hfr (t.addC n) (fun n' _ _ => ⟨Ptr.ne_of_blk (fun h => hyt h.symm),
            Ptr.ne_of_blk (fun h => hyt h.symm)⟩)).trans (t3 _ rfl)
        · exact (hfr ((t.addC n).addR 1) (fun n' _ _ => ⟨Ptr.ne_of_blk (fun h => hyt h.symm),
            Ptr.ne_of_blk (fun h => hyt h.symm)⟩)).trans (t3 _ rfl)
      rw [s_dst2_1d_rec_eq (2 * H) t y sy (e.getD []) n ma en okc hen
        ((okr _).mpr (hy _ (by omega))) ((okr _).mpr (hy _ (by omega))), hz, toC_mul_re,
        toC_mul_im, hZ2 n (by omega), hwn, show k + 1 + 2 = k + 3 from rfl])
  have hs4 : m4.size = m.size := by rw [hsz4, hs3]
  have t4 : ∀ r : Ptr, r.blk = t.blk → m4.getR r = m2.getR r := by
    intro r hr
    rw [hf4 r (fun n _ _ => ⟨Ptr.ne_of_blk (by rw [hr]; exact fun h => hyt h.symm),
      Ptr.ne_of_blk (by rw [hr]; exact fun h => hyt h.symm)⟩)]
    exact t3 r hr
  have hzh : m4.getC (t.addC H) = m2.getC (t.addC H) :=
    getC_of_getR _ (t4 _ rfl) (t4 _ rfl)
  refine ⟨m4.setR (y.addR (sy * (H - 1))) (E.sqrt2 * (m2.getC (t.addC H)).re), ?_, hs4,
    ?_, ?_, ?_, ?_⟩
  · have okt0 : m2.okC t := by simpa using okc2 0 (by omega)
    rw [s_dst2_1d_unfold E fuel x y sy H hH1, hl1, Option.some_bind, h2, Option.some_bind,
      Mem.loadC_of_ok okt0, Option.some_bind,
      Mem.storeR_of_ok ((okr2 _).mpr (hy (2 * H - 1) (by omega))), Option.some_bind, ← hm3,
      hl4, Option.some_bind,
      Mem.loadC_of_ok ((Mem.okC_congr (by rw [hs4, hs2]) _).mpr (okc2 H (by omega))),
      Option.some_bind, hzh,
      Mem.storeR_of_ok ((Mem.okR_congr hs4 _).mpr (hy (H - 1) (by omega)))]
  · rw [Mem.getR_setR, if_neg (Ptr.addR_str_ne hsy (by omega)),
      hf4 _ (fun n hn1 hn2 => ⟨Ptr.addR_str_ne hsy (by omega), Ptr.addR_str_ne hsy (by omega)⟩),
      hm3, Mem.getR_setR_self]
    have := hZ2 0 (by omega)
    rw [Ptr.addC_zero] at this
    rw [← this, toC_re]
  · intro n hn1 hn2
    obtain ⟨a1, a2⟩ := hv4 n hn1 (by omega)
    constructor
    · rw [Mem.getR_setR, if_neg (Ptr.addR_str_ne hsy (by omega)), a1]
    · rw [Mem.getR_setR, if_neg (Ptr.addR_str_ne hsy (by omega)), a2]
  · rw [Mem.getR_setR_self, ← hZ2 H (by omega), toC_re]
  · intro r hr hj
    simp only [Aux.blks_node, Aux.blks_null, List.append_nil, List.mem_cons, not_or] at hr
    rw [Mem.getR_setR, if_neg (hj (H - 1) (by omega)),
      hf4 r (fun n hn1 hn2 => ⟨hj (n - 1) (by omega), hj (2 * H - n - 1) (by omega)⟩), hm3,
      Mem.getR_setR, if_neg (hj (2 * H - 1) (by omega))]
    have e2 : m2.getR r = m1.getR r :=
      hf2 r.blk r.off hr.2 (fun h => hr.1 h.1)
    rw [e2]
    exact hf1 r (fun n _ => ⟨Ptr.ne_of_blk hr.1, Ptr.ne_of_blk hr.1⟩)

end Minfft

namespace Minfft

open Cx

/-! ### The transform `s_dst3_1d` -/

theorem s_dst3_1d_prep_eq {R : Type} [Field R] (N : ℕ) (x z : Ptr) (e : List (Cx R)) (n : ℕ)
    (m : Mem R) (en : Cx R) (hx0 : m.okR (x.addR (N - n - 1))) (hx1 : m.okR (x.addR (n - 1)))
    (he : e.get? n = some en) (hz : m.okC (z.addC n)) :
    s_dst3_1d_prep N x z e n m = some (m.setC (z.addC n)
      (conj ((ofReal (m.getR (x.addR (N - n - 1))) + I * ofReal (m.getR (x.addR (n - 1)))) *
        en))) := by
  simp only [s_dst3_1d_prep, Mem.loadR_of_ok hx0, Mem.loadR_of_ok hx1, he,
    Mem.storeC_of_ok hz, Option.bind_eq_bind, Option.some_bind, bind]

theorem s_dst3_1d_rec_eq {R : Type} [Field R] (H : ℕ) (t y : Ptr) (sy : ℕ) (n : ℕ)
    (m : Mem R) (hty : y.blk ≠ t.blk) (ht0 : m.okR (t.addR n)) (ht1 : m.okR (t.addR (H + n)))
    (hy0 : m.okR (y.addR (sy * 2 * n))) (hy1 : m.okR (y.addR (sy * (2 * H - 1 - 2 * n)))) :
    s_dst3_1d_rec (2 * H) t y sy n m = some
      ((m.setR (y.addR (sy * 2 * n)) (m.getR (t.addR n))).setR
        (y.addR (sy * (2 * H - 1 - 2 * n))) (-(m.getR (t.addR (H + n))))) := by
  have hH : 2 * H / 2 = H := by omega
  have hg : (m.setR (y.addR (sy * 2 * n)) (m.getR (t.addR n))).getR (t.addR (H + n)) =
      m.getR (t.addR (H + n)) :=
    Mem.getR_setR_of_ne _ (y.addR (sy * 2 * n)) (t.addR (H + n)) _
      (Or.inl (fun h => hty h.symm))
  simp only [s_dst3_1d_rec, hH, Mem.loadR_of_ok ht0, Mem.storeR_of_ok hy0, Mem.loadR_of_ok,
    Mem.okR_setR, ht1, Mem.storeR_of_ok, hy1, hg, Option.bind_eq_bind, Option.some_bind, bind]

theorem s_dst3_1d_unfold {R : Type} [Field R] (E : Num R) (fuel : ℕ) (x y : Ptr) (sy H : ℕ)
    (hH : 1 ≤ H) (z : Ptr) (e : Option (List (Cx R))) (s1 s2 : Aux R) (m : Mem R) :
    s_dst3_1d E fuel x y sy (Aux.node (2 * H) z e s1 s2) m =
      (m.loadR (x.addR (2 * H - 1))).bind (fun xl =>
        (m.storeC z (ofReal xl)).bind (fun m1 =>
          (forLoop (s_dst3_1d_prep (2 * H) x z (e.getD [])) 1 (H - 1) m1).bind (fun m2 =>
            (m2.loadR (x.addR (H - 1))).bind (fun xh =>
              (m2.storeC (z.addC H) (ofReal (E.sqrt2 * xh))).bind (fun m3 =>
                (invrealdft_1d E fuel z z s1 m3).bind (fun m4 =>
                  forLoop (s_dst3_1d_rec (2 * H) z y sy) 0 H m4)))))) := by
  have h1 : ¬ 2 * H = 1 := by omega
  have e1 : 2 * H / 2 = H := by omega
  simp only [s_dst3_1d, Aux.N?, Aux.e?, Aux.t?, Aux.sub1?, Option.bind_eq_bind,
    Option.some_bind, bind, if_neg h1, e1]

/-- The transform `s_dst3_1d` through a valid plan of length `N = 2^(k+1)`,
applied to the values the Type-2 sine transform produces from a sequence `P`
(with `Z` the real DFT of `P` and `v = exp(-2 pi i / (4N))`: `2 Re Z_0` in
`x[N-1]`, `-2 Im (Z_n v^n)` in `x[n-1]` and `2 Re (Z_n v^n)` in `x[N-n-1]` for
`0 < n < N/2`, `sqrt2 * Re Z_(N/2)` in `x[N/2-1]`): it returns and leaves
`2N * P n` in `y[sy*2n]` and `-2N * P (N/2+n)` in `y[sy*(N-1-2n)]`. -/
theorem s_dst3_1d_ok (E : Num ℝ) (w : ℕ → ℂ) (hw : Roots E w)
    (hu : ∀ k, w k * (starRingEnd ℂ) (w k) = 1)
    (hprim : ∀ k, IsPrimitiveRoot (w k) (2 ^ k)) (hsq : E.sqrt2 * E.sqrt2 = 2)
    (k fuel : ℕ) (x y : Ptr) (sy : ℕ)
    (a : Aux ℝ) (m : Mem ℝ) (ha : T23OK w a (k + 1) m) (hfuel : k + 1 ≤ fuel) (hsy : 0 < sy)
    (hx : ∀ i, i < 2 ^ (k + 1) → m.okR (x.addR i))
    (hy : ∀ j, j < 2 ^ (k + 1) → m.okR (y.addR (sy * j)))
    (hxa : x.blk ∉ a.blks) (hya : y.blk ∉ a.blks) (P : ℕ → ℝ)
    (hX0 : m.getR (x.addR (2 ^ (k + 1) - 1)) =
      2 * (dft (w (k + 1)) (2 ^ (k + 1)) (fun i => (P i : ℂ)) 0).re)
    (hXn : ∀ n, 1 ≤ n → n < 2 ^ k →
      m.getR (x.addR (n - 1)) =
        -2 * (dft (w (k + 1)) (2 ^ (k + 1)) (fun i => (P i : ℂ)) n * w (k + 3) ^ n).im ∧
      m.getR (x.addR (2 ^ (k + 1) - n - 1)) =
        2 * (dft (w (k + 1)) (2 ^ (k + 1)) (fun i => (P i : ℂ)) n * w (k + 3) ^ n).re)
    (hXH : m.getR (x.addR (2 ^ k - 1)) =
      E.sqrt2 * (dft (w (k + 1)) (2 ^ (k + 1)) (fun i => (P i : ℂ)) (2 ^ k)).re) :
    ∃ m', s_dst3_1d E fuel x y sy a m = some m' ∧ m'.size = m.size ∧
      ∀ n, n < 2 ^ k →
        m'.getR (y.addR (sy * (2 * n))) = 2 * (2 ^ (k + 1) : ℕ) * P n ∧
        m'.getR (y.addR (sy * (2 ^ (k + 1) - 1 - 2 * n))) =
          -(2 * (2 ^ (k + 1) : ℕ) * P (2 ^ k + n)) := by
  obtain ⟨z, e, s1, rfl, hb⟩ := ha
  obtain ⟨ht, he, hs1, hts1⟩ := hb (by omega)
  simp only [Aux.blks_node, Aux.blks_null, List.append_nil, List.mem_cons, not_or] at hxa hya
  obtain ⟨H, hH⟩ : ∃ H, H = 2 ^ k := ⟨_, rfl⟩
  have hH1 : 1 ≤ H := by rw [hH]; exact Nat.one_le_two_pow
  have hN : 2 ^ (k + 1) = 2 * H := by rw [hH, pow_succ]; ring
  have hN2 : 2 * H / 2 = H := by omega
  have hv4 : w (k + 3) ^ 4 = w (k + 1) := by
    have := hw.pow_two_pow (k + 1) 2
    rw [show k + 1 + 2 = k + 3 from rfl] at this
    exact this
  have hvN : w (k + 3) ^ (2 * H) = -Complex.I := by
    have := hw.quarter (k + 1)
    rw [show k + 1 + 2 = k + 3 from rfl, hN] at this
    exact this
  obtain ⟨Z, hZ⟩ : ∃ Z : ℕ → ℂ, ∀ j, Z j = dft (w (k + 1)) (2 ^ (k + 1)) (fun i => (P i : ℂ)) j :=
    ⟨_, fun _ => rfl⟩
  simp only [← hZ] at hX0 hXn hXH
  have hZ0 : (Z 0).im = 0 := by rw [hZ]; exact dft_zero_real _ _ P
  have hZH : (Z H).im = 0 := by
    rw [hZ, ← hv4, hN]
    exact dft_nyquist_real (w (k + 3)) H hvN P
  rw [hN] at hx hy ht he hXn hX0 ⊢
  rw [← hH] at hXn hXH ⊢
  rw [hN2] at he
  have hxz : x.blk ≠ z.blk := hxa.1
  have hyz : y.blk ≠ z.blk := hya.1
  have okz : ∀ j, j < H + 1 → m.okC (z.addC j) := by
    intro j hj
    apply okC_of_okR
    rw [Ptr.addC_eq_addR, Ptr.addR_addR]
    exact ht _ (by omega)
  obtain ⟨eN, heN⟩ : ∃ eN : ℕ → Cx ℝ, ∀ n, eN n = ((e.getD []).get? n).getD ⟨0, 0⟩ :=
    ⟨_, fun _ => rfl⟩
  have heN' : ∀ n, n < H → (e.getD []).get? n = some (eN n) ∧ toC (eN n) = w (k + 3) ^ n := by
    intro n hn
    obtain ⟨en, h1, h2⟩ := he n hn
    rw [heN, h1]
    exact ⟨rfl, h2⟩
  -- the preparation
  obtain ⟨m1, hm1⟩ : ∃ m1, m1 = m.setC z (ofReal (m.getR (x.addR (2 * H - 1)))) := ⟨_, rfl⟩
  have hs1' : m1.size = m.size := by rw [hm1]; rfl
  have x1 : ∀ i, m1.getR (x.addR i) = m.getR (x.addR i) := by
    intro i
    rw [hm1, Mem.setC_eq_setR, Mem.getR_setR_of_ne _ (z.addR 1) (x.addR i) _ (Or.inl hxz),
      Mem.getR_setR_of_ne _ z (x.addR i) _ (Or.inl hxz)]
  obtain ⟨m2, hl2, hsz2, hnx2, hv2, hf2⟩ := forLoop_writeC
    (s_dst3_1d_prep (2 * H) x z (e.getD [])) 1 (H - 1) m1 z
    (fun n => conj ((ofReal (m.getR (x.addR (2 * H - n - 1))) +
      I * ofReal (m.getR (x.addR (n - 1)))) * eN n))
    (by
      intro n ma hn1 hn2 hs _ hfr
      have okr : ∀ p, ma.okR p ↔ m.okR p := fun p =>
        (Mem.okR_congr hs p).trans (Mem.okR_congr hs1' p)
      have hxs : ∀ i, ma.getR (x.addR i) = m.getR (x.addR i) := by
        intro i
        rw [hfr (x.addR i) (fun n' _ _ => ⟨Ptr.ne_of_blk hxz, Ptr.ne_of_blk hxz⟩)]
        exact x1 i
      rw [s_dst3_1d_prep_eq (2 * H) x z (e.getD []) n ma (eN n) ((okr _).mpr (hx _ (by omega)))
        ((okr _).mpr (hx _ (by omega))) (heN' n (by omega)).1
        ((Mem.okC_congr (by rw [hs, hs1']) _).mpr (okz n (by omega))), hxs, hxs])
  have hs2 : m2.size = m.size := by rw [hsz2, hs1']
  have x2 : ∀ i, m2.getR (x.addR i) = m.getR (x.addR i) := by
    intro i
    rw [hf2 (x.addR i) (fun n' _ _ => ⟨Ptr.ne_of_blk hxz, Ptr.ne_of_blk hxz⟩)]
    exact x1 i
  obtain ⟨m3, hm3⟩ :
      ∃ m3, m3 = m2.setC (z.addC H) (ofReal (E.sqrt2 * m.getR (x.addR (H - 1)))) :=
    ⟨_, rfl⟩
  have hs3 : m3.size = m.size := by rw [hm3]; exact hs2
  have hne : ∀ a b c d : ℕ, c < 2 → d < 2 → (a ≠ b ∨ c ≠ d) →
      (⟨z.blk, z.off + 2 * a + c⟩ : Ptr) ≠ ⟨z.blk, z.off + 2 * b + d⟩ := by
    intro a b c d hc hd h hc'
    have := congrArg Ptr.off hc'
    simp only at this
    omega
  -- the prepared bins are twice the bins of the real DFT of `P`
  have hz3 : ∀ j, j < H + 1 → toC (m3.getC (z.addC j)) = (2 : ℝ) * Z j := by
    intro j hj
    push_cast
    rcases Nat.lt_or_ge j H with hjH | hjH
    · rw [hm3, Mem.getC_setC_idx _ _ _ _ _ (by omega)]
      rcases Nat.eq_zero_or_pos j with hj0 | hj0
      · subst hj0
        have e0 : m2.getC (z.addC 0) = m1.getC (z.addC 0) := by
          apply getC_of_getR
          · exact hf2 _ (fun n' h1 _ => ⟨hne 0 n' 0 0 (by norm_num) (by norm_num)
              (Or.inl (by omega)), hne 0 n' 0 1 (by norm_num) (by norm_num)
              (Or.inr (by norm_num))⟩)
          · exact hf2 _ (fun n' h1 _ => ⟨hne 0 n' 1 0 (by norm_num) (by norm_num)
              (Or.inr (by norm_num)), hne 0 n' 1 1 (by norm_num) (by norm_num)
              (Or.inl (by omega))⟩)
        rw [e0, Ptr.addC_zero, hm1, Mem.getC_setC_self, toC_ofReal]
        exact real_of_im_zero (Z 0) hZ0 _ hX0
      · rw [hv2 j hj0 (by omega), toC_conj, toC_mul, toC_add, toC_mul, toC_I, toC_ofReal,
          toC_ofReal, (heN' j hjH).2]
        exact type3_unrotate (Z j) (w (k + 3)) j (hu (k + 3)) _ _ (hXn j hj0 hjH).2
          (hXn j hj0 hjH).1
    · have hjq : j = H := by omega
      subst hjq
      rw [hm3, Mem.getC_setC_self, toC_ofReal]
      apply real_of_im_zero (Z j) hZH
      rw [hXH, ← mul_assoc, hsq]
  -- the inverse real DFT in place
  obtain ⟨m4, h4, hsz4, hv4'⟩ := invrealdft_1d_spectrum E w hw hu hprim (k + 1) fuel z z s1 m3
    (hs1.congrR hs3) hfuel
    (fun j hj => by
      rw [hN, hN2] at hj
      exact (Mem.okC_congr hs3 _).mpr (okz j hj))
    (fun i hi => by
      rw [hN] at hi
      exact (Mem.okR_congr hs3 _).mpr (ht i (by omega)))
    hts1 hts1 2 P
    (fun j hj => by
      rw [hN, hN2] at hj
      rw [hz3 j hj, hZ])
  rw [hN] at hv4'
  have hs4 : m4.size = m.size := by rw [hsz4, hs3]
  -- the results
  obtain ⟨m5, hl5, hsz5, hnx5, hv5, hf5⟩ := forLoop_two_writes
    (s_dst3_1d_rec (2 * H) z y sy) 0 H m4
    (fun n => y.addR (sy * 2 * n)) (fun n => y.addR (sy * (2 * H - 1 - 2 * n)))
    (fun n => 2 * ((2 * H : ℕ) : ℝ) * P n) (fun n => -(2 * ((2 * H : ℕ) : ℝ) * P (H + n)))
    (fun n n' _ _ _ _ hne' => by
      show y.addR (sy * 2 * n) ≠ y.addR (sy * 2 * n')
      rw [Nat.mul_assoc, Nat.mul_assoc]
      exact Ptr.addR_str_ne hsy (by omega))
    (fun n n' _ _ _ _ hne' => Ptr.addR_str_ne hsy (by omega))
    (fun n n' _ _ _ _ => by
      show y.addR (sy * 2 * n) ≠ y.addR (sy * (2 * H - 1 - 2 * n'))
      rw [Nat.mul_assoc]
      exact Ptr.addR_str_ne hsy (by omega))
    (by
      intro n ma _ hn hs _ hfr
      have okr : ∀ p, ma.okR p ↔ m.okR p := fun p =>
        (Mem.okR_congr hs p).trans (Mem.okR_congr hs4 p)
      have hts : ∀ i, ma.getR (z.addR i) = m4.getR (z.addR i) := by
        intro i
        exact hfr (z.addR i) (fun n' _ _ => ⟨Ptr.ne_of_blk (fun h => hyz h.symm),
          Ptr.ne_of_blk (fun h => hyz h.symm)⟩)
      rw [s_dst3_1d_rec_eq H z y sy n ma hyz ((okr _).mpr (ht _ (by omega)))
        ((okr _).mpr (ht _ (by omega)))
        ((okr _).mpr (by rw [Nat.mul_assoc]; exact hy _ (by omega)))
        ((okr _).mpr (hy _ (by omega))), hts, hts, hv4' n (by omega),
        hv4' (H + n) (by omega)])
  simp only [Nat.zero_add, Nat.zero_le, true_implies] at hv5
  refine ⟨m5, ?_, by rw [hsz5, hs4], ?_⟩
  · rw [s_dst3_1d_unfold E fuel x y sy H hH1, Mem.loadR_of_ok (hx (2 * H - 1) (by omega)),
      Option.some_bind,
      Mem.storeC_of_ok (by simpa using okz 0 (by omega)), Option.some_bind, ← hm1, hl2,
      Option.some_bind, Mem.loadR_of_ok ((Mem.okR_congr hs2 _).mpr (hx (H - 1) (by omega))),
      Option.some_bind, x2,
      Mem.storeC_of_ok ((Mem.okC_congr hs2 _).mpr (okz H (by omega))), Option.some_bind,
      ← hm3, h4, Option.some_bind]
    exact hl5
  · intro n hn
    obtain ⟨a1, a2⟩ := hv5 n hn
    rw [Nat.mul_assoc] at a1
    exact ⟨a1, a2⟩

end Minfft

namespace Minfft

open Cx

/-! ### Round trips of the Type-2 and Type-3 transforms -/

theorem T23OK.congrT {w : ℕ → ℂ} {a : Aux ℝ} {k : ℕ} {m m' : Mem ℝ} (h : T23OK w a k m)
    (hs : m'.size = m.size) : T23OK w a k m' := by
  obtain ⟨t, e, s1, rfl, hb⟩ := h
  refine ⟨t, e, s1, rfl, fun hk => ?_⟩
  obtain ⟨h1, h2, h3, h4⟩ := hb hk
  exact ⟨fun i hi => (Mem.okR_congr hs _).mpr (h1 i hi), h2, h3.congrR hs, h4⟩

theorem minfft_dst2_leaf {R : Type} [Field R] (E : Num R) (fuel : ℕ) (x y : Ptr) (N : ℕ)
    (t : Ptr) (e : Option (List (Cx R))) (s1 : Aux R) (m : Mem R) :
    minfft_dst2 E fuel x y (Aux.node N t e s1 Aux.null) m =
      s_dst2_1d E fuel x y 1 (Aux.node N t e s1 Aux.null) m := by
  simp [minfft_dst2, s_dst2, make_real_transform, Aux.isNull]

theorem minfft_dct3_leaf {R : Type} [Field R] (E : Num R) (fuel : ℕ) (x y : Ptr) (N : ℕ)
    (t : Ptr) (e : Option (List (Cx R))) (s1 : Aux R) (m : Mem R) :
    minfft_dct3 E fuel x y (Aux.node N t e s1 Aux.null) m =
      s_dct3_1d E fuel x y 1 (Aux.node N t e s1 Aux.null) m := by
  simp [minfft_dct3, s_dct3, make_real_transform, Aux.isNull]

theorem minfft_dst3_leaf {R : Type} [Field R] (E : Num R) (fuel : ℕ) (x y : Ptr) (N : ℕ)
    (t : Ptr) (e : Option (List (Cx R))) (s1 : Aux R) (m : Mem R) :
    minfft_dst3 E fuel x y (Aux.node N t e s1 Aux.null) m =
      s_dst3_1d E fuel x y 1 (Aux.node N t e s1 Aux.null) m := by
  simp [minfft_dst3, s_dst3, make_real_transform, Aux.isNull]

/-- Every index below `2H` is `2n` or `2H-1-2n` for some `n < H`. -/
theorem even_or_mirror (H i : ℕ) (hi : i < 2 * H) :
    ∃ n, n < H ∧ (i = 2 * n ∨ i = 2 * H - 1 - 2 * n) := by
  rcases Nat.even_or_odd' i with ⟨c, hc | hc⟩
  · exact ⟨c, by omega, Or.inl hc⟩
  · exact ⟨H - 1 - c, by omega, Or.inr (by omega)⟩

/-- Round trip through a valid plan: `s_dct2_1d` from `x` to `y`, then
`s_dct3_1d` from `y` to `z`, leaves `2N * x[i]` in `z[i]`. -/
theorem dct2_dct3_ok (E : Num ℝ) (w : ℕ → ℂ) (hw : Roots E w)
    (hu : ∀ k, w k * (starRingEnd ℂ) (w k) = 1)
    (hprim : ∀ k, IsPrimitiveRoot (w k) (2 ^ k)) (hsq : E.sqrt2 * E.sqrt2 = 2)
    (k fuel : ℕ) (x y z : Ptr) (a : Aux ℝ) (m : Mem ℝ) (ha : T23OK w a (k + 1) m)
    (hfuel : k + 1 ≤ fuel)
    (hx : ∀ i, i < 2 ^ (k + 1) → m.okR (x.addR i))
    (hy : ∀ i, i < 2 ^ (k + 1) → m.okR (y.addR i))
    (hz : ∀ i, i < 2 ^ (k + 1) → m.okR (z.addR i))
    (hxa : x.blk ∉ a.blks) (hya : y.blk ∉ a.blks) (hza : z.blk ∉ a.blks) :
    ∃ m1 m2, s_dct2_1d E fuel x y 1 a m = some m1 ∧ s_dct3_1d E fuel y z 1 a m1 = some m2 ∧
      ∀ i, i < 2 ^ (k + 1) → m2.getR (z.addR i) = 2 * (2 ^ (k + 1) : ℕ) * m.getR (x.addR i) := by
  obtain ⟨P, hPdef⟩ : ∃ P : ℕ → ℝ, ∀ i, P i = if i < 2 ^ k then m.getR (x.addR (2 * i))
      else m.getR (x.addR (2 ^ (k + 1) - 1 - 2 * (i - 2 ^ k))) := ⟨_, fun _ => rfl⟩
  have hP : ∀ n, n < 2 ^ k → P n = m.getR (x.addR (2 * n)) ∧
      P (2 ^ k + n) = m.getR (x.addR (2 ^ (k + 1) - 1 - 2 * n)) := by
    intro n hn
    constructor
    · rw [hPdef, if_pos hn]
    · rw [hPdef, if_neg (by omega), Nat.add_sub_cancel_left]
  have hN : 2 ^ (k + 1) = 2 * 2 ^ k := by rw [pow_succ]; ring
  obtain ⟨m1, h1, hs1, v0, vn, vH, -⟩ := s_dct2_1d_ok E w hw hu k fuel x y 1 a m ha hfuel
    one_pos hx (fun j hj => by rw [one_mul]; exact hy j hj) hxa hya P hP
  simp only [one_mul] at v0 vn vH
  obtain ⟨m2, h2, -, v2⟩ := s_dct3_1d_ok E w hw hu hprim hsq k fuel y z 1 a m1
    (ha.congrT hs1) hfuel one_pos
    (fun i hi => (Mem.okR_congr hs1 _).mpr (hy i hi))
    (fun j hj => by rw [one_mul]; exact (Mem.okR_congr hs1 _).mpr (hz j hj))
    hya hza P v0 vn vH
  simp only [one_mul] at v2
  refine ⟨m1, m2, h1, h2, ?_⟩
  intro i hi
  obtain ⟨n, hn, hc | hc⟩ := even_or_mirror (2 ^ k) i (by omega)
  · rw [hc, (v2 n hn).1, (hP n hn).1]
  · rw [hc, ← hN, (v2 n hn).2, (hP n hn).2]

/-- Round trip through a valid plan: `s_dst2_1d` from `x` to `y`, then
`s_dst3_1d` from `y` to `z`, leaves `2N * x[i]` in `z[i]`. -/
theorem dst2_dst3_ok (E : Num ℝ) (w : ℕ → ℂ) (hw : Roots E w)
    (hu : ∀ k, w k * (starRingEnd ℂ) (w k) = 1)
    (hprim : ∀ k, IsPrimitiveRoot (w k) (2 ^ k)) (hsq : E.sqrt2 * E.sqrt2 = 2)
    (k fuel : ℕ) (x y z : Ptr) (a : Aux ℝ) (m : Mem ℝ) (ha : T23OK w a (k + 1) m)
    (hfuel : k + 1 ≤ fuel)
    (hx : ∀ i, i < 2 ^ (k + 1) → m.okR (x.addR i))
    (hy : ∀ i, i < 2 ^ (k + 1) → m.okR (y.addR i))
    (hz : ∀ i, i < 2 ^ (k + 1) → m.okR (z.addR i))
    (hxa : x.blk ∉ a.blks) (hya : y.blk ∉ a.blks) (hza : z.blk ∉ a.blks) :
    ∃ m1 m2, s_dst2_1d E fuel x y 1 a m = some m1 ∧ s_dst3_1d E fuel y z 1 a m1 = some m2 ∧
      ∀ i, i < 2 ^ (k + 1) → m2.getR (z.addR i) = 2 * (2 ^ (k + 1) : ℕ) * m.getR (x.addR i) := by
  obtain ⟨P, hPdef⟩ : ∃ P : ℕ → ℝ, ∀ i, P i = if i < 2 ^ k then m.getR (x.addR (2 * i))
      else -(m.getR (x.addR (2 ^ (k + 1) - 1 - 2 * (i - 2 ^ k)))) := ⟨_, fun _ => rfl⟩
  have hP : ∀ n, n < 2 ^ k → P n = m.getR (x.addR (2 * n)) ∧
      P (2 ^ k + n) = -(m.getR (x.addR (2 ^ (k + 1) - 1 - 2 * n))) := by
    intro n hn
    constructor
    · rw [hPdef, if_pos hn]
    · rw [hPdef, if_neg (by omega), Nat.add_sub_cancel_left]
  have hN : 2 ^ (k + 1) = 2 * 2 ^ k := by rw [pow_succ]; ring
  obtain ⟨m1, h1, hs1, v0, vn, vH, -⟩ := s_dst2_1d_ok E w hw hu k fuel x y 1 a m ha hfuel
    one_pos hx (fun j hj => by rw [one_mul]; exact hy j hj) hxa hya P hP
  simp only [one_mul] at v0 vn vH
  obtain ⟨m2, h2, -, v2⟩ := s_dst3_1d_ok E w hw hu hprim hsq k fuel y z 1 a m1
    (ha.congrT hs1) hfuel one_pos
    (fun i hi => (Mem.okR_congr hs1 _).mpr (hy i hi))
    (fun j hj => by rw [one_mul]; exact (Mem.okR_congr hs1 _).mpr (hz j hj))
    hya hza P v0 vn vH
  simp only [one_mul] at v2
  refine ⟨m1, m2, h1, h2, ?_⟩
  intro i hi
  obtain ⟨n, hn, hc | hc⟩ := even_or_mirror (2 ^ k) i (by omega)
  · rw [hc, (v2 n hn).1, (hP n hn).1]
  · rw [hc, ← hN, (v2 n hn).2, (hP n hn).2]
    ring

/-- Effect of `minfft_dct2` followed by `minfft_dct3`, and of `minfft_dst2`
followed by `minfft_dst3`, with the plan of `minfft_mkaux_t2t3_1d (2^k)`. -/
theorem minfft_t2_t3_1d (E : Num ℝ) (hE : E.Exact) (k fuel : ℕ) (hfuel : k ≤ fuel)
    (m0 m : Mem ℝ) (x y z : Ptr)
    (hm : m.size = (minfft_mkaux_t2t3_1d E (2 ^ k) m0).2.size)
    (hx : x.blk ≠ 0 ∧ x.blk ≤ m0.next ∧ x.off + 2 ^ k ≤ m0.size x.blk)
    (hy : y.blk ≠ 0 ∧ y.blk ≤ m0.next ∧ y.off + 2 ^ k ≤ m0.size y.blk)
    (hz : z.blk ≠ 0 ∧ z.blk ≤ m0.next ∧ z.off + 2 ^ k ≤ m0.size z.blk) :
    (∃ m1 m2, minfft_dct2 E fuel x y (minfft_mkaux_t2t3_1d E (2 ^ k) m0).1 m = some m1 ∧
      minfft_dct3 E fuel y z (minfft_mkaux_t2t3_1d E (2 ^ k) m0).1 m1 = some m2 ∧
      ∀ i, i < 2 ^ k → m2.getR (z.addR i) = 2 * (2 ^ k : ℕ) * m.getR (x.addR i)) ∧
    (∃ m1 m2, minfft_dst2 E fuel x y (minfft_mkaux_t2t3_1d E (2 ^ k) m0).1 m = some m1 ∧
      minfft_dst3 E fuel y z (minfft_mkaux_t2t3_1d E (2 ^ k) m0).1 m1 = some m2 ∧
      ∀ i, i < 2 ^ k → m2.getR (z.addR i) = 2 * (2 ^ k : ℕ) * m.getR (x.addR i)) := by
  obtain ⟨w, hw⟩ : ∃ w : ℕ → ℂ, ∀ k, w k = Complex.exp (-2 * Real.pi * Complex.I / 2 ^ k) :=
    ⟨_, fun _ => rfl⟩
  obtain ⟨hok, hfr, hsz⟩ := mkaux_t2t3_1d_plan E hE w hw k m0 m hm
  have hsq : E.sqrt2 * E.sqrt2 = 2 := by
    rw [hE.2.1]
    exact Real.mul_self_sqrt (by norm_num)
  rcases k with _ | k
  · have hx0 : m.okR x := by simpa using okR_of_region hx hsz (show 0 < 2 ^ 0 by norm_num)
    have hy0 : m.okR y := by simpa using okR_of_region hy hsz (show 0 < 2 ^ 0 by norm_num)
    have hz0 : m.okR z := by simpa using okR_of_region hz hsz (show 0 < 2 ^ 0 by norm_num)
    obtain ⟨c2, s2, -, -, -, -⟩ := symmetric_one E fuel m0 m x y hx0 hy0
    obtain ⟨-, -, c3, s3, -, -⟩ := symmetric_one E fuel m0 (m.setR y (2 * m.getR x)) y z
      hy0 hz0
    have hval : ∀ i, i < 2 ^ 0 →
        ((m.setR y (2 * m.getR x)).setR z ((m.setR y (2 * m.getR x)).getR y)).getR (z.addR i) =
          2 * (2 ^ 0 : ℕ) * m.getR (x.addR i) := by
      intro i hi
      have hi0 : i = 0 := by simpa using hi
      subst hi0
      rw [Ptr.addR_zero, Ptr.addR_zero, Mem.getR_setR_self, Mem.getR_setR_self]
      norm_num
    exact ⟨⟨_, _, c2, c3, hval⟩, ⟨_, _, s2, s3, hval⟩⟩
  · obtain ⟨t, e, s1, ha⟩ := t23_leaf_shape E (2 ^ (k + 1)) m0
    have okx := fun i (hi : i < 2 ^ (k + 1)) => okR_of_region hx hsz hi
    have oky := fun i (hi : i < 2 ^ (k + 1)) => okR_of_region hy hsz hi
    have okz := fun i (hi : i < 2 ^ (k + 1)) => okR_of_region hz hsz hi
    have hxa := not_mem_blks hfr hx.1 hx.2.1
    have hya := not_mem_blks hfr hy.1 hy.2.1
    have hza := not_mem_blks hfr hz.1 hz.2.1
    constructor
    · obtain ⟨m1, m2, h1, h2, h3⟩ := dct2_dct3_ok E w (Roots.of_exact hE w hw)
        (exp_roots_unit w hw) (exp_roots_primitive w hw) hsq k fuel x y z _ m hok hfuel
        okx oky okz hxa hya hza
      refine ⟨m1, m2, ?_, ?_, h3⟩
      · rw [ha, minfft_dct2_leaf, ← ha]
        exact h1
      · rw [ha, minfft_dct3_leaf, ← ha]
        exact h2
    · obtain ⟨m1, m2, h1, h2, h3⟩ := dst2_dst3_ok E w (Roots.of_exact hE w hw)
        (exp_roots_unit w hw) (exp_roots_primitive w hw) hsq k fuel x y z _ m hok hfuel
        okx oky okz hxa hya hza
      refine ⟨m1, m2, ?_, ?_, h3⟩
      · rw [ha, minfft_dst2_leaf, ← ha]
        exact h1
      · rw [ha, minfft_dst3_leaf, ← ha]
        exact h2

end Minfft

namespace Minfft

open Cx

end Minfft

namespace Minfft

open Cx

/-! ### The transform `s_dct4_1d` -/

theorem s_dct4_1d_prep_eq {R : Type} [Field R] (N : ℕ) (x t : Ptr) (e : List (Cx R)) (n : ℕ)
    (m : Mem R) (en : Cx R) (he : e.get? n = some en) (hx0 : m.okR (x.addR (2 * n)))
    (hx1 : m.okR (x.addR (N - 1 - 2 * n))) (ht : m.okC (t.addC n)) :
    s_dct4_1d_prep N x t e n m = some (m.setC (t.addC n)
      (en * (ofReal (m.getR (x.addR (2 * n))) + I * ofReal (m.getR (x.addR (N - 1 - 2 * n)))))) := by
  simp only [s_dct4_1d_prep, Mem.loadR_of_ok hx0, Mem.loadR_of_ok hx1, he,
    Mem.storeC_of_ok ht, Option.bind_eq_bind, Option.some_bind, bind]

theorem s_dct4_1d_rec_eq {R : Type} [Field R] (H : ℕ) (t y : Ptr) (sy : ℕ) (e : List (Cx R))
    (n : ℕ) (m : Mem R) (e0 e1 : Cx R) (hty : y.blk ≠ t.blk)
    (he0 : e.get? (H + 2 * n) = some e0) (he1 : e.get? (H + 2 * n + 1) = some e1)
    (ht0 : m.okC (t.addC n)) (ht1 : m.okC (t.addC (H - 1 - n)))
    (hy0 : m.okR (y.addR (sy * 2 * n))) (hy1 : m.okR (y.addR (sy * (2 * n + 1)))) :
    s_dct4_1d_rec (2 * H) t y sy e n m = some
      ((m.setR (y.addR (sy * 2 * n)) (2 * (e0 * m.getC (t.addC n)).re)).setR
        (y.addR (sy * (2 * n + 1))) (2 * (e1 * conj (m.getC (t.addC (H - 1 - n)))).re)) := by
  have hH : 2 * H / 2 = H := by omega
  have hg : (m.setR (y.addR (sy * 2 * n)) (2 * (e0 * m.getC (t.addC n)).re)).getC
      (t.addC (H - 1 - n)) = m.getC (t.addC (H - 1 - n)) :=
    Mem.getC_setR_of_ne _ (y.addR (sy * 2 * n)) (t.addC (H - 1 - n)) _
      (Or.inl (fun h => hty h.symm))
  simp only [s_dct4_1d_rec, hH, he0, he1, Mem.loadC_of_ok ht0, Mem.storeR_of_ok hy0,
    Mem.loadC_of_ok, Mem.okC_setR, ht1, Mem.storeR_of_ok, Mem.okR_setR, hy1, hg,
    Option.bind_eq_bind, Option.some_bind, bind]

theorem s_dct4_1d_unfold {R : Type} [Field R] (E : Num R) (fuel : ℕ) (x y : Ptr) (sy H : ℕ)
    (hH : 1 ≤ H) (t : Ptr) (e : Option (List (Cx R))) (s1 s2 : Aux R) (m : Mem R) :
    s_dct4_1d E fuel x y sy (Aux.node (2 * H) t e s1 s2) m =
      (forLoop (s_dct4_1d_prep (2 * H) x t (e.getD [])) 0 H m).bind (fun m1 =>
        (s_dft_1d E fuel t t 1 s1 m1).bind (fun m2 =>
          forLoop (s_dct4_1d_rec (2 * H) t y sy (e.getD [])) 0 H m2)) := by
  have h1 : ¬ 2 * H = 1 := by omega
  have e1 : 2 * H / 2 = H := by omega
  simp only [s_dct4_1d, Aux.N?, Aux.e?, Aux.t?, Aux.sub1?, Option.bind_eq_bind,
    Option.some_bind, bind, if_neg h1, e1]

/-- The transform `s_dct4_1d` through a valid plan of length `N = 2^(k+1)`: it
returns; with `u = exp(-2 pi i / (8N))`, `C n = u^(4n) (x[2n] + i x[N-1-2n])` and
`T` the complex DFT of length `N/2` of `C`, it leaves `2 Re (u^(4n+1) T_n)` in
`y[sy*2n]` and `2 Re (u^(4n+3) conj T_(N/2-1-n))` in `y[sy*(2n+1)]`. -/
theorem s_dct4_1d_ok (E : Num ℝ) (w : ℕ → ℂ) (hw : Roots E w) (k fuel : ℕ) (x y : Ptr)
    (sy : ℕ) (a : Aux ℝ) (m : Mem ℝ) (ha : T4OK w a (k + 1) m) (hfuel : k < fuel)
    (hsy : 0 < sy)
    (hx : ∀ i, i < 2 ^ (k + 1) → m.okR (x.addR i))
    (hy : ∀ j, j < 2 ^ (k + 1) → m.okR (y.addR (sy * j)))
    (hxa : x.blk ∉ a.blks) (hya : y.blk ∉ a.blks) (C : ℕ → ℂ)
    (hC : ∀ n, n < 2 ^ k → C n = w (k + 2) ^ n *
      ((m.getR (x.addR (2 * n)) : ℂ) +
        Complex.I * (m.getR (x.addR (2 ^ (k + 1) - 1 - 2 * n)) : ℂ))) :
    ∃ m', s_dct4_1d E fuel x y sy a m = some m' ∧ m'.size = m.size ∧
      ∀ n, n < 2 ^ k →
        m'.getR (y.addR (sy * (2 * n))) =
          2 * (w (k + 4) ^ (4 * n + 1) * dft (w k) (2 ^ k) C n).re ∧
        m'.getR (y.addR (sy * (2 * n + 1))) =
          2 * (w (k + 4) ^ (4 * n + 3) *
            (starRingEnd ℂ) (dft (w k) (2 ^ k) C (2 ^ k - 1 - n))).re := by
  obtain ⟨t, e, s1, rfl, hb⟩ := ha
  obtain ⟨ht, he, he', hs1, hts1⟩ := hb (by omega)
  simp only [Aux.blks_node, Aux.blks_null, List.append_nil, List.mem_cons, not_or] at hxa hya
  obtain ⟨H, hH⟩ : ∃ H, H = 2 ^ k := ⟨_, rfl⟩
  have hH1 : 1 ≤ H := by rw [hH]; exact Nat.one_le_two_pow
  have hN : 2 ^ (k + 1) = 2 * H := by rw [hH, pow_succ]; ring
  have hN2 : 2 * H / 2 = H := by omega
  rw [show k + 1 - 1 = k from rfl] at hs1
  rw [show k + 1 + 1 = k + 2 from rfl] at he
  rw [show k + 1 + 3 = k + 4 from rfl] at he'
  rw [hN] at hx hy ht he he' hC ⊢
  rw [hN2] at ht he he'
  rw [← hH] at hC ⊢
  have hxt : x.blk ≠ t.blk := hxa.1
  have hyt : y.blk ≠ t.blk := hya.1
  obtain ⟨T, hT⟩ : ∃ T : ℕ → ℂ, ∀ j, T j = dft (w k) H C j := ⟨_, fun _ => rfl⟩
  simp only [← hT]
  obtain ⟨eN, heN⟩ : ∃ eN : ℕ → Cx ℝ, ∀ n, eN n = ((e.getD []).get? n).getD ⟨0, 0⟩ :=
    ⟨_, fun _ => rfl⟩
  have heN1 : ∀ n, n < H → (e.getD []).get? n = some (eN n) ∧ toC (eN n) = w (k + 2) ^ n := by
    intro n hn
    obtain ⟨en, h1, h2⟩ := he n hn
    rw [heN, h1]
    exact ⟨rfl, h2⟩
  have heN2 : ∀ n, n < 2 * H → (e.getD []).get? (H + n) = some (eN (H + n)) ∧
      toC (eN (H + n)) = w (k + 4) ^ (2 * n + 1) := by
    intro n hn
    obtain ⟨en, h1, h2⟩ := he' n hn
    rw [heN, h1]
    exact ⟨rfl, h2⟩
  -- the preparation
  obtain ⟨m1, hl1, hsz1, hnx1, hv1, hf1⟩ := forLoop_writeC
    (s_dct4_1d_prep (2 * H) x t (e.getD [])) 0 H m t
    (fun n => eN n * (ofReal (m.getR (x.addR (2 * n))) +
      I * ofReal (m.getR (x.addR (2 * H - 1 - 2 * n)))))
    (by
      intro n ma _ hn hs _ hfr
      have okr : ∀ p, ma.okR p ↔ m.okR p := Mem.okR_congr hs
      have hxs : ∀ i, ma.getR (x.addR i) = m.getR (x.addR i) := by
        intro i
        exact hfr (x.addR i) (fun n' _ _ => ⟨Ptr.ne_of_blk hxt, Ptr.ne_of_blk hxt⟩)
      rw [s_dct4_1d_prep_eq (2 * H) x t (e.getD []) n ma (eN n) (heN1 n (by omega)).1
        ((okr _).mpr (hx _ (by omega))) ((okr _).mpr (hx _ (by omega)))
        ((Mem.okC_congr hs _).mpr (ht n (by omega))), hxs, hxs])
  simp only [Nat.zero_add, Nat.zero_le, true_implies] at hv1 hf1
  have hC1 : ∀ n, n < H → toC (m1.getC (t.addC n)) = C n := by
    intro n hn
    rw [hv1 n hn, hC n hn, toC_mul, toC_add, toC_mul, toC_I, toC_ofReal, toC_ofReal,
      (heN1 n hn).2]
  -- the complex DFT in place
  obtain ⟨m2, h2, hsz2, hnx2, hv2, hf2⟩ := s_dft_1d_ok E w hw k fuel t t 1 s1 m1
    (hs1.congrD hsz1) hfuel one_pos
    (fun i hi => by
      rw [← hH] at hi
      exact (Mem.okC_congr hsz1 _).mpr (ht i hi))
    (fun j hj => by
      rw [← hH] at hj
      rw [one_mul]
      exact (Mem.okC_congr hsz1 _).mpr (ht j hj))
    hts1 hts1
  rw [← hH] at hv2 hf2
  simp only [one_mul] at hv2
  have hT2 : ∀ j, j < H → toC (m2.getC (t.addC j)) = T j := by
    intro j hj
    rw [hv2 j hj, hT]
    apply dft_congr
    intro i hi
    exact hC1 i hi
  have hs2 : m2.size = m.size := by rw [hsz2, hsz1]
  -- the results
  obtain ⟨m3, hl3, hsz3, hnx3, hv3, hf3⟩ := forLoop_two_writes
    (s_dct4_1d_rec (2 * H) t y sy (e.getD [])) 0 H m2
    (fun n => y.addR (sy * 2 * n)) (fun n => y.addR (sy * (2 * n + 1)))
    (fun n => 2 * (w (k + 4) ^ (4 * n + 1) * T n).re)
    (fun n => 2 * (w (k + 4) ^ (4 * n + 3) * (starRingEnd ℂ) (T (H - 1 - n))).re)
    (fun n n' _ _ _ _ hne' => by
      show y.addR (sy * 2 * n) ≠ y.addR (sy * 2 * n')
      rw [Nat.mul_assoc, Nat.mul_assoc]
      exact Ptr.addR_str_ne hsy (by omega))
    (fun n n' _ _ _ _ hne' => Ptr.addR_str_ne hsy (by omega))
    (fun n n' _ _ _ _ => by
      show y.addR (sy * 2 * n) ≠ y.addR (sy * (2 * n' + 1))
      rw [Nat.mul_assoc]
      exact Ptr.addR_str_ne hsy (by omega))
    (by
      intro n ma _ hn hs _ hfr
      have okr : ∀ p, ma.okR p ↔ m.okR p := fun p =>
        (Mem.okR_congr hs p).trans (Mem.okR_congr hs2 p)
      have okc : ∀ j, j < H → ma.okC (t.addC j) := fun j hj =>
        (Mem.okC_congr (by rw [hs, hs2]) _).mpr (ht j hj)
      have hts : ∀ j, ma.getC (t.addC j) = m2.getC (t.addC j) := by
        intro j
        apply getC_of_getR
        · exact hfr (t.addC j) (fun n' _ _ => ⟨Ptr.ne_of_blk (fun h => hyt h.symm),
            Ptr.ne_of_blk (fun h => hyt h.symm)⟩)
        · exact hfr ((t.addC j).addR 1) (fun n' _ _ => ⟨Ptr.ne_of_blk (fun h => hyt h.symm),
            Ptr.ne_of_blk (fun h => hyt h.symm)⟩)
      have h0 := heN2 (2 * n) (by omega)
      have h1 := heN2 (2 * n + 1) (by omega)
      rw [show H + (2 * n + 1) = H + 2 * n + 1 from rfl] at h1
      rw [s_dct4_1d_rec_eq H t y sy (e.getD []) n ma _ _ hyt h0.1 h1.1 (okc n (by omega))
        (okc (H - 1 - n) (by omega))
        ((okr _).mpr (by rw [Nat.mul_assoc]; exact hy _ (by omega)))
        ((okr _).mpr (hy _ (by omega))), hts, hts, toC_mul_re, toC_mul_re, toC_conj,
        hT2 n (by omega), hT2 (H - 1 - n) (by omega), h0.2, h1.2]
      have e0 : 2 * (2 * n) + 1 = 4 * n + 1 := by ring
      have e1 : 2 * (2 * n + 1) + 1 = 4 * n + 3 := by ring
      rw [e0, e1])
  simp only [Nat.zero_add, Nat.zero_le, true_implies] at hv3
  refine ⟨m3, ?_, by rw [hsz3, hs2], ?_⟩
  · rw [s_dct4_1d_unfold E fuel x y sy H hH1, hl1, Option.some_bind, h2, Option.some_bind]
    exact hl3
  · intro n hn
    obtain ⟨a1, a2⟩ := hv3 n hn
    rw [Nat.mul_assoc] at a1
    exact ⟨a1, a2⟩

end Minfft

namespace Minfft

open Cx

/-! ### The transform `s_dst4_1d` -/

theorem s_dst4_1d_prep_eq {R : Type} [Field R] (N : ℕ) (x t : Ptr) (e : List (Cx R)) (n : ℕ)
    (m : Mem R) (en : Cx R) (he : e.get? n = some en) (hx0 : m.okR (x.addR (2 * n)))
    (hx1 : m.okR (x.addR (N - 1 - 2 * n))) (ht : m.okC (t.addC n)) :
    s_dst4_1d_prep N x t e n m = some (m.setC (t.addC n)
      (-en * (ofReal (m.getR (x.addR (2 * n))) - I * ofReal (m.getR (x.addR (N - 1 - 2 * n)))))) := by
  simp only [s_dst4_1d_prep, Mem.loadR_of_ok hx0, Mem.loadR_of_ok hx1, he,
    Mem.storeC_of_ok ht, Option.bind_eq_bind, Option.some_bind, bind]

theorem s_dst4_1d_rec_eq {R : Type} [Field R] (H : ℕ) (t y : Ptr) (sy : ℕ) (e : List (Cx R))
    (n : ℕ) (m : Mem R) (e0 e1 : Cx R) (hty : y.blk ≠ t.blk)
    (he0 : e.get? (H + 2 * n) = some e0) (he1 : e.get? (H + 2 * n + 1) = some e1)
    (ht0 : m.okC (t.addC n)) (ht1 : m.okC (t.addC (H - 1 - n)))
    (hy0 : m.okR (y.addR (sy * 2 * n))) (hy1 : m.okR (y.addR (sy * (2 * n + 1)))) :
    s_dst4_1d_rec (2 * H) t y sy e n m = some
      ((m.setR (y.addR (sy * 2 * n)) (2 * (e0 * m.getC (t.addC n)).im)).setR
        (y.addR (sy * (2 * n + 1))) (2 * (e1 * conj (m.getC (t.addC (H - 1 - n)))).im)) := by
  have hH : 2 * H / 2 = H := by omega
  have hg : (m.setR (y.addR (sy * 2 * n)) (2 * (e0 * m.getC (t.addC n)).im)).getC
      (t.addC (H - 1 - n)) = m.getC (t.addC (H - 1 - n)) :=
    Mem.getC_setR_of_ne _ (y.addR (sy * 2 * n)) (t.addC (H - 1 - n)) _
      (Or.inl (fun h => hty h.symm))
  simp only [s_dst4_1d_rec, hH, he0, he1, Mem.loadC_of_ok ht0, Mem.storeR_of_ok hy0,
    Mem.loadC_of_ok, Mem.okC_setR, ht1, Mem.storeR_of_ok, Mem.okR_setR, hy1, hg,
    Option.bind_eq_bind, Option.some_bind, bind]

theorem s_dst4_1d_unfold {R : Type} [Field R] (E : Num R) (fuel : ℕ) (x y : Ptr) (sy H : ℕ)
    (hH : 1 ≤ H) (t : Ptr) (e : Option (List (Cx R))) (s1 s2 : Aux R) (m : Mem R) :
    s_dst4_1d E fuel x y sy (Aux.node (2 * H) t e s1 s2) m =
      (forLoop (s_dst4_1d_prep (2 * H) x t (e.getD [])) 0 H m).bind (fun m1 =>
        (s_dft_1d E fuel t t 1 s1 m1).bind (fun m2 =>
          forLoop (s_dst4_1d_rec (2 * H) t y sy (e.getD [])) 0 H m2)) := by
  have h1 : ¬ 2 * H = 1 := by omega
  have e1 : 2 * H / 2 = H := by omega
  simp only [s_dst4_1d, Aux.N?, Aux.e?, Aux.t?, Aux.sub1?, Option.bind_eq_bind,
    Option.some_bind, bind, if_neg h1, e1]

/-- The transform `s_dst4_1d` through a valid plan of length `N = 2^(k+1)`: it
returns; with `u = exp(-2 pi i / (8N))`, `C n = -u^(4n) (x[2n] - i x[N-1-2n])` and
`T` the complex DFT of length `N/2` of `C`, it leaves `2 Im (u^(4n+1) T_n)` in
`y[sy*2n]` and `2 Im (u^(4n+3) conj T_(N/2-1-n))` in `y[sy*(2n+1)]`. -/
theorem s_dst4_1d_ok (E : Num ℝ) (w : ℕ → ℂ) (hw : Roots E w) (k fuel : ℕ) (x y : Ptr)
    (sy : ℕ) (a : Aux ℝ) (m : Mem ℝ) (ha : T4OK w a (k + 1) m) (hfuel : k < fuel)
    (hsy : 0 < sy)
    (hx : ∀ i, i < 2 ^ (k + 1) → m.okR (x.addR i))
    (hy : ∀ j, j < 2 ^ (k + 1) → m.okR (y.addR (sy * j)))
    (hxa : x.blk ∉ a.blks) (hya : y.blk ∉ a.blks) (C : ℕ → ℂ)
    (hC : ∀ n, n < 2 ^ k → C n = -w (k + 2) ^ n *
      ((m.getR (x.addR (2 * n)) : ℂ) -
        Complex.I * (m.getR (x.addR (2 ^ (k + 1) - 1 - 2 * n)) : ℂ))) :
    ∃ m', s_dst4_1d E fuel x y sy a m = some m' ∧ m'.size = m.size ∧
      ∀ n, n < 2 ^ k →
        m'.getR (y.addR (sy * (2 * n))) =
          2 * (w (k + 4) ^ (4 * n + 1) * dft (w k) (2 ^ k) C n).im ∧
        m'.getR (y.addR (sy * (2 * n + 1))) =
          2 * (w (k + 4) ^ (4 * n + 3) *
            (starRingEnd ℂ) (dft (w k) (2 ^ k) C (2 ^ k - 1 - n))).im := by
  obtain ⟨t, e, s1, rfl, hb⟩ := ha
  obtain ⟨ht, he, he', hs1, hts1⟩ := hb (by omega)
  simp only [Aux.blks_node, Aux.blks_null, List.append_nil, List.mem_cons, not_or] at hxa hya
  obtain ⟨H, hH⟩ : ∃ H, H = 2 ^ k := ⟨_, rfl⟩
  have hH1 : 1 ≤ H := by rw [hH]; exact Nat.one_le_two_pow
  have hN : 2 ^ (k + 1) = 2 * H := by rw [hH, pow_succ]; ring
  have hN2 : 2 * H / 2 = H := by omega
  rw [show k + 1 - 1 = k from rfl] at hs1
  rw [show k + 1 + 1 = k + 2 from rfl] at he
  rw [show k + 1 + 3 = k + 4 from rfl] at he'
  rw [hN] at hx hy ht he he' hC ⊢
  rw [hN2] at ht he he'
  rw [← hH] at hC ⊢
  have hxt : x.blk ≠ t.blk := hxa.1
  have hyt : y.blk ≠ t.blk := hya.1
  obtain ⟨T, hT⟩ : ∃ T : ℕ → ℂ, ∀ j, T j = dft (w k) H C j := ⟨_, fun _ => rfl⟩
  simp only [← hT]
  obtain ⟨eN, heN⟩ : ∃ eN : ℕ → Cx ℝ, ∀ n, eN n = ((e.getD []).get? n).getD ⟨0, 0⟩ :=
    ⟨_, fun _ => rfl⟩
  have heN1 : ∀ n, n < H → (e.getD []).get? n = some (eN n) ∧ toC (eN n) = w (k + 2) ^ n := by
    intro n hn
    obtain ⟨en, h1, h2⟩ := he n hn
    rw [heN, h1]
    exact ⟨rfl, h2⟩
  have heN2 : ∀ n, n < 2 * H → (e.getD []).get? (H + n) = some (eN (H + n)) ∧
      toC (eN (H + n)) = w (k + 4) ^ (2 * n + 1) := by
    intro n hn
    obtain ⟨en, h1, h2⟩ := he' n hn
    rw [heN, h1]
    exact ⟨rfl, h2⟩
  -- the preparation
  obtain ⟨m1, hl1, hsz1, hnx1, hv1, hf1⟩ := forLoop_writeC
    (s_dst4_1d_prep (2 * H) x t (e.getD [])) 0 H m t
    (fun n => -eN n * (ofReal (m.getR (x.addR (2 * n))) -
      I * ofReal (m.getR (x.addR (2 * H - 1 - 2 * n)))))
    (by
      intro n ma _ hn hs _ hfr
      have okr : ∀ p, ma.okR p ↔ m.okR p := Mem.okR_congr hs
      have hxs : ∀ i, ma.getR (x.addR i) = m.getR (x.addR i) := by
        intro i
        exact hfr (x.addR i) (fun n' _ _ => ⟨Ptr.ne_of_blk hxt, Ptr.ne_of_blk hxt⟩)
      rw [s_dst4_1d_prep_eq (2 * H) x t (e.getD []) n ma (eN n) (heN1 n (by omega)).1
        ((okr _).mpr (hx _ (by omega))) ((okr _).mpr (hx _ (by omega)))
        ((Mem.okC_congr hs _).mpr (ht n (by omega))), hxs, hxs])
  simp only [Nat.zero_add, Nat.zero_le, true_implies] at hv1 hf1
  have hC1 : ∀ n, n < H → toC (m1.getC (t.addC n)) = C n := by
    intro n hn
    rw [hv1 n hn, hC n hn, toC_mul, toC_neg, toC_sub, toC_mul, toC_I, toC_ofReal, toC_ofReal,
      (heN1 n hn).2]
  -- the complex DFT in place
  obtain ⟨m2, h2, hsz2, hnx2, hv2, hf2⟩ := s_dft_1d_ok E w hw k fuel t t 1 s1 m1
    (hs1.congrD hsz1) hfuel one_pos
    (fun i hi => by
      rw [← hH] at hi
      exact (Mem.okC_congr hsz1 _).mpr (ht i hi))
    (fun j hj => by
      rw [← hH] at hj
      rw [one_mul]
      exact (Mem.okC_congr hsz1 _).mpr (ht j hj))
    hts1 hts1
  rw [← hH] at hv2 hf2
  simp only [one_mul] at hv2
  have hT2 : ∀ j, j < H → toC (m2.getC (t.addC j)) = T j := by
    intro j hj
    rw [hv2 j hj, hT]
    apply dft_congr
    intro i hi
    exact hC1 i hi
  have hs2 : m2.size = m.size := by rw [hsz2, hsz1]
  -- the results
  obtain ⟨m3, hl3, hsz3, hnx3, hv3, hf3⟩ := forLoop_two_writes
    (s_dst4_1d_rec (2 * H) t y sy (e.getD [])) 0 H m2
    (fun n => y.addR (sy * 2 * n)) (fun n => y.addR (sy * (2 * n + 1)))
    (fun n => 2 * (w (k + 4) ^ (4 * n + 1) * T n).im)
    (fun n => 2 * (w (k + 4) ^ (4 * n + 3) * (starRingEnd ℂ) (T (H - 1 - n))).im)
    (fun n n' _ _ _ _ hne' => by
      show y.addR (sy * 2 * n) ≠ y.addR (sy * 2 * n')
      rw [Nat.mul_assoc, Nat.mul_assoc]
      exact Ptr.addR_str_ne hsy (by omega))
    (fun n n' _ _ _ _ hne' => Ptr.addR_str_ne hsy (by omega))
    (fun n n' _ _ _ _ => by
      show y.addR (sy * 2 * n) ≠ y.addR (sy * (2 * n' + 1))
      rw [Nat.mul_assoc]
      exact Ptr.addR_str_ne hsy (by omega))
    (by
      intro n ma _ hn hs _ hfr
      have okr : ∀ p, ma.okR p ↔ m.okR p := fun p =>
        (Mem.okR_congr hs p).trans (Mem.okR_congr hs2 p)
      have okc : ∀ j, j < H → ma.okC (t.addC j) := fun j hj =>
        (Mem.okC_congr (by rw [hs, hs2]) _).mpr (ht j hj)
      have hts : ∀ j, ma.getC (t.addC j) = m2.getC (t.addC j) := by
        intro j
        apply getC_of_getR
        · exact hfr (t.addC j) (fun n' _ _ => ⟨Ptr.ne_of_blk (fun h => hyt h.symm),
            Ptr.ne_of_blk (fun h => hyt h.symm)⟩)
        · exact hfr ((t.addC j).addR 1) (fun n' _ _ => ⟨Ptr.ne_of_blk (fun h => hyt h.symm),
            Ptr.ne_of_blk (fun h => hyt h.symm)⟩)
      have h0 := heN2 (2 * n) (by omega)
      have h1 := heN2 (2 * n + 1) (by omega)
      rw [show H + (2 * n + 1) = H + 2 * n + 1 from rfl] at h1
      rw [s_dst4_1d_rec_eq H t y sy (e.getD []) n ma _ _ hyt h0.1 h1.1 (okc n (by omega))
        (okc (H - 1 - n) (by omega))
        ((okr _).mpr (by rw [Nat.mul_assoc]; exact hy _ (by omega)))
        ((okr _).mpr (hy _ (by omega))), hts, hts, toC_mul_im, toC_mul_im, toC_conj,
        hT2 n (by omega), hT2 (H - 1 - n) (by omega), h0.2, h1.2]
      have e0 : 2 * (2 * n) + 1 = 4 * n + 1 := by ring
      have e1 : 2 * (2 * n + 1) + 1 = 4 * n + 3 := by ring
      rw [e0, e1])
  simp only [Nat.zero_add, Nat.zero_le, true_implies] at hv3
  refine ⟨m3, ?_, by rw [hsz3, hs2], ?_⟩
  · rw [s_dst4_1d_unfold E fuel x y sy H hH1, hl1, Option.some_bind, h2, Option.some_bind]
    exact hl3
  · intro n hn
    obtain ⟨a1, a2⟩ := hv3 n hn
    rw [Nat.mul_assoc] at a1
    exact ⟨a1, a2⟩

end Minfft

namespace Minfft

open Cx

/-! ### The Type-4 transforms applied twice -/

/-- The transform of a conjugated and scaled sequence. -/
theorem dft_smul_conj (z c : ℂ) (H : ℕ) (T : ℕ → ℂ) (j : ℕ) :
    dft z H (fun n => c * (starRingEnd ℂ) (T n)) j =
      c * (starRingEnd ℂ) (dft ((starRingEnd ℂ) z) H T j) := by
  unfold dft
  rw [map_sum, Finset.mul_sum]
  apply Finset.sum_congr rfl
  intro n _
  rw [map_mul, map_pow, Complex.conj_conj]
  ring

/-- The transform of the conjugated and scaled transform. -/
theorem dft_smul_conj_dft (z c : ℂ) (H : ℕ) (hz : IsPrimitiveRoot z H)
    (hzz : z * (starRingEnd ℂ) z = 1) (C C' : ℕ → ℂ)
    (hC' : ∀ n, n < H → C' n = c * (starRingEnd ℂ) (dft z H C n)) (j : ℕ) (hj : j < H) :
    dft z H C' j = c * (H * (starRingEnd ℂ) (C j)) := by
  rw [dft_congr z H C' (fun n => c * (starRingEnd ℂ) (dft z H C n)) j hC', dft_smul_conj,
    dft_dft_inv z _ H hz hzz C j hj, map_mul, Complex.conj_natCast]

theorem repack_re (a : ℂ) (r s : ℝ) (hr : r = 2 * a.re)
    (hs : s = 2 * (-Complex.I * (starRingEnd ℂ) a).re) :
    (r : ℂ) + Complex.I * (s : ℂ) = 2 * (starRingEnd ℂ) a := by
  rw [hr, hs]
  apply Complex.ext <;> simp

theorem repack_im (a : ℂ) (r s : ℝ) (hr : r = 2 * a.im)
    (hs : s = 2 * (-Complex.I * (starRingEnd ℂ) a).im) :
    (r : ℂ) - Complex.I * (s : ℂ) = 2 * Complex.I * (starRingEnd ℂ) a := by
  rw [hr, hs]
  apply Complex.ext <;> simp

theorem unit_conj_pow (u : ℂ) (hu : u * (starRingEnd ℂ) u = 1) (a : ℕ) :
    u ^ a * (starRingEnd ℂ) u ^ a = 1 := by
  rw [← mul_pow, hu, one_pow]

/-- The power `u^(4H - 4n - 1)` for `u^(4H) = -i`, `|u| = 1`. -/
theorem unit_pow_mirror (u : ℂ) (hu : u * (starRingEnd ℂ) u = 1) (H n : ℕ) (hn : n < H)
    (huN : u ^ (4 * H) = -Complex.I) :
    u ^ (4 * (H - 1 - n) + 3) = -Complex.I * (starRingEnd ℂ) u ^ (4 * n + 1) := by
  have h := unit_pow_eq_conj u hu (4 * n + 1) (4 * (H - 1 - n) + 3) (-Complex.I)
    (by rw [← pow_add, show 4 * (H - 1 - n) + 3 + (4 * n + 1) = 4 * H by omega, huN])
  rw [h, map_pow]

/-- The Type-4 cosine transform, as `s_dct4_1d` computes it, applied twice. -/
theorem dct4_twice (u z : ℂ) (H : ℕ) (hu : u * (starRingEnd ℂ) u = 1)
    (huN : u ^ (4 * H) = -Complex.I) (hz : IsPrimitiveRoot z H)
    (hzz : z * (starRingEnd ℂ) z = 1) (X Y Z : ℕ → ℝ) (C C' : ℕ → ℂ)
    (hC : ∀ n, n < H → C n = u ^ (4 * n) *
      ((X (2 * n) : ℂ) + Complex.I * (X (2 * H - 1 - 2 * n) : ℂ)))
    (hY : ∀ n, n < H → Y (2 * n) = 2 * (u ^ (4 * n + 1) * dft z H C n).re ∧
      Y (2 * n + 1) = 2 * (u ^ (4 * n + 3) * (starRingEnd ℂ) (dft z H C (H - 1 - n))).re)
    (hC' : ∀ n, n < H → C' n = u ^ (4 * n) *
      ((Y (2 * n) : ℂ) + Complex.I * (Y (2 * H - 1 - 2 * n) : ℂ)))
    (hZ : ∀ n, n < H → Z (2 * n) = 2 * (u ^ (4 * n + 1) * dft z H C' n).re ∧
      Z (2 * n + 1) = 2 * (u ^ (4 * n + 3) * (starRingEnd ℂ) (dft z H C' (H - 1 - n))).re) :
    ∀ n, n < H → Z (2 * n) = 2 * ((2 * H : ℕ) : ℝ) * X (2 * n) ∧
      Z (2 * n + 1) = 2 * ((2 * H : ℕ) : ℝ) * X (2 * n + 1) := by
  obtain ⟨c, hc⟩ : ∃ c, c = (starRingEnd ℂ) u := ⟨_, rfl⟩
  have hcu : (starRingEnd ℂ) c = u := by rw [hc, Complex.conj_conj]
  rw [← hc] at hu
  -- the second input of the complex DFT
  have s1 : ∀ n, n < H → C' n = 2 * c * (starRingEnd ℂ) (dft z H C n) := by
    intro n hn
    have y0 := (hY n hn).1
    have y1 := (hY (H - 1 - n) (by omega)).2
    rw [show 2 * (H - 1 - n) + 1 = 2 * H - 1 - 2 * n by omega,
      show H - 1 - (H - 1 - n) = n by omega,
      unit_pow_mirror u (by rw [← hc]; exact hu) H n hn huN, ← hc] at y1
    have hconj : (starRingEnd ℂ) (u ^ (4 * n + 1) * dft z H C n) =
        c ^ (4 * n + 1) * (starRingEnd ℂ) (dft z H C n) := by
      rw [map_mul, map_pow, hc]
    rw [mul_assoc, ← hconj] at y1
    rw [hC' n hn, repack_re (u ^ (4 * n + 1) * dft z H C n) _ _ y0 y1, hconj]
    have hp := unit_conj_pow u (by rw [← hc]; exact hu) (4 * n)
    rw [← hc] at hp
    rw [pow_succ c (4 * n)]
    linear_combination (2 * c * (starRingEnd ℂ) (dft z H C n)) * hp
  have s2 : ∀ j, j < H → dft z H C' j = 2 * c * (H * (starRingEnd ℂ) (C j)) :=
    fun j hj => dft_smul_conj_dft z (2 * c) H hz hzz C C' s1 j hj
  intro n hn
  have hp := unit_conj_pow u (by rw [← hc]; exact hu) (4 * n)
  rw [← hc] at hp
  constructor
  · rw [(hZ n hn).1, s2 n hn, hC n hn]
    have e : u ^ (4 * n + 1) * (2 * c * (H * (starRingEnd ℂ) (u ^ (4 * n) *
        ((X (2 * n) : ℂ) + Complex.I * (X (2 * H - 1 - 2 * n) : ℂ))))) =
        2 * (H : ℂ) * ((X (2 * n) : ℂ) - Complex.I * (X (2 * H - 1 - 2 * n) : ℂ)) := by
      rw [map_mul, map_add, map_mul, map_pow, Complex.conj_ofReal, Complex.conj_ofReal,
        Complex.conj_I, ← hc, pow_succ u (4 * n)]
      linear_combination (2 * (H : ℂ) * ((X (2 * n) : ℂ) -
        Complex.I * (X (2 * H - 1 - 2 * n) : ℂ)) * (u * c)) * hp +
        (2 * (H : ℂ) * ((X (2 * n) : ℂ) - Complex.I * (X (2 * H - 1 - 2 * n) : ℂ))) * hu
    rw [e]
    simp
    ring
  · have hm : H - 1 - n < H := by omega
    rw [(hZ n hn).2, s2 (H - 1 - n) hm, hC (H - 1 - n) hm,
      show 2 * H - 1 - 2 * (H - 1 - n) = 2 * n + 1 by omega]
    have hpw : u ^ (4 * n + 3) * u * u ^ (4 * (H - 1 - n)) = -Complex.I := by
      rw [← pow_succ, ← pow_add, show 4 * n + 3 + 1 + 4 * (H - 1 - n) = 4 * H by omega, huN]
    have e : u ^ (4 * n + 3) * (starRingEnd ℂ) (2 * c * (H * (starRingEnd ℂ)
        (u ^ (4 * (H - 1 - n)) * ((X (2 * (H - 1 - n)) : ℂ) +
          Complex.I * (X (2 * n + 1) : ℂ))))) =
        2 * (H : ℂ) * (-Complex.I * ((X (2 * (H - 1 - n)) : ℂ) +
          Complex.I * (X (2 * n + 1) : ℂ))) := by
      rw [map_mul, map_mul, map_mul, Complex.conj_conj, hcu, Complex.conj_natCast, map_ofNat]
      linear_combination (2 * (H : ℂ) * ((X (2 * (H - 1 - n)) : ℂ) +
        Complex.I * (X (2 * n + 1) : ℂ))) * hpw
    rw [e]
    simp
    ring

/-- The Type-4 sine transform, as `s_dst4_1d` computes it, applied twice. -/
theorem dst4_twice (u z : ℂ) (H : ℕ) (hu : u * (starRingEnd ℂ) u = 1)
    (huN : u ^ (4 * H) = -Complex.I) (hz : IsPrimitiveRoot z H)
    (hzz : z * (starRingEnd ℂ) z = 1) (X Y Z : ℕ → ℝ) (C C' : ℕ → ℂ)
    (hC : ∀ n, n < H → C n = -u ^ (4 * n) *
      ((X (2 * n) : ℂ) - Complex.I * (X (2 * H - 1 - 2 * n) : ℂ)))
    (hY : ∀ n, n < H → Y (2 * n) = 2 * (u ^ (4 * n + 1) * dft z H C n).im ∧
      Y (2 * n + 1) = 2 * (u ^ (4 * n + 3) * (starRingEnd ℂ) (dft z H C (H - 1 - n))).im)
    (hC' : ∀ n, n < H → C' n = -u ^ (4 * n) *
      ((Y (2 * n) : ℂ) - Complex.I * (Y (2 * H - 1 - 2 * n) : ℂ)))
    (hZ : ∀ n, n < H → Z (2 * n) = 2 * (u ^ (4 * n + 1) * dft z H C' n).im ∧
      Z (2 * n + 1) = 2 * (u ^ (4 * n + 3) * (starRingEnd ℂ) (dft z H C' (H - 1 - n))).im) :
    ∀ n, n < H → Z (2 * n) = 2 * ((2 * H : ℕ) : ℝ) * X (2 * n) ∧
      Z (2 * n + 1) = 2 * ((2 * H : ℕ) : ℝ) * X (2 * n + 1) := by
  obtain ⟨c, hc⟩ : ∃ c, c = (starRingEnd ℂ) u := ⟨_, rfl⟩
  have hcu : (starRingEnd ℂ) c = u := by rw [hc, Complex.conj_conj]
  rw [← hc] at hu
  -- the second input of the complex DFT
  have s1 : ∀ n, n < H → C' n = -(2 * Complex.I) * c * (starRingEnd ℂ) (dft z H C n) := by
    intro n hn
    have y0 := (hY n hn).1
    have y1 := (hY (H - 1 - n) (by omega)).2
    rw [show 2 * (H - 1 - n) + 1 = 2 * H - 1 - 2 * n by omega,
      show H - 1 - (H - 1 - n) = n by omega,
      unit_pow_mirror u (by rw [← hc]; exact hu) H n hn huN, ← hc] at y1
    have hconj : (starRingEnd ℂ) (u ^ (4 * n + 1) * dft z H C n) =
        c ^ (4 * n + 1) * (starRingEnd ℂ) (dft z H C n) := by
      rw [map_mul, map_pow, hc]
    rw [mul_assoc, ← hconj] at y1
    rw [hC' n hn, repack_im (u ^ (4 * n + 1) * dft z H C n) _ _ y0 y1, hconj]
    have hp := unit_conj_pow u (by rw [← hc]; exact hu) (4 * n)
    rw [← hc] at hp
    rw [pow_succ c (4 * n)]
    linear_combination (-(2 * Complex.I) * c * (starRingEnd ℂ) (dft z H C n)) * hp
  have s2 : ∀ j, j < H → dft z H C' j = -(2 * Complex.I) * c * (H * (starRingEnd ℂ) (C j)) :=
    fun j hj => dft_smul_conj_dft z (-(2 * Complex.I) * c) H hz hzz C C' s1 j hj
  intro n hn
  have hp := unit_conj_pow u (by rw [← hc]; exact hu) (4 * n)
  rw [← hc] at hp
  constructor
  · rw [(hZ n hn).1, s2 n hn, hC n hn]
    have e : u ^ (4 * n + 1) * (-(2 * Complex.I) * c * (H * (starRingEnd ℂ) (-u ^ (4 * n) *
        ((X (2 * n) : ℂ) - Complex.I * (X (2 * H - 1 - 2 * n) : ℂ))))) =
        2 * (H : ℂ) * (Complex.I * ((X (2 * n) : ℂ) +
          Complex.I * (X (2 * H - 1 - 2 * n) : ℂ))) := by
      rw [map_mul, map_sub, map_mul, map_neg, map_pow, Complex.conj_ofReal,
        Complex.conj_ofReal, Complex.conj_I, ← hc, pow_succ u (4 * n)]
      linear_combination (2 * (H : ℂ) * (Complex.I * ((X (2 * n) : ℂ) +
        Complex.I * (X (2 * H - 1 - 2 * n) : ℂ))) * (u * c)) * hp +
        (2 * (H : ℂ) * (Complex.I * ((X (2 * n) : ℂ) +
          Complex.I * (X (2 * H - 1 - 2 * n) : ℂ)))) * hu
    rw [e]
    simp
    ring
  · have hm : H - 1 - n < H := by omega
    rw [(hZ n hn).2, s2 (H - 1 - n) hm, hC (H - 1 - n) hm,
      show 2 * H - 1 - 2 * (H - 1 - n) = 2 * n + 1 by omega]
    have hpw : u ^ (4 * n + 3) * u * u ^ (4 * (H - 1 - n)) = -Complex.I := by
      rw [← pow_succ, ← pow_add, show 4 * n + 3 + 1 + 4 * (H - 1 - n) = 4 * H by omega, huN]
    have e : u ^ (4 * n + 3) * (starRingEnd ℂ) (-(2 * Complex.I) * c * (H * (starRingEnd ℂ)
        (-u ^ (4 * (H - 1 - n)) * ((X (2 * (H - 1 - n)) : ℂ) -
          Complex.I * (X (2 * n + 1) : ℂ))))) =
        2 * (H : ℂ) * (-((X (2 * (H - 1 - n)) : ℂ) - Complex.I * (X (2 * n + 1) : ℂ))) := by
      rw [map_mul, map_mul, map_mul, Complex.conj_conj, hcu, Complex.conj_natCast, map_neg,
        map_mul, map_ofNat, Complex.conj_I]
      linear_combination (-(2 * (H : ℂ) * Complex.I * ((X (2 * (H - 1 - n)) : ℂ) -
        Complex.I * (X (2 * n + 1) : ℂ)))) * hpw + (2 * (H : ℂ) * ((X (2 * (H - 1 - n)) : ℂ) -
        Complex.I * (X (2 * n + 1) : ℂ))) * Complex.I_mul_I
    rw [e]
    simp
    ring

end Minfft

namespace Minfft

open Cx

/-! ### The plan and the round trips of the Type-4 transforms -/

theorem mkaux_t4_1d_big {R : Type} [Field R] (E : Num R) (k : ℕ) (m0 : Mem R) :
    minfft_mkaux_t4_1d E (2 ^ (k + 1)) m0 =
      (Aux.node (2 ^ (k + 1)) ⟨m0.next + 1, 0⟩
        (some ((List.range (2 ^ k)).map (fun n => tw1 E n (2 * 2 ^ (k + 1))) ++
          (List.range (2 ^ (k + 1))).map (fun n => tw1 E (2 * n + 1) (8 * 2 ^ (k + 1)))))
        (minfft_mkaux_dft_1d E (2 ^ k) (m0.malloc (2 * 2 ^ k)).2).1 Aux.null,
        (minfft_mkaux_dft_1d E (2 ^ k) (m0.malloc (2 * 2 ^ k)).2).2) := by
  have h2 : 2 ≤ 2 ^ (k + 1) := by
    have : 2 ^ 1 ≤ 2 ^ (k + 1) := Nat.pow_le_pow_right (by norm_num) (by omega)
    omega
  have e1 : 2 ^ (k + 1) / 2 = 2 ^ k := by
    rw [pow_succ]; omega
  rw [minfft_mkaux_t4_1d, if_pos h2]
  simp only [e1]
  rfl

/-- The plan of `minfft_mkaux_t4_1d`, at the level of blocks. -/
theorem mkaux_t4_1d_plan (E : Num ℝ) (hE : E.Exact) (w : ℕ → ℂ)
    (hw : ∀ k, w k = Complex.exp (-2 * Real.pi * Complex.I / 2 ^ k)) (k : ℕ) (m0 m : Mem ℝ)
    (hm : m.size = (minfft_mkaux_t4_1d E (2 ^ k) m0).2.size) :
    T4OK w (minfft_mkaux_t4_1d E (2 ^ k) m0).1 k m ∧
      (∀ b, b ∈ (minfft_mkaux_t4_1d E (2 ^ k) m0).1.blks → b = 0 ∨ m0.next < b) ∧
      (∀ b, b ≤ m0.next → m.size b = m0.size b) := by
  rcases k with _ | k
  · have h1 : minfft_mkaux_t4_1d E (2 ^ 0) m0 =
        (Aux.node 1 Ptr.null none (Aux.node 0 Ptr.null none Aux.null Aux.null) Aux.null, m0) := by
      simp [minfft_mkaux_t4_1d, minfft_mkaux_dft_1d]
    rw [h1] at hm ⊢
    refine ⟨⟨_, _, _, rfl, fun h => by omega⟩, ?_, fun b _ => by rw [hm]⟩
    intro b hb
    left
    simp only [Aux.blks_node, Aux.blks_null, List.append_nil, List.mem_cons,
      List.mem_singleton, List.not_mem_nil, or_false] at hb
    rcases hb with hb | hb <;> rw [hb] <;> rfl
  · rw [mkaux_t4_1d_big] at hm ⊢
    obtain ⟨hr, hfr, hsz, -⟩ := mkaux_dft_1d_plan E hE w hw k (m0.malloc (2 * 2 ^ k)).2 m hm
    replace hfr : ∀ b, b ∈ (minfft_mkaux_dft_1d E (2 ^ k)
        (m0.malloc (2 * 2 ^ k)).2).1.blks → b = 0 ∨ m0.next + 1 < b := hfr
    replace hsz : ∀ b, b ≤ m0.next + 1 → m.size b = (m0.malloc (2 * 2 ^ k)).2.size b := hsz
    have e1 : 2 ^ (k + 1) / 2 = 2 ^ k := by
      rw [pow_succ]; omega
    have hlen : ((List.range (2 ^ k)).map (fun n => tw1 E n (2 * 2 ^ (k + 1)))).length = 2 ^ k := by
      simp
    refine ⟨⟨_, _, _, rfl, fun _ => ⟨?_, ?_, ?_, hr, ?_⟩⟩, ?_, ?_⟩
    · intro i hi
      rw [e1] at hi
      refine ⟨by simp, ?_⟩
      show 0 + 2 * i + 1 < m.size (m0.next + 1)
      rw [hsz _ (le_refl _)]
      simp only [Mem.malloc, if_true]
      omega
    · intro n hn
      rw [e1] at hn
      refine ⟨tw1 E n (2 * 2 ^ (k + 1)), ?_, ?_⟩
      · rw [Option.getD_some, List.get?_eq_getElem?,
          List.getElem?_append_left (by rw [hlen]; exact hn)]
        simp [List.getElem?_map, List.getElem?_range hn]
      · rw [toC_tw1 hE, hw]
        congr 2
        push_cast
        ring
    · intro n hn
      rw [e1]
      refine ⟨tw1 E (2 * n + 1) (8 * 2 ^ (k + 1)), ?_, ?_⟩
      · rw [Option.getD_some, List.get?_eq_getElem?,
          List.getElem?_append_right (by rw [hlen]; omega), hlen, Nat.add_sub_cancel_left]
        simp [List.getElem?_map, List.getElem?_range hn]
      · rw [toC_tw1 hE, hw]
        congr 2
        push_cast
        ring
    · intro h
      have h' : m0.next + 1 ∈ (minfft_mkaux_dft_1d E (2 ^ k)
        (m0.malloc (2 * 2 ^ k)).2).1.blks := h
      rcases hfr _ h' with h0 | h0 <;> omega
    · intro b hb
      simp only [Aux.blks_node, Aux.blks_null, List.append_nil, List.mem_cons] at hb
      rcases hb with hb | hb
      · right; rw [hb]; exact Nat.lt_succ_self _
      · rcases hfr b hb with h0 | h0
        · exact Or.inl h0
        · right; omega
    · intro b hb
      rw [hsz b (by omega)]
      simp only [Mem.malloc]
      rw [if_neg (by omega)]

theorem T4OK.congrF {w : ℕ → ℂ} {a : Aux ℝ} {k : ℕ} {m m' : Mem ℝ} (h : T4OK w a k m)
    (hs : m'.size = m.size) : T4OK w a k m' := by
  obtain ⟨t, e, s1, rfl, hb⟩ := h
  refine ⟨t, e, s1, rfl, fun hk => ?_⟩
  obtain ⟨h1, h2, h3, h4, h5⟩ := hb hk
  exact ⟨fun i hi => (Mem.okC_congr hs _).mpr (h1 i hi), h2, h3, h4.congrD hs, h5⟩

theorem t4_leaf_shape {R : Type} [Field R] (E : Num R) (N : ℕ) (m0 : Mem R) :
    ∃ t e s1, (minfft_mkaux_t4_1d E N m0).1 = Aux.node N t e s1 Aux.null := by
  obtain ⟨t, e, m1, h⟩ := t4_leaf_children E N m0
  exact ⟨t, e, _, h⟩

theorem minfft_dct4_leaf {R : Type} [Field R] (E : Num R) (fuel : ℕ) (x y : Ptr) (N : ℕ)
    (t : Ptr) (e : Option (List (Cx R))) (s1 : Aux R) (m : Mem R) :
    minfft_dct4 E fuel x y (Aux.node N t e s1 Aux.null) m =
      s_dct4_1d E fuel x y 1 (Aux.node N t e s1 Aux.null) m := by
  simp [minfft_dct4, s_dct4, make_real_transform, Aux.isNull]

theorem minfft_dst4_leaf {R : Type} [Field R] (E : Num R) (fuel : ℕ) (x y : Ptr) (N : ℕ)
    (t : Ptr) (e : Option (List (Cx R))) (s1 : Aux R) (m : Mem R) :
    minfft_dst4 E fuel x y (Aux.node N t e s1 Aux.null) m =
      s_dst4_1d E fuel x y 1 (Aux.node N t e s1 Aux.null) m := by
  simp [minfft_dst4, s_dst4, make_real_transform, Aux.isNull]

/-- Every index below `2H` is `2n` or `2n+1` for some `n < H`. -/
theorem even_or_succ (H i : ℕ) (hi : i < 2 * H) :
    ∃ n, n < H ∧ (i = 2 * n ∨ i = 2 * n + 1) := by
  rcases Nat.even_or_odd' i with ⟨c, hc | hc⟩
  · exact ⟨c, by omega, Or.inl hc⟩
  · exact ⟨c, by omega, Or.inr hc⟩

/-- Twice through a valid plan: `s_dct4_1d` from `x` to `y`, then `s_dct4_1d`
from `y` to `z`, leaves `2N * x[i]` in `z[i]`. -/
theorem dct4_dct4_ok (E : Num ℝ) (w : ℕ → ℂ) (hw : Roots E w)
    (hu : ∀ k, w k * (starRingEnd ℂ) (w k) = 1)
    (hprim : ∀ k, IsPrimitiveRoot (w k) (2 ^ k))
    (k fuel : ℕ) (x y z : Ptr) (a : Aux ℝ) (m : Mem ℝ) (ha : T4OK w a (k + 1) m)
    (hfuel : k < fuel)
    (hx : ∀ i, i < 2 ^ (k + 1) → m.okR (x.addR i))
    (hy : ∀ i, i < 2 ^ (k + 1) → m.okR (y.addR i))
    (hz : ∀ i, i < 2 ^ (k + 1) → m.okR (z.addR i))
    (hxa : x.blk ∉ a.blks) (hya : y.blk ∉ a.blks) (hza : z.blk ∉ a.blks) :
    ∃ m1 m2, s_dct4_1d E fuel x y 1 a m = some m1 ∧ s_dct4_1d E fuel y z 1 a m1 = some m2 ∧
      ∀ i, i < 2 ^ (k + 1) → m2.getR (z.addR i) = 2 * (2 ^ (k + 1) : ℕ) * m.getR (x.addR i) := by
  have hN : 2 ^ (k + 1) = 2 * 2 ^ k := by rw [pow_succ]; ring
  have hu4 : w (k + 4) ^ 4 = w (k + 2) := hw.pow_two_pow (k + 2) 2
  have hpw : ∀ n, w (k + 2) ^ n = w (k + 4) ^ (4 * n) := by
    intro n
    rw [← hu4, ← pow_mul]
  have huN : w (k + 4) ^ (4 * 2 ^ k) = -Complex.I := by
    have := hw.quarter (k + 2)
    rw [show k + 2 + 2 = k + 4 from rfl, pow_succ, pow_succ] at this
    rw [← this]
    congr 1
    ring
  obtain ⟨m1, h1, hs1, v1⟩ := s_dct4_1d_ok E w hw k fuel x y 1 a m ha hfuel one_pos hx
    (fun j hj => by rw [one_mul]; exact hy j hj) hxa hya
    (fun n => w (k + 2) ^ n * ((m.getR (x.addR (2 * n)) : ℂ) +
        Complex.I * (m.getR (x.addR (2 ^ (k + 1) - 1 - 2 * n)) : ℂ)))
    (fun n _ => rfl)
  obtain ⟨m2, h2, -, v2⟩ := s_dct4_1d_ok E w hw k fuel y z 1 a m1 (ha.congrF hs1) hfuel one_pos
    (fun i hi => (Mem.okR_congr hs1 _).mpr (hy i hi))
    (fun j hj => by rw [one_mul]; exact (Mem.okR_congr hs1 _).mpr (hz j hj)) hya hza
    (fun n => w (k + 2) ^ n * ((m1.getR (y.addR (2 * n)) : ℂ) +
        Complex.I * (m1.getR (y.addR (2 ^ (k + 1) - 1 - 2 * n)) : ℂ)))
    (fun n _ => rfl)
  simp only [one_mul, hpw, hN] at v1 v2
  have key := dct4_twice (w (k + 4)) (w k) (2 ^ k) (hu (k + 4)) huN (hprim k) (hu k)
    (fun i => m.getR (x.addR i)) (fun i => m1.getR (y.addR i)) (fun i => m2.getR (z.addR i))
    _ _ (fun n _ => rfl) v1 (fun n _ => rfl) v2
  refine ⟨m1, m2, h1, h2, ?_⟩
  intro i hi
  rw [hN]
  obtain ⟨n, hn, hc | hc⟩ := even_or_succ (2 ^ k) i (by omega)
  · rw [hc]
    exact (key n hn).1
  · rw [hc]
    exact (key n hn).2

/-- Twice through a valid plan: `s_dst4_1d` from `x` to `y`, then `s_dst4_1d`
from `y` to `z`, leaves `2N * x[i]` in `z[i]`. -/
theorem dst4_dst4_ok (E : Num ℝ) (w : ℕ → ℂ) (hw : Roots E w)
    (hu : ∀ k, w k * (starRingEnd ℂ) (w k) = 1)
    (hprim : ∀ k, IsPrimitiveRoot (w k) (2 ^ k))
    (k fuel : ℕ) (x y z : Ptr) (a : Aux ℝ) (m : Mem ℝ) (ha : T4OK w a (k + 1) m)
    (hfuel : k < fuel)
    (hx : ∀ i, i < 2 ^ (k + 1) → m.okR (x.addR i))
    (hy : ∀ i, i < 2 ^ (k + 1) → m.okR (y.addR i))
    (hz : ∀ i, i < 2 ^ (k + 1) → m.okR (z.addR i))
    (hxa : x.blk ∉ a.blks) (hya : y.blk ∉ a.blks) (hza : z.blk ∉ a.blks) :
    ∃ m1 m2, s_dst4_1d E fuel x y 1 a m = some m1 ∧ s_dst4_1d E fuel y z 1 a m1 = some m2 ∧
      ∀ i, i < 2 ^ (k + 1) → m2.getR (z.addR i) = 2 * (2 ^ (k + 1) : ℕ) * m.getR (x.addR i) := by
  have hN : 2 ^ (k + 1) = 2 * 2 ^ k := by rw [pow_succ]; ring
  have hu4 : w (k + 4) ^ 4 = w (k + 2) := hw.pow_two_pow (k + 2) 2
  have hpw : ∀ n, w (k + 2) ^ n = w (k + 4) ^ (4 * n) := by
    intro n
    rw [← hu4, ← pow_mul]
  have huN : w (k + 4) ^ (4 * 2 ^ k) = -Complex.I := by
    have := hw.quarter (k + 2)
    rw [show k + 2 + 2 = k + 4 from rfl, pow_succ, pow_succ] at this
    rw [← this]
    congr 1
    ring
  obtain ⟨m1, h1, hs1, v1⟩ := s_dst4_1d_ok E w hw k fuel x y 1 a m ha hfuel one_pos hx
    (fun j hj => by rw [one_mul]; exact hy j hj) hxa hya
    (fun n => -w (k + 2) ^ n * ((m.getR (x.addR (2 * n)) : ℂ) -
        Complex.I * (m.getR (x.addR (2 ^ (k + 1) - 1 - 2 * n)) : ℂ)))
    (fun n _ => rfl)
  obtain ⟨m2, h2, -, v2⟩ := s_dst4_1d_ok E w hw k fuel y z 1 a m1 (ha.congrF hs1) hfuel one_pos
    (fun i hi => (Mem.okR_congr hs1 _).mpr (hy i hi))
    (fun j hj => by rw [one_mul]; exact (Mem.okR_congr hs1 _).mpr (hz j hj)) hya hza
    (fun n => -w (k + 2) ^ n * ((m1.getR (y.addR (2 * n)) : ℂ) -
        Complex.I * (m1.getR (y.addR (2 ^ (k + 1) - 1 - 2 * n)) : ℂ)))
    (fun n _ => rfl)
  simp only [one_mul, hpw, hN] at v1 v2
  have key := dst4_twice (w (k + 4)) (w k) (2 ^ k) (hu (k + 4)) huN (hprim k) (hu k)
    (fun i => m.getR (x.addR i)) (fun i => m1.getR (y.addR i)) (fun i => m2.getR (z.addR i))
    _ _ (fun n _ => rfl) v1 (fun n _ => rfl) v2
  refine ⟨m1, m2, h1, h2, ?_⟩
  intro i hi
  rw [hN]
  obtain ⟨n, hn, hc | hc⟩ := even_or_succ (2 ^ k) i (by omega)
  · rw [hc]
    exact (key n hn).1
  · rw [hc]
    exact (key n hn).2

/-- Effect of `minfft_dct4` applied twice, and of `minfft_dst4` applied twice,
with the plan of `minfft_mkaux_t4_1d (2^k)`. -/
theorem minfft_t4_twice_1d (E : Num ℝ) (hE : E.Exact) (k fuel : ℕ) (hfuel : k ≤ fuel)
    (m0 m : Mem ℝ) (x y z : Ptr)
    (hm : m.size = (minfft_mkaux_t4_1d E (2 ^ k) m0).2.size)
    (hx : x.blk ≠ 0 ∧ x.blk ≤ m0.next ∧ x.off + 2 ^ k ≤ m0.size x.blk)
    (hy : y.blk ≠ 0 ∧ y.blk ≤ m0.next ∧ y.off + 2 ^ k ≤ m0.size y.blk)
    (hz : z.blk ≠ 0 ∧ z.blk ≤ m0.next ∧ z.off + 2 ^ k ≤ m0.size z.blk) :
    (∃ m1 m2, minfft_dct4 E fuel x y (minfft_mkaux_t4_1d E (2 ^ k) m0).1 m = some m1 ∧
      minfft_dct4 E fuel y z (minfft_mkaux_t4_1d E (2 ^ k) m0).1 m1 = some m2 ∧
      ∀ i, i < 2 ^ k → m2.getR (z.addR i) = 2 * (2 ^ k : ℕ) * m.getR (x.addR i)) ∧
    (∃ m1 m2, minfft_dst4 E fuel x y (minfft_mkaux_t4_1d E (2 ^ k) m0).1 m = some m1 ∧
      minfft_dst4 E fuel y z (minfft_mkaux_t4_1d E (2 ^ k) m0).1 m1 = some m2 ∧
      ∀ i, i < 2 ^ k → m2.getR (z.addR i) = 2 * (2 ^ k : ℕ) * m.getR (x.addR i)) := by
  obtain ⟨w, hw⟩ : ∃ w : ℕ → ℂ, ∀ k, w k = Complex.exp (-2 * Real.pi * Complex.I / 2 ^ k) :=
    ⟨_, fun _ => rfl⟩
  obtain ⟨hok, hfr, hsz⟩ := mkaux_t4_1d_plan E hE w hw k m0 m hm
  have hsq : E.sqrt2 * E.sqrt2 = 2 := by
    rw [hE.2.1]
    exact Real.mul_self_sqrt (by norm_num)
  rcases k with _ | k
  · have hx0 : m.okR x := by simpa using okR_of_region hx hsz (show 0 < 2 ^ 0 by norm_num)
    have hy0 : m.okR y := by simpa using okR_of_region hy hsz (show 0 < 2 ^ 0 by norm_num)
    have hz0 : m.okR z := by simpa using okR_of_region hz hsz (show 0 < 2 ^ 0 by norm_num)
    obtain ⟨-, -, -, -, c4, s4⟩ := symmetric_one E fuel m0 m x y hx0 hy0
    obtain ⟨-, -, -, -, c4', s4'⟩ := symmetric_one E fuel m0 (m.setR y (E.sqrt2 * m.getR x)) y z
      hy0 hz0
    have hval : ∀ i, i < 2 ^ 0 →
        ((m.setR y (E.sqrt2 * m.getR x)).setR z
          (E.sqrt2 * (m.setR y (E.sqrt2 * m.getR x)).getR y)).getR (z.addR i) =
          2 * (2 ^ 0 : ℕ) * m.getR (x.addR i) := by
      intro i hi
      have hi0 : i = 0 := by simpa using hi
      subst hi0
      rw [Ptr.addR_zero, Ptr.addR_zero, Mem.getR_setR_self, Mem.getR_setR_self, ← mul_assoc,
        hsq]
      norm_num
    exact ⟨⟨_, _, c4, c4', hval⟩, ⟨_, _, s4, s4', hval⟩⟩
  · obtain ⟨t, e, s1, ha⟩ := t4_leaf_shape E (2 ^ (k + 1)) m0
    have okx := fun i (hi : i < 2 ^ (k + 1)) => okR_of_region hx hsz hi
    have oky := fun i (hi : i < 2 ^ (k + 1)) => okR_of_region hy hsz hi
    have okz := fun i (hi : i < 2 ^ (k + 1)) => okR_of_region hz hsz hi
    have hxa := not_mem_blks hfr hx.1 hx.2.1
    have hya := not_mem_blks hfr hy.1 hy.2.1
    have hza := not_mem_blks hfr hz.1 hz.2.1
    constructor
    · obtain ⟨m1, m2, h1, h2, h3⟩ := dct4_dct4_ok E w (Roots.of_exact hE w hw)
        (exp_roots_unit w hw) (exp_roots_primitive w hw) k fuel x y z _ m hok (by omega)
        okx oky okz hxa hya hza
      refine ⟨m1, m2, ?_, ?_, h3⟩
      · rw [ha, minfft_dct4_leaf, ← ha]
        exact h1
      · rw [ha, minfft_dct4_leaf, ← ha]
        exact h2
    · obtain ⟨m1, m2, h1, h2, h3⟩ := dst4_dst4_ok E w (Roots.of_exact hE w hw)
        (exp_roots_unit w hw) (exp_roots_primitive w hw) k fuel x y z _ m hok (by omega)
        okx oky okz hxa hya hza
      refine ⟨m1, m2, ?_, ?_, h3⟩
      · rw [ha, minfft_dst4_leaf, ← ha]
        exact h1
      · rw [ha, minfft_dst4_leaf, ← ha]
        exact h2

end Minfft

namespace Minfft

open Cx

end Minfft

namespace Minfft

open Cx

/-! ### Runs that return for every input -/

/-- The inverse real DFT through a valid plan returns for every input, also
in place, and keeps the block sizes. -/
theorem invrealdft_1d_returns (E : Num ℝ) (w : ℕ → ℂ) (hw : Roots E w) (k fuel : ℕ) (z y : Ptr)
    (a : Aux ℝ) (m : Mem ℝ) (ha : RealOK w a k m) (hfuel : k ≤ fuel)
    (hz : ∀ j, j < 2 ^ k / 2 + 1 → m.okC (z.addC j))
    (hy : ∀ i, i < 2 ^ k → m.okR (y.addR i))
    (hza : z.blk ∉ a.blks) (hya : y.blk ∉ a.blks) :
    ∃ m', invrealdft_1d E fuel z y a m = some m' ∧ m'.size = m.size := by
  match k, ha, hfuel, hz, hy with
  | 0, ha, _, hz, hy =>
    obtain ⟨t, e, s1, s2, rfl, -⟩ := ha
    have hz0 : m.okC z := by simpa using hz 0 (by norm_num)
    have hy0 : m.okR y := by simpa using hy 0 (by norm_num)
    exact ⟨_, invrealdft_1d_one E fuel z y t e s1 s2 m hz0 hy0, rfl⟩
  | 1, ha, _, hz, hy =>
    obtain ⟨t, e, s1, s2, rfl, -⟩ := ha
    have hz0 : m.okC z := by simpa using hz 0 (by norm_num)
    have hz1 : m.okC (z.addC 1) := hz 1 (by norm_num)
    have hy0 : m.okR y := by simpa using hy 0 (by norm_num)
    have hy1 : m.okR (y.addR 1) := hy 1 (by norm_num)
    exact ⟨_, invrealdft_1d_two E fuel z y t e s1 s2 m hz0 hz1 hy0 hy1, rfl⟩
  | k + 2, ha, hfuel, hz, hy =>
    have h2 : 2 ^ (k + 2) / 2 = 2 ^ (k + 1) := by rw [pow_succ]; omega
    have hQ : 2 ^ (k + 1) = 2 * 2 ^ k := by rw [pow_succ]; ring
    have hQ1 : 1 ≤ 2 ^ k := Nat.one_le_two_pow
    rw [h2] at hz
    obtain ⟨A, hA⟩ : ∃ A : ℕ → ℂ, ∀ n, A n = (toC (m.getC (z.addC n)) +
          (starRingEnd ℂ) (toC (m.getC (z.addC (2 ^ (k + 1) - n))))) +
        Complex.I * (toC (m.getC (z.addC n)) -
          (starRingEnd ℂ) (toC (m.getC (z.addC (2 ^ (k + 1) - n))))) *
          (starRingEnd ℂ) (w (k + 2) ^ n) := ⟨_, fun _ => rfl⟩
    obtain ⟨B, hB⟩ : ∃ B : ℕ → ℂ, ∀ n, B n = (starRingEnd ℂ) ((toC (m.getC (z.addC n)) +
          (starRingEnd ℂ) (toC (m.getC (z.addC (2 ^ (k + 1) - n))))) -
        Complex.I * (toC (m.getC (z.addC n)) -
          (starRingEnd ℂ) (toC (m.getC (z.addC (2 ^ (k + 1) - n))))) *
          (starRingEnd ℂ) (w (k + 2) ^ n)) := ⟨_, fun _ => rfl⟩
    obtain ⟨P, hP⟩ : ∃ P : ℕ → ℂ, ∀ n, P n =
        if n = 0 then (toC (m.getC z) + toC (m.getC (z.addC (2 ^ (k + 1))))) +
          Complex.I * (toC (m.getC z) - toC (m.getC (z.addC (2 ^ (k + 1)))))
        else if n < 2 ^ k then A n
        else if n = 2 ^ k then 2 * (starRingEnd ℂ) (toC (m.getC (z.addC (2 ^ k))))
        else B (2 ^ (k + 1) - n) := ⟨_, fun _ => rfl⟩
    obtain ⟨m', h1, h2', -⟩ := invrealdft_1d_ok E w hw k fuel z y a m ha (by omega) hz hy hza hya
      P (by rw [hP, if_pos rfl])
      (by
        intro n hn1 hn2
        constructor
        · rw [hP, if_neg (by omega), if_pos hn2, hA]
        · rw [hP, if_neg (by omega), if_neg (by omega), if_neg (by omega),
            show 2 ^ (k + 1) - (2 ^ (k + 1) - n) = n by omega, hB])
      (by rw [hP, if_neg (by omega), if_neg (by omega), if_pos rfl])
    exact ⟨m', h1, h2'⟩

/-- The transform `s_dct3_1d` through a valid plan of length `N = 2^(k+1)`
returns for every input, and keeps the block sizes. -/
theorem s_dct3_1d_returns (E : Num ℝ) (w : ℕ → ℂ) (hw : Roots E w)
    (k fuel : ℕ) (x y : Ptr) (sy : ℕ)
    (a : Aux ℝ) (m : Mem ℝ) (ha : T23OK w a (k + 1) m) (hfuel : k + 1 ≤ fuel) (hsy : 0 < sy)
    (hx : ∀ i, i < 2 ^ (k + 1) → m.okR (x.addR i))
    (hy : ∀ j, j < 2 ^ (k + 1) → m.okR (y.addR (sy * j)))
    (hxa : x.blk ∉ a.blks) (hya : y.blk ∉ a.blks) :
    ∃ m', s_dct3_1d E fuel x y sy a m = some m' ∧ m'.size = m.size := by
  obtain ⟨z, e, s1, rfl, hb⟩ := ha
  obtain ⟨ht, he, hs1, hts1⟩ := hb (by omega)
  simp only [Aux.blks_node, Aux.blks_null, List.append_nil, List.mem_cons, not_or] at hxa hya
  obtain ⟨H, hH⟩ : ∃ H, H = 2 ^ k := ⟨_, rfl⟩
  have hH1 : 1 ≤ H := by rw [hH]; exact Nat.one_le_two_pow
  have hN : 2 ^ (k + 1) = 2 * H := by rw [hH, pow_succ]; ring
  have hN2 : 2 * H / 2 = H := by omega
  rw [hN] at hx hy ht he ⊢
  rw [hN2] at he
  have hxz : x.blk ≠ z.blk := hxa.1
  have hyz : y.blk ≠ z.blk := hya.1
  have okz : ∀ j, j < H + 1 → m.okC (z.addC j) := by
    intro j hj
    apply okC_of_okR
    rw [Ptr.addC_eq_addR, Ptr.addR_addR]
    exact ht _ (by omega)
  obtain ⟨eN, heN⟩ : ∃ eN : ℕ → Cx ℝ, ∀ n, eN n = ((e.getD []).get? n).getD ⟨0, 0⟩ :=
    ⟨_, fun _ => rfl⟩
  have heN' : ∀ n, n < H → (e.getD []).get? n = some (eN n) ∧ toC (eN n) = w (k + 3) ^ n := by
    intro n hn
    obtain ⟨en, h1, h2⟩ := he n hn
    rw [heN, h1]
    exact ⟨rfl, h2⟩
  -- the preparation
  obtain ⟨m1, hm1⟩ : ∃ m1, m1 = m.setC z (ofReal (m.getR x)) := ⟨_, rfl⟩
  have hs1' : m1.size = m.size := by rw [hm1]; rfl
  have x1 : ∀ i, m1.getR (x.addR i) = m.getR (x.addR i) := by
    intro i
    rw [hm1, Mem.setC_eq_setR, Mem.getR_setR_of_ne _ (z.addR 1) (x.addR i) _ (Or.inl hxz),
      Mem.getR_setR_of_ne _ z (x.addR i) _ (Or.inl hxz)]
  obtain ⟨m2, hl2, hsz2, hnx2, hv2, hf2⟩ := forLoop_writeC
    (s_dct3_1d_prep (2 * H) x z (e.getD [])) 1 (H - 1) m1 z
    (fun n => conj ((ofReal (m.getR (x.addR n)) + I * ofReal (m.getR (x.addR (2 * H - n)))) *
      eN n))
    (by
      intro n ma hn1 hn2 hs _ hfr
      have okr : ∀ p, ma.okR p ↔ m.okR p := fun p =>
        (Mem.okR_congr hs p).trans (Mem.okR_congr hs1' p)
      have hxs : ∀ i, ma.getR (x.addR i) = m.getR (x.addR i) := by
        intro i
        rw [hfr (x.addR i) (fun n' _ _ => ⟨Ptr.ne_of_blk hxz, Ptr.ne_of_blk hxz⟩)]
        exact x1 i
      rw [s_dct3_1d_prep_eq (2 * H) x z (e.getD []) n ma (eN n) ((okr _).mpr (hx _ (by omega)))
        ((okr _).mpr (hx _ (by omega))) (heN' n (by omega)).1
        ((Mem.okC_congr (by rw [hs, hs1']) _).mpr (okz n (by omega))), hxs, hxs])
  have hs2 : m2.size = m.size := by rw [hsz2, hs1']
  have x2 : ∀ i, m2.getR (x.addR i) = m.getR (x.addR i) := by
    intro i
    rw [hf2 (x.addR i) (fun n' _ _ => ⟨Ptr.ne_of_blk hxz, Ptr.ne_of_blk hxz⟩)]
    exact x1 i
  obtain ⟨m3, hm3⟩ : ∃ m3, m3 = m2.setC (z.addC H) (ofReal (E.sqrt2 * m.getR (x.addR H))) :=
    ⟨_, rfl⟩
  have hs3 : m3.size = m.size := by rw [hm3]; exact hs2
  -- the inverse real DFT in place
  obtain ⟨m4, h4, hsz4⟩ := invrealdft_1d_returns E w hw (k + 1) fuel z z s1 m3
    (hs1.congrR hs3) hfuel
    (fun j hj => by
      rw [hN, hN2] at hj
      exact (Mem.okC_congr hs3 _).mpr (okz j hj))
    (fun i hi => by
      rw [hN] at hi
      exact (Mem.okR_congr hs3 _).mpr (ht i (by omega)))
    hts1 hts1
  have hs4 : m4.size = m.size := by rw [hsz4, hs3]
  -- the results
  obtain ⟨m5, hl5, hsz5, hnx5, hv5, hf5⟩ := forLoop_two_writes
    (s_dct3_1d_rec (2 * H) z y sy) 0 H m4
    (fun n => y.addR (sy * 2 * n)) (fun n => y.addR (sy * (2 * H - 1 - 2 * n)))
    (fun n => m4.getR (z.addR n)) (fun n => m4.getR (z.addR (H + n)))
    (fun n n' _ _ _ _ hne' => by
      show y.addR (sy * 2 * n) ≠ y.addR (sy * 2 * n')
      rw [Nat.mul_assoc, Nat.mul_assoc]
      exact Ptr.addR_str_ne hsy (by omega))
    (fun n n' _ _ _ _ hne' => Ptr.addR_str_ne hsy (by omega))
    (fun n n' _ _ _ _ => by
      show y.addR (sy * 2 * n) ≠ y.addR (sy * (2 * H - 1 - 2 * n'))
      rw [Nat.mul_assoc]
      exact Ptr.addR_str_ne hsy (by omega))
    (by
      intro n ma _ hn hs _ hfr
      have okr : ∀ p, ma.okR p ↔ m.okR p := fun p =>
        (Mem.okR_congr hs p).trans (Mem.okR_congr hs4 p)
      have hts : ∀ i, ma.getR (z.addR i) = m4.getR (z.addR i) := by
        intro i
        exact hfr (z.addR i) (fun n' _ _ => ⟨Ptr.ne_of_blk (fun h => hyz h.symm),
          Ptr.ne_of_blk (fun h => hyz h.symm)⟩)
      rw [s_dct3_1d_rec_eq H z y sy n ma hyz ((okr _).mpr (ht _ (by omega)))
        ((okr _).mpr (ht _ (by omega)))
        ((okr _).mpr (by rw [Nat.mul_assoc]; exact hy _ (by omega)))
        ((okr _).mpr (hy _ (by omega))), hts, hts])
  refine ⟨m5, ?_, by rw [hsz5, hs4]⟩
  have okx0 : m.okR x := by simpa using hx 0 (by omega)
  rw [s_dct3_1d_unfold E fuel x y sy H hH1, Mem.loadR_of_ok okx0, Option.some_bind,
    Mem.storeC_of_ok (by simpa using okz 0 (by omega)), Option.some_bind, ← hm1, hl2,
    Option.some_bind, Mem.loadR_of_ok ((Mem.okR_congr hs2 _).mpr (hx H (by omega))),
    Option.some_bind, x2,
    Mem.storeC_of_ok ((Mem.okC_congr hs2 _).mpr (okz H (by omega))), Option.some_bind,
    ← hm3, h4, Option.some_bind]
  exact hl5

/-- The transform `s_dst3_1d` through a valid plan of length `N = 2^(k+1)`
returns for every input, and keeps the block sizes. -/
theorem s_dst3_1d_returns (E : Num ℝ) (w : ℕ → ℂ) (hw : Roots E w)
    (k fuel : ℕ) (x y : Ptr) (sy : ℕ)
    (a : Aux ℝ) (m : Mem ℝ) (ha : T23OK w a (k + 1) m) (hfuel : k + 1 ≤ fuel) (hsy : 0 < sy)
    (hx : ∀ i, i < 2 ^ (k + 1) → m.okR (x.addR i))
    (hy : ∀ j, j < 2 ^ (k + 1) → m.okR (y.addR (sy * j)))
    (hxa : x.blk ∉ a.blks) (hya : y.blk ∉ a.blks) :
    ∃ m', s_dst3_1d E fuel x y sy a m = some m' ∧ m'.size = m.size := by
  obtain ⟨z, e, s1, rfl, hb⟩ := ha
  obtain ⟨ht, he, hs1, hts1⟩ := hb (by omega)
  simp only [Aux.blks_node, Aux.blks_null, List.append_nil, List.mem_cons, not_or] at hxa hya
  obtain ⟨H, hH⟩ : ∃ H, H = 2 ^ k := ⟨_, rfl⟩
  have hH1 : 1 ≤ H := by rw [hH]; exact Nat.one_le_two_pow
  have hN : 2 ^ (k + 1) = 2 * H := by rw [hH, pow_succ]; ring
  have hN2 : 2 * H / 2 = H := by omega
  rw [hN] at hx hy ht he ⊢
  rw [hN2] at he
  have hxz : x.blk ≠ z.blk := hxa.1
  have hyz : y.blk ≠ z.blk := hya.1
  have okz : ∀ j, j < H + 1 → m.okC (z.addC j) := by
    intro j hj
    apply okC_of_okR
    rw [Ptr.addC_eq_addR, Ptr.addR_addR]
    exact ht _ (by omega)
  obtain ⟨eN, heN⟩ : ∃ eN : ℕ → Cx ℝ, ∀ n, eN n = ((e.getD []).get? n).getD ⟨0, 0⟩ :=
    ⟨_, fun _ => rfl⟩
  have heN' : ∀ n, n < H → (e.getD []).get? n = some (eN n) ∧ toC (eN n) = w (k + 3) ^ n := by
    intro n hn
    obtain ⟨en, h1, h2⟩ := he n hn
    rw [heN, h1]
    exact ⟨rfl, h2⟩
  -- the preparation
  obtain ⟨m1, hm1⟩ : ∃ m1, m1 = m.setC z (ofReal (m.getR (x.addR (2 * H - 1)))) := ⟨_, rfl⟩
  have hs1' : m1.size = m.size := by rw [hm1]; rfl
  have x1 : ∀ i, m1.getR (x.addR i) = m.getR (x.addR i) := by
    intro i
    rw [hm1, Mem.setC_eq_setR, Mem.getR_setR_of_ne _ (z.addR 1) (x.addR i) _ (Or.inl hxz),
      Mem.getR_setR_of_ne _ z (x.addR i) _ (Or.inl hxz)]
  obtain ⟨m2, hl2, hsz2, hnx2, hv2, hf2⟩ := forLoop_writeC
    (s_dst3_1d_prep (2 * H) x z (e.getD [])) 1 (H - 1) m1 z
    (fun n => conj ((ofReal (m.getR (x.addR (2 * H - n - 1))) +
      I * ofReal (m.getR (x.addR (n - 1)))) * eN n))
    (by
      intro n ma hn1 hn2 hs _ hfr
      have okr : ∀ p, ma.okR p ↔ m.okR p := fun p =>
        (Mem.okR_congr hs p).trans (Mem.okR_congr hs1' p)
      have hxs : ∀ i, ma.getR (x.addR i) = m.getR (x.addR i) := by
        intro i
        rw [hfr (x.addR i) (fun n' _ _ => ⟨Ptr.ne_of_blk hxz, Ptr.ne_of_blk hxz⟩)]
        exact x1 i
      rw [s_dst3_1d_prep_eq (2 * H) x z (e.getD []) n ma (eN n) ((okr _).mpr (hx _ (by omega)))
        ((okr _).mpr (hx _ (by omega))) (heN' n (by omega)).1
        ((Mem.okC_congr (by rw [hs, hs1']) _).mpr (okz n (by omega))), hxs, hxs])
  have hs2 : m2.size = m.size := by rw [hsz2, hs1']
  have x2 : ∀ i, m2.getR (x.addR i) = m.getR (x.addR i) := by
    intro i
    rw [hf2 (x.addR i) (fun n' _ _ => ⟨Ptr.ne_of_blk hxz, Ptr.ne_of_blk hxz⟩)]
    exact x1 i
  obtain ⟨m3, hm3⟩ :
      ∃ m3, m3 = m2.setC (z.addC H) (ofReal (E.sqrt2 * m.getR (x.addR (H - 1)))) :=
    ⟨_, rfl⟩
  have hs3 : m3.size = m.size := by rw [hm3]; exact hs2
  -- the inverse real DFT in place
  obtain ⟨m4, h4, hsz4⟩ := invrealdft_1d_returns E w hw (k + 1) fuel z z s1 m3
    (hs1.congrR hs3) hfuel
    (fun j hj => by
      rw [hN, hN2] at hj
      exact (Mem.okC_congr hs3 _).mpr (okz j hj))
    (fun i hi => by
      rw [hN] at hi
      exact (Mem.okR_congr hs3 _).mpr (ht i (by omega)))
    hts1 hts1
  have hs4 : m4.size = m.size := by rw [hsz4, hs3]
  -- the results
  obtain ⟨m5, hl5, hsz5, hnx5, hv5, hf5⟩ := forLoop_two_writes
    (s_dst3_1d_rec (2 * H) z y sy) 0 H m4
    (fun n => y.addR (sy * 2 * n)) (fun n => y.addR (sy * (2 * H - 1 - 2 * n)))
    (fun n => m4.getR (z.addR n)) (fun n => -(m4.getR (z.addR (H + n))))
    (fun n n' _ _ _ _ hne' => by
      show y.addR (sy * 2 * n) ≠ y.addR (sy * 2 * n')
      rw [Nat.mul_assoc, Nat.mul_assoc]
      exact Ptr.addR_str_ne hsy (by omega))
    (fun n n' _ _ _ _ hne' => Ptr.addR_str_ne hsy (by omega))
    (fun n n' _ _ _ _ => by
      show y.addR (sy * 2 * n) ≠ y.addR (sy * (2 * H - 1 - 2 * n'))
      rw [Nat.mul_assoc]
      exact Ptr.addR_str_ne hsy (by omega))
    (by
      intro n ma _ hn hs _ hfr
      have okr : ∀ p, ma.okR p ↔ m.okR p := fun p =>
        (Mem.okR_congr hs p).trans (Mem.okR_congr hs4 p)
      have hts : ∀ i, ma.getR (z.addR i) = m4.getR (z.addR i) := by
        intro i
        exact hfr (z.addR i) (fun n' _ _ => ⟨Ptr.ne_of_blk (fun h => hyz h.symm),
          Ptr.ne_of_blk (fun h => hyz h.symm)⟩)
      rw [s_dst3_1d_rec_eq H z y sy n ma hyz ((okr _).mpr (ht _ (by omega)))
        ((okr _).mpr (ht _ (by omega)))
        ((okr _).mpr (by rw [Nat.mul_assoc]; exact hy _ (by omega)))
        ((okr _).mpr (hy _ (by omega))), hts, hts])
  refine ⟨m5, ?_, by rw [hsz5, hs4]⟩
  rw [s_dst3_1d_unfold E fuel x y sy H hH1, Mem.loadR_of_ok (hx (2 * H - 1) (by omega)),
    Option.some_bind,
    Mem.storeC_of_ok (by simpa using okz 0 (by omega)), Option.some_bind, ← hm1, hl2,
    Option.some_bind, Mem.loadR_of_ok ((Mem.okR_congr hs2 _).mpr (hx (H - 1) (by omega))),
    Option.some_bind, x2,
    Mem.storeC_of_ok ((Mem.okC_congr hs2 _).mpr (okz H (by omega))), Option.some_bind,
    ← hm3, h4, Option.some_bind]
  exact hl5

end Minfft

namespace Minfft

open Cx

/-! ### Every one-dimensional transform returns with the plan of its builder -/

/-- The complex transforms return with the plan of `minfft_mkaux_dft_1d`. -/
theorem minfft_dft_returns (E : Num ℝ) (hE : E.Exact) (k fuel : ℕ) (hfuel : k < fuel)
    (m0 m : Mem ℝ) (x y : Ptr)
    (hm : m.size = (minfft_mkaux_dft_1d E (2 ^ k) m0).2.size)
    (hx : x.blk ≠ 0 ∧ x.blk ≤ m0.next ∧ x.off + 2 * 2 ^ k ≤ m0.size x.blk)
    (hy : y.blk ≠ 0 ∧ y.blk ≤ m0.next ∧ y.off + 2 * 2 ^ k ≤ m0.size y.blk) :
    (∃ m', minfft_dft E fuel x y (minfft_mkaux_dft_1d E (2 ^ k) m0).1 m = some m') ∧
    (∃ m', minfft_invdft E fuel x y (minfft_mkaux_dft_1d E (2 ^ k) m0).1 m = some m') := by
  obtain ⟨m1, h1, -⟩ := minfft_dft_1d_post E hE k fuel hfuel m0 m x y hm hx hy
  obtain ⟨m2, h2, -⟩ := minfft_invdft_1d_post E hE k fuel hfuel m0 m x y hm hx hy
  exact ⟨⟨m1, h1⟩, ⟨m2, h2⟩⟩

/-- The real transforms return with the plan of `minfft_mkaux_realdft_1d`. -/
theorem minfft_realdft_returns (E : Num ℝ) (hE : E.Exact) (k fuel : ℕ) (hfuel : k < fuel)
    (m0 m : Mem ℝ) (x z : Ptr)
    (hm : m.size = (minfft_mkaux_realdft_1d E (2 ^ k) m0).2.size)
    (hx : x.blk ≠ 0 ∧ x.blk ≤ m0.next ∧ x.off + 2 ^ k ≤ m0.size x.blk)
    (hz : z.blk ≠ 0 ∧ z.blk ≤ m0.next ∧ z.off + 2 * (2 ^ k / 2 + 1) ≤ m0.size z.blk) :
    (∃ m', minfft_realdft E fuel x z (minfft_mkaux_realdft_1d E (2 ^ k) m0).1 m = some m') ∧
    (∃ m', minfft_invrealdft E fuel z x (minfft_mkaux_realdft_1d E (2 ^ k) m0).1 m = some m') := by
  obtain ⟨m1, h1, -⟩ := minfft_realdft_1d_post E hE k fuel (by omega) m0 m x z hm hx hz
  refine ⟨⟨m1, h1⟩, ?_⟩
  obtain ⟨w, hw⟩ : ∃ w : ℕ → ℂ, ∀ k, w k = Complex.exp (-2 * Real.pi * Complex.I / 2 ^ k) :=
    ⟨_, fun _ => rfl⟩
  obtain ⟨hr, hfr, hsz, -⟩ := mkaux_realdft_1d_plan E hE w hw k m0 m hm
  obtain ⟨t, e, s1, ha⟩ := realdft_leaf_shape E (2 ^ k) m0
  obtain ⟨m2, h2, -⟩ := invrealdft_1d_returns E w (Roots.of_exact hE w hw) k fuel z x _ m hr
    (by omega) (fun j hj => okC_of_region hz hsz hj) (fun i hi => okR_of_region hx hsz hi)
    (not_mem_blks hfr hz.1 hz.2.1) (not_mem_blks hfr hx.1 hx.2.1)
  refine ⟨m2, ?_⟩
  rw [ha, minfft_invrealdft_leaf, ← ha]
  exact h2

/-- The Type-2 and Type-3 transforms return with the plan of `minfft_mkaux_t2t3_1d`. -/
theorem minfft_t23_returns (E : Num ℝ) (hE : E.Exact) (k fuel : ℕ) (hfuel : k < fuel)
    (m0 m : Mem ℝ) (x y : Ptr)
    (hm : m.size = (minfft_mkaux_t2t3_1d E (2 ^ k) m0).2.size)
    (hx : x.blk ≠ 0 ∧ x.blk ≤ m0.next ∧ x.off + 2 ^ k ≤ m0.size x.blk)
    (hy : y.blk ≠ 0 ∧ y.blk ≤ m0.next ∧ y.off + 2 ^ k ≤ m0.size y.blk) :
    (∃ m', minfft_dct2 E fuel x y (minfft_mkaux_t2t3_1d E (2 ^ k) m0).1 m = some m') ∧
    (∃ m', minfft_dst2 E fuel x y (minfft_mkaux_t2t3_1d E (2 ^ k) m0).1 m = some m') ∧
    (∃ m', minfft_dct3 E fuel x y (minfft_mkaux_t2t3_1d E (2 ^ k) m0).1 m = some m') ∧
    (∃ m', minfft_dst3 E fuel x y (minfft_mkaux_t2t3_1d E (2 ^ k) m0).1 m = some m') := by
  obtain ⟨w, hw⟩ : ∃ w : ℕ → ℂ, ∀ k, w k = Complex.exp (-2 * Real.pi * Complex.I / 2 ^ k) :=
    ⟨_, fun _ => rfl⟩
  obtain ⟨hok, hfr, hsz⟩ := mkaux_t2t3_1d_plan E hE w hw k m0 m hm
  rcases k with _ | k
  · have hx0 : m.okR x := by simpa using okR_of_region hx hsz (show 0 < 2 ^ 0 by norm_num)
    have hy0 : m.okR y := by simpa using okR_of_region hy hsz (show 0 < 2 ^ 0 by norm_num)
    obtain ⟨c2, s2, c3, s3, -, -⟩ := symmetric_one E fuel m0 m x y hx0 hy0
    exact ⟨⟨_, c2⟩, ⟨_, s2⟩, ⟨_, c3⟩, ⟨_, s3⟩⟩
  · obtain ⟨t, e, s1, ha⟩ := t23_leaf_shape E (2 ^ (k + 1)) m0
    have hR := Roots.of_exact hE w hw
    have okx := fun i (hi : i < 2 ^ (k + 1)) => okR_of_region hx hsz hi
    have oky : ∀ j, j < 2 ^ (k + 1) → m.okR (y.addR (1 * j)) :=
      fun j hj => okR_str_of_region hy hsz hj
    have hxa := not_mem_blks hfr hx.1 hx.2.1
    have hya := not_mem_blks hfr hy.1 hy.2.1
    obtain ⟨m1, h1, -⟩ := s_dct2_1d_ok E w hR (exp_roots_unit w hw) k fuel x y 1 _ m hok
      (by omega) one_pos okx oky hxa hya
      (fun i => if i < 2 ^ k then m.getR (x.addR (2 * i))
        else m.getR (x.addR (2 ^ (k + 1) - 1 - 2 * (i - 2 ^ k))))
      (fun n hn => ⟨by simp only [if_pos hn],
        by simp only [if_neg (show ¬ (2 ^ k + n < 2 ^ k) by omega), Nat.add_sub_cancel_left]⟩)
    obtain ⟨m2, h2, -⟩ := s_dst2_1d_ok E w hR (exp_roots_unit w hw) k fuel x y 1 _ m hok
      (by omega) one_pos okx oky hxa hya
      (fun i => if i < 2 ^ k then m.getR (x.addR (2 * i))
        else -(m.getR (x.addR (2 ^ (k + 1) - 1 - 2 * (i - 2 ^ k)))))
      (fun n hn => ⟨by simp only [if_pos hn],
        by simp only [if_neg (show ¬ (2 ^ k + n < 2 ^ k) by omega), Nat.add_sub_cancel_left]⟩)
    obtain ⟨m3, h3, -⟩ := s_dct3_1d_returns E w hR k fuel x y 1 _ m hok (by omega) one_pos
      okx oky hxa hya
    obtain ⟨m4, h4, -⟩ := s_dst3_1d_returns E w hR k fuel x y 1 _ m hok (by omega) one_pos
      okx oky hxa hya
    refine ⟨⟨m1, ?_⟩, ⟨m2, ?_⟩, ⟨m3, ?_⟩, ⟨m4, ?_⟩⟩
    · rw [ha, minfft_dct2_leaf, ← ha]
      exact h1
    · rw [ha, minfft_dst2_leaf, ← ha]
      exact h2
    · rw [ha, minfft_dct3_leaf, ← ha]
      exact h3
    · rw [ha, minfft_dst3_leaf, ← ha]
      exact h4

/-- The Type-4 transforms return with the plan of `minfft_mkaux_t4_1d`. -/
theorem minfft_t4_returns (E : Num ℝ) (hE : E.Exact) (k fuel : ℕ) (hfuel : k < fuel)
    (m0 m : Mem ℝ) (x y : Ptr)
    (hm : m.size = (minfft_mkaux_t4_1d E (2 ^ k) m0).2.size)
    (hx : x.blk ≠ 0 ∧ x.blk ≤ m0.next ∧ x.off + 2 ^ k ≤ m0.size x.blk)
    (hy : y.blk ≠ 0 ∧ y.blk ≤ m0.next ∧ y.off + 2 ^ k ≤ m0.size y.blk) :
    (∃ m', minfft_dct4 E fuel x y (minfft_mkaux_t4_1d E (2 ^ k) m0).1 m = some m') ∧
    (∃ m', minfft_dst4 E fuel x y (minfft_mkaux_t4_1d E (2 ^ k) m0).1 m = some m') := by
  obtain ⟨w, hw⟩ : ∃ w : ℕ → ℂ, ∀ k, w k = Complex.exp (-2 * Real.pi * Complex.I / 2 ^ k) :=
    ⟨_, fun _ => rfl⟩
  obtain ⟨hok, hfr, hsz⟩ := mkaux_t4_1d_plan E hE w hw k m0 m hm
  rcases k with _ | k
  · have hx0 : m.okR x := by simpa using okR_of_region hx hsz (show 0 < 2 ^ 0 by norm_num)
    have hy0 : m.okR y := by simpa using okR_of_region hy hsz (show 0 < 2 ^ 0 by norm_num)
    obtain ⟨-, -, -, -, c4, s4⟩ := symmetric_one E fuel m0 m x y hx0 hy0
    exact ⟨⟨_, c4⟩, ⟨_, s4⟩⟩
  · obtain ⟨t, e, s1, ha⟩ := t4_leaf_shape E (2 ^ (k + 1)) m0
    have hR := Roots.of_exact hE w hw
    have okx := fun i (hi : i < 2 ^ (k + 1)) => okR_of_region hx hsz hi
    have oky : ∀ j, j < 2 ^ (k + 1) → m.okR (y.addR (1 * j)) :=
      fun j hj => okR_str_of_region hy hsz hj
    have hxa := not_mem_blks hfr hx.1 hx.2.1
    have hya := not_mem_blks hfr hy.1 hy.2.1
    obtain ⟨m1, h1, -⟩ := s_dct4_1d_ok E w hR k fuel x y 1 _ m hok (by omega) one_pos okx oky
      hxa hya _ (fun n _ => rfl)
    obtain ⟨m2, h2, -⟩ := s_dst4_1d_ok E w hR k fuel x y 1 _ m hok (by omega) one_pos okx oky
      hxa hya _ (fun n _ => rfl)
    refine ⟨⟨m1, ?_⟩, ⟨m2, ?_⟩⟩
    · rw [ha, minfft_dct4_leaf, ← ha]
      exact h1
    · rw [ha, minfft_dst4_leaf, ← ha]
      exact h2

/-- What the builders of leaves allocate: the size of the scratch block and
the length of the twiddle table, or a null scratch and a null table. -/
theorem leaf_builders_sizes {R : Type} [Field R] (E : Num R) (k : ℕ) (m0 : Mem R) :
    (4 ≤ k → ∃ t e, (minfft_mkaux_dft_1d E (2 ^ k) m0).1 =
        Aux.node (2 ^ k) t (some e) Aux.null Aux.null ∧
      (minfft_mkaux_dft_1d E (2 ^ k) m0).2.size t.blk = 2 * 2 ^ k ∧ e.length = 2 ^ k - 8) ∧
    (k < 4 → (minfft_mkaux_dft_1d E (2 ^ k) m0).1 =
      Aux.node (2 ^ k) Ptr.null none Aux.null Aux.null) ∧
    (2 ≤ k → ∃ t e s1, (minfft_mkaux_realdft_1d E (2 ^ k) m0).1 =
        Aux.node (2 ^ k) t (some e) s1 Aux.null ∧
      (minfft_mkaux_realdft_1d E (2 ^ k) m0).2.size t.blk = 2 * (2 ^ k / 2) ∧
      e.length = 2 ^ k / 4) ∧
    (k < 2 → (minfft_mkaux_realdft_1d E (2 ^ k) m0).1 =
      Aux.node (2 ^ k) Ptr.null none Aux.null Aux.null) ∧
    (1 ≤ k → ∃ t e s1, (minfft_mkaux_t2t3_1d E (2 ^ k) m0).1 =
        Aux.node (2 ^ k) t (some e) s1 Aux.null ∧
      (minfft_mkaux_t2t3_1d E (2 ^ k) m0).2.size t.blk = 2 ^ k + 2 ∧
      e.length = 2 ^ k / 2) ∧
    (k = 0 → ∃ s1, (minfft_mkaux_t2t3_1d E (2 ^ k) m0).1 =
      Aux.node (2 ^ k) Ptr.null none s1 Aux.null) ∧
    (1 ≤ k → ∃ t e s1, (minfft_mkaux_t4_1d E (2 ^ k) m0).1 =
        Aux.node (2 ^ k) t (some e) s1 Aux.null ∧
      (minfft_mkaux_t4_1d E (2 ^ k) m0).2.size t.blk = 2 * (2 ^ k / 2) ∧
      e.length = 2 ^ k / 2 + 2 ^ k) ∧
    (k = 0 → ∃ s1, (minfft_mkaux_t4_1d E (2 ^ k) m0).1 =
      Aux.node (2 ^ k) Ptr.null none s1 Aux.null) := by
  -- a later call of `minfft_mkaux_dft_1d` keeps the sizes of the earlier blocks
  have keepD : ∀ (N : ℕ) (m1 : Mem R) (b : ℕ), b ≤ m1.next →
      (minfft_mkaux_dft_1d E N m1).2.size b = m1.size b := by
    intro N m1 b hb
    unfold minfft_mkaux_dft_1d
    split
    · simp only [Mem.malloc]
      rw [if_neg (by omega)]
    · rfl
  have nextD : ∀ (N : ℕ) (m1 : Mem R), m1.next ≤ (minfft_mkaux_dft_1d E N m1).2.next := by
    intro N m1
    unfold minfft_mkaux_dft_1d
    split
    · simp [Mem.malloc]
    · exact le_refl _
  have keepR : ∀ (N : ℕ) (m1 : Mem R) (b : ℕ), b ≤ m1.next →
      (minfft_mkaux_realdft_1d E N m1).2.size b = m1.size b := by
    intro N m1 b hb
    unfold minfft_mkaux_realdft_1d
    split
    · show (minfft_mkaux_dft_1d E (N / 2) (m1.malloc (2 * (N / 2))).2).2.size b = m1.size b
      rw [keepD _ _ b (by simp only [Mem.malloc]; omega)]
      simp only [Mem.malloc]
      rw [if_neg (by omega)]
    · rfl
  refine ⟨?_, fun hk => congrArg Prod.fst (mkaux_dft_1d_small E k hk m0), ?_,
    fun hk => congrArg Prod.fst (mkaux_realdft_1d_small E k hk m0), ?_, ?_, ?_, ?_⟩
  · intro hk
    rw [mkaux_dft_1d_big E k hk]
    refine ⟨_, _, rfl, ?_, dft_1d_e_length E k (by omega)⟩
    simp [Mem.malloc]
  · intro hk
    obtain ⟨j, rfl⟩ : ∃ j, k = j + 2 := ⟨k - 2, by omega⟩
    rw [mkaux_realdft_1d_big]
    refine ⟨_, _, _, rfl, ?_, ?_⟩
    · rw [keepD _ _ _ (by simp [Mem.malloc])]
      have h2 : 2 ^ (j + 2) / 2 = 2 ^ (j + 1) := by rw [pow_succ]; omega
      simp [Mem.malloc, h2]
    · have h4 : 2 ^ (j + 2) / 4 = 2 ^ j := by rw [pow_succ, pow_succ]; omega
      simp [h4]
  · intro hk
    obtain ⟨j, rfl⟩ : ∃ j, k = j + 1 := ⟨k - 1, by omega⟩
    rw [mkaux_t2t3_1d_big]
    refine ⟨_, _, _, rfl, ?_, ?_⟩
    · rw [keepR _ _ _ (by simp [Mem.malloc])]
      simp [Mem.malloc]
    · have h2 : 2 ^ (j + 1) / 2 = 2 ^ j := by rw [pow_succ]; omega
      simp [h2]
  · rintro rfl
    exact ⟨_, congrArg Prod.fst (mkaux_t2t3_1d_small E m0)⟩
  · intro hk
    obtain ⟨j, rfl⟩ : ∃ j, k = j + 1 := ⟨k - 1, by omega⟩
    rw [mkaux_t4_1d_big]
    have h2 : 2 ^ (j + 1) / 2 = 2 ^ j := by rw [pow_succ]; omega
    refine ⟨_, _, _, rfl, ?_, ?_⟩
    · rw [keepD _ _ _ (by simp [Mem.malloc])]
      simp [Mem.malloc, h2]
    · simp [h2]
  · rintro rfl
    exact ⟨_, mkaux_t4_1d_one E m0⟩

end Minfft

namespace Minfft

open Cx

end Minfft

namespace Minfft

open Cx

/-! ### The two passes of the complex DFT of more than one dimension -/

/-- The two loops of `make_complex_transform` on a node: the first loop runs
the transforms of the first dimensions over the `N2` contiguous blocks of `N1`
elements and leaves them in the scratch at the stride `N2`; the second loop
runs the transforms of the last dimension over the contiguous rows of the
scratch and leaves them in `y` at the stride `sy * N1`. -/
theorem s_dft_two_passes (E : Num ℝ) (w : ℕ → ℂ) (hw : Roots E w) (fuel : ℕ)
    (k k' : ℕ) (rest : List ℕ) (t : Ptr) (e : Option (List (Cx ℝ))) (s1 s2 : Aux ℝ)
    (x y : Ptr) (sy : ℕ) (m : Mem ℝ) (N1 N2 : ℕ)
    (hN1 : N1 = 2 ^ (k' :: rest).sum) (hN2 : N2 = 2 ^ k)
    (h2 : DftOK w s2 k m) (h1 : CxOK w (k' :: rest) s1 m)
    (ht : ∀ i, i < N1 * N2 → m.okC (t.addC i))
    (hts1 : t.blk ∉ s1.blks) (hts2 : t.blk ∉ s2.blks)
    (hf : ∀ j, j ∈ k :: k' :: rest → j < fuel) (hsy : 0 < sy)
    (hx : ∀ i, i < N1 * N2 → m.okC (x.addC i))
    (hy : ∀ j, j < N1 * N2 → m.okC (y.addC (sy * j)))
    (hxa : x.blk ∉ (Aux.node (N1 * N2) t e s1 s2).blks)
    (hya : y.blk ∉ (Aux.node (N1 * N2) t e s1 s2).blks) :
    ∃ m1 m2,
      forLoop (fun n m =>
        make_complex_transform (s_dft_1d E fuel) (x.addC (n * N1)) (t.addC n) N2 s1 m) 0 N2 m
          = some m1 ∧
      forLoop (fun n m =>
        s_dft_1d E fuel (t.addC (n * N2)) (y.addC (sy * n)) (sy * N1) s2 m) 0 N1 m1
          = some m2 ∧
      make_complex_transform (s_dft_1d E fuel) x y sy (Aux.node (N1 * N2) t e s1 s2) m
        = some m2 ∧
      m1.size = m.size ∧ m2.size = m.size ∧
      (∀ n j, n < N2 → j < N1 → toC (m1.getC (t.addC (n + N2 * j))) =
        mdft w (k' :: rest) (fun i => toC (m.getC (x.addC (i + N1 * n)))) j) ∧
      (∀ n j, n < N1 → j < N2 → toC (m2.getC (y.addC (sy * (n + N1 * j)))) =
        dft (w k) N2 (fun n2 => toC (m1.getC (t.addC (n * N2 + n2)))) j) := by
  have ih := s_dft_ok E w hw fuel (k' :: rest)
  have hs1N := h1.lenC
  have hs2N := h2.lenD
  simp only [Aux.blks_node, List.mem_cons, List.mem_append, not_or] at hxa hya
  have hN1p : 0 < N1 := by rw [hN1]; positivity
  have hN2p : 0 < N2 := by rw [hN2]; positivity
  rw [← hN1] at ih hs1N
  rw [← hN2] at hs2N
  -- the transforms of the first dimensions
  obtain ⟨m1, hl1, hsz1, hnx1, hq1, hfr1⟩ := forLoop_family
    (fun n m => make_complex_transform (s_dft_1d E fuel) (x.addC (n * N1)) (t.addC n) N2 s1 m)
    N2 m s1.blks (fun n => InStr (t.addC n) N2 N1)
    (fun n m1 => ∀ j, j < N1 → toC (m1.getC (t.addC (n + N2 * j))) =
      mdft w (k' :: rest) (fun i => toC (m.getC (x.addC (i + N1 * n)))) j)
    (by
      intro n ma mb hcell hq j hj
      rw [← hq j hj]
      congr 1
      apply Mem.getC_congr
      · exact hcell _ _ ⟨rfl, j, hj, Or.inl (by simp only [Ptr.addC_off]; ring)⟩
      · exact hcell _ _ ⟨rfl, j, hj, Or.inr (by simp only [Ptr.addC_off]; ring)⟩)
    (by
      intro n n' b o hn hn' hne h
      have := InStr_family_disj t 1 N2 N1 n n' b o one_pos hn hn' hne
      simp only [one_mul, mul_one] at this
      exact this h)
    (by
      intro n b o h
      rw [h.1]
      exact hts1)
    (by
      intro n ma hn hs hnx hfr
      have oka : ∀ p, ma.okC p ↔ m.okC p := Mem.okC_congr hs
      obtain ⟨mb, hb, hsb, hnb, hvb, hfb⟩ := ih s1 (x.addC (n * N1)) (t.addC n) N2 ma
        (h1.congrC hs) (fun k hk => hf k (by simp at hk ⊢; tauto)) hN2p
        (fun i hi => by
          rw [Ptr.addC_addC]
          apply (oka _).mpr
          apply hx
          have := idx_lt hi hn
          rw [Nat.mul_comm n N1, Nat.add_comm]
          exact this)
        (fun j hj => by
          rw [Ptr.addC_addC]
          apply (oka _).mpr
          apply ht
          have := idx_lt hn hj
          rw [Nat.mul_comm N1 N2]
          exact this)
        hxa.2.1 hts1
      refine ⟨mb, hb, hsb, hnb, ?_, hfb⟩
      intro j hj
      have := hvb j hj
      rw [Ptr.addC_addC] at this
      rw [this]
      congr 1
      funext i
      rw [Ptr.addC_addC, show n * N1 + i = i + N1 * n by ring]
      congr 1
      apply Mem.getC_of_cells
      intro o
      exact hfr _ o hxa.2.1 (fun n' _ h => hxa.1 h.1))
  -- the transforms of the last dimension
  have ok1 : ∀ p, m1.okC p ↔ m.okC p := Mem.okC_congr hsz1
  obtain ⟨m2, hl2, hsz2, hnx2, hq2, hfr2⟩ := forLoop_family
    (fun n m => s_dft_1d E fuel (t.addC (n * N2)) (y.addC (sy * n)) (sy * N1) s2 m)
    N1 m1 s2.blks (fun n => InStr (y.addC (sy * n)) (sy * N1) N2)
    (fun n mb => ∀ j, j < N2 → toC (mb.getC (y.addC (sy * (n + N1 * j)))) =
      dft (w k) N2 (fun n2 => toC (m1.getC (t.addC (n * N2 + n2)))) j)
    (by
      intro n ma mb hcell hq j hj
      rw [← hq j hj]
      congr 1
      apply Mem.getC_congr
      · exact hcell _ _ ⟨rfl, j, hj, Or.inl (by simp only [Ptr.addC_off]; ring)⟩
      · exact hcell _ _ ⟨rfl, j, hj, Or.inr (by simp only [Ptr.addC_off]; ring)⟩)
    (by
      intro n n' b o hn hn' hne h
      rw [Nat.mul_comm sy N1] at h ⊢
      exact InStr_family_disj y sy N1 N2 n n' b o hsy hn hn' hne h)
    (by
      intro n b o h
      rw [h.1]
      exact hya.2.2)
    (by
      intro n ma hn hs hnx hfr
      have oka : ∀ p, ma.okC p ↔ m.okC p := fun p =>
        (Mem.okC_congr hs p).trans (ok1 p)
      obtain ⟨mb, hb, hsb, hnb, hvb, hfb⟩ := s_dft_1d_ok E w hw k fuel (t.addC (n * N2))
        (y.addC (sy * n)) (sy * N1) s2 ma (h2.congrD (by rw [hs, hsz1]))
        (hf k (by simp)) (Nat.mul_pos hsy hN1p)
        (fun i hi => by
          rw [← hN2] at hi
          rw [Ptr.addC_addC]
          apply (oka _).mpr
          apply ht
          have := idx_lt hi hn
          rw [Nat.mul_comm n N2, Nat.add_comm, Nat.mul_comm N1 N2]
          exact this)
        (fun j hj => by
          rw [← hN2] at hj
          rw [Ptr.addC_addC, show sy * n + sy * N1 * j = sy * (n + N1 * j) by ring]
          apply (oka _).mpr
          apply hy
          exact idx_lt hn hj)
        hts2 hya.2.2
      rw [← hN2] at hvb hfb
      refine ⟨mb, hb, hsb, hnb, ?_, hfb⟩
      intro j hj
      have := hvb j hj
      rw [Ptr.addC_addC, show sy * n + sy * N1 * j = sy * (n + N1 * j) by ring] at this
      rw [this]
      apply dft_congr
      intro n2 _
      rw [Ptr.addC_addC]
      congr 1
      apply Mem.getC_of_cells
      intro o
      exact hfr _ o hts2 (fun n' _ h => hya.1 h.1.symm))
  refine ⟨m1, m2, hl1, hl2, ?_, hsz1, by rw [hsz2, hsz1], fun n j hn hj => hq1 n hn j hj,
    fun n j hn hj => hq2 n hn j hj⟩
  rw [make_complex_transform_node _ x y sy _ t e s1 s2 m N1 N2 hs1N hs2N.1 hs2N.2, hl1]
  exact hl2

end Minfft

namespace Minfft

open Cx

/-! ### The two passes of the complex DFT of two dimensions -/

theorem exp_one_dim (k n j : ℕ) :
    Complex.exp (-2 * Real.pi * Complex.I / 2 ^ k) ^ (n * j) =
      Complex.exp (-2 * Real.pi * Complex.I * ((n : ℂ) * j / 2 ^ k)) := by
  rw [← Complex.exp_nat_mul]
  congr 1
  push_cast
  ring

/-- Run of `minfft_dft` with the plan of `minfft_mkaux_dft_2d (2^k1) (2^k2)`,
pass by pass: the first loop leaves the transforms of the `2^k2` contiguous
blocks of `2^k1` elements in the scratch at the stride `2^k2`, the second loop
transforms the contiguous rows of the scratch into `y` at the stride `2^k1`,
and the result is the two-dimensional DFT in which the first dimension is the
contiguous one. -/
theorem minfft_dft_2d_passes (E : Num ℝ) (hE : E.Exact) (w : ℕ → ℂ)
    (hw : ∀ k, w k = Complex.exp (-2 * Real.pi * Complex.I / 2 ^ k))
    (k1 k2 fuel : ℕ) (hf1 : k1 < fuel) (hf2 : k2 < fuel) (m0 : Mem ℝ) (x y : Ptr)
    (hx : x.blk ≠ 0 ∧ x.blk ≤ m0.next ∧ x.off + 2 * (2 ^ k1 * 2 ^ k2) ≤ m0.size x.blk)
    (hy : y.blk ≠ 0 ∧ y.blk ≤ m0.next ∧ y.off + 2 * (2 ^ k1 * 2 ^ k2) ≤ m0.size y.blk) :
    ∃ t e s1 s2 m1, minfft_mkaux_dft_2d E (2 ^ k1) (2 ^ k2) m0 =
        some (Aux.node (2 ^ k1 * 2 ^ k2) t e s1 s2, m1) ∧
      s1.N? = some (2 ^ k1) ∧ s2.N? = some (2 ^ k2) ∧
      ∀ m, m.size = m1.size → ∃ mt m',
        forLoop (fun n m => s_dft E fuel (x.addC (n * 2 ^ k1)) (t.addC n) (2 ^ k2) s1 m)
          0 (2 ^ k2) m = some mt ∧
        forLoop (fun n m => s_dft_1d E fuel (t.addC (n * 2 ^ k2)) (y.addC (1 * n))
          (1 * 2 ^ k1) s2 m) 0 (2 ^ k1) mt = some m' ∧
        minfft_dft E fuel x y (Aux.node (2 ^ k1 * 2 ^ k2) t e s1 s2) m = some m' ∧
        (∀ n2 j1, n2 < 2 ^ k2 → j1 < 2 ^ k1 →
          toC (mt.getC (t.addC (n2 + 2 ^ k2 * j1))) =
            ∑ n1 in Finset.range (2 ^ k1),
              toC (m.getC (x.addC (n1 + 2 ^ k1 * n2))) * w k1 ^ (n1 * j1)) ∧
        (∀ j1 j2, j1 < 2 ^ k1 → j2 < 2 ^ k2 →
          toC (m'.getC (y.addC (j1 + 2 ^ k1 * j2))) =
            ∑ n2 in Finset.range (2 ^ k2),
              toC (mt.getC (t.addC (n2 + 2 ^ k2 * j1))) * w k2 ^ (n2 * j2)) ∧
        (∀ j1 j2, j1 < 2 ^ k1 → j2 < 2 ^ k2 →
          toC (m'.getC (y.addC (j1 + 2 ^ k1 * j2))) =
            ∑ n1 in Finset.range (2 ^ k1), ∑ n2 in Finset.range (2 ^ k2),
              toC (m.getC (x.addC (n1 + 2 ^ k1 * n2))) *
                (w k1 ^ (n1 * j1) * w k2 ^ (n2 * j2))) := by
  obtain ⟨a, m1, hb, hnx, hsz, hfr, hc⟩ := make_aux_dft_ok E hE w hw [k1, k2] 2 m0
    (by norm_num) (by simp)
  have hrev : ([k1, k2].take 2).reverse = [k2, k1] := rfl
  rw [hrev] at hc
  have hP : 2 ^ (k2 + ([k1] : List ℕ).sum) = 2 ^ k1 * 2 ^ k2 := by
    rw [List.sum_singleton, pow_add, Nat.mul_comm]
  have hS : 2 ^ ([k1] : List ℕ).sum = 2 ^ k1 := by rw [List.sum_singleton]
  obtain ⟨t, e, s1, s2, rfl, h2, h1, ht, hts1, hts2⟩ := hc
  rw [hP] at hb hfr ht
  refine ⟨t, e, s1, s2, m1, by rw [mkaux_dft_2d_eq]; exact hb, ?_, h2.lenD.1, ?_⟩
  · rw [h1.lenC, hS]
  intro m hm
  have hsz' : ∀ b, b ≤ m0.next → m.size b = m0.size b := fun b hb' => by
    rw [hm]; exact hsz b hb'
  obtain ⟨mt, m', hl1, hl2, hrun, -, -, hq1, hq2⟩ := s_dft_two_passes E w (Roots.of_exact hE w hw)
    fuel k2 k1 [] t e s1 s2 x y 1 m (2 ^ k1) (2 ^ k2) hS.symm rfl (h2.congrD hm) (h1.congrC hm)
    (fun i hi => (Mem.okC_congr hm _).mpr (ht i hi)) hts1 hts2
    (by
      intro k hk
      simp at hk
      rcases hk with rfl | rfl <;> assumption)
    one_pos (fun i hi => okC_of_region hx hsz' hi)
    (fun j hj => by
      rw [one_mul]
      exact okC_of_region hy hsz' hj)
    (fun h => by rcases hfr _ h with h0 | h0 <;> omega)
    (fun h => by rcases hfr _ h with h0 | h0 <;> omega)
  have hp1 : ∀ n2 j1, n2 < 2 ^ k2 → j1 < 2 ^ k1 →
      toC (mt.getC (t.addC (n2 + 2 ^ k2 * j1))) =
        ∑ n1 in Finset.range (2 ^ k1),
          toC (m.getC (x.addC (n1 + 2 ^ k1 * n2))) * w k1 ^ (n1 * j1) := by
    intro n2 j1 hn2 hj1
    rw [hq1 n2 j1 hn2 hj1, mdft_one]
    rfl
  have hp2 : ∀ j1 j2, j1 < 2 ^ k1 → j2 < 2 ^ k2 →
      toC (m'.getC (y.addC (j1 + 2 ^ k1 * j2))) =
        ∑ n2 in Finset.range (2 ^ k2),
          toC (mt.getC (t.addC (n2 + 2 ^ k2 * j1))) * w k2 ^ (n2 * j2) := by
    intro j1 j2 hj1 hj2
    have := hq2 j1 j2 hj1 hj2
    rw [one_mul] at this
    rw [this]
    unfold dft
    apply Finset.sum_congr rfl
    intro n2 _
    show toC (mt.getC (t.addC (j1 * 2 ^ k2 + n2))) * _ = _
    rw [show j1 * 2 ^ k2 + n2 = n2 + 2 ^ k2 * j1 by ring]
  refine ⟨mt, m', hl1, hl2, hrun, hp1, hp2, ?_⟩
  intro j1 j2 hj1 hj2
  rw [hp2 j1 j2 hj1 hj2, Finset.sum_comm]
  apply Finset.sum_congr rfl
  intro n2 hn2
  rw [hp1 n2 j1 (Finset.mem_range.mp hn2) hj1, Finset.sum_mul]
  apply Finset.sum_congr rfl
  intro n1 _
  ring

end Minfft

namespace Minfft

open Cx

end Minfft
